import Mathlib

/-!
# libtorrent: block cache and peer connection

A shallow embedding of `src/src/block_cache.cpp` and of the request handling of
`src/src/peer_connection.cpp`, followed by theorems about the embedded code.

Conventions of the embedding.

* A `cached_piece_entry*` is represented by the key `(storage, piece)` under which
  the entry is stored in `m_pieces`; the six intrusive LRU lists hold such keys,
  oldest entry first (`push_back` appends, `front` is the head).
* A `char*` buffer is a natural number, `0` being the null pointer.
* C++ `int` counters are unbounded integers.  Every decrement in the source is
  preceded by an assertion that the counter is positive.
* Time stamps (`expire`) and the diagnostic fields that only exist under
  `TORRENT_USE_ASSERTS` (`piece_log`, `hashing_count`, ...) are left out; they are
  never read by the code embedded here.
-/

namespace libtorrent

/-! ## Data model of the block cache -/

/-- One slot of a cached piece (`cached_block_entry`). -/
structure cached_block_entry where
  buf : Nat := 0
  refcount : Int := 0
  dirty : Bool := false
  pending : Bool := false
  hitcount : Int := 0
deriving DecidableEq, Repr

/-- Key of a cached piece: the storage it belongs to and its piece index. -/
abbrev piece_key := Nat × Int

/-- Modelled from the spec: `cached_piece_entry::cache_state_t` is declared in
`block_cache.hpp`, which is not among the sources.  The six lists of the spec,
numbered so that the code's arithmetic on them holds: each ghost list is the
list after its LRU (`cache_state + 1`), the four ARC lists form the range
`read_lru1 .. read_lru2_ghost`, and the write list is the lowest state
(`allocate_piece` only changes the state downwards). -/
abbrev write_lru : Nat := 0

/-- Modelled from the spec: the list of volatile pieces, see `write_lru`. -/
abbrev volatile_read_lru : Nat := 1

/-- Modelled from the spec: the list of pieces requested once, see `write_lru`. -/
abbrev read_lru1 : Nat := 2

/-- Modelled from the spec: the ghost list of `read_lru1`, see `write_lru`. -/
abbrev read_lru1_ghost : Nat := 3

/-- Modelled from the spec: the list of frequently requested pieces, see `write_lru`. -/
abbrev read_lru2 : Nat := 4

/-- Modelled from the spec: the ghost list of `read_lru2`, see `write_lru`. -/
abbrev read_lru2_ghost : Nat := 5

/-- Modelled from the spec: the number of lists, see `write_lru`. -/
abbrev num_lrus : Nat := 6

/-- Modelled from the spec: `block_cache::cache_op_t` (the values of
`m_last_cache_op`) is declared in `block_cache.hpp`: miss, ghost-hit-lru1,
ghost-hit-lru2. -/
abbrev cache_miss : Nat := 0

/-- Modelled from the spec: see `cache_miss`. -/
abbrev ghost_hit_lru1 : Nat := 1

/-- Modelled from the spec: see `cache_miss`. -/
abbrev ghost_hit_lru2 : Nat := 2

/-- A cached piece (`cached_piece_entry`).  `hash` is the `offset` of the partial
hash state when there is one; `jobs` and `read_jobs` hold job identifiers;
`in_storage` records membership in the storage's set of cached pieces
(`storage->add_piece`, `storage->remove_piece`). -/
structure cached_piece_entry where
  storage : Nat := 0
  piece : Int := 0
  last_requester : Nat := 0
  blocks : List cached_block_entry := []
  num_dirty : Int := 0
  num_blocks : Int := 0
  hash : Option Int := none
  hashing : Bool := false
  hashing_done : Bool := false
  marked_for_deletion : Bool := false
  need_readback : Bool := false
  cache_state : Nat := read_lru1
  piece_refcount : Int := 0
  outstanding_flush : Bool := false
  outstanding_read : Bool := false
  pinned : Int := 0
  refcount : Int := 0
  jobs : List Nat := []
  read_jobs : List Nat := []
  in_storage : Bool := false
deriving DecidableEq, Repr

/-- The pointer value of a cached piece. -/
def cached_piece_entry.key (p : cached_piece_entry) : piece_key := (p.storage, p.piece)

/-- The member `blocks_in_piece`: the number of elements of the `blocks` array. -/
def cached_piece_entry.blocks_in_piece (p : cached_piece_entry) : Int := p.blocks.length

/-- Modelled from the spec: `cached_piece_entry::ok_to_evict` is declared in
`block_cache.hpp`, which is not among the sources.  A piece may be evicted when
nothing refers to it and it holds no block; the conjuncts are the ones the call
sites assert after a successful test (`refcount == 0`, `piece_refcount == 0`,
`num_blocks == 0`, no deferred hash unless `ignore_hash`). -/
def cached_piece_entry.ok_to_evict (p : cached_piece_entry) (ignore_hash : Bool) : Bool :=
  p.refcount == 0
    && p.piece_refcount == 0
    && p.num_blocks == 0
    && !p.hashing
    && p.read_jobs.length == 0
    && !p.outstanding_read
    && (ignore_hash || p.hash == none || p.hash == some 0)

/-- `block_cache_reference`: the token handed out with a pointer into a cached
block; it names the storage, the piece and the block. -/
structure block_cache_reference where
  storage : Nat := 0
  piece : Int := 0
  block : Nat := 0
deriving DecidableEq, Repr

/-- The fields of a `disk_io_job` the cache reads and writes.  `piece_size`
stands for `j->storage->files()->piece_size(j->piece)`; `id` is the pointer
value of the job; `ref` is `j->d.io.ref`. -/
structure disk_io_job where
  id : Nat := 0
  storage : Nat := 0
  piece : Int := 0
  offset : Int := 0
  buffer_size : Int := 0
  buffer : Nat := 0
  requester : Nat := 0
  volatile_read : Bool := false
  force_copy : Bool := false
  piece_size : Int := 0
  ref : block_cache_reference := {}
deriving DecidableEq, Repr

/-- The cache (`block_cache`, with the two members of its base class
`disk_buffer_pool` that the code reads: the block size and the number of
buffers in use). -/
structure block_cache where
  m_pieces : List cached_piece_entry := []
  m_lru : Nat → List piece_key := fun _ => []
  m_last_cache_op : Nat := cache_miss
  m_ghost_size : Int := 8
  m_read_cache_size : Int := 0
  m_write_cache_size : Int := 0
  m_send_buffer_blocks : Int := 0
  m_pinned_blocks : Int := 0
  m_block_size : Int := 16384
  m_in_use : Int := 0

/-- Assignment to one of the LRU lists. -/
def lru_set (m : Nat → List piece_key) (i : Nat) (l : List piece_key) : Nat → List piece_key :=
  fun j => if j = i then l else m j

/-- Lookup in `m_pieces` (`block_cache::find_piece`). -/
def block_cache.find_piece (c : block_cache) (k : piece_key) : Option cached_piece_entry :=
  c.m_pieces.find? (fun p => p.key == k)

/-- Write an entry back in place of the entry with the same key. -/
def replace_piece (q : cached_piece_entry) : List cached_piece_entry → List cached_piece_entry
  | [] => []
  | p :: ps => if p.key = q.key then q :: ps else p :: replace_piece q ps

/-- Write through a `cached_piece_entry*`. -/
def block_cache.store (c : block_cache) (q : cached_piece_entry) : block_cache :=
  { c with m_pieces := replace_piece q c.m_pieces }

/-- Write to one element of the `blocks` array. -/
def set_block (bs : List cached_block_entry) (i : Nat) (b : cached_block_entry) :
    List cached_block_entry :=
  bs.set i b

/-- Read one element of the `blocks` array (an empty slot outside of it). -/
def get_block (bs : List cached_block_entry) (i : Nat) : cached_block_entry :=
  bs.getD i {}

/-- `disk_buffer_pool::free_buffer` and `free_multiple_buffers`: `n` buffers go
back to the pool. -/
def block_cache.free_buffers (c : block_cache) (n : Nat) : block_cache :=
  { c with m_in_use := c.m_in_use - n }

/-! ## LRU bookkeeping -/

/-- `block_cache::bump_lru`: move the piece to the back (MRU end) of its list. -/
def block_cache.bump_lru (c : block_cache) (pk : piece_key) : block_cache :=
  match c.find_piece pk with
  | none => c
  | some p =>
    { c with m_lru := lru_set c.m_lru p.cache_state (((c.m_lru p.cache_state).erase pk) ++ [pk]) }

/-- `block_cache::cache_hit`. -/
def block_cache.cache_hit (c : block_cache) (pk : piece_key) (requester : Nat)
    (volatile_read : Bool) : block_cache :=
  match c.find_piece pk with
  | none => c
  | some p =>
    let same := p.last_requester == requester || requester == 0
    if same && (p.cache_state == read_lru1 || p.cache_state == read_lru2
        || p.cache_state == write_lru || p.cache_state == volatile_read_lru) then c
    else
      let target_queue := if same && p.cache_state == read_lru1_ghost then read_lru1 else read_lru2
      if p.cache_state == volatile_read_lru && volatile_read then c
      else
        let target_queue := if p.cache_state == volatile_read_lru then read_lru1 else target_queue
        let p1 := if requester != 0 then { p with last_requester := requester } else p
        if p1.cache_state < read_lru1 || p1.cache_state > read_lru2_ghost then c.store p1
        else
          let op := if p1.cache_state == read_lru1_ghost then ghost_hit_lru1
            else if p1.cache_state == read_lru2_ghost then ghost_hit_lru2
            else c.m_last_cache_op
          let p2 := if p1.cache_state == read_lru1_ghost || p1.cache_state == read_lru2_ghost
            then { p1 with in_storage := true } else p1
          let lru1 := lru_set c.m_lru p2.cache_state ((c.m_lru p2.cache_state).erase pk)
          let lru2 := lru_set lru1 target_queue (lru1 target_queue ++ [pk])
          { (c.store { p2 with cache_state := target_queue }) with
            m_lru := lru2, m_last_cache_op := op }

/-- The list `update_cache_state` wants the piece in (`desired_state`): the
write list while the piece has dirty blocks or a hash state, `read_lru1` when
it leaves the write list, its present list otherwise. -/
def desired_state (p : cached_piece_entry) : Nat :=
  if p.num_dirty > 0 || p.hash != none then write_lru
  else if p.cache_state == write_lru then read_lru1
  else p.cache_state

/-- `block_cache::update_cache_state`. -/
def block_cache.update_cache_state (c : block_cache) (pk : piece_key) : block_cache :=
  match c.find_piece pk with
  | none => c
  | some p =>
    if desired_state p == p.cache_state then c
    else
      { (c.store { p with cache_state := desired_state p }) with
        m_lru := lru_set (lru_set c.m_lru p.cache_state ((c.m_lru p.cache_state).erase pk))
          (desired_state p)
          (lru_set c.m_lru p.cache_state ((c.m_lru p.cache_state).erase pk) (desired_state p)
            ++ [pk]) }

/-- The entry `allocate_piece` creates for a piece that is not cached: all
`blocks_in_piece` slots empty. -/
def new_piece (block_size : Int) (j : disk_io_job) (cache_state : Nat) : cached_piece_entry :=
  { storage := j.storage, piece := j.piece
    blocks := List.replicate (Int.tdiv (j.piece_size + block_size - 1) block_size).toNat {}
    cache_state := cache_state
    last_requester := j.requester
    in_storage := true }

/-- What `allocate_piece` does to the entry of a cached piece that changes its
state: the piece is retained, is back in its storage when it was a ghost, and
takes the requested state. -/
def relinked_piece (p : cached_piece_entry) (cache_state : Nat) : cached_piece_entry :=
  { p with
    marked_for_deletion := false
    in_storage := if p.cache_state == read_lru1_ghost || p.cache_state == read_lru2_ghost
      then true else p.in_storage
    cache_state := cache_state }

/-- `block_cache::allocate_piece`.  The allocation of the `blocks` array is
taken to succeed. -/
def block_cache.allocate_piece (c : block_cache) (j : disk_io_job) (cache_state : Nat) :
    block_cache :=
  match c.find_piece (j.storage, j.piece) with
  | none =>
    { c with
      m_pieces := c.m_pieces ++ [new_piece c.m_block_size j cache_state]
      m_lru := lru_set c.m_lru cache_state (c.m_lru cache_state ++ [(j.storage, j.piece)])
      m_last_cache_op := if cache_state == read_lru1 then cache_miss else c.m_last_cache_op }
  | some p =>
    if p.cache_state > cache_state then
      { (c.store (relinked_piece p cache_state)) with
        m_lru := lru_set (lru_set c.m_lru p.cache_state
            ((c.m_lru p.cache_state).erase (j.storage, j.piece))) cache_state
          (lru_set c.m_lru p.cache_state
            ((c.m_lru p.cache_state).erase (j.storage, j.piece)) cache_state
              ++ [(j.storage, j.piece)]) }
    else c.store { p with marked_for_deletion := false }

/-- `block_cache::erase_piece`. -/
def block_cache.erase_piece (c : block_cache) (pk : piece_key) : block_cache :=
  match c.find_piece pk with
  | none => c
  | some pe =>
    { c with
      m_lru := lru_set c.m_lru pe.cache_state ((c.m_lru pe.cache_state).erase pk)
      m_pieces := c.m_pieces.eraseP (fun p => p.key == pk) }

/-- The loop `while (ghost_list->size() >= m_ghost_size) erase_piece(front)` of
`move_to_ghost`.  `fuel` bounds the number of iterations; the length of the
ghost list suffices, since every iteration removes one entry of it. -/
def block_cache.trim_ghost (g : Nat) : Nat → block_cache → block_cache
  | 0, c => c
  | fuel + 1, c =>
    if ((c.m_lru g).length : Int) ≥ c.m_ghost_size then
      match (c.m_lru g).head? with
      | none => c
      | some k => block_cache.trim_ghost g fuel (c.erase_piece k)
    else c

/-- `block_cache::move_to_ghost`. -/
def block_cache.move_to_ghost (c : block_cache) (pk : piece_key) : block_cache :=
  match c.find_piece pk with
  | none => c
  | some pe =>
    if pe.cache_state == volatile_read_lru then c.erase_piece pk
    else if pe.cache_state != read_lru1 && pe.cache_state != read_lru2 then c
    else
      let g := pe.cache_state + 1
      let c1 := block_cache.trim_ghost g (c.m_lru g).length c
      let c2 := c1.store { pe with in_storage := false, cache_state := g }
      let lru1 := lru_set c2.m_lru pe.cache_state ((c2.m_lru pe.cache_state).erase pk)
      { c2 with m_lru := lru_set lru1 g (lru1 g ++ [pk]) }

/-! ## Eviction -/

/-- The local variables of the block loop of `try_evict_blocks`: the remaining
number of blocks to evict, the two counters the loop decrements and the
buffers collected in `to_delete`. -/
structure evict_acc where
  num : Int
  num_blocks : Int
  read_cache_size : Int
  to_delete : List Nat
deriving DecidableEq, Repr

/-- The loop `for (int j = 0; j < end && num > 0; ++j)` of `try_evict_blocks`
over the slots of one piece: the first argument is the number of slots still in
range, the second the slots from `j` on. -/
def evict_scan : Nat → List cached_block_entry → evict_acc → List cached_block_entry × evict_acc
  | 0, bs, a => (bs, a)
  | _ + 1, [], a => ([], a)
  | n + 1, b :: bs, a =>
    if a.num ≤ 0 then (b :: bs, a)
    else if b.buf == 0 || b.refcount > 0 || b.dirty || b.pending then
      let r := evict_scan n bs a
      (b :: r.1, r.2)
    else
      let r := evict_scan n bs
        { num := a.num - 1, num_blocks := a.num_blocks - 1
          read_cache_size := a.read_cache_size - 1, to_delete := a.to_delete ++ [b.buf] }
      ({ b with buf := 0 } :: r.1, r.2)

/-- The state carried through the piece loops of `try_evict_blocks`. -/
structure evict_state where
  c : block_cache
  num : Int
  to_delete : List Nat

/-- The block loop applied to the piece `pe`, visiting its first `limit` slots. -/
def evict_from_piece (st : evict_state) (pe : cached_piece_entry) (limit : Nat) : evict_state :=
  let r := evict_scan limit pe.blocks
    { num := st.num, num_blocks := pe.num_blocks
      read_cache_size := st.c.m_read_cache_size, to_delete := st.to_delete }
  let pe1 := { pe with blocks := r.1, num_blocks := r.2.num_blocks }
  { c := { (st.c.store pe1) with m_read_cache_size := r.2.read_cache_size }
    num := r.2.num, to_delete := r.2.to_delete }

/-- One iteration of the piece loop over a read list (volatile, L1 or L2). -/
def evict_read_step (ignore : Option piece_key) (st : evict_state) (pk : piece_key) :
    evict_state :=
  if st.num ≤ 0 then st
  else
    match st.c.find_piece pk with
    | none => st
    | some pe =>
      if ignore = some pk then st
      else if pe.ok_to_evict false then { st with c := st.c.move_to_ghost pk }
      else if pe.num_blocks ≤ pe.pinned then st
      else
        let st1 := evict_from_piece st pe pe.blocks_in_piece.toNat
        match st1.c.find_piece pk with
        | none => st1
        | some pe1 =>
          if pe1.ok_to_evict false then { st1 with c := st1.c.move_to_ghost pk } else st1

/-- The bound `end` of the block loop over a piece of the write list: in the
first pass only the blocks that have been hashed are considered. -/
def write_pass_limit (pe : cached_piece_entry) (pass : Nat) (block_size : Int) : Int :=
  match pe.hash with
  | some offset => if pass == 0 then Int.tdiv offset block_size else pe.blocks_in_piece
  | none => pe.blocks_in_piece

/-- One iteration of the piece loop over the write list, in pass `pass`. -/
def evict_write_step (ignore : Option piece_key) (pass : Nat) (st : evict_state)
    (pk : piece_key) : evict_state :=
  if st.num ≤ 0 then st
  else
    match st.c.find_piece pk with
    | none => st
    | some pe =>
      if ignore = some pk then st
      else if pe.ok_to_evict false then { st with c := st.c.erase_piece pk }
      else if pe.num_dirty == pe.num_blocks then st
      else
        let st1 := evict_from_piece st pe (write_pass_limit pe pass st.c.m_block_size).toNat
        match st1.c.find_piece pk with
        | none => st1
        | some pe1 =>
          if pe1.ok_to_evict false then { st1 with c := st1.c.erase_piece pk } else st1

/-- The two read lists in the order `try_evict_blocks` visits them after the
volatile list (`lru_list[1]`, `lru_list[2]`). -/
def block_cache.evict_order (c : block_cache) : Nat × Nat :=
  if c.m_last_cache_op == cache_miss then
    if (c.m_lru read_lru2).length > (c.m_lru read_lru1).length then (read_lru2, read_lru1)
    else (read_lru1, read_lru2)
  else if c.m_last_cache_op == ghost_hit_lru1 then (read_lru2, read_lru1)
  else (read_lru1, read_lru2)

/-- The loop `for (int end = 0; num > 0 && end < 3; ++end)` over the three read
lists.  Each list is iterated as it stands when its turn comes. -/
def evict_read_lists (ignore : Option piece_key) (order : Nat × Nat) (st0 : evict_state) :
    evict_state :=
  let st1 := (st0.c.m_lru volatile_read_lru).foldl (evict_read_step ignore) st0
  let st2 := (st1.c.m_lru order.1).foldl (evict_read_step ignore) st1
  (st2.c.m_lru order.2).foldl (evict_read_step ignore) st2

/-- The two passes over the write list. -/
def evict_write_list (ignore : Option piece_key) (st3 : evict_state) : evict_state :=
  if st3.num > 0 && st3.c.m_read_cache_size > st3.c.m_pinned_blocks then
    let p0 := (st3.c.m_lru write_lru).foldl (evict_write_step ignore 0) st3
    (p0.c.m_lru write_lru).foldl (evict_write_step ignore 1) p0
  else st3

/-- `block_cache::try_evict_blocks(num, ignore)`: the cache afterwards and the
returned count. -/
def block_cache.try_evict_blocks (c : block_cache) (num : Int) (ignore : Option piece_key) :
    block_cache × Int :=
  if num ≤ 0 then (c, 0)
  else
    let st3 := evict_read_lists ignore c.evict_order { c := c, num := num, to_delete := [] }
    let st4 := evict_write_list ignore st3
    if st4.to_delete.length == 0 then (st4.c, st4.num)
    else (st4.c.free_buffers st4.to_delete.length, st4.num)

/-! ## Blocks -/

/-- What `free_block` does to the piece entry: the slot loses its buffer and
its dirty flag, `num_blocks` and, for a dirty slot, `num_dirty` drop by one. -/
def freed_piece (pe : cached_piece_entry) (block : Nat) : cached_piece_entry :=
  { pe with
    num_dirty := if (get_block pe.blocks block).dirty then pe.num_dirty - 1 else pe.num_dirty
    num_blocks := pe.num_blocks - 1
    blocks := set_block pe.blocks block { get_block pe.blocks block with dirty := false, buf := 0 } }

/-- `block_cache::free_block`. -/
def block_cache.free_block (c : block_cache) (pk : piece_key) (block : Nat) : block_cache :=
  match c.find_piece pk with
  | none => c
  | some pe =>
    let b := get_block pe.blocks block
    { (c.store (freed_piece pe block)) with
      m_write_cache_size := if b.dirty then c.m_write_cache_size - 1 else c.m_write_cache_size
      m_read_cache_size := if b.dirty then c.m_read_cache_size else c.m_read_cache_size - 1
      m_in_use := c.m_in_use - 1 }

/-- The block index `j->d.io.offset / block_size()` of a job. -/
def block_cache.block_of (c : block_cache) (j : disk_io_job) : Nat :=
  (Int.tdiv j.offset c.m_block_size).toNat

/-- The part of `add_dirty_block` that makes room in the slot: a left-over read
block or a previous dirty block in it is freed. -/
def block_cache.clear_slot (c : block_cache) (pk : piece_key) (block : Nat) (buffer : Nat) :
    block_cache :=
  match c.find_piece pk with
  | none => c
  | some pe =>
    if (get_block pe.blocks block).buf != 0 && (get_block pe.blocks block).buf != buffer
    then c.free_block pk block else c

/-- What `add_dirty_block` does to the piece entry from `b.buf = j->buffer` on:
the buffer of the job goes into the slot, which becomes dirty, the counters
grow, the job is hung on the piece and the hash state is created for block 0. -/
def dirtied_piece (pe : cached_piece_entry) (block : Nat) (j : disk_io_job) :
    cached_piece_entry :=
  { pe with
    blocks := set_block pe.blocks block
      { get_block pe.blocks block with buf := j.buffer, dirty := true }
    num_blocks := pe.num_blocks + 1
    num_dirty := pe.num_dirty + 1
    jobs := pe.jobs ++ [j.id]
    hash := if block == 0 && pe.hash == none && !pe.hashing_done then some 0 else pe.hash }

/-- The part of `add_dirty_block` from `b.buf = j->buffer` on: the buffer of the
job goes into the slot, which becomes dirty, the counters grow, the job is hung
on the piece, the hash state is created for block 0, and the piece goes to the
back of the write list. -/
def block_cache.install_dirty (c : block_cache) (pk : piece_key) (block : Nat)
    (j : disk_io_job) : block_cache :=
  match c.find_piece pk with
  | none => c
  | some pe =>
    let c4 := { (c.store (dirtied_piece pe block j)) with
      m_write_cache_size := c.m_write_cache_size + 1 }
    (c4.update_cache_state pk).bump_lru pk

/-- `block_cache::add_dirty_block`.  `evict` is the value of `num_to_evict(1)`,
computed by the buffer pool.  The result is the cache and the job, whose buffer
the cache has taken. -/
def block_cache.add_dirty_block (c : block_cache) (j : disk_io_job) (evict : Int) :
    block_cache × disk_io_job :=
  let pk : piece_key := (j.storage, j.piece)
  let c1 := c.allocate_piece j write_lru
  let block := c.block_of j
  let c2 := if evict > 0 then (c1.try_evict_blocks evict (some pk)).1 else c1
  (((c2.clear_slot pk block j.buffer).install_dirty pk block j), { j with buffer := 0 })

/-- The cache when `add_dirty_block` gets to the slot: `allocate_piece` has
returned the piece entry and, when the buffer pool asked for it (`evict > 0`),
`try_evict_blocks` has run with this piece as the one to ignore. -/
def block_cache.before_install (c : block_cache) (j : disk_io_job) (evict : Int) : block_cache :=
  if evict > 0 then
    ((c.allocate_piece j write_lru).try_evict_blocks evict (some (j.storage, j.piece))).1
  else c.allocate_piece j write_lru

/-- The slot with one reference more. -/
def referenced_slot (b : cached_block_entry) : cached_block_entry :=
  { b with refcount := b.refcount + 1 }

/-- What `inc_block_refcount` does to the piece entry: the slot and the piece
get one reference more, and the piece one pinned block more when the slot had
no reference. -/
def referenced_piece (pe : cached_piece_entry) (block : Nat) : cached_piece_entry :=
  { pe with
    pinned := if (get_block pe.blocks block).refcount == 0 then pe.pinned + 1 else pe.pinned
    blocks := set_block pe.blocks block (referenced_slot (get_block pe.blocks block))
    refcount := pe.refcount + 1 }

/-- `block_cache::inc_block_refcount` (without purgeable-memory control). -/
def block_cache.inc_block_refcount (c : block_cache) (pk : piece_key) (block : Nat) :
    block_cache × Bool :=
  match c.find_piece pk with
  | none => (c, false)
  | some pe =>
    if (get_block pe.blocks block).buf == 0 then (c, false)
    else
      ({ (c.store (referenced_piece pe block)) with
          m_pinned_blocks := if (get_block pe.blocks block).refcount == 0
            then c.m_pinned_blocks + 1 else c.m_pinned_blocks }, true)

/-- `block_cache::dec_block_refcount` (without purgeable-memory control). -/
def block_cache.dec_block_refcount (c : block_cache) (pk : piece_key) (block : Nat) :
    block_cache :=
  match c.find_piece pk with
  | none => c
  | some pe =>
    let b := get_block pe.blocks block
    let last := b.refcount - 1 == 0
    let pe1 := { pe with
      blocks := set_block pe.blocks block { b with refcount := b.refcount - 1 }
      refcount := pe.refcount - 1
      pinned := if last then pe.pinned - 1 else pe.pinned }
    { (c.store pe1) with
      m_pinned_blocks := if last then c.m_pinned_blocks - 1 else c.m_pinned_blocks }

/-- The piece entry once the loop of `blocks_flushed` has cleared the flags
`pending` and `dirty` of a slot. -/
def unflagged_piece (pe : cached_piece_entry) (block : Nat) : cached_piece_entry :=
  { pe with
    blocks := set_block pe.blocks block
                { get_block pe.blocks block with pending := false, dirty := false } }

/-- The body of the loop of `blocks_flushed` for one flushed block. -/
def block_cache.flush_one (pk : piece_key) (c : block_cache) (block : Nat) : block_cache :=
  match c.find_piece pk with
  | none => c
  | some pe => (c.store (unflagged_piece pe block)).dec_block_refcount pk block

/-- `block_cache::blocks_flushed(pe, flushed, num_flushed)`. -/
def block_cache.blocks_flushed (c : block_cache) (pk : piece_key) (flushed : List Nat) :
    block_cache :=
  let c1 := flushed.foldl (block_cache.flush_one pk) c
  let num_flushed : Int := flushed.length
  let c2 := { c1 with
    m_write_cache_size := c1.m_write_cache_size - num_flushed
    m_read_cache_size := c1.m_read_cache_size + num_flushed }
  match c2.find_piece pk with
  | none => c2
  | some pe => (c2.store { pe with num_dirty := pe.num_dirty - num_flushed }).update_cache_state pk

/-- The slot with the buffer `base` in it. -/
def filled_slot (b : cached_block_entry) (base : Nat) : cached_block_entry :=
  { b with buf := base }

/-- What `insert_blocks` does to the piece entry when it puts a buffer into an
empty slot. -/
def inserted_piece (pe : cached_piece_entry) (block : Nat) (base : Nat) : cached_piece_entry :=
  { pe with
    blocks := set_block pe.blocks block (filled_slot (get_block pe.blocks block) base)
    num_blocks := pe.num_blocks + 1 }

/-- The body of the loop of `insert_blocks` for the buffer `base` and the slot
`block` (without purgeable-memory control). -/
def block_cache.insert_one (pk : piece_key) (inc_refcount : Bool) (c : block_cache)
    (block : Nat) (base : Nat) : block_cache :=
  match c.find_piece pk with
  | none => c
  | some pe =>
    let c1 := if (get_block pe.blocks block).buf != 0 && inc_refcount
      then (c.inc_block_refcount pk block).1 else c
    match c1.find_piece pk with
    | none => c1
    | some pe1 =>
      if (get_block pe1.blocks block).buf != 0 then c1.free_buffers 1
      else
        let c2 := { (c1.store (inserted_piece pe1 block base)) with
          m_read_cache_size := c1.m_read_cache_size + 1 }
        if inc_refcount then (c2.inc_block_refcount pk block).1 else c2

/-- The loop `for (int i = 0; i < iov_len; ++i, ++block)` of `insert_blocks`. -/
def block_cache.insert_loop (pk : piece_key) (inc_refcount : Bool) :
    List Nat → Nat → block_cache → block_cache
  | [], _, c => c
  | base :: iov, block, c =>
    block_cache.insert_loop pk inc_refcount iov (block + 1)
      (block_cache.insert_one pk inc_refcount c block base)

/-- `block_cache::insert_blocks(pe, block, iov, iov_len, j, flags)`; `iov` lists
the buffers and `inc_refcount` is the flag `blocks_inc_refcount`. -/
def block_cache.insert_blocks (c : block_cache) (pk : piece_key) (block : Nat)
    (iov : List Nat) (j : disk_io_job) (inc_refcount : Bool) : block_cache :=
  block_cache.insert_loop pk inc_refcount iov block (c.cache_hit pk j.requester j.volatile_read)

/-- The local variables of the block loops of `evict_piece` and `abort_dirty`. -/
structure drop_acc where
  num_blocks : Int
  num_dirty : Int
  read_cache_size : Int
  write_cache_size : Int
  num_to_delete : Nat
deriving DecidableEq, Repr

/-- The block loop of `evict_piece`, from the current slot on; it stops when
the piece has no block left. -/
def evict_piece_scan : List cached_block_entry → drop_acc → List cached_block_entry × drop_acc
  | [], a => ([], a)
  | b :: bs, a =>
    if b.buf == 0 || b.refcount > 0 then
      let r := evict_piece_scan bs a
      (b :: r.1, r.2)
    else
      let a1 : drop_acc :=
        if !b.dirty then
          { a with num_blocks := a.num_blocks - 1, read_cache_size := a.read_cache_size - 1
                   num_to_delete := a.num_to_delete + 1 }
        else
          { a with num_blocks := a.num_blocks - 1, num_dirty := a.num_dirty - 1
                   write_cache_size := a.write_cache_size - 1
                   num_to_delete := a.num_to_delete + 1 }
      let b1 := { b with buf := 0, dirty := false }
      if a1.num_blocks == 0 then (b1 :: bs, a1)
      else
        let r := evict_piece_scan bs a1
        (b1 :: r.1, r.2)

/-- The local counters at the start of the block loops of `evict_piece` and
`abort_dirty`. -/
def block_cache.drop_start (c : block_cache) (pe : cached_piece_entry) : drop_acc :=
  { num_blocks := pe.num_blocks, num_dirty := pe.num_dirty
    read_cache_size := c.m_read_cache_size, write_cache_size := c.m_write_cache_size
    num_to_delete := 0 }

/-- The piece entry after one of the two block loops. -/
def dropped_piece (pe : cached_piece_entry) (r : List cached_block_entry × drop_acc) :
    cached_piece_entry :=
  { pe with blocks := r.1, num_blocks := r.2.num_blocks, num_dirty := r.2.num_dirty }

/-- The statement `if (num_to_delete) free_multiple_buffers(to_delete,
num_to_delete)`. -/
def block_cache.free_deleted (c : block_cache) (n : Nat) : block_cache :=
  if n != 0 then c.free_buffers n else c

/-- The tail of `evict_piece`, from `if (pe->ok_to_evict(true))` on, for the
piece entry `pe1` the block loop has left. -/
def block_cache.evict_emptied (c : block_cache) (pk : piece_key) (pe1 : cached_piece_entry)
    (jobs : List Nat) : block_cache × List Nat × Bool :=
  if pe1.ok_to_evict true then
    let c3 := c.store { pe1 with hash := none, jobs := [] }
    let jobs1 := jobs ++ pe1.jobs
    if pe1.cache_state == read_lru1_ghost || pe1.cache_state == read_lru2_ghost then
      (c3, jobs1, true)
    else if pe1.cache_state == write_lru || pe1.cache_state == volatile_read_lru then
      (c3.erase_piece pk, jobs1, true)
    else (c3.move_to_ghost pk, jobs1, true)
  else (c, jobs, false)

/-- `block_cache::evict_piece(pe, jobs)`: the cache, the jobs handed back and
the returned flag. -/
def block_cache.evict_piece (c : block_cache) (pk : piece_key) (jobs : List Nat) :
    block_cache × List Nat × Bool :=
  match c.find_piece pk with
  | none => (c, jobs, false)
  | some pe =>
    let r := evict_piece_scan pe.blocks (c.drop_start pe)
    let c1 := { (c.store (dropped_piece pe r)) with
      m_read_cache_size := r.2.read_cache_size, m_write_cache_size := r.2.write_cache_size }
    (c1.free_deleted r.2.num_to_delete).evict_emptied pk (dropped_piece pe r) jobs

/-- The block loop of `abort_dirty`. -/
def abort_dirty_scan : List cached_block_entry → drop_acc → List cached_block_entry × drop_acc
  | [], a => ([], a)
  | b :: bs, a =>
    if !b.dirty || b.refcount > 0 || b.buf == 0 then
      let r := abort_dirty_scan bs a
      (b :: r.1, r.2)
    else
      let r := abort_dirty_scan bs
        { a with num_blocks := a.num_blocks - 1, num_dirty := a.num_dirty - 1
                 write_cache_size := a.write_cache_size - 1
                 num_to_delete := a.num_to_delete + 1 }
      ({ b with buf := 0, dirty := false } :: r.1, r.2)

/-- `block_cache::abort_dirty`. -/
def block_cache.abort_dirty (c : block_cache) (pk : piece_key) : block_cache :=
  match c.find_piece pk with
  | none => c
  | some pe =>
    let r := abort_dirty_scan pe.blocks (c.drop_start pe)
    let c1 := { (c.store (dropped_piece pe r)) with m_write_cache_size := r.2.write_cache_size }
    (c1.free_deleted r.2.num_to_delete).update_cache_state pk

/-! ## The cache invariant

The part of `block_cache::check_invariant` that concerns the block accounting,
together with the shape of the containers it relies on: `m_pieces` is a set
(no two entries with the same key) and each LRU list is an intrusive list of
the pieces in its state (`pe->cache_state == i`), a piece of a ghost list
holding no block. -/

/-- The number of slots holding a buffer (`num_blocks` of `check_invariant`). -/
def count_filled (bs : List cached_block_entry) : Int :=
  (bs.countP (fun b => b.buf != 0) : Nat)

/-- The number of filled slots marked dirty (`num_dirty` of `check_invariant`). -/
def count_dirty (bs : List cached_block_entry) : Int :=
  (bs.countP (fun b => b.buf != 0 && b.dirty) : Nat)

/-- The number of filled slots not marked dirty (the contribution of a piece
to `cached_read_blocks`). -/
def count_clean (bs : List cached_block_entry) : Int :=
  (bs.countP (fun b => b.buf != 0 && !b.dirty) : Nat)

/-- The number of slots marked dirty, filled or not. -/
def count_marked_dirty (bs : List cached_block_entry) : Int :=
  (bs.countP (fun b => b.dirty) : Nat)

/-- A slot that `try_evict_blocks` must skip: pinned, dirty or pending. -/
def cached_block_entry.is_protected (b : cached_block_entry) : Prop :=
  b.refcount > 0 ∨ b.dirty = true ∨ b.pending = true

instance (b : cached_block_entry) : Decidable b.is_protected := by
  unfold cached_block_entry.is_protected; infer_instance

/-- The per-piece assertions of `check_invariant`: the two counters agree with
the slots, and an empty slot is neither dirty nor pending nor pinned. -/
def piece_invariant (p : cached_piece_entry) : Prop :=
  p.num_blocks = count_filled p.blocks
    ∧ p.num_dirty = count_dirty p.blocks
    ∧ ∀ b ∈ p.blocks, b.buf = 0 → ¬ b.is_protected

instance (p : cached_piece_entry) : Decidable (piece_invariant p) := by
  unfold piece_invariant; infer_instance

/-- Sum of a per-piece quantity over the cache. -/
def total (f : cached_piece_entry → Int) (l : List cached_piece_entry) : Int :=
  (l.map f).sum

/-- The entry `k` of the LRU list `i` stands for a cached piece in state `i`,
which holds no block when `i` is a ghost list. -/
def lru_entry_ok (c : block_cache) (i : Nat) (k : piece_key) : Prop :=
  ∃ p, c.find_piece k = some p ∧ p.cache_state = i
    ∧ ((i = read_lru1_ghost ∨ i = read_lru2_ghost) → p.num_blocks = 0)

instance (c : block_cache) (i : Nat) (k : piece_key) : Decidable (lru_entry_ok c i k) :=
  match h : c.find_piece k with
  | none => isFalse (by rintro ⟨p, hp, _⟩; rw [h] at hp; cases hp)
  | some p =>
    if h1 : p.cache_state = i ∧ ((i = read_lru1_ghost ∨ i = read_lru2_ghost) → p.num_blocks = 0)
    then isTrue ⟨p, h, h1⟩
    else isFalse (by rintro ⟨q, hq, h2⟩; rw [h] at hq; cases hq; exact h1 h2)

/-- The LRU list `i` is an intrusive list of the pieces in state `i`: no entry
is repeated and every entry is a cached piece in that state (`pe->cache_state
== i` in `check_invariant`), without blocks in a ghost list. -/
def lru_list_ok (c : block_cache) (i : Nat) : Prop :=
  (c.m_lru i).Nodup ∧ ∀ k ∈ c.m_lru i, lru_entry_ok c i k

instance (c : block_cache) (i : Nat) : Decidable (lru_list_ok c i) := by
  unfold lru_list_ok; infer_instance

/-- The cache invariant. -/
structure cache_invariant (c : block_cache) : Prop where
  keys : (c.m_pieces.map cached_piece_entry.key).Nodup
  pieces : ∀ p ∈ c.m_pieces, piece_invariant p
  read_size : c.m_read_cache_size = total (fun p => count_clean p.blocks) c.m_pieces
  write_size : c.m_write_cache_size = total (fun p => count_dirty p.blocks) c.m_pieces
  lists : ∀ i, i < num_lrus → lru_list_ok c i

instance (c : block_cache) : Decidable (cache_invariant c) :=
  decidable_of_iff
    ((c.m_pieces.map cached_piece_entry.key).Nodup
      ∧ (∀ p ∈ c.m_pieces, piece_invariant p)
      ∧ c.m_read_cache_size = total (fun p => count_clean p.blocks) c.m_pieces
      ∧ c.m_write_cache_size = total (fun p => count_dirty p.blocks) c.m_pieces
      ∧ ∀ i, i < num_lrus → lru_list_ok c i)
    ⟨fun ⟨a, b, c1, d, e⟩ => ⟨a, b, c1, d, e⟩,
     fun h => ⟨h.keys, h.pieces, h.read_size, h.write_size, h.lists⟩⟩

/-- The accounting invariant in the words of the specification: per piece,
`num_blocks` is the number of slots holding a buffer and `num_dirty` the
number of slots marked dirty; globally the write size is the number of dirty
slots and the read size the number of filled slots that are not dirty. -/
def accounting_invariant (c : block_cache) : Prop :=
  (∀ p ∈ c.m_pieces, p.num_blocks = count_filled p.blocks
      ∧ p.num_dirty = count_marked_dirty p.blocks)
    ∧ c.m_write_cache_size = total (fun p => count_marked_dirty p.blocks) c.m_pieces
    ∧ c.m_read_cache_size = total (fun p => count_clean p.blocks) c.m_pieces

/-! ## The frame of an eviction -/

/-- What an eviction may do to a slot: a protected slot stays as it is. -/
def slot_kept (b b2 : cached_block_entry) : Prop := b.is_protected → b2 = b

/-- The frame of `try_evict_blocks` between two cache states: the piece to
ignore enters no ghost list and, unless it sits in one, stays as it is; a
piece with a protected slot stays cached with that slot unchanged. -/
structure eviction_frame (ign : Option piece_key) (c c2 : block_cache) : Prop where
  ghost_ign : ∀ k, ign = some k → ∀ g, (g = read_lru1_ghost ∨ g = read_lru2_ghost) →
    k ∈ c2.m_lru g → k ∈ c.m_lru g
  keep_ign : ∀ k p, ign = some k → c.find_piece k = some p →
    k ∉ c.m_lru read_lru1_ghost → k ∉ c.m_lru read_lru2_ghost → c2.find_piece k = some p
  keep_prot : ∀ k p, c.find_piece k = some p → (∃ b ∈ p.blocks, b.is_protected) →
    ∃ p2, c2.find_piece k = some p2 ∧ List.Forall₂ slot_kept p.blocks p2.blocks

/-! ## Example states -/

/-- A cache holding one piece in `read_lru1` whose block 0 is pinned by an
upload in flight (`refcount = 1`) and whose block 1 is clean and unpinned. -/
def pinned_example : block_cache :=
  { m_pieces := [{ storage := 1, piece := 0
                   blocks := [{ buf := 11, refcount := 1 }, { buf := 12 }]
                   num_blocks := 2, pinned := 1, refcount := 1
                   cache_state := read_lru1, in_storage := true }]
    m_lru := lru_set (fun _ => []) read_lru1 [(1, 0)]
    m_read_cache_size := 2, m_pinned_blocks := 1, m_in_use := 2 }

/-- Scenario "cache promotion", first half: requester `100` reads piece 7 of
storage 1, which is not cached; the piece enters `read_lru1` with that
requester as its last requester. -/
def promotion_example : block_cache :=
  ({} : block_cache).allocate_piece
    { id := 1, storage := 1, piece := 7, requester := 100, piece_size := 32768 } read_lru1

/-- The contribution of one slot to `count_filled`. -/
def filled_ind (b : cached_block_entry) : Int := if b.buf = 0 then 0 else 1

/-- The contribution of one slot to `count_dirty`. -/
def dirty_ind (b : cached_block_entry) : Int :=
  if b.buf = 0 then 0 else if b.dirty = true then 1 else 0

/-- The contribution of one slot to `count_clean`. -/
def clean_ind (b : cached_block_entry) : Int :=
  if b.buf = 0 then 0 else if b.dirty = true then 0 else 1

/-- The cached piece with key `k` exists and satisfies `P`. -/
def piece_satisfies (c : block_cache) (k : piece_key) (P : cached_piece_entry → Prop) : Prop :=
  ∃ p, c.find_piece k = some p ∧ P p

instance (c : block_cache) (k : piece_key) (P : cached_piece_entry → Prop) [DecidablePred P] :
    Decidable (piece_satisfies c k P) :=
  match h : c.find_piece k with
  | none => isFalse (by rintro ⟨p, hp, _⟩; rw [h] at hp; cases hp)
  | some p =>
    if h1 : P p then isTrue ⟨p, h, h1⟩
    else isFalse (by rintro ⟨q, hq, h2⟩; rw [h] at hq; cases hq; exact h1 h2)

/-- The preconditions `add_dirty_block` asserts: the job carries a buffer, and
the slot it writes, in the piece entry `allocate_piece` returns, exists, is not
pinned, does not hold the job's buffer and, when it holds a buffer, is not
pending. -/
def add_dirty_block_pre (c : block_cache) (j : disk_io_job) : Prop :=
  j.buffer ≠ 0
    ∧ piece_satisfies (c.allocate_piece j write_lru) (j.storage, j.piece) (fun pe =>
        c.block_of j < pe.blocks.length
        ∧ (get_block pe.blocks (c.block_of j)).refcount = 0
        ∧ (get_block pe.blocks (c.block_of j)).buf ≠ j.buffer
        ∧ ((get_block pe.blocks (c.block_of j)).buf ≠ 0 →
            (get_block pe.blocks (c.block_of j)).pending = false))

instance (c : block_cache) (j : disk_io_job) : Decidable (add_dirty_block_pre c j) := by
  unfold add_dirty_block_pre; infer_instance

/-- The piece entry once `add_dirty_block` has made room in the slot: as it
was when the slot is empty, with the slot freed otherwise. -/
def cleared_piece (pe : cached_piece_entry) (block : Nat) : cached_piece_entry :=
  if (get_block pe.blocks block).buf = 0 then pe else freed_piece pe block

/-- What the block loops of `evict_piece` and `abort_dirty` keep: the distance
of each counter to the number of slots it counts, and the emptiness of empty
slots. -/
def scan_keeps (bs : List cached_block_entry) (a : drop_acc)
    (r : List cached_block_entry × drop_acc) : Prop :=
  r.2.num_blocks - count_filled r.1 = a.num_blocks - count_filled bs
    ∧ r.2.num_dirty - count_dirty r.1 = a.num_dirty - count_dirty bs
    ∧ r.2.read_cache_size - count_clean r.1 = a.read_cache_size - count_clean bs
    ∧ r.2.write_cache_size - count_dirty r.1 = a.write_cache_size - count_dirty bs
    ∧ count_filled r.1 ≤ count_filled bs
    ∧ (∀ b ∈ r.1, b.buf = 0 → ¬ b.is_protected)

/-- The precondition `evict_piece` asserts in its block loop: the piece is
cached and a filled slot that is not pinned is not pending. -/
def evict_piece_pre (c : block_cache) (pk : piece_key) : Prop :=
  piece_satisfies c pk (fun pe =>
    ∀ b ∈ pe.blocks, b.buf ≠ 0 → ¬ b.refcount > 0 → b.pending = false)

instance (c : block_cache) (pk : piece_key) : Decidable (evict_piece_pre c pk) := by
  unfold evict_piece_pre; infer_instance

/-- The precondition `abort_dirty` asserts in its block loop: the piece is
cached and a dirty slot that is not pinned is not pending. -/
def abort_dirty_pre (c : block_cache) (pk : piece_key) : Prop :=
  piece_satisfies c pk (fun pe =>
    ∀ b ∈ pe.blocks, b.buf ≠ 0 → ¬ b.refcount > 0 → b.dirty = true → b.pending = false)

instance (c : block_cache) (pk : piece_key) : Decidable (abort_dirty_pre c pk) := by
  unfold abort_dirty_pre; infer_instance

/-- The preconditions `blocks_flushed` asserts while it runs: each flushed
block is a slot of the piece that is dirty and pending when its turn comes. -/
def blocks_flushed_pre (pk : piece_key) : List Nat → block_cache → Prop
  | [], _ => True
  | b :: bs, c =>
    piece_satisfies c pk (fun pe => b < pe.blocks.length
        ∧ (get_block pe.blocks b).dirty = true ∧ (get_block pe.blocks b).pending = true)
      ∧ blocks_flushed_pre pk bs (c.flush_one pk b)

/-- The preconditions of `blocks_flushed` can be checked on a given cache. -/
def blocks_flushed_pre_dec (pk : piece_key) :
    (l : List Nat) → (c : block_cache) → Decidable (blocks_flushed_pre pk l c)
  | [], _ => isTrue trivial
  | b :: bs, c =>
    @instDecidableAnd _ _ inferInstance (blocks_flushed_pre_dec pk bs (c.flush_one pk b))

instance (pk : piece_key) (l : List Nat) (c : block_cache) :
    Decidable (blocks_flushed_pre pk l c) := blocks_flushed_pre_dec pk l c

/-- The slot `blocks_flushed` leaves: neither pending nor dirty, with one
reference less. -/
def flushed_slot (b : cached_block_entry) : cached_block_entry :=
  { b with pending := false, dirty := false, refcount := b.refcount - 1 }

/-- The piece entry after one round of the loop of `blocks_flushed`. -/
def flushed_piece (pe : cached_piece_entry) (block : Nat) : cached_piece_entry :=
  { pe with
    blocks := set_block pe.blocks block (flushed_slot (get_block pe.blocks block))
    refcount := pe.refcount - 1
    pinned := if (get_block pe.blocks block).refcount - 1 == 0 then pe.pinned - 1 else pe.pinned }

/-- The relation between the cache before the loop of `blocks_flushed` and
after `n` of its rounds: only the piece `pe` has changed, into `pe2`, which
has `n` dirty slots less while its counters and the sizes of the cache still
have their old values. -/
structure flushed_to (c c2 : block_cache) (pe pe2 : cached_piece_entry) (n : Int) : Prop where
  pieces : c2.m_pieces = replace_piece pe2 c.m_pieces
  key : pe2.key = pe.key
  lru : c2.m_lru = c.m_lru
  read : c2.m_read_cache_size = c.m_read_cache_size
  write : c2.m_write_cache_size = c.m_write_cache_size
  num_blocks : pe2.num_blocks = pe.num_blocks
  num_dirty : pe2.num_dirty = pe.num_dirty
  cache_state : pe2.cache_state = pe.cache_state
  hash : pe2.hash = pe.hash
  length : pe2.blocks.length = pe.blocks.length
  filled : count_filled pe2.blocks = count_filled pe.blocks
  dirty : count_dirty pe2.blocks = count_dirty pe.blocks - n
  empty : ∀ b ∈ pe2.blocks, b.buf = 0 → ¬ b.is_protected

/-- The preconditions of `insert_blocks`: the piece is cached, the buffers go
to slots of its `blocks` array, and no buffer is a null pointer (`TORRENT_ASSERT
(iov[i].iov_base)`). -/
def insert_blocks_pre (c : block_cache) (pk : piece_key) (block : Nat) (iov : List Nat) : Prop :=
  piece_satisfies c pk (fun pe => block + iov.length ≤ pe.blocks.length)
    ∧ ∀ base ∈ iov, base ≠ 0

instance (c : block_cache) (pk : piece_key) (block : Nat) (iov : List Nat) :
    Decidable (insert_blocks_pre c pk block iov) := by
  unfold insert_blocks_pre; infer_instance

/-- The preconditions `free_block` asserts: the slot exists, holds a buffer,
has no reference and is not pending. -/
def free_block_pre (c : block_cache) (pk : piece_key) (block : Nat) : Prop :=
  piece_satisfies c pk (fun pe => block < pe.blocks.length
    ∧ (get_block pe.blocks block).refcount = 0
    ∧ (get_block pe.blocks block).pending = false
    ∧ (get_block pe.blocks block).buf ≠ 0)

instance (c : block_cache) (pk : piece_key) (block : Nat) : Decidable (free_block_pre c pk block) := by
  unfold free_block_pre; infer_instance

/-- A cache holding one piece in the write list: block 0 is dirty and being
flushed (pending and pinned), block 1 is clean, block 2 is empty. -/
def write_example : block_cache :=
  { m_pieces := [{ storage := 1, piece := 0
                   blocks := [{ buf := 11, refcount := 1, dirty := true, pending := true },
                              { buf := 12 }, {}]
                   num_blocks := 2, num_dirty := 1, pinned := 1, refcount := 1
                   cache_state := write_lru, in_storage := true }]
    m_lru := lru_set (fun _ => []) write_lru [(1, 0)]
    m_read_cache_size := 1, m_write_cache_size := 1, m_pinned_blocks := 1
    m_block_size := 16384, m_in_use := 2 }

/-- A write job for block 2 of piece 0 of storage 1, with buffer 33. -/
def write_job_example : disk_io_job :=
  { id := 7, storage := 1, piece := 0, offset := 32768, buffer_size := 16384, buffer := 33
    piece_size := 49152 }

/-- A write job for block 1 of piece 0 of storage 1, with buffer 34; in
`write_example` that slot holds the clean buffer 12. -/
def overwrite_job_example : disk_io_job :=
  { id := 8, storage := 1, piece := 0, offset := 16384, buffer_size := 16384, buffer := 34
    piece_size := 49152 }

/-- The value of `num_dirty` of the piece `pk`, 0 when the piece is not
cached. -/
def block_cache.num_dirty_of (c : block_cache) (pk : piece_key) : Int :=
  match c.find_piece pk with
  | none => 0
  | some p => p.num_dirty

/-- The slot `i` of the piece `pk`, an empty slot when the piece is not cached
or has no such slot. -/
def block_cache.slot_of (c : block_cache) (pk : piece_key) (i : Nat) : cached_block_entry :=
  match c.find_piece pk with
  | none => {}
  | some p => get_block p.blocks i

/-- The slot marked as being flushed. -/
def pending_slot (b : cached_block_entry) : cached_block_entry :=
  { b with pending := true }

/-- The piece entry with the slot `block` marked as being flushed. -/
def pending_piece (pe : cached_piece_entry) (block : Nat) : cached_piece_entry :=
  { pe with blocks := set_block pe.blocks block (pending_slot (get_block pe.blocks block)) }

/-- Modelled from the spec: what the caller of `blocks_flushed` does to a block
before it writes it to disk (the flush path of the disk thread is not among
the sources at hand): the slot is marked pending and pinned with
`inc_block_refcount`. -/
def block_cache.mark_flushing (pk : piece_key) (c : block_cache) (block : Nat) : block_cache :=
  match c.find_piece pk with
  | none => c
  | some pe => ((c.store (pending_piece pe block)).inc_block_refcount pk block).1

/-- The cache after `add_dirty_block` for each of the jobs in turn. -/
def write_blocks (evict : Int) : List disk_io_job → block_cache → block_cache
  | [], c => c
  | j :: js, c => write_blocks evict js (c.add_dirty_block j evict).1

/-- The block indices `add_dirty_block` computes for the jobs. -/
def written_blocks (evict : Int) : List disk_io_job → block_cache → List Nat
  | [], _ => []
  | j :: js, c => c.block_of j :: written_blocks evict js (c.add_dirty_block j evict).1

/-- Each of the jobs writes to the piece `pk`, `add_dirty_block` is called
within its asserted preconditions, and the slot it writes is not dirty when
its turn comes. -/
def writes_ok (pk : piece_key) (evict : Int) : List disk_io_job → block_cache → Prop
  | [], _ => True
  | j :: js, c =>
    (j.storage, j.piece) = pk ∧ add_dirty_block_pre c j
      ∧ (c.slot_of pk (c.block_of j)).dirty = false
      ∧ writes_ok pk evict js (c.add_dirty_block j evict).1

/-- The condition `writes_ok` can be checked on a given cache. -/
def writes_ok_dec (pk : piece_key) (evict : Int) :
    (js : List disk_io_job) → (c : block_cache) → Decidable (writes_ok pk evict js c)
  | [], _ => isTrue trivial
  | j :: js, c =>
    @instDecidableAnd _ _ inferInstance
      (@instDecidableAnd _ _ inferInstance
        (@instDecidableAnd _ _ inferInstance
          (writes_ok_dec pk evict js (c.add_dirty_block j evict).1)))

instance (pk : piece_key) (evict : Int) (js : List disk_io_job) (c : block_cache) :
    Decidable (writes_ok pk evict js c) := writes_ok_dec pk evict js c

/-- The blocks of the jobs are written with `add_dirty_block`, marked for
flushing by the caller, and reported to `blocks_flushed`. -/
def block_cache.write_then_flush (c : block_cache) (pk : piece_key) (js : List disk_io_job)
    (evict : Int) : block_cache :=
  ((written_blocks evict js c).foldl (block_cache.mark_flushing pk)
    (write_blocks evict js c)).blocks_flushed pk (written_blocks evict js c)

/-- The list the piece `pk` is in, when it is cached. -/
def block_cache.state_of (c : block_cache) (pk : piece_key) : Option Nat :=
  (c.find_piece pk).map (fun p => p.cache_state)

/-- A cache holding one piece in the write list whose block 1 is dirty and not
yet being flushed. -/
def dirty_example : block_cache :=
  { m_pieces := [{ storage := 1, piece := 0
                   blocks := [{}, { buf := 11, dirty := true }, {}]
                   num_blocks := 1, num_dirty := 1
                   cache_state := write_lru, in_storage := true }]
    m_lru := lru_set (fun _ => []) write_lru [(1, 0)]
    m_write_cache_size := 1, m_in_use := 1 }

/-- A write job for block 0 of piece 0 of storage 1, with buffer 35. -/
def first_block_job_example : disk_io_job :=
  { id := 9, storage := 1, piece := 0, offset := 0, buffer_size := 16384, buffer := 35
    piece_size := 49152 }

/-! ## The peer connection (`peer_connection.cpp`)

A `peer_connection` is embedded as a record of the members the message
handlers read and write.  The torrent the peer is attached to, the session
settings and the answers of the extensions (plugins) are records of values and
predicates.  Messages written to the peer, calls of `abort_download` on the
piece picker and jobs handed to the disk thread are appended to logs.  Stats
counters, alerts, log output and time stamps that are only stored are left
out. -/

/-- `peer_request`: a request for `length` bytes at offset `start` of a piece. -/
structure peer_request where
  piece : Int
  start : Int
  length : Int
deriving DecidableEq, Repr

/-- `piece_block`: a block of a piece. -/
structure piece_block where
  piece_index : Int
  block_index : Int
deriving DecidableEq, Repr

/-- `pending_block`: an entry of the request queue or of the download queue. -/
structure pending_block where
  block : piece_block
  send_buffer_offset : Int := -1
  not_wanted : Bool := false
  timed_out : Bool := false
  busy : Bool := false
  receiving : Bool := false
deriving DecidableEq, Repr

/-- A message written to the peer (`write_request`, `write_reject_request`,
`write_choke`, `write_not_interested`, `write_allow_fast`, `write_have`,
`write_dont_have`, `write_bitfield`, `write_piece`, `write_cancel`). -/
inductive message where
  | request (r : peer_request)
  | reject_request (r : peer_request)
  | choke
  | interested
  | not_interested
  | allow_fast (piece : Int)
  | have_piece (index : Int)
  | dont_have (index : Int)
  | bitfield
  | piece (r : peer_request)
  | cancel (r : peer_request)
deriving DecidableEq, Repr

/-- Modelled from the spec: `peer_connection::peer_speed_t` is declared in
`peer_connection.hpp`, which is not among the sources. -/
inductive peer_speed_t where
  | slow
  | medium
  | fast
deriving DecidableEq, Repr

/-- The codes of `errors::error_code_enum` that the code embedded here passes
to `disconnect`. -/
inductive errors where
  | upload_upload_connection
  | uninteresting_upload_peer
  | torrent_paused
  | too_many_requests_when_choked
  | invalid_have
  | invalid_dont_have
  | invalid_bitfield_size
  | invalid_piece
  | job_error (code : Int)
deriving DecidableEq, Repr

/-- A job handed to the disk thread. -/
inductive disk_job where
  | async_hash (piece : Int)
  | async_read (r : peer_request)
deriving DecidableEq, Repr

/-- The states of `torrent_status::state_t`. -/
inductive torrent_state where
  | queued_for_checking
  | checking_files
  | downloading_metadata
  | downloading
  | finished
  | seeding
  | allocating
  | checking_resume_data
deriving DecidableEq, Repr

/-- What the handlers ask the torrent and its piece picker. -/
structure torrent where
  block_size : Int := 16384
  num_pieces : Int := 0
  piece_length : Int := 0
  piece_size : Int → Int := fun _ => 0
  state : torrent_state := torrent_state.downloading
  has_picker : Bool := true
  is_seed : Bool := false
  valid_metadata : Bool := true
  seed_mode : Bool := false
  super_seeding : Bool := false
  share_mode : Bool := false
  upload_mode : Bool := false
  graceful_pause : Bool := false
  is_upload_only : Bool := false
  are_files_checked : Bool := true
  ready_for_connections : Bool := true
  is_aborted : Bool := false
  is_deleted : Bool := false
  need_loaded : Bool := true
  has_piece_passed : Int → Bool := fun _ => false
  have_piece : Int → Bool := fun _ => false
  is_predictive_piece : Int → Bool := fun _ => false
  verified_piece : Int → Bool := fun _ => false
  picker_is_finished : piece_block → Bool := fun _ => false
  picker_is_downloaded : piece_block → Bool := fun _ => false
  picker_mark_as_downloading : piece_block → Bool := fun _ => true
  picker_is_requested : piece_block → Bool := fun _ => true
  picker_free_blocks : Int → Int := fun _ => 0
  picker_piece_priority : Int → Int := fun _ => 1
  get_piece_to_super_seed : List Bool → Int := fun _ => -1
  num_peers : Int := 1
  info_hash : List Nat := []
  download_payload_rate : Int := 0

/-- Modelled from the spec: `torrent::to_req` (torrent.cpp is not among the
sources): the request for a block starts at `block_index × block_size` and has
the expected length of the block, `min(block_size, piece_size − block_index ×
block_size)`. -/
def torrent.to_req (t : torrent) (b : piece_block) : peer_request :=
  { piece := b.piece_index
    start := b.block_index * t.block_size
    length := min (t.piece_size b.piece_index - b.block_index * t.block_size) t.block_size }

/-- The session settings the handlers read. -/
structure session_settings where
  max_allowed_in_request_queue : Int := 250
  close_redundant_connections : Bool := true
  send_buffer_watermark_factor : Int := 50
  send_buffer_low_watermark : Int := 512
  send_buffer_watermark : Int := 512000
  request_queue_time : Int := 3
  allowed_fast_set_size : Int := 10
  request_timeout : Int := 50
  strict_super_seeding : Bool := false

/-- The answers of the extensions attached to the peer: whether one of them
consumes a message, writes a request itself, or vetoes a disconnect. -/
structure extension_hooks where
  on_request : peer_request → Bool := fun _ => false
  on_choke : Bool := false
  on_reject : peer_request → Bool := fun _ => false
  on_have_none : Bool := false
  on_have_all : Bool := false
  on_have : Int → Bool := fun _ => false
  on_dont_have : Int → Bool := fun _ => false
  on_bitfield : List Bool → Bool := fun _ => false
  on_allowed_fast : Int → Bool := fun _ => false
  write_request : peer_request → Bool := fun _ => false
  can_disconnect : Bool := true

/-- `torrent_peer`, as far as the handlers read it. -/
structure torrent_peer where
  on_parole : Bool := false
deriving DecidableEq, Repr

/-- The members of `peer_connection` the handlers read and write. -/
structure peer_connection where
  t : torrent := {}
  m_settings : session_settings := {}
  m_extensions : extension_hooks := {}
  m_peer_info : Option torrent_peer := some {}
  m_download_queue : List pending_block := []
  m_request_queue : List pending_block := []
  m_requests : List peer_request := []
  m_outstanding_bytes : Int := 0
  m_received_in_piece : Int := 0
  m_queued_time_critical : Int := 0
  m_desired_queue_size : Int := 2
  m_request_large_blocks : Bool := false
  m_peer_choked : Bool := true
  m_choked : Bool := true
  m_peer_interested : Bool := false
  m_interesting : Bool := false
  m_upload_only : Bool := false
  m_has_metadata : Bool := true
  m_bitfield_received : Bool := true
  m_endgame_mode : Bool := false
  m_disconnecting : Bool := false
  m_num_invalid_requests : Int := 0
  m_last_choke : Int := 0
  m_accept_fast : List Int := []
  m_accept_fast_piece_cnt : List Int := []
  m_allowed_fast : List Int := []
  m_suggested_pieces : List Int := []
  m_superseed_piece : Int × Int := (-1, -1)
  m_send_buffer_size : Int := 0
  m_reading_bytes : Int := 0
  m_upload_rate : Int := 0
  m_outstanding_piece_verification : Int := 0
  verifying : List Int := []
  m_have_piece : List Bool := []
  m_remote : List Nat := []
  m_snubbed : Bool := false
  m_max_out_request_queue : Int := 200
  download_payload_rate : Int := 0
  m_speed : peer_speed_t := peer_speed_t.slow
  m_failed : Bool := false
  m_timeout_extend : Int := 0
  m_disk_read_failures : Int := 0
  m_torrent_expired : Bool := false
  m_num_pieces : Int := 0
  m_have_all : Bool := false
  m_receiving_block : Option piece_block := none
  m_recv_buffer : List Nat := []
  m_recv_start : Int := 0
  m_recv_pos : Int := 0
  m_recv_end : Int := 0
  m_packet_size : Int := 0
  m_disk_recv_buffer : Nat := 0
  m_disk_recv_buffer_size : Int := 0
  disconnected : Option (errors × Int) := none
  sent : List message := []
  picker_aborted : List piece_block := []
  picker_marked : List piece_block := []
  disk_jobs : List disk_job := []

/-- `is_disconnecting()`. -/
def peer_connection.is_disconnecting (p : peer_connection) : Bool := p.m_disconnecting

/-- `has_peer_choked()`. -/
def peer_connection.has_peer_choked (p : peer_connection) : Bool := p.m_peer_choked

/-- The test `peer_info_struct() && peer_info_struct()->on_parole`. -/
def peer_connection.on_parole (p : peer_connection) : Bool :=
  match p.m_peer_info with
  | none => false
  | some pi => pi.on_parole

/-- `super_seeded_piece(index)`: the piece is one of the two in
`m_superseed_piece`. -/
def peer_connection.super_seeded_piece (p : peer_connection) (index : Int) : Bool :=
  p.m_superseed_piece.1 == index || p.m_superseed_piece.2 == index

/-- `can_disconnect(ec)`: no extension vetoes. -/
def peer_connection.can_disconnect (p : peer_connection) : Bool := p.m_extensions.can_disconnect

/-- `write_reject_request(r)`. -/
def peer_connection.write_reject_request (p : peer_connection) (r : peer_request) :
    peer_connection :=
  { p with sent := p.sent ++ [message.reject_request r] }

/-- `write_request(r)`. -/
def peer_connection.write_request (p : peer_connection) (r : peer_request) : peer_connection :=
  { p with sent := p.sent ++ [message.request r] }

/-- `write_choke()`. -/
def peer_connection.write_choke (p : peer_connection) : peer_connection :=
  { p with sent := p.sent ++ [message.choke] }

/-- `write_not_interested()`. -/
def peer_connection.write_not_interested (p : peer_connection) : peer_connection :=
  { p with sent := p.sent ++ [message.not_interested] }

/-- `picker.abort_download(block, peer)`. -/
def peer_connection.abort_download (p : peer_connection) (b : piece_block) : peer_connection :=
  { p with picker_aborted := p.picker_aborted ++ [b] }

/-- One round of the loop `while (!m_download_queue.empty())` of `disconnect`,
for the entry `qe` at the back of the queue. -/
def peer_connection.drop_download (p : peer_connection) (qe : pending_block) : peer_connection :=
  let p1 := if !qe.timed_out && !qe.not_wanted then p.abort_download qe.block else p
  let ob := p1.m_outstanding_bytes - (p1.t.to_req qe.block).length
  { p1 with
    m_outstanding_bytes := if ob < 0 then 0 else ob
    m_download_queue := p1.m_download_queue.dropLast }

/-- One round of the loop `while (!m_request_queue.empty())` of `disconnect`. -/
def peer_connection.drop_request (p : peer_connection) (qe : pending_block) : peer_connection :=
  let p1 := if !qe.timed_out && !qe.not_wanted then p.abort_download qe.block else p
  { p1 with m_request_queue := p1.m_request_queue.dropLast }

/-- `peer_connection::disconnect(ec, op, error)`: the entries of the two
queues are taken from the back and given back to the picker, a severity
`error > 0` marks the peer as failed, and the error code and the severity, which
reach the alert, the counters and `close_connection`, are recorded in
`disconnected`.  The operation `op` is `op_bittorrent` at every call embedded
here.  The socket and the send buffer are not modelled. -/
def peer_connection.disconnect (p : peer_connection) (ec : errors) (error : Int) :
    peer_connection :=
  if p.m_disconnecting then p
  else
    let p1 :=
      if p.t.has_picker then
        let p2 := p.m_download_queue.reverse.foldl peer_connection.drop_download p
        p2.m_request_queue.reverse.foldl peer_connection.drop_request p2
      else
        { p with m_download_queue := [], m_request_queue := [], m_outstanding_bytes := 0 }
    { p1 with
      m_queued_time_critical := 0, m_disconnecting := true
      m_failed := if error > 0 then true else p1.m_failed
      disconnected := some (ec, error) }

/-- `peer_connection::disconnect_if_redundant`. -/
def peer_connection.disconnect_if_redundant (p : peer_connection) : peer_connection × Bool :=
  if p.m_disconnecting then (p, false)
  else if !p.m_settings.close_redundant_connections then (p, false)
  else if !p.t.valid_metadata || !p.m_has_metadata then (p, false)
  else if p.t.share_mode then (p, false)
  else if p.m_upload_only && p.t.is_upload_only && p.can_disconnect then
    (p.disconnect errors.upload_upload_connection 0, true)
  else if p.m_upload_only && !p.m_interesting && p.m_bitfield_received
      && p.t.are_files_checked && p.can_disconnect then
    (p.disconnect errors.uninteresting_upload_peer 0, true)
  else (p, false)

/-- `peer_connection::send_not_interested`. -/
def peer_connection.send_not_interested (p : peer_connection) : peer_connection :=
  if !p.m_interesting then p.disconnect_if_redundant.1
  else if !p.t.ready_for_connections then p
  else
    let p1 := ({ p with m_interesting := false }).disconnect_if_redundant.1
    if p1.m_disconnecting then p1 else p1.write_not_interested

/-- `peer_connection::incoming_have_none` (the availability the torrent keeps
per piece is not modelled). -/
def peer_connection.incoming_have_none (p : peer_connection) : peer_connection :=
  if p.m_extensions.on_have_none then p
  else if p.is_disconnecting then p
  else
    let p1 := { p with
      m_bitfield_received := true
      m_have_piece := p.m_have_piece.map (fun _ => false)
      m_num_pieces := 0
      m_has_metadata := true }
    p1.send_not_interested.disconnect_if_redundant.1

/-- `peer_connection::set_endgame`. -/
def peer_connection.set_endgame (p : peer_connection) (b : Bool) : peer_connection :=
  if p.m_endgame_mode == b then p else { p with m_endgame_mode := b }

/-- The loop of `clear_request_queue` over the request queue: each block is
given back to the picker. -/
def peer_connection.abort_all (p : peer_connection) (l : List pending_block) : peer_connection :=
  l.foldl (fun q i => q.abort_download i.block) p

/-- `peer_connection::clear_request_queue`. -/
def peer_connection.clear_request_queue (p : peer_connection) : peer_connection :=
  if !p.t.has_picker then { p with m_request_queue := [] }
  else if p.m_peer_info == none || !p.on_parole then
    { (p.abort_all p.m_request_queue) with m_request_queue := [], m_queued_time_critical := 0 }
  else p

/-- `peer_connection::incoming_choke`. -/
def peer_connection.incoming_choke (p : peer_connection) : peer_connection :=
  if p.m_extensions.on_choke then p
  else if p.is_disconnecting then p
  else (({ p with m_peer_choked := true }).set_endgame false).clear_request_queue

/-- `match_request(r, b, block_size)`. -/
def match_request (r : peer_request) (b : piece_block) (block_size : Int) : Bool :=
  if b.piece_index != r.piece then false
  else if b.block_index != Int.tdiv r.start block_size then false
  else if Int.tmod r.start block_size != 0 then false
  else true

/-- Modelled from the spec: `request_a_block` (request_blocks.cpp is not among
the sources) asks the piece picker for blocks and queues them; `picks` are the
entries it appends to the request queue. -/
def peer_connection.request_a_block (p : peer_connection) (picks : List pending_block) :
    peer_connection :=
  { p with m_request_queue := p.m_request_queue ++ picks }

/-- The expected length of a block as `send_block_requests` computes it. -/
def torrent.block_bytes (t : torrent) (b : piece_block) : Int :=
  min (t.piece_size b.piece_index - b.block_index * t.block_size) t.block_size

/-- The loop of `send_block_requests` that merges the blocks following `block`
in the same piece into the request `r` (`m_request_large_blocks`); it runs over
the request queue and returns what is left of it. -/
def merge_requests (blocks_per_piece : Int) :
    List pending_block → pending_block → peer_request → peer_connection →
      List pending_block × peer_request × peer_connection
  | [], _, r, p => ([], r, p)
  | front :: rest, block, r, p =>
    if front.block.piece_index * blocks_per_piece + front.block.block_index
        != block.block.piece_index * blocks_per_piece + block.block.block_index + 1
    then (front :: rest, r, p)
    else
      let p1 := { p with
        m_download_queue :=
          p.m_download_queue ++ [{ front with send_buffer_offset := p.m_send_buffer_size }]
        m_queued_time_critical :=
          if p.m_queued_time_critical != 0 then p.m_queued_time_critical - 1
          else p.m_queued_time_critical
        m_outstanding_bytes := p.m_outstanding_bytes + p.t.block_bytes front.block }
      merge_requests blocks_per_piece rest front
        { r with length := r.length + p.t.block_bytes front.block } p1

/-- The loop `while (!m_request_queue.empty() && ...)` of `send_block_requests`;
each round takes at least the front of the request queue, so the length of the
queue is enough fuel. -/
def send_request_loop : Nat → peer_connection → peer_connection
  | 0, p => p
  | fuel + 1, p =>
    match p.m_request_queue with
    | [] => p
    | block :: rest =>
      if !(decide ((p.m_download_queue.length : Int) < p.m_desired_queue_size)
          || decide (p.m_queued_time_critical > 0)) then p
      else
        let p1 := { p with
          m_request_queue := rest
          m_queued_time_critical :=
            if p.m_queued_time_critical != 0 then p.m_queued_time_critical - 1
            else p.m_queued_time_critical }
        if !p1.t.has_picker then send_request_loop fuel p1
        else if p1.t.picker_is_finished block.block || p1.t.picker_is_downloaded block.block then
          send_request_loop fuel (p1.abort_download block.block)
        else
          let r : peer_request :=
            { piece := block.block.piece_index
              start := block.block.block_index * p1.t.block_size
              length := p1.t.block_bytes block.block }
          let p2 := { p1 with
            m_download_queue :=
              p1.m_download_queue ++ [{ block with send_buffer_offset := p1.m_send_buffer_size }]
            m_outstanding_bytes := p1.m_outstanding_bytes + p1.t.block_bytes block.block }
          let m :=
            if p2.m_request_large_blocks then
              merge_requests (Int.tdiv p2.t.piece_length p2.t.block_size) p2.m_request_queue
                block r p2
            else (p2.m_request_queue, r, p2)
          let p3 := { m.2.2 with m_request_queue := m.1 }
          if p3.is_disconnecting then p3
          else if p3.m_extensions.write_request m.2.1 then send_request_loop fuel p3
          else send_request_loop fuel (p3.write_request m.2.1)

/-- `peer_connection::send_block_requests`. -/
def peer_connection.send_block_requests (p : peer_connection) : peer_connection :=
  if p.m_disconnecting then p
  else if p.t.graceful_pause && p.m_outstanding_bytes == 0 then
    p.disconnect errors.torrent_paused 0
  else if p.t.state == torrent_state.checking_files
      || p.t.state == torrent_state.checking_resume_data
      || p.t.state == torrent_state.downloading_metadata
      || p.t.state == torrent_state.allocating then p
  else if decide ((p.m_download_queue.length : Int) ≥ p.m_desired_queue_size)
      || p.t.upload_mode then p
  else send_request_loop p.m_request_queue.length p

/-- The part of `incoming_reject_request` that handles the entry of the
download queue the reject matches, if there is one. -/
def peer_connection.reject_matching (p : peer_connection) (r : peer_request) : peer_connection :=
  match p.m_download_queue.find? (fun i => match_request r i.block p.t.block_size) with
  | none => p
  | some b =>
    let remove_from_picker := !b.timed_out && !b.not_wanted
    let ob := p.m_outstanding_bytes - r.length
    let p1 := { p with
      m_download_queue :=
        p.m_download_queue.eraseP (fun i => match_request r i.block p.t.block_size)
      m_outstanding_bytes := if ob < 0 then 0 else ob }
    if p1.on_parole then
      if remove_from_picker then { p1 with m_request_queue := b :: p1.m_request_queue } else p1
    else if !p1.t.is_seed && remove_from_picker then p1.abort_download b.block
    else p1

/-- The part of `incoming_reject_request` that forgets a rejected piece of the
allowed-fast set, when choked, or of the suggested pieces. -/
def peer_connection.reject_forget (p : peer_connection) (r : peer_request) : peer_connection :=
  if p.has_peer_choked then { p with m_allowed_fast := p.m_allowed_fast.erase r.piece }
  else { p with m_suggested_pieces := p.m_suggested_pieces.erase r.piece }

/-- The end of `incoming_reject_request`: with nothing queued and fewer than
two requests outstanding, further blocks are picked and requested. -/
def peer_connection.reject_refill (p : peer_connection) (picks : List pending_block) :
    peer_connection :=
  if p.m_request_queue.isEmpty && decide (p.m_download_queue.length < 2) then
    (p.request_a_block picks).send_block_requests
  else p

/-- `peer_connection::incoming_reject_request(r)`; `picks` is what the piece
picker hands out if `request_a_block` is called. -/
def peer_connection.incoming_reject_request (p : peer_connection) (r : peer_request)
    (picks : List pending_block) : peer_connection :=
  if p.m_extensions.on_reject r then p
  else if p.is_disconnecting then p
  else ((p.reject_matching r).reject_forget r).reject_refill picks

/-- The send buffer watermark `fill_send_buffer` computes from the upload rate
and the settings. -/
def peer_connection.buffer_size_watermark (p : peer_connection) : Int :=
  let w := Int.tdiv (p.m_upload_rate * p.m_settings.send_buffer_watermark_factor) 100
  if w < p.m_settings.send_buffer_low_watermark then p.m_settings.send_buffer_low_watermark
  else if w > p.m_settings.send_buffer_watermark then p.m_settings.send_buffer_watermark
  else w

/-- `t->verifying_piece(piece)`: a hash check of the piece has been started. -/
def peer_connection.verifying_piece (p : peer_connection) (piece : Int) : Bool :=
  p.verifying.contains piece

/-- The loop of `fill_send_buffer` over the upload queue, from the entry `r` at
index `i` on: it returns the entries that stay in the queue.  An entry stays
when the loop goes on to the next index without erasing it (`continue`) or
leaves the function (`return`, or the send buffer has reached the watermark). -/
def fill_send_loop (watermark : Int) :
    List peer_request → peer_connection → List peer_request × peer_connection
  | [], p => ([], p)
  | r :: rs, p =>
    if !decide (p.m_send_buffer_size + p.m_reading_bytes < watermark) then (r :: rs, p)
    else if p.t.is_deleted then
      let x := fill_send_loop watermark rs (p.write_reject_request r)
      (r :: x.1, x.2)
    else if p.t.seed_mode && !p.t.verified_piece r.piece then
      if p.verifying_piece r.piece then
        let x := fill_send_loop watermark rs p
        (r :: x.1, x.2)
      else if p.m_outstanding_piece_verification ≥ 3 then
        let x := fill_send_loop watermark rs p
        (r :: x.1, x.2)
      else
        let p1 := { p with
          m_outstanding_piece_verification := p.m_outstanding_piece_verification + 1 }
        if !p1.t.need_loaded then (r :: rs, p1)
        else
          let x := fill_send_loop watermark rs
            { p1 with
              disk_jobs := p1.disk_jobs ++ [disk_job.async_hash r.piece]
              verifying := r.piece :: p1.verifying }
          (r :: x.1, x.2)
    else if !p.t.has_piece_passed r.piece then
      if p.t.is_predictive_piece r.piece then
        let x := fill_send_loop watermark rs p
        (r :: x.1, x.2)
      else fill_send_loop watermark rs (p.write_reject_request r)
    else
      let p1 := { p with m_reading_bytes := p.m_reading_bytes + r.length }
      if !p1.t.need_loaded then (r :: rs, p1)
      else
        fill_send_loop watermark rs
          { p1 with disk_jobs := p1.disk_jobs ++ [disk_job.async_read r] }

/-- `peer_connection::fill_send_buffer`. -/
def peer_connection.fill_send_buffer (p : peer_connection) : peer_connection :=
  if p.t.is_aborted then p
  else
    let x := fill_send_loop p.buffer_size_watermark p.m_requests p
    { x.2 with m_requests := x.1 }

/-- The test of `incoming_request` that the request is legal and that the peer
may make it. -/
def peer_connection.invalid_request (p : peer_connection) (r : peer_request) : Bool :=
  decide (r.piece < 0)
    || decide (r.piece ≥ p.t.num_pieces)
    || (!p.t.has_piece_passed r.piece && !p.t.is_predictive_piece r.piece && !p.t.seed_mode)
    || decide (r.start < 0)
    || decide (r.start ≥ p.t.piece_size r.piece)
    || decide (r.length ≤ 0)
    || decide (r.length + r.start > p.t.piece_size r.piece)
    || !p.m_peer_interested
    || decide (r.length > p.t.block_size)

/-- The branch of `incoming_request` for a request that fails the test: it is
rejected and counted; every tenth invalid request of a peer that is choked and
not interested is answered with a choke, or with a disconnect. -/
def peer_connection.reject_invalid (p : peer_connection) (r : peer_request) : peer_connection :=
  let p1 := { (p.write_reject_request r) with
    m_num_invalid_requests := p.m_num_invalid_requests + 1 }
  if !p1.m_peer_interested && Int.tmod p1.m_num_invalid_requests 10 == 0 && p1.m_choked then
    if decide (p1.m_num_invalid_requests > 300) && !p1.m_peer_choked && p1.can_disconnect
    then p1.disconnect errors.too_many_requests_when_choked 2
    else p1.write_choke
  else p1

/-- The branch of `incoming_request` for a request that passes the test.
`now` is `time_now()` in seconds. -/
def peer_connection.accept_request (p : peer_connection) (r : peer_request) (now : Int) :
    peer_connection :=
  let fast_idx := p.m_accept_fast.indexOf? r.piece
  let blocks_per_piece := Int.tdiv (p.t.piece_length + p.t.block_size - 1) p.t.block_size
  if p.m_choked && fast_idx.isSome
      && decide (p.m_accept_fast_piece_cnt.getD (fast_idx.getD 0) 0 ≥ 3 * blocks_per_piece)
      && p.can_disconnect then p.disconnect errors.too_many_requests_when_choked 2
  else if p.m_choked && fast_idx.isNone then
    let p1 := p.write_reject_request r
    if decide (now - 2 > p1.m_last_choke) && p1.can_disconnect then
      p1.disconnect errors.too_many_requests_when_choked 2
    else p1
  else
    let p1 :=
      match fast_idx with
      | none => p
      | some i =>
        { p with
          m_accept_fast_piece_cnt :=
            p.m_accept_fast_piece_cnt.set i (p.m_accept_fast_piece_cnt.getD i 0 + 1) }
    ({ p1 with m_requests := p1.m_requests ++ [r] }).fill_send_buffer

/-- The statement `if (!m_bitfield_received) incoming_have_none();` of
`incoming_request`: a missing bitfield counts as have-none. -/
def peer_connection.have_none_if_no_bitfield (p : peer_connection) : peer_connection :=
  if !p.m_bitfield_received then p.incoming_have_none else p

/-- `peer_connection::incoming_request(r)`. -/
def peer_connection.incoming_request (p : peer_connection) (r : peer_request) (now : Int) :
    peer_connection :=
  if p.t.super_seeding && !p.super_seeded_piece r.piece then
    ({ p with m_num_invalid_requests := p.m_num_invalid_requests + 1 }).write_reject_request r
  else
    let p1 := p.have_none_if_no_bitfield
    if p1.is_disconnecting then p1
    else if p1.m_extensions.on_request r then p1
    else if p1.is_disconnecting then p1
    else if !p1.t.valid_metadata then p1.write_reject_request r
    else if decide ((p1.m_requests.length : Int) > p1.m_settings.max_allowed_in_request_queue)
    then p1.write_reject_request r
    else if p1.invalid_request r then p1.reject_invalid r
    else p1.accept_request r now

/-- The sum `check_invariant` computes over the download queue: the expected
length of each block, less `m_received_in_piece` for the first entry. -/
def peer_connection.expected_outstanding_bytes (p : peer_connection) : Int :=
  match p.m_download_queue with
  | [] => 0
  | i :: rest =>
    (if p.m_received_in_piece != 0 then (p.t.to_req i.block).length - p.m_received_in_piece
      else (p.t.to_req i.block).length)
      + (rest.map (fun i => (p.t.to_req i.block).length)).sum

/-- The assertions of `check_invariant` on `m_outstanding_bytes`. -/
def peer_connection.outstanding_bytes_invariant (p : peer_connection) : Prop :=
  p.m_outstanding_bytes ≥ 0
    ∧ (p.t.valid_metadata = true ∧ p.m_disconnecting = false →
        p.m_outstanding_bytes = p.expected_outstanding_bytes)

instance (p : peer_connection) : Decidable p.outstanding_bytes_invariant := by
  unfold peer_connection.outstanding_bytes_invariant; infer_instance

/-- The assertions of `check_invariant` on the queues: a disconnecting peer has
empty queues, the time-critical entries are entries of the request queue, and
no block is queued twice. -/
def peer_connection.queue_invariant (p : peer_connection) : Prop :=
  p.m_queued_time_critical ≤ p.m_request_queue.length
    ∧ (p.m_disconnecting = true → p.m_download_queue = [] ∧ p.m_request_queue = [])
    ∧ ((p.m_download_queue ++ p.m_request_queue).map (fun i => i.block)).Nodup

instance (p : peer_connection) : Decidable p.queue_invariant := by
  unfold peer_connection.queue_invariant; infer_instance

/-- A torrent of 10 pieces of two blocks each, with a piece picker. -/
def torrent_example : torrent :=
  { num_pieces := 10, piece_length := 32768, piece_size := fun _ => 32768
    has_piece_passed := fun _ => true }

/-- Scenario "choke clears the request queue": a peer, not on parole, with the
request queue `[b1, b2, b3]` and the download queue `[b0]`. -/
def choke_example : peer_connection :=
  { t := torrent_example
    m_peer_choked := false
    m_download_queue := [{ block := { piece_index := 0, block_index := 0 } }]
    m_request_queue := [{ block := { piece_index := 0, block_index := 1 } },
                        { block := { piece_index := 1, block_index := 0 } },
                        { block := { piece_index := 1, block_index := 1 } }]
    m_queued_time_critical := 1
    m_outstanding_bytes := 16384 }

/-- Scenario "reject returns block to picker": a peer with the download queue
`[(piece 5, start 0, length 16384)]`. -/
def reject_example : peer_connection :=
  { t := torrent_example
    m_peer_choked := false
    m_download_queue := [{ block := { piece_index := 5, block_index := 0 } }]
    m_outstanding_bytes := 16384 }

/-- A peer that is interested and unchoked, whose upload queue holds one
request while `max_allowed_in_request_queue` is 1, and whose send buffer has
reached the watermark. -/
def upload_example : peer_connection :=
  { t := torrent_example
    m_settings := { max_allowed_in_request_queue := 1 }
    m_choked := false
    m_peer_interested := true
    m_requests := [{ piece := 3, start := 0, length := 16384 }]
    m_send_buffer_size := 1000 }

/-- What the steps of `incoming_request` before the tests leave untouched: the
upload queue, the count of invalid requests, the torrent, the settings, the
extensions, the interest of the peer, and the reject-requests written. -/
structure upload_frame (p q : peer_connection) : Prop where
  requests : q.m_requests = p.m_requests
  invalid : q.m_num_invalid_requests = p.m_num_invalid_requests
  torrent : q.t = p.t
  settings : q.m_settings = p.m_settings
  extensions : q.m_extensions = p.m_extensions
  interested : q.m_peer_interested = p.m_peer_interested
  rejects : ∀ r, q.sent.count (message.reject_request r) = p.sent.count (message.reject_request r)

/-- A peer that is interested and unchoked, with an empty upload queue. -/
def request_example : peer_connection :=
  { t := torrent_example, m_choked := false, m_peer_interested := true }

/-- A request for piece 12 of a torrent of 10 pieces. -/
def bad_request_example : peer_request := { piece := 12, start := 0, length := 16384 }

/-! ## Counting what an eviction frees -/

/-- A slot whose buffer the block loop of `try_evict_blocks` frees: the
negation of its test `b.buf == 0 || b.refcount > 0 || b.dirty || b.pending`. -/
def cached_block_entry.evictable (b : cached_block_entry) : Bool :=
  !(b.buf == 0 || decide (b.refcount > 0) || b.dirty || b.pending)

/-- What the block loop of `try_evict_blocks` may do to a slot: leave it, or
take the buffer of an evictable slot. -/
def slot_emptied (b b2 : cached_block_entry) : Prop :=
  b2 = b ∨ (b.evictable = true ∧ b2 = { b with buf := 0 })

/-- The number of slots of the piece `k` holding a buffer (none for a piece
that is not cached). -/
def block_cache.filled_slots (c : block_cache) (k : piece_key) : Int :=
  match c.find_piece k with
  | none => 0
  | some p => count_filled p.blocks

/-- No slot of the piece `k` is evictable. -/
def block_cache.exhausted (c : block_cache) (k : piece_key) : Prop :=
  ∀ p, c.find_piece k = some p → ∀ b ∈ p.blocks, b.evictable = false

/-- The number of pinned slots (`refcount > 0`). -/
def count_pinned (bs : List cached_block_entry) : Int :=
  (bs.countP (fun b => decide (b.refcount > 0)) : Nat)

/-- The counter `pinned` of every piece is the number of its pinned slots
(`inc_block_refcount` and `dec_block_refcount` move it together with the
transitions of a slot's `refcount` between 0 and 1). -/
def pinned_ok (c : block_cache) : Prop :=
  ∀ p ∈ c.m_pieces, p.pinned = count_pinned p.blocks

instance (c : block_cache) : Decidable (pinned_ok c) := by
  unfold pinned_ok; infer_instance

/-- The relation between the loop state of `try_evict_blocks` at two points of
its run: `num` goes down, by the number of buffers added to `to_delete`, and
so does the read size; the write size and the pool are left alone; a piece
still cached has the slots it had, except for evictable slots that lost their
buffer. -/
structure evict_progress (st st2 : evict_state) : Prop where
  num_nonneg : 0 ≤ st2.num
  num_le : st2.num ≤ st.num
  read_size : st2.c.m_read_cache_size = st.c.m_read_cache_size - (st.num - st2.num)
  write_size : st2.c.m_write_cache_size = st.c.m_write_cache_size
  in_use : st2.c.m_in_use = st.c.m_in_use
  deleted : (st2.to_delete.length : Int) = st.to_delete.length + (st.num - st2.num)
  shrunk : ∀ k p2, st2.c.find_piece k = some p2 →
    ∃ p, st.c.find_piece k = some p ∧ List.Forall₂ slot_emptied p.blocks p2.blocks
      ∧ p2.pinned = p.pinned
  same : st2.num = st.num → ∀ k, st2.c.filled_slots k = st.c.filled_slots k

/-- A step of `try_evict_blocks` on the piece `pk` leaves every other piece as
it is, or erases it when it holds no block (a ghost entry). -/
def kept_except (pk : piece_key) (c c2 : block_cache) : Prop :=
  ∀ k, k ≠ pk → c2.find_piece k = c.find_piece k
    ∨ (c2.find_piece k = none ∧ c.filled_slots k = 0)

/-- The buffers `try_evict_blocks` collects in `to_delete` and hands to
`free_multiple_buffers`: the blocks it frees. -/
def block_cache.evicted_buffers (c : block_cache) (num : Int) (ignore : Option piece_key) :
    List Nat :=
  if num ≤ 0 then []
  else
    (evict_write_list ignore
      (evict_read_lists ignore c.evict_order { c := c, num := num, to_delete := [] })).to_delete

/-- The pieces of the three read lists in the order `try_evict_blocks` visits
them: the volatile list, then `lru_list[1]` and `lru_list[2]`, each from its
front (the least recently used piece). -/
def block_cache.evict_sequence (c : block_cache) : List piece_key :=
  c.m_lru volatile_read_lru ++ c.m_lru c.evict_order.1 ++ c.m_lru c.evict_order.2

/-- The bookkeeping steps of an eviction (`erase_piece`, `move_to_ghost`) on
the piece `pk`, which holds no block: the sizes stay, `pk` keeps its slots or
leaves the cache, the other pieces stay or are erased as ghost entries, and
only the list of `pk` and the ghost lists change. -/
structure relinked (pk : piece_key) (c c2 : block_cache) : Prop where
  read_size : c2.m_read_cache_size = c.m_read_cache_size
  write_size : c2.m_write_cache_size = c.m_write_cache_size
  in_use : c2.m_in_use = c.m_in_use
  others : kept_except pk c c2
  self : ∀ p2, c2.find_piece pk = some p2 →
    ∃ p, c.find_piece pk = some p ∧ p2.blocks = p.blocks ∧ p2.pinned = p.pinned
  empty : c2.find_piece pk = none → c.filled_slots pk = 0
  lists : ∀ j, c.state_of pk ≠ some j →
    j ≠ read_lru1_ghost → j ≠ read_lru2_ghost → c2.m_lru j = c.m_lru j

/-- A cache with one piece in each of the volatile list, `read_lru1` and
`read_lru2`, each holding one clean block, after a ghost hit in list 1. -/
def order_example : block_cache :=
  { m_pieces := [{ storage := 1, piece := 0, blocks := [{ buf := 21 }], num_blocks := 1
                   cache_state := volatile_read_lru, in_storage := true },
                 { storage := 1, piece := 1, blocks := [{ buf := 22 }], num_blocks := 1
                   cache_state := read_lru1, in_storage := true },
                 { storage := 1, piece := 2, blocks := [{ buf := 23 }], num_blocks := 1
                   cache_state := read_lru2, in_storage := true }]
    m_lru := lru_set (lru_set (lru_set (fun _ => []) volatile_read_lru [(1, 0)])
      read_lru1 [(1, 1)]) read_lru2 [(1, 2)]
    m_last_cache_op := ghost_hit_lru1
    m_read_cache_size := 3, m_in_use := 3 }

/-- A cache holding one piece in the volatile list, last requested by `100`,
with one clean block. -/
def volatile_example : block_cache :=
  { m_pieces := [{ storage := 1, piece := 0, last_requester := 100
                   blocks := [{ buf := 21 }], num_blocks := 1
                   cache_state := volatile_read_lru, in_storage := true }]
    m_lru := lru_set (fun _ => []) volatile_read_lru [(1, 0)]
    m_read_cache_size := 1, m_in_use := 1 }

/-- The value of `num_blocks` of the piece `pk`, 0 when the piece is not
cached. -/
def block_cache.num_blocks_of (c : block_cache) (pk : piece_key) : Int :=
  match c.find_piece pk with
  | none => 0
  | some p => p.num_blocks

/-- A write job for block 0 of piece 7 of storage 1, the piece that
`promotion_example` holds in `read_lru1`, with buffer 41. -/
def read_piece_job_example : disk_io_job :=
  { id := 10, storage := 1, piece := 7, offset := 0, buffer_size := 16384, buffer := 41
    piece_size := 32768 }

/-! ## The wire protocol (`bt_peer_connection.cpp`, branch `libtorrent_asio`)

The connection is a record of the members the framer, the handshake and the
message handlers read and write.  Bytes are natural numbers below 256.  The
receive buffer holds the bytes received for the current packet
(`receive_buffer()` is the range `[0, m_recv_pos)`), the send buffer the bytes
written so far.  A `throw`, which makes the session close the connection, is
`Except.error`.  The calls into the base class (`incoming_choke` and the
like) are appended to the log `incoming`.  Statistics and log output are left
out. -/

/-- `bt_peer_connection::state`. -/
abbrev read_protocol_length : Nat := 0

/-- See `read_protocol_length`. -/
abbrev read_protocol_string : Nat := 1

/-- See `read_protocol_length`. -/
abbrev read_info_hash : Nat := 2

/-- See `read_protocol_length`. -/
abbrev read_peer_id : Nat := 3

/-- See `read_protocol_length`. -/
abbrev read_packet_size : Nat := 4

/-- See `read_protocol_length`. -/
abbrev read_packet : Nat := 5

/-- `bt_peer_connection::message_type`. -/
abbrev msg_choke : Nat := 0

/-- See `msg_choke`. -/
abbrev msg_unchoke : Nat := 1

/-- See `msg_choke`. -/
abbrev msg_interested : Nat := 2

/-- See `msg_choke`. -/
abbrev msg_not_interested : Nat := 3

/-- See `msg_choke`. -/
abbrev msg_have : Nat := 4

/-- See `msg_choke`. -/
abbrev msg_bitfield : Nat := 5

/-- See `msg_choke`. -/
abbrev msg_request : Nat := 6

/-- See `msg_choke`. -/
abbrev msg_piece : Nat := 7

/-- See `msg_choke`. -/
abbrev msg_cancel : Nat := 8

/-- See `msg_choke`. -/
abbrev msg_dht_port : Nat := 9

/-- See `msg_choke`. -/
abbrev msg_extended : Nat := 20

/-- See `msg_choke`. -/
abbrev num_supported_messages : Nat := 21

/-- The string literal `"BitTorrent protocol"` as a `char` array: 19
characters and the terminating zero. -/
def protocol_string : List Nat :=
  [66, 105, 116, 84, 111, 114, 114, 101, 110, 116, 32, 112, 114, 111, 116, 111, 99, 111, 108, 0]

/-- The string literal `"version"` as a `char` array. -/
def version_cmd : List Nat := [118, 101, 114, 115, 105, 111, 110, 0]

/-- A `char` of the receive buffer converted to `int`.  `char` is signed on
the platforms the library is built for: the bytes from 128 on are negative. -/
def char_to_int (b : Nat) : Int := if b < 128 then (b : Int) else (b : Int) - 256

/-- The element `i` of a buffer (`recv_buffer[i]`, `*ptr`). -/
def buffer_at (bs : List Nat) (i : Nat) : Nat := bs.getD i 0

/-- Modelled from the spec: `detail::read_uint8` of `io.hpp`, which is not
among the sources: one byte, unsigned. -/
def read_uint8 (bs : List Nat) (off : Nat) : Int := (buffer_at bs off : Nat)

/-- Modelled from the spec: `detail::read_uint16` of `io.hpp`: two bytes,
big-endian, unsigned. -/
def read_uint16 (bs : List Nat) (off : Nat) : Int :=
  (buffer_at bs off * 256 + buffer_at bs (off + 1) : Nat)

/-- The four bytes from `off` on as a big-endian unsigned number. -/
def read_uint32 (bs : List Nat) (off : Nat) : Nat :=
  ((buffer_at bs off * 256 + buffer_at bs (off + 1)) * 256 + buffer_at bs (off + 2)) * 256
    + buffer_at bs (off + 3)

/-- Modelled from the spec: `detail::read_int32` of `io.hpp`: four bytes,
big-endian, as a signed 32-bit integer. -/
def read_int32 (bs : List Nat) (off : Nat) : Int :=
  if read_uint32 bs off < 2147483648 then (read_uint32 bs off : Int)
  else (read_uint32 bs off : Int) - 4294967296

/-- Modelled from the spec: `detail::write_int32` of `io.hpp`: the 32-bit
two's complement of the value, most significant byte first. -/
def write_int32 (v : Int) : List Nat :=
  [(v % 4294967296).toNat / 16777216 % 256, (v % 4294967296).toNat / 65536 % 256,
   (v % 4294967296).toNat / 256 % 256, (v % 4294967296).toNat % 256]

/-- `std::equal(first, last, other)`: the range is compared with as many
elements of `other`.  The comparison stops at the first difference; when the
range agrees with all of `other` and is longer, the call reads past the end of
`other` and has no defined result. -/
def std_equal (range other : List Nat) : Option Bool :=
  if range.length ≤ other.length then some (range == other.take range.length)
  else if range.take other.length == other then none
  else some false

/-- The calls of the handlers of the base class `peer_connection` that the
message handlers end in.  `extended` stands for the dispatch of `on_extended`
on the extended message id; the handlers behind it are not embedded. -/
inductive incoming_call where
  | keepalive
  | choke
  | unchoke
  | interested
  | not_interested
  | have (index : Int)
  | bitfield (bits : List Bool)
  | request (r : peer_request)
  | piece (r : peer_request) (data : List Nat)
  | cancel (r : peer_request)
  | dht_port (listen_port : Int)
  | extended (extended_id : Int)
deriving DecidableEq, Repr

/-- What the connection reads of the torrent it is attached to: the info-hash
and the number of pieces of `torrent_file()`, `valid_metadata()` and the
bitfield `pieces()`. -/
structure attached_torrent where
  info_hash : List Nat := []
  valid_metadata : Bool := true
  num_pieces : Int := 0
  pieces : List Bool := []
deriving DecidableEq, Repr

/-- The members of `bt_peer_connection` and of its base class that the wire
protocol uses.  `m_torrent` is `associated_torrent()`, `m_have_piece` is
`get_bitfield()`, `m_peer_id` is `id()`; `ses_peer_id`, `ses_extensions_enabled`
and `ses_torrents` are the peer-id, `extensions_enabled()` and the torrents of
the session, `ses_extension_enabled` is its array `m_extension_enabled`,
`ses_listen_port` is `m_listen_interface.port()` and `ses_user_agent` is
`m_http_settings.user_agent`. -/
structure bt_peer_connection where
  m_state : Nat := read_protocol_length
  m_recv_buffer : List Nat := []
  m_packet_size : Int := 1
  m_send_buffer : List Nat := []
  m_supports_extensions : Bool := false
  m_torrent : Option attached_torrent := none
  m_have_piece : List Bool := []
  m_peer_id : List Nat := []
  ses_peer_id : List Nat := []
  ses_extensions_enabled : Bool := true
  ses_extension_enabled : List Bool := [false, true, true, true]
  ses_listen_port : Int := 0
  ses_user_agent : List Nat := []
  ses_torrents : List attached_torrent := []
  incoming : List incoming_call := []
deriving DecidableEq, Repr

/-- Modelled from the spec: `peer_connection::packet_finished` of the base
class, whose source in this branch is not among the sources: the bytes
received reach the expected size of the packet. -/
def bt_peer_connection.packet_finished (c : bt_peer_connection) : Bool :=
  decide (c.m_packet_size ≤ c.m_recv_buffer.length)

/-- Modelled from the spec: `peer_connection::reset_recv_buffer` of the base
class: the receive position goes back to zero and the next packet is expected
to have `packet_size` bytes. -/
def bt_peer_connection.reset_recv_buffer (c : bt_peer_connection) (packet_size : Int) :
    bt_peer_connection :=
  { c with m_recv_buffer := [], m_packet_size := packet_size }

/-- A call of a handler of the base class. -/
def bt_peer_connection.call (c : bt_peer_connection) (e : incoming_call) : bt_peer_connection :=
  { c with incoming := c.incoming ++ [e] }

/-- `bt_peer_connection::on_choke`. -/
def bt_peer_connection.on_choke (c : bt_peer_connection) : Except String bt_peer_connection :=
  if c.m_packet_size ≠ 1 then Except.error "choke message size != 1"
  else if !c.packet_finished then Except.ok c
  else Except.ok (c.call incoming_call.choke)

/-- `bt_peer_connection::on_unchoke`. -/
def bt_peer_connection.on_unchoke (c : bt_peer_connection) : Except String bt_peer_connection :=
  if c.m_packet_size ≠ 1 then Except.error "unchoke message size != 1"
  else if !c.packet_finished then Except.ok c
  else Except.ok (c.call incoming_call.unchoke)

/-- `bt_peer_connection::on_interested`. -/
def bt_peer_connection.on_interested (c : bt_peer_connection) :
    Except String bt_peer_connection :=
  if c.m_packet_size ≠ 1 then Except.error "interested message size != 1"
  else if !c.packet_finished then Except.ok c
  else Except.ok (c.call incoming_call.interested)

/-- `bt_peer_connection::on_not_interested`. -/
def bt_peer_connection.on_not_interested (c : bt_peer_connection) :
    Except String bt_peer_connection :=
  if c.m_packet_size ≠ 1 then Except.error "not interested message size != 1"
  else if !c.packet_finished then Except.ok c
  else Except.ok (c.call incoming_call.not_interested)

/-- `bt_peer_connection::on_have`. -/
def bt_peer_connection.on_have (c : bt_peer_connection) : Except String bt_peer_connection :=
  if c.m_packet_size ≠ 5 then Except.error "have message size != 5"
  else if !c.packet_finished then Except.ok c
  else Except.ok (c.call (incoming_call.have (read_int32 c.m_recv_buffer 1)))

/-- The bit `i` of a bitfield payload that starts at `off`:
`(recv_buffer[off + (i>>3)] & (1 << (7 - (i&7)))) != 0`. -/
def bit_at (bs : List Nat) (off i : Nat) : Bool :=
  (buffer_at bs (off + i / 8) &&& (1 <<< (7 - i % 8))) != 0

/-- `bt_peer_connection::on_bitfield`.  Without an associated torrent (which the
function asserts) the size check is skipped. -/
def bt_peer_connection.on_bitfield (c : bt_peer_connection) : Except String bt_peer_connection :=
  let valid := match c.m_torrent with
    | some t => t.valid_metadata
    | none => false
  if valid && c.m_packet_size - 1 ≠ ((c.m_have_piece.length : Int) + 7) / 8 then
    Except.error "bitfield with invalid size"
  else if !c.packet_finished then Except.ok c
  else
    let size := if !valid then ((c.m_packet_size - 1) * 8).toNat else c.m_have_piece.length
    Except.ok (c.call (incoming_call.bitfield
      ((List.range size).map (fun i => bit_at c.m_recv_buffer 1 i))))

/-- `bt_peer_connection::on_request`. -/
def bt_peer_connection.on_request (c : bt_peer_connection) : Except String bt_peer_connection :=
  if c.m_packet_size ≠ 13 then Except.error "request message size != 13"
  else if !c.packet_finished then Except.ok c
  else Except.ok (c.call (incoming_call.request
    { piece := read_int32 c.m_recv_buffer 1, start := read_int32 c.m_recv_buffer 5
      length := read_int32 c.m_recv_buffer 9 }))

/-- `bt_peer_connection::on_piece`.  There is no test of the packet size; the
header fields are read from the bytes 1 to 8 of the buffer whatever it
holds. -/
def bt_peer_connection.on_piece (c : bt_peer_connection) : Except String bt_peer_connection :=
  if !c.packet_finished then Except.ok c
  else Except.ok (c.call (incoming_call.piece
    { piece := read_int32 c.m_recv_buffer 1, start := read_int32 c.m_recv_buffer 5
      length := c.m_packet_size - 9 } (c.m_recv_buffer.drop 9)))

/-- `bt_peer_connection::on_cancel`. -/
def bt_peer_connection.on_cancel (c : bt_peer_connection) : Except String bt_peer_connection :=
  if c.m_packet_size ≠ 13 then Except.error "cancel message size != 13"
  else if !c.packet_finished then Except.ok c
  else Except.ok (c.call (incoming_call.cancel
    { piece := read_int32 c.m_recv_buffer 1, start := read_int32 c.m_recv_buffer 5
      length := read_int32 c.m_recv_buffer 9 }))

/-- `bt_peer_connection::on_dht_port`. -/
def bt_peer_connection.on_dht_port (c : bt_peer_connection) : Except String bt_peer_connection :=
  if c.m_packet_size ≠ 3 then Except.error "dht_port message size != 3"
  else if !c.packet_finished then Except.ok c
  else Except.ok (c.call (incoming_call.dht_port (read_uint16 c.m_recv_buffer 1)))

/-- `bt_peer_connection::on_extended`, up to its dispatch on the extended
message id. -/
def bt_peer_connection.on_extended (c : bt_peer_connection) : Except String bt_peer_connection :=
  if c.m_packet_size < 2 then Except.error "extended message smaller than 2 bytes"
  else if c.m_torrent.isNone then Except.error "extended message sent before proper handshake"
  else if c.m_recv_buffer.length < 2 then Except.ok c
  else Except.ok (c.call (incoming_call.extended (read_uint8 c.m_recv_buffer 1)))

/-- The table `m_message_handler`: the handler of each message id below
`num_supported_messages`, none for the ids 10 to 19. -/
def m_message_handler :
    List (Option (bt_peer_connection → Except String bt_peer_connection)) :=
  [some bt_peer_connection.on_choke, some bt_peer_connection.on_unchoke,
   some bt_peer_connection.on_interested, some bt_peer_connection.on_not_interested,
   some bt_peer_connection.on_have, some bt_peer_connection.on_bitfield,
   some bt_peer_connection.on_request, some bt_peer_connection.on_piece,
   some bt_peer_connection.on_cancel, some bt_peer_connection.on_dht_port,
   none, none, none, none, none, none, none, none, none, none,
   some bt_peer_connection.on_extended]

/-- `bt_peer_connection::dispatch_message`: the connection afterwards and the
returned flag. -/
def bt_peer_connection.dispatch_message (c : bt_peer_connection) :
    Except String (bt_peer_connection × Bool) :=
  if c.m_torrent.isNone then Except.ok (c, false)
  else
    let packet_type := char_to_int (buffer_at c.m_recv_buffer 0)
    if packet_type < 0 || packet_type ≥ num_supported_messages then
      Except.error "unknown message id"
    else
      match m_message_handler.getD packet_type.toNat none with
      | none => Except.error "unknown message id"
      | some handler =>
        match handler c with
        | Except.error e => Except.error e
        | Except.ok c1 => Except.ok (c1, c1.packet_finished)

/-- `bt_peer_connection::write_handshake`. -/
def bt_peer_connection.write_handshake (c : bt_peer_connection) : bt_peer_connection :=
  let string_len := protocol_string.length - 1
  let reserved := ((List.replicate 8 0).set 7 1).set 5 16
  let ih := match c.m_torrent with
    | some t => t.info_hash
    | none => []
  { c with
    m_send_buffer := c.m_send_buffer ++ [string_len] ++ protocol_string.take string_len
      ++ reserved ++ ih ++ c.ses_peer_id }

/-- `bt_peer_connection::write_request`. -/
def bt_peer_connection.write_request (c : bt_peer_connection) (r : peer_request) :
    bt_peer_connection :=
  { c with
    m_send_buffer := c.m_send_buffer ++ [0, 0, 0, 13, msg_request] ++ write_int32 r.piece
      ++ write_int32 r.start ++ write_int32 r.length }

/-- `bt_peer_connection::write_cancel`. -/
def bt_peer_connection.write_cancel (c : bt_peer_connection) (r : peer_request) :
    bt_peer_connection :=
  { c with
    m_send_buffer := c.m_send_buffer ++ [0, 0, 0, 13, msg_cancel] ++ write_int32 r.piece
      ++ write_int32 r.start ++ write_int32 r.length }

/-- `bt_peer_connection::write_have`. -/
def bt_peer_connection.write_have (c : bt_peer_connection) (index : Int) : bt_peer_connection :=
  { c with m_send_buffer := c.m_send_buffer ++ [0, 0, 0, 5, msg_have] ++ write_int32 index }

/-- The statement `i.begin[c >> 3] |= 1 << (7 - (c & 7))` of `write_bitfield`. -/
def set_bit (bytes : List Nat) (i : Nat) : List Nat :=
  bytes.set (i / 8) (buffer_at bytes (i / 8) ||| (1 <<< (7 - i % 8)))

/-- The payload `write_bitfield` builds: `(size + 7) / 8` zero bytes in which
the loop over the bitfield sets the bit of every piece that is there. -/
def bitfield_payload (bitfield : List Bool) : List Nat :=
  (List.range bitfield.length).foldl
    (fun bytes i => if bitfield.getD i false then set_bit bytes i else bytes)
    (List.replicate ((bitfield.length + 7) / 8) 0)

/-- `bt_peer_connection::write_bitfield`. -/
def bt_peer_connection.write_bitfield (c : bt_peer_connection) (bitfield : List Bool) :
    bt_peer_connection :=
  let num_pieces := match c.m_torrent with
    | some t => t.num_pieces
    | none => 0
  if num_pieces == 0 then c
  else
    let packet_size : Int := ((bitfield.length : Int) + 7) / 8 + 5
    { c with
      m_send_buffer := c.m_send_buffer ++ write_int32 (packet_size - 4) ++ [msg_bitfield]
        ++ bitfield_payload bitfield }

/-- Modelled from the spec: `peer_connection::attach_to_torrent` of the base
class: the torrent of the session with the info-hash of the handshake, if
there is one. -/
def bt_peer_connection.attach_to_torrent (c : bt_peer_connection) (info_hash : List Nat) :
    Except String bt_peer_connection :=
  match c.ses_torrents.find? (fun t => t.info_hash == info_hash) with
  | none => Except.error "got info-hash that is not in our session"
  | some t => Except.ok { c with m_torrent := some t }

/-- `bt_peer_connection::on_receive`, called when bytes have arrived in the
receive buffer. -/
def bt_peer_connection.on_receive (c : bt_peer_connection) (error : Bool) :
    Except String bt_peer_connection :=
  if error then Except.ok c
  else if c.m_state == read_protocol_length then
    if !c.packet_finished then Except.ok c
    else
      let packet_size := char_to_int (buffer_at c.m_recv_buffer 0)
      if packet_size > 100 || packet_size ≤ 0 then Except.error "incorrect protocol length"
      else Except.ok ({ c with m_state := read_protocol_string }.reset_recv_buffer packet_size)
  else if c.m_state == read_protocol_string then
    if !c.packet_finished then Except.ok c
    else
      match std_equal c.m_recv_buffer protocol_string with
      | none => Except.error "undefined: read past the end of protocol_string"
      | some false =>
        if c.m_recv_buffer.length == 7 && std_equal c.m_recv_buffer version_cmd == some true then
          Except.error "closing"
        else Except.error "got invalid protocol name"
      | some true => Except.ok ({ c with m_state := read_info_hash }.reset_recv_buffer 28)
  else if c.m_state == read_info_hash then
    if !c.packet_finished then Except.ok c
    else
      let c1 := if (buffer_at c.m_recv_buffer 5 &&& 16) != 0 && c.ses_extensions_enabled
        then { c with m_supports_extensions := true } else c
      match c1.m_torrent with
      | none =>
        match c1.attach_to_torrent ((c1.m_recv_buffer.drop 8).take 20) with
        | Except.error e => Except.error e
        | Except.ok c2 =>
          let pieces := match c2.m_torrent with
            | some t => t.pieces
            | none => []
          Except.ok ({ (c2.write_handshake.write_bitfield pieces) with
            m_state := read_peer_id }.reset_recv_buffer 20)
      | some t =>
        if (c1.m_recv_buffer.drop 8).take 20 != t.info_hash then
          Except.error "invalid info-hash in handshake"
        else Except.ok ({ c1 with m_state := read_peer_id }.reset_recv_buffer 20)
  else if c.m_state == read_peer_id then
    if !c.packet_finished then Except.ok c
    else
      let pid := c.m_recv_buffer.take 20
      if pid == c.ses_peer_id then Except.error "closing connection to ourself"
      else Except.ok ({ c with m_peer_id := pid, m_state := read_packet_size }.reset_recv_buffer 4)
  else if c.m_state == read_packet_size then
    if !c.packet_finished then Except.ok c
    else
      let packet_size := read_int32 c.m_recv_buffer 0
      if packet_size > 1024 * 1024 || packet_size < 0 then Except.error "packet > 1 MB"
      else if packet_size == 0 then
        Except.ok ({ (c.call incoming_call.keepalive) with
          m_state := read_packet_size }.reset_recv_buffer 4)
      else Except.ok ({ c with m_state := read_packet }.reset_recv_buffer packet_size)
  else if c.m_state == read_packet then
    match c.dispatch_message with
    | Except.error e => Except.error e
    | Except.ok (c1, true) => Except.ok ({ c1 with m_state := read_packet_size }.reset_recv_buffer 4)
    | Except.ok (c1, false) => Except.ok c1
  else Except.ok c

/-- The values of an `int` (32 bits). -/
def in_int32 (v : Int) : Prop := -2147483648 ≤ v ∧ v < 2147483648

instance (v : Int) : Decidable (in_int32 v) := by
  unfold in_int32; infer_instance

/-- `peer_connection::incoming_allowed_fast(index)`.  The call of
`t->peer_is_interesting(*this)` at its end belongs to `torrent.cpp`, which is
not among the sources; it asks for blocks and does not write to the
allowed-fast list, and is left out. -/
def peer_connection.incoming_allowed_fast (p : peer_connection) (index : Int) :
    peer_connection :=
  if p.m_extensions.on_allowed_fast index then p
  else if p.is_disconnecting then p
  else if index < 0 then p
  else if p.t.valid_metadata && decide (index ≥ (p.m_have_piece.length : Int)) then p
  else if p.t.valid_metadata && p.t.have_piece index then p
  else { p with m_allowed_fast := p.m_allowed_fast ++ [index] }

/-- The constant `min_request_queue`. -/
abbrev min_request_queue : Int := 2

/-- The value of a 32-bit `int` computation whose mathematical result is `x`:
the two's complement representative of `x` modulo `2^32` (what the machine
leaves when a signed operation overflows). -/
def wrap_int32 (x : Int) : Int := (x + 2147483648) % 4294967296 - 2147483648

/-- Modelled from the spec: the conversion of an `int` to the type of the
member `m_desired_queue_size`.  The member is declared in `peer_connection.hpp`,
which is not among the sources; the source casts it to `int` where it prints
it, as it does for members narrower than `int`.  The type has `bits` bits and
is signed or not; the conversion keeps the value modulo `2^bits`.  With
`signed` and 32 bits the type is `int` and the conversion changes nothing. -/
def narrow (signed : Bool) (bits : Nat) (v : Int) : Int :=
  if signed then (v + 2 ^ (bits - 1)) % 2 ^ bits - 2 ^ (bits - 1) else v % 2 ^ bits

/-- `peer_connection::update_desired_queue_size`.  The product `queue_time *
download_rate` and the quotient are computed in `int`; the assignments to
`m_desired_queue_size` convert to the type of the member, which `signed` and
`bits` describe. -/
def peer_connection.update_desired_queue_size (p : peer_connection) (signed : Bool)
    (bits : Nat) : peer_connection :=
  if p.m_snubbed then { p with m_desired_queue_size := 1 }
  else
    let download_rate := p.download_payload_rate
    let queue_time := p.m_settings.request_queue_time
    let block_size := p.t.block_size
    let q := narrow signed bits (Int.tdiv (wrap_int32 (queue_time * download_rate)) block_size)
    let q1 :=
      if q > p.m_max_out_request_queue then narrow signed bits p.m_max_out_request_queue else q
    let q2 := if q1 < min_request_queue then min_request_queue else q1
    { p with m_desired_queue_size := q2 }

/-- The value the specification gives for the queue size: `clamp(v, lo, hi)`,
never below `lo`. -/
def clamp (v lo hi : Int) : Int := max lo (min v hi)

/-- The queue size in the words of the specification: `clamp(request_queue_time
× download_rate / block_size, min_request_queue, max_out_request_queue)` with
integer division. -/
def peer_connection.spec_queue_size (p : peer_connection) : Int :=
  clamp (Int.tdiv (p.m_settings.request_queue_time * p.download_payload_rate) p.t.block_size)
    min_request_queue p.m_max_out_request_queue

/-- Modelled from the spec: the request flags are declared in
`peer_connection.hpp`, which is not among the sources; each is one bit. -/
abbrev req_time_critical : Nat := 1

/-- Modelled from the spec: see `req_time_critical`. -/
abbrev req_busy : Nat := 2

/-- `peer_connection::peer_speed`: classifies the peer by its download rate
and stores the class in `m_speed`. -/
def peer_connection.peer_speed (p : peer_connection) : peer_connection :=
  let download_rate := p.download_payload_rate
  let torrent_download_rate := p.t.download_payload_rate
  if download_rate > 512 && download_rate > Int.tdiv torrent_download_rate 16 then
    { p with m_speed := peer_speed_t.fast }
  else if download_rate > 4096 && download_rate > Int.tdiv torrent_download_rate 64 then
    { p with m_speed := peer_speed_t.medium }
  else if download_rate < Int.tdiv torrent_download_rate 15
      && p.m_speed == peer_speed_t.fast then
    { p with m_speed := peer_speed_t.medium }
  else { p with m_speed := peer_speed_t.slow }

/-- `peer_connection::add_request(block, flags)`: the peer afterwards and the
returned flag.  The calls of `picker.mark_as_downloading` are appended to
`picker_marked`; its answer is the torrent's `picker_mark_as_downloading`. -/
def peer_connection.add_request (p : peer_connection) (block : piece_block) (flags : Nat) :
    peer_connection × Bool :=
  if p.t.upload_mode then (p, false)
  else if p.m_disconnecting then (p, false)
  else
    let p0 := p.peer_speed
    if (flags &&& req_busy != 0) && !(flags &&& req_time_critical != 0)
        && (p0.m_download_queue.any (fun i => i.busy)
          || p0.m_request_queue.any (fun i => i.busy)) then (p0, false)
    else
      let p1 := { p0 with picker_marked := p0.picker_marked ++ [block] }
      if !p1.t.picker_mark_as_downloading block then (p1, false)
      else
        let pb : pending_block := { block := block, busy := flags &&& req_busy != 0 }
        if flags &&& req_time_critical != 0 then
          ({ p1 with
              m_request_queue := p1.m_request_queue.insertIdx p1.m_queued_time_critical.toNat pb
              m_queued_time_critical := p1.m_queued_time_critical + 1 }, true)
        else ({ p1 with m_request_queue := p1.m_request_queue ++ [pb] }, true)

/-- `peer_connection::has_piece(i)`: bit `i` of the bitfield the peer has sent. -/
def peer_connection.has_piece (p : peer_connection) (i : Int) : Bool :=
  p.m_have_piece.getD i.toNat false

/-- Modelled from the spec: `upload_only()` is defined in `peer_connection.hpp`,
which is not among the sources; it reads the member `m_upload_only`. -/
def peer_connection.upload_only (p : peer_connection) : Bool := p.m_upload_only

/-- `write_allow_fast(piece)`. -/
def peer_connection.write_allow_fast (p : peer_connection) (piece : Int) : peer_connection :=
  { p with sent := p.sent ++ [message.allow_fast piece] }

/-- What `send_allowed_set` does for a piece it offers: the message is
written and the piece and its hit counter are appended. -/
def peer_connection.accept_fast (p : peer_connection) (piece : Int) : peer_connection :=
  { (p.write_allow_fast piece) with
    m_accept_fast := p.m_accept_fast ++ [piece]
    m_accept_fast_piece_cnt := p.m_accept_fast_piece_cnt ++ [0] }

/-- The body of the loop `for (int i = 0; i < num_pieces; ++i)` of
`send_allowed_set`, in the case of a torrent with no more pieces than the
allowed-fast set may hold. -/
def peer_connection.offer_piece (p : peer_connection) (i : Nat) : peer_connection :=
  if p.has_piece i then p else p.accept_fast i

/-- The conversion of an `int` to `unsigned int`. -/
def to_uint32 (x : Int) : Nat := (x % 4294967296).toNat

/-- The loop `for (int i = 0; i < 5; ++i)` of `send_allowed_set` over the words
of the digest, from word `i` on: the peer afterwards and whether the function
returns; `none` when the remainder is taken modulo 0. -/
def allowed_set_scan (num_allowed_pieces num_pieces : Int) (hash : List Nat) :
    List Nat → peer_connection → Option (peer_connection × Bool)
  | [], p => some (p, false)
  | i :: rest, p =>
    if to_uint32 num_pieces = 0 then none
    else
      let piece := wrap_int32 (read_uint32 hash (4 * i) % to_uint32 num_pieces : Nat)
      if p.m_accept_fast.contains piece then
        allowed_set_scan num_allowed_pieces num_pieces hash rest p
      else
        let p1 := p.accept_fast piece
        if decide ((p1.m_accept_fast.length : Int) ≥ num_allowed_pieces)
            || decide ((p1.m_accept_fast.length : Int) = num_pieces) then some (p1, true)
        else allowed_set_scan num_allowed_pieces num_pieces hash rest p1

/-- The loop `for (;;)` of `send_allowed_set`: each round scans the five words
of the digest and replaces the digest by its own digest.  `none` when the
function does not return within `fuel` rounds or stops on a division by zero. -/
def allowed_set_loop (hasher : List Nat → List Nat) (num_allowed_pieces num_pieces : Int) :
    Nat → List Nat → peer_connection → Option peer_connection
  | 0, _, _ => none
  | fuel + 1, hash, p =>
    match allowed_set_scan num_allowed_pieces num_pieces hash [0, 1, 2, 3, 4] p with
    | none => none
    | some (p1, true) => some p1
    | some (p1, false) => allowed_set_loop hasher num_allowed_pieces num_pieces fuel (hasher hash) p1

/-- `peer_connection::send_allowed_set`.  Modelled from the spec: `hasher`
(`hasher.hpp` is not among the sources) computes the SHA-1 digest of a byte
string, 20 bytes; it enters as a parameter.  `m_remote` holds the bytes of the
remote address (4 for IPv4, 16 for IPv6). -/
def peer_connection.send_allowed_set (p : peer_connection) (hasher : List Nat → List Nat)
    (fuel : Nat) : Option peer_connection :=
  if p.t.super_seeding then some p
  else if p.upload_only then some p
  else
    let num_allowed_pieces := p.m_settings.allowed_fast_set_size
    if num_allowed_pieces == 0 then some p
    else
      let num_pieces := p.t.num_pieces
      if num_allowed_pieces ≥ num_pieces then
        some ((List.range num_pieces.toNat).foldl peer_connection.offer_piece p)
      else
        allowed_set_loop hasher num_allowed_pieces num_pieces fuel
          (hasher (p.m_remote ++ p.t.info_hash.take 20)) p

/-- A peer downloading 800,000,000 bytes a second with the default
`request_queue_time` of 3 seconds, blocks of 16 KiB and at most 200 outstanding
requests. -/
def overflow_example : peer_connection :=
  { t := torrent_example, download_payload_rate := 800000000 }

/-- A peer downloading 1,431,655,766 bytes a second, with the same settings:
three times the rate is `2^32 + 2`. -/
def wrapped_rate_example : peer_connection :=
  { t := torrent_example, download_payload_rate := 1431655766 }

/-- A peer downloading 357,913,942 bytes a second, with the same settings: the
queue size of the formula before the limits is 65536. -/
def fast_peer_example : peer_connection :=
  { t := torrent_example, download_payload_rate := 357913942 }

/-- A peer the remote has choked, with ten pieces in its bitfield and an empty
allowed-fast list. -/
def allowed_fast_example : peer_connection :=
  { t := torrent_example, m_peer_choked := true
    m_have_piece := List.replicate 10 true }

/-- A peer with one busy block in its download queue and two entries in its
request queue, the first of them time critical. -/
def busy_example : peer_connection :=
  { t := torrent_example
    m_peer_choked := false
    m_download_queue := [{ block := { piece_index := 0, block_index := 0 }, busy := true }]
    m_request_queue := [{ block := { piece_index := 1, block_index := 0 } },
                        { block := { piece_index := 1, block_index := 1 } }]
    m_queued_time_critical := 1
    m_outstanding_bytes := 16384 }

/-- What the steps of the message handlers that deal with the queues leave
untouched: the two choke flags and the allowed-fast list. -/
structure choke_frame (p q : peer_connection) : Prop where
  choked : q.m_choked = p.m_choked
  peer_choked : q.m_peer_choked = p.m_peer_choked
  allowed_fast : q.m_allowed_fast = p.m_allowed_fast
/-- A peer we have choked, that is not interested and has not choked us, with
309 invalid requests counted so far. -/
def abuser_example : peer_connection :=
  { t := torrent_example, m_choked := true, m_peer_choked := false
    m_peer_interested := false, m_num_invalid_requests := 309 }

/-- What `send_allowed_set` keeps while it runs, `sent0` being the messages
written before the call: the accept-fast list holds no piece twice and only
pieces of the torrent, every hit counter is 0, and one allowed-fast message
has been written per piece of the list, in the order of the list. -/
def allowed_set_ok (sent0 : List message) (num_pieces : Int) (q : peer_connection) : Prop :=
  q.m_accept_fast.Nodup
    ∧ (∀ i ∈ q.m_accept_fast, 0 ≤ i ∧ i < num_pieces)
    ∧ q.m_accept_fast_piece_cnt = List.replicate q.m_accept_fast.length 0
    ∧ q.sent = sent0 ++ q.m_accept_fast.map message.allow_fast

/-- A stand-in for the digest function in the examples: 19 zero bytes followed
by a counter, the last byte of the input plus one. -/
def counting_hasher (bs : List Nat) : List Nat :=
  List.replicate 19 0 ++ [(bs.getLastD 0 + 1) % 256]

/-- A peer at 10.0.0.1 on a torrent of 10 pieces, with an allowed-fast set of
3 pieces to generate. -/
def fast_set_example : peer_connection :=
  { t := { torrent_example with info_hash := List.replicate 20 0 }
    m_settings := { allowed_fast_set_size := 3 }
    m_remote := [10, 0, 0, 1] }

/-- The peer of `fast_set_example` when the remote has every piece but the
last: it is not a seed. -/
def nearly_seed_example : peer_connection :=
  { fast_set_example with m_have_piece := List.replicate 9 true ++ [false] }

/-- The peer of `fast_set_example` with an allowed-fast set of 10 pieces, as
many as the torrent has. -/
def small_torrent_example : peer_connection :=
  { t := { torrent_example with info_hash := List.replicate 20 0 }
    m_settings := { allowed_fast_set_size := 10 }
    m_remote := [10, 0, 0, 1] }

/-! ## Reading from the cache -/

/-- The body of the loop `while (size > 0)` of `copy_from_piece` for one block:
the bytes are copied (not modelled) and the hit counter of the slot grows. -/
def block_cache.count_hit (c : block_cache) (pk : piece_key) (block : Nat) : block_cache :=
  match c.find_piece pk with
  | none => c
  | some pe =>
    c.store { pe with
      blocks := set_block pe.blocks block
        { get_block pe.blocks block with hitcount := (get_block pe.blocks block).hitcount + 1 } }

/-- The loop `while (size > 0)` of `copy_from_piece`, from the block `block` on.
Every round copies at least one byte, so `size` rounds of fuel suffice. -/
def copy_loop (pk : piece_key) (block_size : Int) :
    Nat → Nat → Int → Int → block_cache → block_cache
  | 0, _, _, _, c => c
  | fuel + 1, block, block_offset, size, c =>
    if size > 0 then
      copy_loop pk block_size fuel (block + 1) 0 (size - min (block_size - block_offset) size)
        (c.count_hit pk block)
    else c

/-- The offset of a job within its block, `j->d.io.offset & (block_size()-1)`. -/
def block_cache.block_offset (c : block_cache) (j : disk_io_job) : Int :=
  Int.land j.offset (c.m_block_size - 1)

/-- `block_cache::copy_from_piece(pe, j)`: the cache, the job and the returned
value (`-1`: not in the cache, `-2`: no memory).  `alloc` is the pointer
`allocate_buffer` returns when it is called, 0 when there is no memory. -/
def block_cache.copy_from_piece (c : block_cache) (pk : piece_key) (j : disk_io_job)
    (alloc : Nat) : block_cache × disk_io_job × Int :=
  let block := c.block_of j
  let block_offset := c.block_offset j
  let size := j.buffer_size
  let blocks_to_read : Nat :=
    if block_offset > 0 && size > c.m_block_size - block_offset then 2 else 1
  let r := c.inc_block_refcount pk block
  if r.2 == false then (r.1, j, -1)
  else if blocks_to_read == 1 && !j.force_copy then
    ({ r.1 with m_send_buffer_blocks := r.1.m_send_buffer_blocks + 1 },
      { j with
        ref := { storage := j.storage, piece := pk.2, block := block }
        buffer := (r.1.slot_of pk block).buf + (c.block_offset j).toNat },
      j.buffer_size)
  else
    let r2 := if blocks_to_read == 2 then r.1.inc_block_refcount pk (block + 1) else (r.1, true)
    if blocks_to_read == 2 && r2.2 == false then (r.1.dec_block_refcount pk block, j, -1)
    else if alloc == 0 then (r2.1, j, -2)
    else
      let c3 := copy_loop pk c.m_block_size size.toNat block block_offset size
        { r2.1 with m_in_use := r2.1.m_in_use + 1 }
      let c4 := c3.dec_block_refcount pk block
      let c5 := if blocks_to_read == 2 then c4.dec_block_refcount pk (block + 1) else c4
      (c5, { j with buffer := alloc }, j.buffer_size)

/-- `block_cache::try_read(j)`: the cache, the job and the returned value. -/
def block_cache.try_read (c : block_cache) (j : disk_io_job) (alloc : Nat) :
    block_cache × disk_io_job × Int :=
  match c.find_piece (j.storage, j.piece) with
  | none => (c, j, -1)
  | some _ =>
    let r := (c.cache_hit (j.storage, j.piece) j.requester j.volatile_read).copy_from_piece
      (j.storage, j.piece) j alloc
    if r.2.2 < 0 then r else (r.1, r.2.1, j.buffer_size)

/-- `block_cache::maybe_free_piece(pe)`: the cache and the returned flag. -/
def block_cache.maybe_free_piece (c : block_cache) (pk : piece_key) : block_cache × Bool :=
  match c.find_piece pk with
  | none => (c, false)
  | some pe =>
    if !pe.ok_to_evict false || !pe.marked_for_deletion || !pe.jobs.isEmpty then (c, false)
    else ((c.evict_piece pk []).1, true)

/-- `block_cache::reclaim_block(ref)`. -/
def block_cache.reclaim_block (c : block_cache) (ref : block_cache_reference) : block_cache :=
  match c.find_piece (ref.storage, ref.piece) with
  | none => c
  | some _ =>
    let c1 := c.dec_block_refcount (ref.storage, ref.piece) ref.block
    (({ c1 with m_send_buffer_blocks := c1.m_send_buffer_blocks - 1 }).maybe_free_piece
      (ref.storage, ref.piece)).1

/-- `block_cache::set_settings`, as far as the cache's own member is
concerned; the arguments are the settings `cache_size` and
`read_cache_line_size`. -/
def block_cache.set_settings (c : block_cache) (cache_size read_cache_line_size : Int) :
    block_cache :=
  { c with
    m_ghost_size := max 8 (Int.tdiv (Int.tdiv cache_size (max read_cache_line_size 4)) 2) }

/-- The distance between the counter `pinned` of a piece and the number of
its pinned slots. -/
def pin_gap (p : cached_piece_entry) : Int := p.pinned - count_pinned p.blocks

/-- The contribution of one slot to `count_pinned`. -/
def pinned_ind (b : cached_block_entry) : Int := if b.refcount > 0 then 1 else 0

/-- A read job for 1000 bytes at offset 16484 of piece 0 of storage 1: bytes 100
to 1099 of block 1. -/
def read_job_example : disk_io_job :=
  { id := 11, storage := 1, piece := 0, offset := 16484, buffer_size := 1000, requester := 7
    piece_size := 49152 }
/-- What the operations of the cache keep of the pins: every piece of the
cache afterwards has the distance between `pinned` and the number of its
pinned slots that some piece had before, or distance 0. -/
def pins_kept (c d : block_cache) : Prop :=
  ∀ q ∈ d.m_pieces, pin_gap q = 0 ∨ ∃ p ∈ c.m_pieces, pin_gap q = pin_gap p

/-- A cache whose list `read_lru1_ghost` is full: it holds the pieces 0 to 7 of
storage 1, piece 0 being the oldest, with `m_ghost_size = 8`; piece 8 sits in
`read_lru1` and has lost its last block. -/
def ghost_example : block_cache :=
  { m_pieces := (List.range 8).map (fun (i : Nat) =>
        ({ storage := 1, piece := (i : Int), blocks := [{}]
           cache_state := read_lru1_ghost } : cached_piece_entry))
      ++ [{ storage := 1, piece := 8, blocks := [{}], cache_state := read_lru1
            in_storage := true }]
    m_lru := lru_set (lru_set (fun _ => []) read_lru1_ghost
      ((List.range 8).map (fun (i : Nat) => ((1, (i : Int)) : piece_key)))) read_lru1 [(1, 8)] }

/-- The number of entries that `move_to_ghost` erases from the front of the
ghost list `g`: as many as the list, with one more entry, exceeds
`m_ghost_size`. -/
def block_cache.ghost_excess (c : block_cache) (g : Nat) : Nat :=
  (((c.m_lru g).length : Int) + 1 - c.m_ghost_size).toNat

/-- The read job of `read_job_example` with the flag `force_copy`: the bytes
are to be copied into a buffer of their own. -/
def copy_job_example : disk_io_job := { read_job_example with force_copy := true }

/-- The block loop of `free_piece`: every slot that holds a buffer is emptied
and counted; the flag `dirty` of the slot is read, not written. -/
def free_piece_scan : List cached_block_entry → drop_acc → List cached_block_entry × drop_acc
  | [], a => ([], a)
  | b :: bs, a =>
    if b.buf == 0 then
      let r := free_piece_scan bs a
      (b :: r.1, r.2)
    else
      let a1 : drop_acc :=
        if b.dirty then
          { a with num_blocks := a.num_blocks - 1, num_dirty := a.num_dirty - 1
                   write_cache_size := a.write_cache_size - 1
                   num_to_delete := a.num_to_delete + 1 }
        else
          { a with num_blocks := a.num_blocks - 1, read_cache_size := a.read_cache_size - 1
                   num_to_delete := a.num_to_delete + 1 }
      let r := free_piece_scan bs a1
      ({ b with buf := 0 } :: r.1, r.2)

/-- `block_cache::free_piece(pe)`. -/
def block_cache.free_piece (c : block_cache) (pk : piece_key) : block_cache :=
  match c.find_piece pk with
  | none => c
  | some pe =>
    let r := free_piece_scan pe.blocks (c.drop_start pe)
    let c1 := { (c.store (dropped_piece pe r)) with
      m_read_cache_size := r.2.read_cache_size, m_write_cache_size := r.2.write_cache_size }
    (c1.free_deleted r.2.num_to_delete).update_cache_state pk

/-- The preconditions `free_piece` asserts: the piece is cached, nothing
refers to it, and no filled slot is pending or pinned. -/
def free_piece_pre (c : block_cache) (pk : piece_key) : Prop :=
  piece_satisfies c pk (fun pe =>
    pe.refcount = 0 ∧ pe.piece_refcount = 0 ∧ pe.outstanding_read = false
      ∧ ∀ b ∈ pe.blocks, b.buf ≠ 0 → b.pending = false ∧ b.refcount = 0)

instance (c : block_cache) (pk : piece_key) : Decidable (free_piece_pre c pk) := by
  unfold free_piece_pre; infer_instance

/-! ## The peer connection: further handlers -/

/-- `write_have(index)`. -/
def peer_connection.write_have (p : peer_connection) (index : Int) : peer_connection :=
  { p with sent := p.sent ++ [message.have_piece index] }

/-- `write_dont_have(index)`. -/
def peer_connection.write_dont_have (p : peer_connection) (index : Int) : peer_connection :=
  { p with sent := p.sent ++ [message.dont_have index] }

/-- `write_bitfield()`. -/
def peer_connection.write_bitfield (p : peer_connection) : peer_connection :=
  { p with sent := p.sent ++ [message.bitfield] }

/-- `write_piece(r, buffer)`. -/
def peer_connection.write_piece (p : peer_connection) (r : peer_request) : peer_connection :=
  { p with sent := p.sent ++ [message.piece r] }

/-- `write_cancel(r)`. -/
def peer_connection.write_cancel (p : peer_connection) (r : peer_request) : peer_connection :=
  { p with sent := p.sent ++ [message.cancel r] }

/-- The index of the last entry of the download queue that is neither timed
out nor unwanted: the loop `for (; i >= 0; --i)` of `snub_peer`. -/
def last_eligible : List pending_block → Option Nat
  | [] => none
  | b :: rest =>
    match last_eligible rest with
    | some i => some (i + 1)
    | none => if !b.timed_out && !b.not_wanted then some 0 else none

/-- The first statements of `snub_peer`: the peer is marked as snubbed and its
desired queue size falls to 1. -/
def peer_connection.snub_mark (p : peer_connection) : peer_connection :=
  { p with m_snubbed := true, m_desired_queue_size := 1 }

/-- The part of `snub_peer` that wipes the requests not yet sent, from the back
of the request queue, and asks for one new block; `picks` is what the piece
picker hands out when `request_a_block` is called. -/
def peer_connection.snub_requeue (p : peer_connection) (picks : List pending_block) :
    peer_connection :=
  let p2 := { (p.abort_all p.m_request_queue.reverse) with
    m_request_queue := [], m_queued_time_critical := 0 }
  { (({ p2 with m_desired_queue_size := 2 }).request_a_block picks) with
    m_desired_queue_size := 1 }

/-- The end of `snub_peer`: the last eligible request of the download queue
times out, unless its piece has free blocks left, in which case the timeout
is extended.  Modelled from the spec: the number of free blocks of a piece,
which the source computes from `picker.piece_info` and
`picker.blocks_in_piece`, is the torrent's `picker_free_blocks` (the piece
picker is not among the sources). -/
def peer_connection.snub_timeout (p : peer_connection) : peer_connection :=
  match last_eligible p.m_download_queue with
  | none => p.send_block_requests
  | some i =>
    match p.m_download_queue.get? i with
    | none => p.send_block_requests
    | some qe =>
      if p.t.picker_free_blocks qe.block.piece_index > 0 then
        peer_connection.send_block_requests
          { p with m_timeout_extend := p.m_timeout_extend + p.m_settings.request_timeout }
      else
        peer_connection.send_block_requests
          (peer_connection.abort_download
            { p with m_download_queue := p.m_download_queue.set i { qe with timed_out := true } }
            qe.block)

/-- `peer_connection::snub_peer`. -/
def peer_connection.snub_peer (p : peer_connection) (picks : List pending_block) :
    peer_connection :=
  if p.snub_mark.on_parole then
    { p.snub_mark with
      m_timeout_extend := p.snub_mark.m_timeout_extend + p.snub_mark.m_settings.request_timeout }
  else if !p.snub_mark.t.has_picker then p.snub_mark
  else (p.snub_mark.snub_requeue picks).snub_timeout

/-- A run of consecutive calls of `snub_peer`, one entry of `picks` per call. -/
def peer_connection.snub_peers (p : peer_connection) (picks : List (List pending_block)) :
    peer_connection :=
  picks.foldl peer_connection.snub_peer p

/-- The statement of `incoming_piece` that lowers the timeout extension when a
block has arrived. -/
def peer_connection.relax_timeout (p : peer_connection) : peer_connection :=
  if !p.m_download_queue.isEmpty then
    { p with m_timeout_extend := max (p.m_timeout_extend - p.m_settings.request_timeout) 0 }
  else { p with m_timeout_extend := 0 }

/-- `peer_connection::superseed_piece(replace_piece, new_piece)`. -/
def peer_connection.superseed_piece (p : peer_connection) (replace_piece new_piece : Int) :
    peer_connection :=
  if new_piece == -1 then
    if p.m_superseed_piece.1 == -1 then p
    else ({ p with m_superseed_piece := (-1, -1) }).write_bitfield
  else
    let p1 := p.write_have new_piece
    let s : Int × Int :=
      if decide (replace_piece ≥ 0) && p1.m_superseed_piece.1 == replace_piece then
        (p1.m_superseed_piece.2, p1.m_superseed_piece.1)
      else p1.m_superseed_piece
    { p1 with m_superseed_piece := (new_piece, s.1) }

/-- The states of `m_superseed_piece` that `superseed_piece` reaches from the
initial `(-1, -1)` as long as the new piece is not one it already tracks: each
slot holds a piece index or `-1`, slot 1 is `-1` when slot 0 is, and differs
from slot 0 otherwise. -/
def superseed_ok (s : Int × Int) : Prop :=
  -1 ≤ s.1 ∧ -1 ≤ s.2 ∧ (s.1 = -1 → s.2 = -1) ∧ (s.1 ≠ -1 → s.2 ≠ s.1)

instance (s : Int × Int) : Decidable (superseed_ok s) := by
  unfold superseed_ok; infer_instance

/-- A peer to which pieces 5 and 3 are super-seeded, piece 5 being the newer. -/
def superseed_example : peer_connection :=
  { t := { num_pieces := 10, super_seeding := true }, m_superseed_piece := (5, 3) }

/-- `peer_connection::disconnect(ec, op, error)` for a peer whose torrent is
gone (`m_torrent.lock()` is null): the queues are empty, as the function
asserts, and are not touched. -/
def peer_connection.disconnect_detached (p : peer_connection) (ec : errors) (error : Int) :
    peer_connection :=
  if p.m_disconnecting then p
  else
    { p with
      m_disconnecting := true
      m_failed := if error > 0 then true else p.m_failed
      disconnected := some (ec, error) }

/-- `peer_connection::on_disk_read_complete(j, r, issue_time)`: `ret` is
`j->ret` and `ec` the error code `j->error.ec` of the job.  The torrent is
`m_torrent.lock()`, null when `m_torrent_expired`.  Alerts, the latency
counter, `add_suggest_piece` and `handle_disk_error`, which belong to the
torrent, are not modelled. -/
def peer_connection.on_disk_read_complete (p : peer_connection) (ret : Int) (ec : Int)
    (r : peer_request) : peer_connection :=
  let p1 := { p with m_reading_bytes := p.m_reading_bytes - r.length }
  if ret < 0 then
    if p1.m_torrent_expired then p1.disconnect_detached (errors.job_error ec) 0
    else
      let p2 := (p1.write_dont_have r.piece).write_reject_request r
      let p3 := { p2 with m_disk_read_failures := p2.m_disk_read_failures + 1 }
      if p3.m_disk_read_failures > 100 then p3.disconnect (errors.job_error ec) 0 else p3
  else
    let p2 := { p1 with m_disk_read_failures := 0 }
    if p2.m_disconnecting then p2
    else if p2.m_torrent_expired then p2.disconnect_detached (errors.job_error ec) 0
    else if ret != r.length then p2
    else p2.write_piece r

/-- A run of `n` failed disk reads in a row for the request `r`. -/
def peer_connection.failed_reads (p : peer_connection) (ec : Int) (r : peer_request) :
    Nat → peer_connection
  | 0 => p
  | n + 1 => (p.failed_reads ec r n).on_disk_read_complete (-1) ec r

/-- The loop of `reject_piece`, with the iterator at index `i` and `left`
steps away from the iterator `end`, which the loop has taken before its first
round and does not refresh when it erases an entry.  The loop reads the entry
at `i` in every round; `none` stands for a read past the end of the queue. -/
def reject_piece_loop (index : Int) : Nat → Nat → peer_connection → Option peer_connection
  | 0, _, p => some p
  | left + 1, i, p =>
    match p.m_requests.get? i with
    | none => none
    | some r =>
      if r.piece != index then reject_piece_loop index left (i + 1) p
      else
        reject_piece_loop index left (i + 1)
          { (p.write_reject_request r) with m_requests := p.m_requests.eraseIdx i }

/-- `peer_connection::reject_piece(index)`; `none` when the loop reads past the
end of the upload queue. -/
def peer_connection.reject_piece (p : peer_connection) (index : Int) :
    Option peer_connection :=
  reject_piece_loop index p.m_requests.length 0 p

/-- What the claim expects of `reject_piece`: the requests for the piece are
rejected in the order of the queue and leave it. -/
def peer_connection.spec_reject_piece (p : peer_connection) (index : Int) : peer_connection :=
  { p with
    m_requests := p.m_requests.filter (fun r => r.piece != index)
    sent := p.sent ++ (p.m_requests.filter (fun r => r.piece == index)).map message.reject_request }

/-- A peer with two requests for piece 3, one after the other, in its upload
queue. -/
def adjacent_example : peer_connection :=
  { t := torrent_example
    m_requests := [{ piece := 3, start := 0, length := 16384 },
                   { piece := 3, start := 16384, length := 16384 }] }

/-- A peer on parole with a request outstanding, whose session has a
`request_timeout` of 60 seconds. -/
def parole_example : peer_connection :=
  { t := torrent_example
    m_settings := { request_timeout := 60 }
    m_peer_info := some { on_parole := true }
    m_download_queue := [{ block := { piece_index := 0, block_index := 0 } }]
    m_outstanding_bytes := 16384 }

/-- A peer whose last 99 disk reads have failed. -/
def failing_disk_example : peer_connection :=
  { t := torrent_example, m_disk_read_failures := 99 }
/-- What the steps that work on the queues, write messages or disconnect leave
untouched: `q` is `p` but for the two queues of blocks, the outstanding bytes,
the time-critical count, the interest in the peer, the disconnect state and
the logs of messages and of picker calls. -/
def queue_frame (p q : peer_connection) : Prop :=
  q = { p with
    m_download_queue := q.m_download_queue
    m_request_queue := q.m_request_queue
    m_outstanding_bytes := q.m_outstanding_bytes
    m_queued_time_critical := q.m_queued_time_critical
    m_interesting := q.m_interesting
    m_disconnecting := q.m_disconnecting
    m_failed := q.m_failed
    disconnected := q.disconnected
    sent := q.sent
    picker_aborted := q.picker_aborted }

/-- The assertion of `check_invariant` on the time-critical entries: they are
entries of the request queue (the count is also not negative). -/
def peer_connection.time_critical_ok (p : peer_connection) : Prop :=
  0 ≤ p.m_queued_time_critical ∧ p.m_queued_time_critical ≤ (p.m_request_queue.length : Int)

instance (p : peer_connection) : Decidable p.time_critical_ok := by
  unfold peer_connection.time_critical_ok; infer_instance

/-- `peer_connection::make_time_critical(block)`: the peer and the returned
flag. -/
def peer_connection.make_time_critical (p : peer_connection) (block : piece_block) :
    peer_connection × Bool :=
  match p.m_request_queue.findIdx? (fun i => i.block == block) with
  | none => (p, false)
  | some i =>
    if (i : Int) < p.m_queued_time_critical then (p, false)
    else
      match p.m_request_queue.get? i with
      | none => (p, false)
      | some b =>
        ({ p with
            m_request_queue :=
              (p.m_request_queue.eraseIdx i).insertIdx p.m_queued_time_critical.toNat b
            m_queued_time_critical := p.m_queued_time_critical + 1 }, true)

/-- The statement `if (rit - m_request_queue.begin() < m_queued_time_critical)
--m_queued_time_critical;` of `cancel_request` and `start_receive_piece`, for
the entry at index `i`. -/
def peer_connection.uncount_request (p : peer_connection) (i : Nat) : peer_connection :=
  if (i : Int) < p.m_queued_time_critical then
    { p with m_queued_time_critical := p.m_queued_time_critical - 1 }
  else p

/-- `peer_connection::cancel_request(block, force)`. -/
def peer_connection.cancel_request (p : peer_connection) (block : piece_block) (force : Bool) :
    peer_connection :=
  if p.m_torrent_expired then p
  else if !p.t.picker_is_requested block then p
  else
    match p.m_download_queue.findIdx? (fun i => i.block == block) with
    | none =>
      match p.m_request_queue.findIdx? (fun i => i.block == block) with
      | none => p
      | some i =>
        { ((p.uncount_request i).abort_download block) with
          m_request_queue := p.m_request_queue.eraseIdx i }
    | some i =>
      let p1 := { p with
        m_download_queue := p.m_download_queue.modify (fun b => { b with not_wanted := true }) i }
      let p2 := if force then p1.abort_download block else p1
      if p2.m_outstanding_bytes < p2.t.block_bytes block then p2
      else
        p2.write_cancel
          { piece := block.piece_index
            start := block.block_index * p2.t.block_size
            length := p2.t.block_bytes block }

/-- `peer_connection::verify_piece(p)`. -/
def peer_connection.verify_piece (p : peer_connection) (r : peer_request) : Bool :=
  decide (r.piece ≥ 0) && decide (r.piece < p.t.num_pieces) && decide (r.start ≥ 0)
    && decide (r.start < p.t.piece_length)
    && (p.t.to_req { piece_index := r.piece, block_index := Int.tdiv r.start p.t.block_size } == r)

/-- `peer_connection::start_receive_piece(r)` (the round-trip time is not
modelled). -/
def peer_connection.start_receive_piece (p : peer_connection) (r : peer_request) :
    peer_connection :=
  if !p.verify_piece r then p.disconnect errors.invalid_piece 2
  else
    let b : piece_block :=
      { piece_index := r.piece, block_index := Int.tdiv r.start p.t.block_size }
    let p1 := { p with m_receiving_block := some b }
    match p1.m_download_queue.findIdx? (fun i => i.block == b) with
    | some i =>
      { p1 with
        m_download_queue := p1.m_download_queue.modify (fun e => { e with receiving := true }) i }
    | none =>
      if p1.m_disconnecting then p1
      else
        match p1.m_request_queue.findIdx? (fun i => i.block == b) with
        | some i =>
          { (p1.uncount_request i) with
            m_request_queue := p1.m_request_queue.eraseIdx i
            m_download_queue := { block := b } :: p1.m_download_queue
            m_outstanding_bytes := p1.m_outstanding_bytes + r.length }
        | none =>
          { p1 with
            m_download_queue := { block := b, not_wanted := true } :: p1.m_download_queue
            m_outstanding_bytes := p1.m_outstanding_bytes + r.length }

/-- A peer of a torrent without piece picker, with one request queued, which
is time critical. -/
def no_picker_example : peer_connection :=
  { t := { torrent_example with has_picker := false }
    m_request_queue := [{ block := { piece_index := 1, block_index := 0 } }]
    m_queued_time_critical := 1 }

/-! ## The peer connection: the bitfield of the peer -/

/-- `bitfield::count()`: the number of bits set. -/
def count_bits (l : List Bool) : Int := (l.count true : Int)

/-- The assertion `m_have_piece.count() == m_num_pieces` of `check_invariant`. -/
def peer_connection.have_count_ok (p : peer_connection) : Prop :=
  p.m_num_pieces = count_bits p.m_have_piece

instance (p : peer_connection) : Decidable p.have_count_ok := by
  unfold peer_connection.have_count_ok; infer_instance

/-- The steps that touch neither the bitfield of the peer nor its count. -/
def have_frame (p q : peer_connection) : Prop :=
  q.m_have_piece = p.m_have_piece ∧ q.m_num_pieces = p.m_num_pieces ∧ q.t = p.t
    ∧ q.m_settings = p.m_settings

/-- `peer_connection::is_seed`. -/
def peer_connection.is_seed (p : peer_connection) : Bool :=
  p.m_num_pieces == (p.m_have_piece.length : Int) && decide (p.m_num_pieces > 0)
    && p.t.valid_metadata

/-- `write_interested()`. -/
def peer_connection.write_interested (p : peer_connection) : peer_connection :=
  { p with sent := p.sent ++ [message.interested] }

/-- `peer_connection::send_interested`. -/
def peer_connection.send_interested (p : peer_connection) : peer_connection :=
  if p.m_interesting then p
  else if !p.t.ready_for_connections then p
  else ({ p with m_interesting := true }).write_interested

/-- Modelled from the spec: `torrent::peer_is_interesting` belongs to
`torrent.cpp`, which is not among the sources.  It declares interest in the
peer through `send_interested`; the requests it goes on to make are left out. -/
def peer_connection.peer_is_interesting (p : peer_connection) : peer_connection :=
  p.send_interested

/-- The start of `incoming_have`: a have message that arrives before any
bitfield is first treated as `have_none`. -/
def peer_connection.have_prepare (p : peer_connection) : peer_connection :=
  if !p.m_bitfield_received then p.incoming_have_none else p

/-- The statement `m_have_piece.resize(index + 1, false)` of `incoming_have`,
run without metadata for an index past the end of the bitfield. -/
def peer_connection.have_resize (p : peer_connection) (index : Int) : peer_connection :=
  if !p.t.valid_metadata && decide (index ≥ (p.m_have_piece.length : Int)) then
    { p with
      m_have_piece :=
        p.m_have_piece ++ List.replicate (index.toNat + 1 - p.m_have_piece.length) false }
  else p

/-- The part of `incoming_have` under `if (t->super_seeding() &&
!strict_super_seeding)`. -/
def peer_connection.have_superseed (p : peer_connection) (index : Int) : peer_connection :=
  if p.t.super_seeding && !p.m_settings.strict_super_seeding then
    if p.super_seeded_piece index then
      p.superseed_piece index (p.t.get_piece_to_super_seed p.m_have_piece)
    else p
  else p

/-- The statements `m_have_piece.set_bit(index); ++m_num_pieces;
m_has_metadata = true` of `incoming_have`. -/
def peer_connection.have_set (p : peer_connection) (index : Int) : peer_connection :=
  { p with
    m_have_piece := p.m_have_piece.set index.toNat true
    m_num_pieces := p.m_num_pieces + 1
    m_has_metadata := true }

/-- The end of `incoming_have`, after the seed test: interest in the peer and
the strict super seeding of the piece (of the peers of the torrent, this one
is modelled). -/
def peer_connection.have_finish (p : peer_connection) (index : Int) : peer_connection :=
  let p1 :=
    if !p.t.has_piece_passed index && !p.t.is_seed && !p.m_interesting
        && (!p.t.has_picker || p.t.picker_piece_priority index != 0) then
      p.peer_is_interesting
    else p
  if p1.t.super_seeding && p1.m_settings.strict_super_seeding
      && (!p1.super_seeded_piece index || p1.t.num_peers == 1) then
    if !p1.super_seeded_piece index then p1
    else if !p1.has_piece index then p1
    else p1.superseed_piece index (p1.t.get_piece_to_super_seed p1.m_have_piece)
  else p1

/-- The part of `incoming_have` that follows the range test. -/
def peer_connection.have_accept (p : peer_connection) (index : Int) : peer_connection :=
  if (p.have_superseed index).has_piece index then p.have_superseed index
  else if !((p.have_superseed index).have_set index).t.valid_metadata then
    (p.have_superseed index).have_set index
  else if ((p.have_superseed index).have_set index).is_seed then
    if (({ ((p.have_superseed index).have_set index) with
        m_upload_only := true }).disconnect_if_redundant.1).is_disconnecting then
      ({ ((p.have_superseed index).have_set index) with
        m_upload_only := true }).disconnect_if_redundant.1
    else
      (({ ((p.have_superseed index).have_set index) with
        m_upload_only := true }).disconnect_if_redundant.1).have_finish index
  else ((p.have_superseed index).have_set index).have_finish index

/-- `peer_connection::incoming_have(index)` (the availability the torrent keeps
per piece is not modelled). -/
def peer_connection.incoming_have (p : peer_connection) (index : Int) : peer_connection :=
  if p.m_extensions.on_have index then p
  else if p.is_disconnecting then p
  else if p.have_prepare.is_disconnecting then p.have_prepare
  else if !p.have_prepare.t.valid_metadata
      && decide (index ≥ (p.have_prepare.m_have_piece.length : Int))
      && !decide (index < 131072) then p.have_prepare
  else if decide (index ≥ ((p.have_prepare.have_resize index).m_have_piece.length : Int))
      || decide (index < 0) then
    (p.have_prepare.have_resize index).disconnect errors.invalid_have 2
  else (p.have_prepare.have_resize index).have_accept index

/-- `peer_connection::incoming_dont_have(index)`. -/
def peer_connection.incoming_dont_have (p : peer_connection) (index : Int) : peer_connection :=
  if p.m_extensions.on_dont_have index then p
  else if p.is_disconnecting then p
  else if decide (index ≥ (p.m_have_piece.length : Int)) || decide (index < 0) then
    p.disconnect errors.invalid_dont_have 2
  else if !p.has_piece index then p
  else
    { p with
      m_have_piece := p.m_have_piece.set index.toNat false
      m_num_pieces := p.m_num_pieces - 1 }

/-- The loop of `incoming_bitfield` that looks for a piece the peer has, had
not before, and that this torrent wants. -/
def peer_connection.bitfield_interesting (p : peer_connection) (bits : List Bool) : Bool :=
  (List.range p.m_have_piece.length).any (fun i =>
    bits.getD i false && !p.m_have_piece.getD i false
      && !p.t.have_piece i && (!p.t.has_picker || p.t.picker_piece_priority i != 0))

/-- The branch of `incoming_bitfield` for a bitfield with every piece set. -/
def peer_connection.bitfield_seed (p : peer_connection) (bits : List Bool) : peer_connection :=
  let p2 := { p with
    m_upload_only := true
    m_have_piece := p.m_have_piece.map (fun _ => true)
    m_num_pieces := count_bits bits }
  let p3 := if !p2.t.is_upload_only then p2.peer_is_interesting else p2
  p3.disconnect_if_redundant.1

/-- The last branch of `incoming_bitfield`: the bitfield is stored. -/
def peer_connection.bitfield_assign (p : peer_connection) (bits : List Bool) : peer_connection :=
  let interesting := !p.t.is_upload_only && p.bitfield_interesting bits
  let p2 := { p with m_have_piece := bits, m_num_pieces := count_bits bits }
  if interesting then p2.peer_is_interesting
  else if p2.upload_only && p2.can_disconnect then
    p2.disconnect errors.upload_upload_connection 0
  else p2

/-- `peer_connection::incoming_bitfield(bits)`. -/
def peer_connection.incoming_bitfield (p : peer_connection) (bits : List Bool) :
    peer_connection :=
  if p.m_extensions.on_bitfield bits then p
  else if p.is_disconnecting then p
  else if p.t.valid_metadata
      && ((bits.length + 7) / 8 != (p.m_have_piece.length + 7) / 8) then
    p.disconnect errors.invalid_bitfield_size 2
  else if !p.t.ready_for_connections then
    { p with m_bitfield_received := true, m_have_piece := bits, m_num_pieces := count_bits bits }
  else if count_bits bits == (p.m_have_piece.length : Int) then
    ({ p with m_bitfield_received := true }).bitfield_seed bits
  else ({ p with m_bitfield_received := true }).bitfield_assign bits

/-- `peer_connection::incoming_have_all`. -/
def peer_connection.incoming_have_all (p : peer_connection) : peer_connection :=
  if p.m_extensions.on_have_all then p
  else if p.is_disconnecting then p
  else
    let p1 := { p with m_have_all := true, m_upload_only := true, m_bitfield_received := true }
    if !p1.t.ready_for_connections then p1.peer_is_interesting.disconnect_if_redundant.1
    else
      let p2 := { p1 with
        m_have_piece := p1.m_have_piece.map (fun _ => true)
        m_num_pieces := (p1.m_have_piece.length : Int) }
      let p3 := if p2.t.is_upload_only then p2.send_not_interested else p2.peer_is_interesting
      p3.disconnect_if_redundant.1

/-- A peer of a torrent of four pieces that has sent its bitfield: it has
pieces 0 and 2. -/
def bitfield_example : peer_connection :=
  { t := { torrent_example with num_pieces := 4 }
    m_have_piece := [true, false, true, false]
    m_num_pieces := 2 }

/-- The peer `bitfield_example` with an extension that consumes every have and
dont-have message. -/
def consuming_example : peer_connection :=
  { bitfield_example with
    m_extensions := { on_have := fun _ => true, on_dont_have := fun _ => true } }

/-- The peer `bitfield_example` before any bitfield message has been
received. -/
def early_example : peer_connection :=
  { bitfield_example with m_bitfield_received := false }

/-! ## The peer connection: the receive buffer -/

/-- The call `std::memmove(buf + dst, buf + src, n)` on a buffer: `none` when
the count is negative or one of the two ranges leaves the buffer. -/
def memmove (buf : List Nat) (dst src n : Int) : Option (List Nat) :=
  if n < 0 ∨ dst < 0 ∨ src < 0 ∨ src + n > (buf.length : Int) ∨ dst + n > (buf.length : Int) then
    none
  else
    some (buf.take dst.toNat ++ (buf.drop src.toNat).take n.toNat
      ++ buf.drop (dst.toNat + n.toNat))

/-- The assertions at the start of `cut_receive_buffer(size, packet_size,
offset)`, with the one of the branch taken. -/
def peer_connection.cut_receive_buffer_pre (p : peer_connection)
    (size packet_size offset : Int) : Prop :=
  packet_size > 0 ∧ (p.m_recv_buffer.length : Int) ≥ size
    ∧ (p.m_recv_buffer.length : Int) ≥ p.m_recv_pos ∧ p.m_recv_pos ≥ size + offset
    ∧ offset ≥ 0 ∧ (p.m_recv_buffer.length : Int) ≥ p.m_recv_end
    ∧ p.m_recv_start ≤ p.m_recv_end ∧ size ≥ 0
    ∧ (if offset > 0 then p.m_recv_start - size ≤ p.m_recv_end
       else p.m_recv_start + size ≤ p.m_recv_end)

instance (p : peer_connection) (size packet_size offset : Int) :
    Decidable (p.cut_receive_buffer_pre size packet_size offset) := by
  unfold peer_connection.cut_receive_buffer_pre; infer_instance

/-- `peer_connection::cut_receive_buffer(size, packet_size, offset)`; `none`
when the `memmove` leaves the buffer.  The fill of the freed bytes in debug
builds is left out. -/
def peer_connection.cut_receive_buffer (p : peer_connection) (size packet_size offset : Int) :
    Option peer_connection :=
  if offset > 0 then
    (if size > 0 then
        memmove p.m_recv_buffer (p.m_recv_start + offset) (p.m_recv_start + offset + size)
          (p.m_recv_end - p.m_recv_start - size - offset)
      else some p.m_recv_buffer).map (fun b =>
        { p with
          m_recv_buffer := b
          m_recv_pos := p.m_recv_pos - size
          m_recv_end := p.m_recv_end - size
          m_packet_size := packet_size })
  else
    some { p with
      m_recv_start := p.m_recv_start + size
      m_recv_pos := p.m_recv_pos - size
      m_packet_size := packet_size }

/-- `peer_connection::normalize_receive_buffer`; `none` when the `memmove`
leaves the buffer. -/
def peer_connection.normalize_receive_buffer (p : peer_connection) : Option peer_connection :=
  if p.m_recv_start == 0 then some p
  else
    (if p.m_recv_end > p.m_recv_start then
        memmove p.m_recv_buffer 0 p.m_recv_start (p.m_recv_end - p.m_recv_start)
      else some p.m_recv_buffer).map (fun b =>
        { p with
          m_recv_buffer := b
          m_recv_end := p.m_recv_end - p.m_recv_start
          m_recv_start := 0 })

/-- The assertions of `reset_recv_buffer(packet_size)`, with those of the call
of `cut_receive_buffer` it makes when more than the packet has been
received. -/
def peer_connection.reset_recv_buffer_pre (p : peer_connection) (packet_size : Int) : Prop :=
  (p.m_recv_buffer.length : Int) ≥ p.m_recv_end ∧ packet_size > 0
    ∧ (p.m_recv_end > p.m_packet_size → p.cut_receive_buffer_pre p.m_packet_size packet_size 0)

instance (p : peer_connection) (packet_size : Int) :
    Decidable (p.reset_recv_buffer_pre packet_size) := by
  unfold peer_connection.reset_recv_buffer_pre; infer_instance

/-- `peer_connection::reset_recv_buffer(packet_size)`.  The call
`cut_receive_buffer(m_packet_size, packet_size)` leaves the offset to the
default argument of the declaration in `peer_connection.hpp`, which is not
among the sources; it is taken to be 0. -/
def peer_connection.reset_recv_buffer (p : peer_connection) (packet_size : Int) :
    Option peer_connection :=
  if p.m_recv_end > p.m_packet_size then p.cut_receive_buffer p.m_packet_size packet_size 0
  else
    some { p with m_recv_pos := 0, m_recv_start := 0, m_recv_end := 0, m_packet_size := packet_size }

/-- The assertions of `release_disk_receive_buffer`, which are reached when
there is a disk receive buffer. -/
def peer_connection.release_disk_receive_buffer_pre (p : peer_connection) : Prop :=
  p.m_disk_recv_buffer ≠ 0 →
    p.m_disk_recv_buffer_size ≤ p.m_recv_end
    ∧ p.m_recv_start ≤ p.m_recv_end - p.m_disk_recv_buffer_size

instance (p : peer_connection) : Decidable p.release_disk_receive_buffer_pre := by
  unfold peer_connection.release_disk_receive_buffer_pre; infer_instance

/-- `peer_connection::release_disk_receive_buffer`: the peer and the buffer
handed to the caller (0 for none). -/
def peer_connection.release_disk_receive_buffer (p : peer_connection) : peer_connection × Nat :=
  if p.m_disk_recv_buffer == 0 then (p, 0)
  else
    ({ p with
        m_recv_end := p.m_recv_end - p.m_disk_recv_buffer_size
        m_disk_recv_buffer_size := 0
        m_disk_recv_buffer := 0 },
      p.m_disk_recv_buffer)

/-- What `check_invariant` and the assertions of the four functions say of the
receive buffer: `0 ≤ m_recv_start ≤ m_recv_end ≤ m_recv_buffer.size()`, the
position is not negative, and there is a disk receive buffer exactly when
`m_disk_recv_buffer_size > 0`. -/
def peer_connection.recv_invariant (p : peer_connection) : Prop :=
  0 ≤ p.m_recv_start ∧ p.m_recv_start ≤ p.m_recv_end
    ∧ p.m_recv_end ≤ (p.m_recv_buffer.length : Int) ∧ 0 ≤ p.m_recv_pos
    ∧ (p.m_disk_recv_buffer ≠ 0 ↔ p.m_disk_recv_buffer_size > 0)

instance (p : peer_connection) : Decidable p.recv_invariant := by
  unfold peer_connection.recv_invariant; infer_instance

/-- The position `m_recv_pos` counts from `m_recv_start` (the received bytes
of the packet are read at `&m_recv_buffer[0] + m_recv_start + m_recv_pos`); this
says that it stays below `m_recv_end`. -/
def peer_connection.recv_pos_ok (p : peer_connection) : Prop :=
  p.m_recv_start + p.m_recv_pos ≤ p.m_recv_end

instance (p : peer_connection) : Decidable p.recv_pos_ok := by
  unfold peer_connection.recv_pos_ok; infer_instance

/-- The invariant in the words of the specification, which reads the three
members as offsets into the buffer: `0 ≤ recv_start ≤ recv_pos ≤ recv_end ≤
capacity`. -/
def peer_connection.spec_recv_invariant (p : peer_connection) : Prop :=
  0 ≤ p.m_recv_start ∧ p.m_recv_start ≤ p.m_recv_pos ∧ p.m_recv_pos ≤ p.m_recv_end
    ∧ p.m_recv_end ≤ (p.m_recv_buffer.length : Int)

instance (p : peer_connection) : Decidable p.spec_recv_invariant := by
  unfold peer_connection.spec_recv_invariant; infer_instance

/-- A peer with a receive buffer of 20 bytes, all received, that has read a
packet of 10 bytes. -/
def recv_example : peer_connection :=
  { m_recv_buffer := [0, 1, 2, 3, 4, 5, 6, 7, 8, 9, 10, 11, 12, 13, 14, 15, 16, 17, 18, 19]
    m_recv_start := 0
    m_recv_pos := 10
    m_recv_end := 20
    m_packet_size := 10 }

/-- The peer `recv_example` after the first packet has been cut off and five
bytes of the next have been read. -/
def recv_cut_example : peer_connection :=
  { recv_example with m_recv_start := 10, m_recv_pos := 5 }

/-- The peer `recv_example` with the three members read as offsets: the
packet in progress starts at 10 and has been read up to 15. -/
def recv_offsets_example : peer_connection :=
  { recv_example with m_recv_start := 10, m_recv_pos := 15 }

/-- A peer with a disk receive buffer of 16 bytes whose 20 received bytes
have all been read. -/
def disk_recv_example : peer_connection :=
  { recv_example with m_recv_pos := 20, m_disk_recv_buffer := 7, m_disk_recv_buffer_size := 16 }

/-! ## The wire protocol: the extension handshake -/

mutual
/-- Modelled from the spec: the class `entry` of `entry.hpp`, which is not
among the sources: a bencoded value is an integer, a string, a list or a
dictionary. -/
inductive entry where
  | int_t (v : Int)
  | string_t (s : List Nat)
  | list_t (l : entry_list)
  | dictionary_t (d : entry_dict)
/-- The elements of a list entry. -/
inductive entry_list where
  | nil
  | cons (e : entry) (l : entry_list)
/-- The keys and values of a dictionary entry, in the order of the keys. -/
inductive entry_dict where
  | nil
  | cons (k : List Nat) (e : entry) (d : entry_dict)
end

/-- The order of `std::string` on the keys of a dictionary. -/
def string_less : List Nat → List Nat → Bool
  | [], [] => false
  | [], _ :: _ => true
  | _ :: _, [] => false
  | a :: s, b :: t => if a < b then true else if b < a then false else string_less s t

/-- The assignment `dict[key] = value` on a dictionary entry, a `std::map`
ordered by its keys. -/
def entry_dict.assign (key : List Nat) (value : entry) : entry_dict → entry_dict
  | entry_dict.nil => entry_dict.cons key value entry_dict.nil
  | entry_dict.cons k e d =>
    if string_less key k then entry_dict.cons key value (entry_dict.cons k e d)
    else if string_less k key then entry_dict.cons k e (entry_dict.assign key value d)
    else entry_dict.cons k value d

/-- The keys of a dictionary entry. -/
def entry_dict.keys : entry_dict → List (List Nat)
  | entry_dict.nil => []
  | entry_dict.cons k _ d => k :: d.keys

/-- The decimal digits of a number, as characters. -/
def decimal_digits : Nat → Nat → List Nat
  | 0, _ => []
  | fuel + 1, n =>
    if n < 10 then [48 + n] else decimal_digits fuel (n / 10) ++ [48 + n % 10]

/-- An integer in decimal, as characters, with a minus sign when negative. -/
def write_integer (v : Int) : List Nat :=
  if v < 0 then 45 :: decimal_digits (v.natAbs + 1) v.natAbs
  else decimal_digits (v.toNat + 1) v.toNat

mutual
/-- Modelled from the spec: `bencode` of `bencode.hpp`, which is not among the
sources: an integer is `i<decimal>e`, a string `<length>:<bytes>`, a list
`l<elements>e` and a dictionary `d<key><value>...e` with the keys in order. -/
def bencode : entry → List Nat
  | entry.int_t v => [105] ++ write_integer v ++ [101]
  | entry.string_t s => write_integer s.length ++ [58] ++ s
  | entry.list_t l => [108] ++ bencode_list l ++ [101]
  | entry.dictionary_t d => [100] ++ bencode_dict d ++ [101]
/-- The elements of a list, encoded one after the other. -/
def bencode_list : entry_list → List Nat
  | entry_list.nil => []
  | entry_list.cons e l => bencode e ++ bencode_list l
/-- The keys and values of a dictionary, encoded one after the other. -/
def bencode_dict : entry_dict → List Nat
  | entry_dict.nil => []
  | entry_dict.cons k e d => write_integer k.length ++ [58] ++ k ++ bencode e ++ bencode_dict d
end

/-- Modelled from the spec: the enumeration `extension_index` is declared in
`peer_connection.hpp` of this branch, which is not among the sources.  Its
enumerators index `extension_names`, whose four entries start with the empty
name of the handshake. -/
abbrev extended_handshake : Nat := 0

/-- The number of enumerators of `extension_index`, the length of
`extension_names`. -/
abbrev num_supported_extensions : Nat := 4

/-- `bt_peer_connection::extension_names`: `""`, `"LT_chat"`, `"LT_metadata"`,
`"LT_peer_exchange"`. -/
def extension_names : List (List Nat) :=
  [[],
   [76, 84, 95, 99, 104, 97, 116],
   [76, 84, 95, 109, 101, 116, 97, 100, 97, 116, 97],
   [76, 84, 95, 112, 101, 101, 114, 95, 101, 120, 99, 104, 97, 110, 103, 101]]

/-- The loop of `write_extensions` over the extensions 1 to
`num_supported_extensions − 1`: the dictionary `extension_list`. -/
def bt_peer_connection.extension_list (c : bt_peer_connection) : entry_dict :=
  (List.range' 1 (num_supported_extensions - 1)).foldl
    (fun d i =>
      if !c.ses_extension_enabled.getD i false then d
      else d.assign (extension_names.getD i []) (entry.int_t i))
    entry_dict.nil

/-- The dictionary `handshake` that `write_extensions` builds: `m` is the
extension list, `p` the listen port and `v` the user agent. -/
def bt_peer_connection.handshake (c : bt_peer_connection) : entry_dict :=
  ((entry_dict.nil.assign [109] (entry.dictionary_t c.extension_list)).assign [112]
    (entry.int_t c.ses_listen_port)).assign [118] (entry.string_t c.ses_user_agent)

/-- `bt_peer_connection::write_extensions`.  The function builds the
dictionary `handshake` and then calls `bencode(std::back_inserter(msg),
extended_handshake)`: what is encoded is the enumerator `extended_handshake`,
which converts to an integer entry, and `handshake` is not used. -/
def bt_peer_connection.write_extensions (c : bt_peer_connection) : bt_peer_connection :=
  let msg := bencode (entry.int_t extended_handshake)
  { c with
    m_send_buffer := c.m_send_buffer ++ write_int32 ((msg.length : Int) + 2) ++ [msg_extended]
      ++ [extended_handshake] ++ msg }

/-- A connection of a session that listens on port 6881, calls itself
`libtorrent` and has the three extensions enabled. -/
def extensions_example : bt_peer_connection :=
  { m_supports_extensions := true
    ses_listen_port := 6881
    ses_user_agent := [108, 105, 98, 116, 111, 114, 114, 101, 110, 116] }

/-! # Theorems -/

/-! ## Lookup, write-back and removal in `m_pieces` -/

theorem find_piece_some_mem {c : block_cache} {k : piece_key} {p : cached_piece_entry}
    (h : c.find_piece k = some p) : p ∈ c.m_pieces ∧ p.key = k := by
  unfold block_cache.find_piece at h
  have h1 := List.find?_some h
  have h2 := List.mem_of_find?_eq_some h
  exact ⟨h2, by simpa using h1⟩

theorem find_cons_eq {a : cached_piece_entry} {k : piece_key} (l : List cached_piece_entry)
    (h : a.key = k) : (a :: l).find? (fun p => p.key == k) = some a := by
  simp [List.find?_cons, h]

theorem find_cons_ne {a : cached_piece_entry} {k : piece_key} (l : List cached_piece_entry)
    (h : a.key ≠ k) : (a :: l).find? (fun p => p.key == k) = l.find? (fun p => p.key == k) := by
  simp [List.find?_cons, h]

theorem erase_cons_eq {a : cached_piece_entry} {k : piece_key} (l : List cached_piece_entry)
    (h : a.key = k) : (a :: l).eraseP (fun p => p.key == k) = l := by
  simp [List.eraseP_cons, h]

theorem erase_cons_ne {a : cached_piece_entry} {k : piece_key} (l : List cached_piece_entry)
    (h : a.key ≠ k) :
    (a :: l).eraseP (fun p => p.key == k) = a :: l.eraseP (fun p => p.key == k) := by
  simp [List.eraseP_cons, h]

theorem replace_cons_eq {a q : cached_piece_entry} (l : List cached_piece_entry)
    (h : a.key = q.key) : replace_piece q (a :: l) = q :: l := by
  simp [replace_piece, h]

theorem replace_cons_ne {a q : cached_piece_entry} (l : List cached_piece_entry)
    (h : a.key ≠ q.key) : replace_piece q (a :: l) = a :: replace_piece q l := by
  simp [replace_piece, h]

theorem find_of_mem_nodup : ∀ (l : List cached_piece_entry) (p : cached_piece_entry),
    (l.map cached_piece_entry.key).Nodup → p ∈ l →
    l.find? (fun q => q.key == p.key) = some p := by
  intro l
  induction l with
  | nil => intro p _ hp; cases hp
  | cons a l ih =>
    intro p hn hp
    simp only [List.map_cons, List.nodup_cons] at hn
    rcases List.mem_cons.1 hp with rfl | hp
    · exact find_cons_eq l rfl
    · have hne : a.key ≠ p.key := by
        intro he
        exact hn.1 (he ▸ List.mem_map_of_mem _ hp)
      rw [find_cons_ne l hne]
      exact ih p hn.2 hp

theorem find_piece_of_mem {c : block_cache} {p : cached_piece_entry}
    (hn : (c.m_pieces.map cached_piece_entry.key).Nodup) (hp : p ∈ c.m_pieces) :
    c.find_piece p.key = some p :=
  find_of_mem_nodup _ p hn hp

theorem replace_piece_keys (q : cached_piece_entry) : ∀ l : List cached_piece_entry,
    (replace_piece q l).map cached_piece_entry.key = l.map cached_piece_entry.key := by
  intro l
  induction l with
  | nil => rfl
  | cons a l ih =>
    by_cases h : a.key = q.key
    · rw [replace_cons_eq l h]; simp [h]
    · rw [replace_cons_ne l h]; simp [ih]

theorem mem_replace_piece {q p : cached_piece_entry} : ∀ {l : List cached_piece_entry},
    p ∈ replace_piece q l → p = q ∨ p ∈ l := by
  intro l
  induction l with
  | nil => intro h; simp [replace_piece] at h
  | cons a l ih =>
    intro h
    by_cases hk : a.key = q.key
    · rw [replace_cons_eq l hk] at h
      rcases List.mem_cons.1 h with h | h
      · exact Or.inl h
      · exact Or.inr (List.mem_cons_of_mem _ h)
    · rw [replace_cons_ne l hk] at h
      rcases List.mem_cons.1 h with h | h
      · exact Or.inr (h ▸ List.mem_cons_self _ _)
      · rcases ih h with h | h
        · exact Or.inl h
        · exact Or.inr (List.mem_cons_of_mem _ h)

theorem find_replace_other (q : cached_piece_entry) (k : piece_key) (hk : k ≠ q.key) :
    ∀ l : List cached_piece_entry,
    (replace_piece q l).find? (fun p => p.key == k) = l.find? (fun p => p.key == k) := by
  intro l
  induction l with
  | nil => rfl
  | cons a l ih =>
    by_cases h : a.key = q.key
    · have h1 : a.key ≠ k := fun e => hk (e ▸ h)
      have h2 : q.key ≠ k := fun e => hk e.symm
      rw [replace_cons_eq l h, find_cons_ne l h1, find_cons_ne l h2]
    · rw [replace_cons_ne l h]
      by_cases h3 : a.key = k
      · rw [find_cons_eq _ h3, find_cons_eq _ h3]
      · rw [find_cons_ne _ h3, find_cons_ne _ h3, ih]

theorem find_replace_same (q : cached_piece_entry) : ∀ (l : List cached_piece_entry)
    (p : cached_piece_entry), l.find? (fun p => p.key == q.key) = some p →
    (replace_piece q l).find? (fun p => p.key == q.key) = some q := by
  intro l
  induction l with
  | nil => intro p h; cases h
  | cons a l ih =>
    intro p h
    by_cases hk : a.key = q.key
    · rw [replace_cons_eq l hk]; exact find_cons_eq l rfl
    · rw [find_cons_ne l hk] at h
      rw [replace_cons_ne l hk, find_cons_ne _ hk]
      exact ih p h

theorem replace_piece_absent (q : cached_piece_entry) : ∀ (l : List cached_piece_entry),
    l.find? (fun p => p.key == q.key) = none → replace_piece q l = l := by
  intro l
  induction l with
  | nil => intro _; rfl
  | cons a l ih =>
    intro h
    by_cases hk : a.key = q.key
    · rw [find_cons_eq l hk] at h; cases h
    · rw [find_cons_ne l hk] at h
      rw [replace_cons_ne l hk, ih h]

theorem find_piece_store_other (c : block_cache) (q : cached_piece_entry) (k : piece_key)
    (hk : k ≠ q.key) : (c.store q).find_piece k = c.find_piece k :=
  find_replace_other q k hk c.m_pieces

theorem find_piece_store_same (c : block_cache) (q p : cached_piece_entry)
    (h : c.find_piece q.key = some p) : (c.store q).find_piece q.key = some q :=
  find_replace_same q c.m_pieces p h

theorem total_replace (f : cached_piece_entry → Int) (q : cached_piece_entry) :
    ∀ (l : List cached_piece_entry) (p : cached_piece_entry),
    l.find? (fun p => p.key == q.key) = some p →
    total f (replace_piece q l) = total f l - f p + f q := by
  intro l
  induction l with
  | nil => intro p h; cases h
  | cons a l ih =>
    intro p h
    by_cases hk : a.key = q.key
    · rw [find_cons_eq l hk] at h
      cases h
      rw [replace_cons_eq l hk]
      simp only [total, List.map_cons, List.sum_cons]
      ring
    · rw [find_cons_ne l hk] at h
      have := ih p h
      rw [replace_cons_ne l hk]
      simp only [total, List.map_cons, List.sum_cons] at this ⊢
      rw [this]
      ring

theorem total_erase (f : cached_piece_entry → Int) (k : piece_key) :
    ∀ (l : List cached_piece_entry) (p : cached_piece_entry),
    l.find? (fun p => p.key == k) = some p →
    total f (l.eraseP (fun p => p.key == k)) = total f l - f p := by
  intro l
  induction l with
  | nil => intro p h; cases h
  | cons a l ih =>
    intro p h
    by_cases hk : a.key = k
    · rw [find_cons_eq l hk] at h
      cases h
      rw [erase_cons_eq l hk]
      simp only [total, List.map_cons, List.sum_cons]
      ring
    · rw [find_cons_ne l hk] at h
      have := ih p h
      rw [erase_cons_ne l hk]
      simp only [total, List.map_cons, List.sum_cons] at this ⊢
      rw [this]
      ring

theorem find_erase_other (k k2 : piece_key) (hk : k2 ≠ k) : ∀ l : List cached_piece_entry,
    (l.eraseP (fun p => p.key == k)).find? (fun p => p.key == k2)
      = l.find? (fun p => p.key == k2) := by
  intro l
  induction l with
  | nil => rfl
  | cons a l ih =>
    by_cases h : a.key = k
    · have h1 : a.key ≠ k2 := fun e => hk (e ▸ h)
      rw [erase_cons_eq l h, find_cons_ne l h1]
    · rw [erase_cons_ne l h]
      by_cases h3 : a.key = k2
      · rw [find_cons_eq _ h3, find_cons_eq _ h3]
      · rw [find_cons_ne _ h3, find_cons_ne _ h3, ih]

theorem total_append (f : cached_piece_entry → Int) (l : List cached_piece_entry)
    (q : cached_piece_entry) : total f (l ++ [q]) = total f l + f q := by
  simp [total]

theorem find_append_absent (l : List cached_piece_entry) (q : cached_piece_entry)
    (k : piece_key) (h : l.find? (fun p => p.key == q.key) = none) :
    (l ++ [q]).find? (fun p => p.key == k)
      = if k = q.key then some q else l.find? (fun p => p.key == k) := by
  rw [List.find?_append]
  by_cases hk : k = q.key
  · subst hk
    rw [h]
    simp
  · have : q.key ≠ k := fun e => hk e.symm
    simp [hk, List.find?_cons, this]

/-! ## Counting slots -/

theorem count_filled_cons (b : cached_block_entry) (bs : List cached_block_entry) :
    count_filled (b :: bs) = (if b.buf = 0 then 0 else 1) + count_filled bs := by
  unfold count_filled
  by_cases h : b.buf = 0 <;> simp [List.countP_cons, h] <;> ring

theorem count_dirty_cons (b : cached_block_entry) (bs : List cached_block_entry) :
    count_dirty (b :: bs)
      = (if b.buf = 0 then 0 else if b.dirty = true then 1 else 0) + count_dirty bs := by
  unfold count_dirty
  by_cases h : b.buf = 0 <;> by_cases hd : b.dirty = true <;>
    simp [List.countP_cons, h, hd] <;> ring

theorem count_clean_cons (b : cached_block_entry) (bs : List cached_block_entry) :
    count_clean (b :: bs)
      = (if b.buf = 0 then 0 else if b.dirty = true then 0 else 1) + count_clean bs := by
  unfold count_clean
  by_cases h : b.buf = 0 <;> by_cases hd : b.dirty = true <;>
    simp [List.countP_cons, h, hd] <;> ring

theorem count_marked_dirty_cons (b : cached_block_entry) (bs : List cached_block_entry) :
    count_marked_dirty (b :: bs) = (if b.dirty = true then 1 else 0) + count_marked_dirty bs := by
  unfold count_marked_dirty
  by_cases hd : b.dirty = true <;> simp [List.countP_cons, hd] <;> ring

theorem count_filled_nonneg (bs : List cached_block_entry) : 0 ≤ count_filled bs := by
  unfold count_filled; exact Int.natCast_nonneg _

theorem count_dirty_nonneg (bs : List cached_block_entry) : 0 ≤ count_dirty bs := by
  unfold count_dirty; exact Int.natCast_nonneg _

theorem count_clean_nonneg (bs : List cached_block_entry) : 0 ≤ count_clean bs := by
  unfold count_clean; exact Int.natCast_nonneg _

theorem count_filled_split : ∀ bs : List cached_block_entry,
    count_filled bs = count_clean bs + count_dirty bs := by
  intro bs
  induction bs with
  | nil => rfl
  | cons b bs ih =>
    rw [count_filled_cons, count_clean_cons, count_dirty_cons, ih]
    by_cases h : b.buf = 0 <;> by_cases hd : b.dirty = true <;> simp [h, hd] <;> ring

/-- When empty slots are never dirty, counting the dirty slots and counting
the filled dirty slots is the same. -/
theorem count_marked_dirty_eq : ∀ bs : List cached_block_entry,
    (∀ b ∈ bs, b.buf = 0 → ¬ b.is_protected) → count_marked_dirty bs = count_dirty bs := by
  intro bs
  induction bs with
  | nil => intro _; rfl
  | cons b bs ih =>
    intro h
    rw [count_marked_dirty_cons, count_dirty_cons, ih (fun x hx => h x (List.mem_cons_of_mem _ hx))]
    by_cases hb : b.buf = 0
    · have := h b (List.mem_cons_self _ _) hb
      have hd : ¬ b.dirty = true := fun e => this (Or.inr (Or.inl e))
      simp [hb, hd]
    · simp [hb]

theorem count_filled_zero_mem {bs : List cached_block_entry} (h : count_filled bs = 0) :
    ∀ b ∈ bs, b.buf = 0 := by
  induction bs with
  | nil => intro b hb; cases hb
  | cons a bs ih =>
    rw [count_filled_cons] at h
    have h0 := count_filled_nonneg bs
    intro b hb
    by_cases ha : a.buf = 0
    · simp only [ha, if_true, zero_add] at h
      rcases List.mem_cons.1 hb with rfl | hb
      · exact ha
      · exact ih h b hb
    · simp only [ha, if_false] at h
      omega

theorem no_protected_of_empty {p : cached_piece_entry} (hp : piece_invariant p)
    (h : p.num_blocks = 0) : ∀ b ∈ p.blocks, b.buf = 0 ∧ ¬ b.is_protected := by
  intro b hb
  have h1 : count_filled p.blocks = 0 := by rw [← hp.1]; exact h
  have h2 := count_filled_zero_mem h1 b hb
  exact ⟨h2, hp.2.2 b hb h2⟩

theorem counts_zero_of_empty {p : cached_piece_entry} (hp : piece_invariant p)
    (h : p.num_blocks = 0) : count_clean p.blocks = 0 ∧ count_dirty p.blocks = 0 := by
  have h1 : count_filled p.blocks = 0 := by rw [← hp.1]; exact h
  have h2 := count_filled_split p.blocks
  have h3 := count_clean_nonneg p.blocks
  have h4 := count_dirty_nonneg p.blocks
  constructor <;> omega

/-! ## The LRU lists -/

theorem lru_set_same (m : Nat → List piece_key) (i : Nat) (l : List piece_key) :
    lru_set m i l i = l := by
  simp [lru_set]

theorem lru_set_other (m : Nat → List piece_key) {i j : Nat} (l : List piece_key)
    (h : j ≠ i) : lru_set m i l j = m j := by
  simp [lru_set, h]

/-- Lookup after a write-back through a pointer. -/
theorem find_after_store {c d : block_cache} {pk : piece_key} {pe q : cached_piece_entry}
    (hf : c.find_piece pk = some pe) (hk : q.key = pk)
    (hp : d.m_pieces = replace_piece q c.m_pieces) :
    d.find_piece pk = some q ∧ ∀ k, k ≠ pk → d.find_piece k = c.find_piece k := by
  subst hk
  refine ⟨?_, fun k hk => ?_⟩
  · unfold block_cache.find_piece
    rw [hp]
    exact find_replace_same q _ _ hf
  · unfold block_cache.find_piece
    rw [hp, find_replace_other q k hk]

/-- Unlinking the piece `pk` from the list of its state leaves every list
without repetition and without `pk`. -/
theorem lru_list_unlink {c : block_cache} {g : Nat} {pk : piece_key}
    {p : cached_piece_entry} (h : lru_list_ok c g) (hf : c.find_piece pk = some p) :
    (lru_set c.m_lru p.cache_state ((c.m_lru p.cache_state).erase pk) g).Nodup
      ∧ ∀ k ∈ lru_set c.m_lru p.cache_state ((c.m_lru p.cache_state).erase pk) g,
          k ∈ c.m_lru g ∧ k ≠ pk := by
  by_cases hg : g = p.cache_state
  · subst hg
    rw [lru_set_same]
    refine ⟨h.1.erase _, fun k hk => ?_⟩
    have := (List.Nodup.mem_erase_iff h.1).1 hk
    exact ⟨this.2, this.1⟩
  · rw [lru_set_other _ _ hg]
    refine ⟨h.1, fun k hk => ⟨hk, ?_⟩⟩
    rintro rfl
    obtain ⟨p0, hp0, hs0, _⟩ := h.2 k hk
    rw [hf] at hp0
    cases hp0
    exact hg hs0.symm

/-- A list stays well formed when entries other than `pk` are removed from it
and only the piece `pk` changes. -/
theorem lru_list_ok_shrink {c c2 : block_cache} {g : Nat} {pk : piece_key}
    (h : lru_list_ok c g) (hnd : (c2.m_lru g).Nodup)
    (hsub : ∀ k ∈ c2.m_lru g, k ∈ c.m_lru g ∧ k ≠ pk)
    (hfind : ∀ k, k ≠ pk → c2.find_piece k = c.find_piece k) : lru_list_ok c2 g := by
  refine ⟨hnd, fun k hk => ?_⟩
  obtain ⟨h1, h2⟩ := hsub k hk
  obtain ⟨p0, hp0, hs0, hn0⟩ := h.2 k h1
  exact ⟨p0, by rw [hfind k h2]; exact hp0, hs0, hn0⟩

/-- A list stays well formed when a piece is written back with the same state
and, for a ghost, without gaining a block. -/
theorem lru_list_ok_store {c c2 : block_cache} {g : Nat} {p q : cached_piece_entry}
    (h : lru_list_ok c g) (hf : c.find_piece q.key = some p)
    (hs : q.cache_state = p.cache_state)
    (hnb : (p.cache_state = read_lru1_ghost ∨ p.cache_state = read_lru2_ghost) →
      p.num_blocks = 0 → q.num_blocks = 0)
    (hp : c2.m_pieces = replace_piece q c.m_pieces) (hl : c2.m_lru g = c.m_lru g) :
    lru_list_ok c2 g := by
  refine ⟨by rw [hl]; exact h.1, fun k hk => ?_⟩
  rw [hl] at hk
  obtain ⟨p0, hp0, hs0, hn0⟩ := h.2 k hk
  by_cases hkq : k = q.key
  · subst hkq
    rw [hf] at hp0
    cases hp0
    refine ⟨q, ?_, by rw [hs]; exact hs0, fun hg => hnb (hs0 ▸ hg) (hn0 hg)⟩
    unfold block_cache.find_piece
    rw [hp]
    exact find_replace_same q c.m_pieces _ hf
  · refine ⟨p0, ?_, hs0, hn0⟩
    unfold block_cache.find_piece
    rw [hp, find_replace_other q k hkq]
    exact hp0

/-- A list stays well formed when the piece `pk`, in the state of that list
afterwards, is appended to what is left of it. -/
theorem lru_list_ok_push {c c2 : block_cache} {t : Nat} {pk : piece_key}
    {q : cached_piece_entry} {l : List piece_key} (h : lru_list_ok c t)
    (hl : c2.m_lru t = l ++ [pk]) (hnd : l.Nodup) (hsub : ∀ k ∈ l, k ∈ c.m_lru t ∧ k ≠ pk)
    (hfind : ∀ k, k ≠ pk → c2.find_piece k = c.find_piece k)
    (hq : c2.find_piece pk = some q) (hqs : q.cache_state = t)
    (hqn : (t = read_lru1_ghost ∨ t = read_lru2_ghost) → q.num_blocks = 0) :
    lru_list_ok c2 t := by
  rw [lru_list_ok, hl]
  refine ⟨?_, ?_⟩
  · rw [List.nodup_append]
    refine ⟨hnd, List.nodup_singleton _, ?_⟩
    intro a ha hb
    rw [List.mem_singleton] at hb
    exact (hsub a ha).2 hb
  · intro k hk
    rcases List.mem_append.1 hk with hk | hk
    · obtain ⟨h1, h2⟩ := hsub k hk
      obtain ⟨p0, hp0, hs0, hn0⟩ := h.2 k h1
      exact ⟨p0, by rw [hfind k h2]; exact hp0, hs0, hn0⟩
    · rw [List.mem_singleton] at hk
      subst hk
      exact ⟨q, hq, hqs, hqn⟩

/-! ## Preservation of the invariant by the primitive steps -/

/-- Writing back a piece whose own invariant holds, with the global sizes
adjusted by the change of its clean and dirty counts. -/
theorem cache_invariant_store {c c2 : block_cache} {p q : cached_piece_entry}
    (h : cache_invariant c) (hf : c.find_piece q.key = some p)
    (hq : piece_invariant q) (hs : q.cache_state = p.cache_state)
    (hnb : (p.cache_state = read_lru1_ghost ∨ p.cache_state = read_lru2_ghost) →
      p.num_blocks = 0 → q.num_blocks = 0)
    (hp : c2.m_pieces = replace_piece q c.m_pieces) (hl : c2.m_lru = c.m_lru)
    (hr : c2.m_read_cache_size
      = c.m_read_cache_size - count_clean p.blocks + count_clean q.blocks)
    (hw : c2.m_write_cache_size
      = c.m_write_cache_size - count_dirty p.blocks + count_dirty q.blocks) :
    cache_invariant c2 := by
  refine ⟨?_, ?_, ?_, ?_, ?_⟩
  · rw [hp, replace_piece_keys]; exact h.keys
  · intro x hx
    rw [hp] at hx
    rcases mem_replace_piece hx with rfl | hx
    · exact hq
    · exact h.pieces x hx
  · rw [hr, hp, total_replace _ q _ p hf, h.read_size]
  · rw [hw, hp, total_replace _ q _ p hf, h.write_size]
  · intro i hi
    exact lru_list_ok_store (h.lists i hi) hf hs hnb hp (by rw [hl])

/-- The lists after a piece has been unlinked from the list of its state and
appended to the list `t`, whose state it takes. -/
theorem lru_lists_relink {c c2 : block_cache} {p q : cached_piece_entry} {t : Nat}
    (h : cache_invariant c) (hf : c.find_piece q.key = some p)
    (hqs : q.cache_state = t)
    (hqn : (t = read_lru1_ghost ∨ t = read_lru2_ghost) → q.num_blocks = 0)
    (hp : c2.m_pieces = replace_piece q c.m_pieces)
    (hl : c2.m_lru = lru_set (lru_set c.m_lru p.cache_state ((c.m_lru p.cache_state).erase q.key))
      t (lru_set c.m_lru p.cache_state ((c.m_lru p.cache_state).erase q.key) t ++ [q.key])) :
    ∀ i, i < num_lrus → lru_list_ok c2 i := by
  have hfind := find_after_store (d := c2) hf rfl hp
  intro g hgl
  have hok := h.lists g hgl
  have hu := lru_list_unlink hok hf
  by_cases hg : g = t
  · subst hg
    exact lru_list_ok_push hok (by rw [hl, lru_set_same]) hu.1 hu.2 hfind.2 hfind.1 hqs hqn
  · have hlg : c2.m_lru g
        = lru_set c.m_lru p.cache_state ((c.m_lru p.cache_state).erase q.key) g := by
      rw [hl, lru_set_other _ _ hg]
    exact lru_list_ok_shrink hok (by rw [hlg]; exact hu.1)
      (fun k hk => hu.2 k (by rw [← hlg]; exact hk)) hfind.2

/-- Moving a piece from the list of its state to the back of a list that is
not a ghost list, its blocks and counters unchanged. -/
theorem cache_invariant_move {c c2 : block_cache} {p q : cached_piece_entry} {t : Nat}
    (h : cache_invariant c) (hf : c.find_piece q.key = some p)
    (hb : q.blocks = p.blocks) (hnb : q.num_blocks = p.num_blocks)
    (hnd : q.num_dirty = p.num_dirty) (hqs : q.cache_state = t)
    (ht3 : t ≠ read_lru1_ghost) (ht5 : t ≠ read_lru2_ghost)
    (hp : c2.m_pieces = replace_piece q c.m_pieces)
    (hl : c2.m_lru = lru_set (lru_set c.m_lru p.cache_state ((c.m_lru p.cache_state).erase q.key))
      t (lru_set c.m_lru p.cache_state ((c.m_lru p.cache_state).erase q.key) t ++ [q.key]))
    (hr : c2.m_read_cache_size = c.m_read_cache_size)
    (hw : c2.m_write_cache_size = c.m_write_cache_size) : cache_invariant c2 := by
  refine ⟨?_, ?_, ?_, ?_, lru_lists_relink h hf hqs ?_ hp hl⟩
  · rw [hp, replace_piece_keys]; exact h.keys
  · intro x hx
    rw [hp] at hx
    rcases mem_replace_piece hx with rfl | hx
    · have hpi := h.pieces p (find_piece_some_mem hf).1
      unfold piece_invariant at hpi ⊢
      rw [hb, hnb, hnd]
      exact hpi
    · exact h.pieces x hx
  · rw [hr, hp, total_replace _ q _ p hf, h.read_size, hb]; ring
  · rw [hw, hp, total_replace _ q _ p hf, h.write_size, hb]; ring
  · rintro (e | e)
    · exact absurd e ht3
    · exact absurd e ht5

/-- Erasing a piece that holds no block. -/
theorem cache_invariant_erase_piece {c : block_cache} {pk : piece_key}
    {pe : cached_piece_entry} (h : cache_invariant c) (hf : c.find_piece pk = some pe)
    (hnb : pe.num_blocks = 0) : cache_invariant (c.erase_piece pk) := by
  have hpe := h.pieces pe (find_piece_some_mem hf).1
  have hz := counts_zero_of_empty hpe hnb
  have hm : (c.erase_piece pk).m_pieces = c.m_pieces.eraseP (fun p => p.key == pk) := by
    unfold block_cache.erase_piece; rw [hf]
  have hlru : (c.erase_piece pk).m_lru
      = lru_set c.m_lru pe.cache_state ((c.m_lru pe.cache_state).erase pk) := by
    unfold block_cache.erase_piece; rw [hf]
  have hr : (c.erase_piece pk).m_read_cache_size = c.m_read_cache_size := by
    unfold block_cache.erase_piece; rw [hf]
  have hw : (c.erase_piece pk).m_write_cache_size = c.m_write_cache_size := by
    unfold block_cache.erase_piece; rw [hf]
  have hfind : ∀ k, k ≠ pk → (c.erase_piece pk).find_piece k = c.find_piece k := by
    intro k hk
    unfold block_cache.find_piece
    rw [hm, find_erase_other pk k hk]
  have hghost : ∀ g, lru_list_ok c g → lru_list_ok (c.erase_piece pk) g := by
    intro g hok
    have hu := lru_list_unlink hok hf
    exact lru_list_ok_shrink hok (by rw [hlru]; exact hu.1)
      (fun k hk => hu.2 k (by rw [← hlru]; exact hk)) hfind
  refine ⟨?_, ?_, ?_, ?_, fun i hi => hghost i (h.lists i hi)⟩
  · rw [hm]
    exact h.keys.sublist ((List.eraseP_sublist _).map _)
  · intro x hx
    rw [hm] at hx
    exact h.pieces x (List.mem_of_mem_eraseP hx)
  · rw [hr, hm, total_erase _ pk _ pe hf, h.read_size, hz.1]; ring
  · rw [hw, hm, total_erase _ pk _ pe hf, h.write_size, hz.2]; ring

/-! ## The frame relation -/

theorem forall₂_slot_kept_refl : ∀ bs : List cached_block_entry, List.Forall₂ slot_kept bs bs := by
  intro bs
  induction bs with
  | nil => exact List.Forall₂.nil
  | cons b bs ih => exact List.Forall₂.cons (fun _ => rfl) ih

theorem forall₂_slot_kept_trans : ∀ {l1 l2 l3 : List cached_block_entry},
    List.Forall₂ slot_kept l1 l2 → List.Forall₂ slot_kept l2 l3 →
    List.Forall₂ slot_kept l1 l3 := by
  intro l1 l2 l3 h12
  induction h12 generalizing l3 with
  | nil => intro h; cases h; exact List.Forall₂.nil
  | cons hab _ ih =>
    intro h
    cases h with
    | cons hbc htl =>
      refine List.Forall₂.cons ?_ (ih htl)
      intro hp
      have := hab hp
      subst this
      exact hbc hp

theorem forall₂_slot_kept_protected : ∀ {l1 l2 : List cached_block_entry},
    List.Forall₂ slot_kept l1 l2 → (∃ b ∈ l1, b.is_protected) → ∃ b ∈ l2, b.is_protected := by
  intro l1 l2 h
  induction h with
  | nil => rintro ⟨b, hb, _⟩; cases hb
  | cons hab _ ih =>
    rintro ⟨b, hb, hp⟩
    rcases List.mem_cons.1 hb with rfl | hb
    · have := hab hp
      exact ⟨_, List.mem_cons_self _ _, by rw [this]; exact hp⟩
    · obtain ⟨b2, hb2, hp2⟩ := ih ⟨b, hb, hp⟩
      exact ⟨b2, List.mem_cons_of_mem _ hb2, hp2⟩

theorem eviction_frame_refl (ign : Option piece_key) (c : block_cache) :
    eviction_frame ign c c :=
  ⟨fun _ _ _ _ h => h, fun _ _ _ h _ _ => h,
   fun _ p h _ => ⟨p, h, forall₂_slot_kept_refl _⟩⟩

theorem eviction_frame_trans {ign : Option piece_key} {c1 c2 c3 : block_cache}
    (h12 : eviction_frame ign c1 c2) (h23 : eviction_frame ign c2 c3) :
    eviction_frame ign c1 c3 := by
  refine ⟨?_, ?_, ?_⟩
  · intro k hk g hg hm
    exact h12.ghost_ign k hk g hg (h23.ghost_ign k hk g hg hm)
  · intro k p hk hf h3 h5
    exact h23.keep_ign k p hk (h12.keep_ign k p hk hf h3 h5)
      (fun hm => h3 (h12.ghost_ign k hk _ (Or.inl rfl) hm))
      (fun hm => h5 (h12.ghost_ign k hk _ (Or.inr rfl) hm))
  · intro k p hf hp
    obtain ⟨p2, hf2, hr2⟩ := h12.keep_prot k p hf hp
    obtain ⟨p3, hf3, hr3⟩ := h23.keep_prot k p2 hf2 (forall₂_slot_kept_protected hr2 hp)
    exact ⟨p3, hf3, forall₂_slot_kept_trans hr2 hr3⟩

theorem and_frame_trans {ign : Option piece_key} {c c1 c3 : block_cache}
    (h12 : eviction_frame ign c c1) (h : cache_invariant c3 ∧ eviction_frame ign c1 c3) :
    cache_invariant c3 ∧ eviction_frame ign c c3 :=
  ⟨h.1, eviction_frame_trans h12 h.2⟩

/-- A step that touches a single piece without protected slot, which is not
the piece to ignore unless that one is a ghost, and that adds no other key to
a ghost list. -/
theorem eviction_frame_local {ign : Option piece_key} {c c2 : block_cache} {pk : piece_key}
    {pe : cached_piece_entry} (hf : c.find_piece pk = some pe)
    (hpe : ∀ b ∈ pe.blocks, ¬ b.is_protected)
    (hign : ign = some pk → pk ∈ c.m_lru read_lru1_ghost ∨ pk ∈ c.m_lru read_lru2_ghost)
    (hfind : ∀ k, k ≠ pk → c2.find_piece k = c.find_piece k)
    (hl : ∀ g k, (g = read_lru1_ghost ∨ g = read_lru2_ghost) → k ∈ c2.m_lru g →
      k ∈ c.m_lru g ∨ (k = pk ∧ ign ≠ some pk)) : eviction_frame ign c c2 := by
  refine ⟨?_, ?_, ?_⟩
  · intro k hk g hg hm
    rcases hl g k hg hm with h | ⟨h1, h2⟩
    · exact h
    · exact absurd (h1 ▸ hk) h2
  · intro k p hk hfk h3 h5
    have hne : k ≠ pk := by
      rintro rfl
      rcases hign hk with h | h
      · exact h3 h
      · exact h5 h
    rw [hfind k hne]; exact hfk
  · intro k p hfk hp
    have hne : k ≠ pk := by
      rintro rfl
      rw [hf] at hfk
      cases hfk
      obtain ⟨b, hb, hbp⟩ := hp
      exact hpe b hb hbp
    exact ⟨p, by rw [hfind k hne]; exact hfk, forall₂_slot_kept_refl _⟩

/-- A step that rewrites the slots of one piece, which is not the piece to
ignore, keeping its protected slots. -/
theorem eviction_frame_store {ign : Option piece_key} {c c2 : block_cache}
    {p q : cached_piece_entry} (hf : c.find_piece q.key = some p)
    (hq : List.Forall₂ slot_kept p.blocks q.blocks) (hign : ign ≠ some q.key)
    (hp : c2.m_pieces = replace_piece q c.m_pieces) (hl : c2.m_lru = c.m_lru) :
    eviction_frame ign c c2 := by
  have hfind : ∀ k, k ≠ q.key → c2.find_piece k = c.find_piece k := by
    intro k hk
    unfold block_cache.find_piece
    rw [hp, find_replace_other q k hk]
  refine ⟨?_, ?_, ?_⟩
  · intro k _ g _ hm
    rw [hl] at hm; exact hm
  · intro k p0 hk hfk _ _
    have hne : k ≠ q.key := fun e => hign (e ▸ hk)
    rw [hfind k hne]; exact hfk
  · intro k p0 hfk _
    by_cases hk : k = q.key
    · subst hk
      rw [hf] at hfk
      cases hfk
      refine ⟨q, ?_, hq⟩
      unfold block_cache.find_piece
      rw [hp]
      exact find_replace_same q _ _ hf
    · exact ⟨p0, by rw [hfind k hk]; exact hfk, forall₂_slot_kept_refl _⟩

/-! ## Erasing pieces and the ghost lists -/

theorem erase_piece_pieces {c : block_cache} {pk : piece_key} {pe : cached_piece_entry}
    (hf : c.find_piece pk = some pe) :
    (c.erase_piece pk).m_pieces = c.m_pieces.eraseP (fun p => p.key == pk) := by
  unfold block_cache.erase_piece; rw [hf]

theorem erase_piece_lru {c : block_cache} {pk : piece_key} {pe : cached_piece_entry}
    (hf : c.find_piece pk = some pe) :
    (c.erase_piece pk).m_lru
      = lru_set c.m_lru pe.cache_state ((c.m_lru pe.cache_state).erase pk) := by
  unfold block_cache.erase_piece; rw [hf]

theorem erase_piece_find_other {c : block_cache} {pk : piece_key} (k : piece_key)
    (hk : k ≠ pk) : (c.erase_piece pk).find_piece k = c.find_piece k := by
  cases hf : c.find_piece pk with
  | none => unfold block_cache.erase_piece; rw [hf]
  | some pe =>
    unfold block_cache.find_piece
    rw [erase_piece_pieces hf, find_erase_other pk k hk]

theorem mem_lru_unlink {m : Nat → List piece_key} {s g : Nat} {pk k : piece_key}
    (h : k ∈ lru_set m s ((m s).erase pk) g) : k ∈ m g := by
  by_cases hg : g = s
  · subst hg
    rw [lru_set_same] at h
    exact List.mem_of_mem_erase h
  · rw [lru_set_other _ _ hg] at h
    exact h

theorem eviction_frame_erase_piece {ign : Option piece_key} {c : block_cache}
    {pk : piece_key} {pe : cached_piece_entry} (h : cache_invariant c)
    (hf : c.find_piece pk = some pe) (hnb : pe.num_blocks = 0)
    (hign : ign = some pk → pk ∈ c.m_lru read_lru1_ghost ∨ pk ∈ c.m_lru read_lru2_ghost) :
    eviction_frame ign c (c.erase_piece pk) := by
  have hpe := h.pieces pe (find_piece_some_mem hf).1
  refine eviction_frame_local hf (fun b hb => (no_protected_of_empty hpe hnb b hb).2) hign
    (fun k hk => erase_piece_find_other k hk) ?_
  intro g k _ hk
  rw [erase_piece_lru hf] at hk
  exact Or.inl (mem_lru_unlink hk)

theorem ghost_list_of {c : block_cache} (h : cache_invariant c) {g : Nat}
    (hg : g = read_lru1_ghost ∨ g = read_lru2_ghost) : lru_list_ok c g := by
  rcases hg with rfl | rfl
  · exact h.lists _ (by decide)
  · exact h.lists _ (by decide)

theorem trim_ghost_succ (g fuel : Nat) (c : block_cache) :
    block_cache.trim_ghost g (fuel + 1) c
      = if ((c.m_lru g).length : Int) ≥ c.m_ghost_size then
          match (c.m_lru g).head? with
          | none => c
          | some k => block_cache.trim_ghost g fuel (c.erase_piece k)
        else c := rfl

/-- The loop that trims a ghost list keeps the invariant and the frame; it
only touches pieces of that ghost list and no other list. -/
theorem trim_ghost_spec (ign : Option piece_key) {g : Nat}
    (hg : g = read_lru1_ghost ∨ g = read_lru2_ghost) :
    ∀ (fuel : Nat) (c : block_cache), cache_invariant c →
      cache_invariant (block_cache.trim_ghost g fuel c)
      ∧ eviction_frame ign c (block_cache.trim_ghost g fuel c)
      ∧ (∀ k, k ∉ c.m_lru g → (block_cache.trim_ghost g fuel c).find_piece k = c.find_piece k)
      ∧ (∀ j, j ≠ g → (block_cache.trim_ghost g fuel c).m_lru j = c.m_lru j)
      ∧ (∀ k ∈ (block_cache.trim_ghost g fuel c).m_lru g, k ∈ c.m_lru g) := by
  intro fuel
  induction fuel with
  | zero =>
    intro c h
    exact ⟨h, eviction_frame_refl _ _, fun _ _ => rfl, fun _ _ => rfl, fun _ hk => hk⟩
  | succ fuel ih =>
    intro c h
    rw [trim_ghost_succ]
    by_cases hsz : ((c.m_lru g).length : Int) ≥ c.m_ghost_size
    · rw [if_pos hsz]
      cases hh : (c.m_lru g).head? with
      | none =>
        exact ⟨h, eviction_frame_refl _ _, fun _ _ => rfl, fun _ _ => rfl, fun _ hk => hk⟩
      | some k =>
        have hkm : k ∈ c.m_lru g := List.mem_of_mem_head? hh
        obtain ⟨p0, hf0, hs0, hn1⟩ := (ghost_list_of h hg).2 k hkm
        have hn0 := hn1 hg
        have hinv := cache_invariant_erase_piece h hf0 hn0
        have hfr : eviction_frame ign c (c.erase_piece k) :=
          eviction_frame_erase_piece h hf0 hn0 (fun _ => by
            rcases hg with rfl | rfl
            · exact Or.inl hkm
            · exact Or.inr hkm)
        have hsub : ∀ k2 ∈ (c.erase_piece k).m_lru g, k2 ∈ c.m_lru g := by
          intro k2 hk2
          rw [erase_piece_lru hf0] at hk2
          exact mem_lru_unlink hk2
        obtain ⟨i1, i2, i3, i4, i5⟩ := ih (c.erase_piece k) hinv
        refine ⟨i1, eviction_frame_trans hfr i2, ?_, ?_, ?_⟩
        · intro k2 hk2
          have hne : k2 ≠ k := fun e => hk2 (e ▸ hkm)
          rw [i3 k2 (fun hm => hk2 (hsub k2 hm)), erase_piece_find_other k2 hne]
        · intro j hj
          rw [i4 j hj, erase_piece_lru hf0, hs0, lru_set_other _ _ hj]
        · intro k2 hk2
          exact hsub k2 (i5 k2 hk2)
    · rw [if_neg hsz]
      exact ⟨h, eviction_frame_refl _ _, fun _ _ => rfl, fun _ _ => rfl, fun _ hk => hk⟩

/-! ## `move_to_ghost` -/

theorem ok_to_evict_num_blocks {p : cached_piece_entry} {ih : Bool}
    (h : p.ok_to_evict ih = true) : p.num_blocks = 0 := by
  unfold cached_piece_entry.ok_to_evict at h
  simp only [Bool.and_eq_true, beq_iff_eq] at h
  exact h.1.1.1.1.2

theorem not_in_ghost_of_state {c : block_cache} (h : cache_invariant c) {pk : piece_key}
    {pe : cached_piece_entry} (hf : c.find_piece pk = some pe) {g : Nat}
    (hg : g = read_lru1_ghost ∨ g = read_lru2_ghost) (hs : pe.cache_state ≠ g) :
    pk ∉ c.m_lru g := by
  intro hm
  obtain ⟨p0, hp0, hs0, _⟩ := (ghost_list_of h hg).2 pk hm
  rw [hf] at hp0
  cases hp0
  exact hs hs0

/-- The last step of `move_to_ghost`: the piece, which holds no block, goes
from its LRU list to the back of the ghost list after it. -/
theorem ghost_link_spec (ign : Option piece_key) {c1 : block_cache} {pk : piece_key}
    {pe : cached_piece_entry} (h1 : cache_invariant c1) (hf1 : c1.find_piece pk = some pe)
    (hnb : pe.num_blocks = 0) (hign : ign ≠ some pk)
    (hs : pe.cache_state = read_lru1 ∨ pe.cache_state = read_lru2)
    (c3 : block_cache)
    (hp : c3.m_pieces = replace_piece
      { pe with in_storage := false, cache_state := pe.cache_state + 1 } c1.m_pieces)
    (hl : c3.m_lru = lru_set (lru_set c1.m_lru pe.cache_state ((c1.m_lru pe.cache_state).erase pk))
      (pe.cache_state + 1)
      (lru_set c1.m_lru pe.cache_state ((c1.m_lru pe.cache_state).erase pk) (pe.cache_state + 1)
        ++ [pk]))
    (hr : c3.m_read_cache_size = c1.m_read_cache_size)
    (hw : c3.m_write_cache_size = c1.m_write_cache_size) :
    cache_invariant c3 ∧ eviction_frame ign c1 c3 := by
  have hkey : pe.key = pk := (find_piece_some_mem hf1).2
  have hpe := h1.pieces pe (find_piece_some_mem hf1).1
  have hqk : ({ pe with in_storage := false, cache_state := pe.cache_state + 1 }
      : cached_piece_entry).key = pk := hkey
  have hfq : c1.find_piece
      ({ pe with in_storage := false, cache_state := pe.cache_state + 1 }
        : cached_piece_entry).key = some pe := by rw [hqk]; exact hf1
  have hfind : ∀ k, k ≠ pk → c3.find_piece k = c1.find_piece k := by
    intro k hk
    unfold block_cache.find_piece
    rw [hp, find_replace_other _ k (by rw [hqk]; exact hk)]
  have hfind_pk : c3.find_piece pk
      = some { pe with in_storage := false, cache_state := pe.cache_state + 1 } := by
    unfold block_cache.find_piece
    rw [hp]
    have := find_replace_same _ c1.m_pieces pe hfq
    rw [hqk] at this
    exact this
  have hnot : ∀ gg, (gg = read_lru1_ghost ∨ gg = read_lru2_ghost) → pk ∉ c1.m_lru gg := by
    intro gg hgg
    refine not_in_ghost_of_state h1 hf1 hgg ?_
    rcases hs with hs | hs <;> rcases hgg with rfl | rfl <;> rw [hs] <;> decide
  have hlru : ∀ gg, (gg = read_lru1_ghost ∨ gg = read_lru2_ghost) →
      c3.m_lru gg = if gg = pe.cache_state + 1 then c1.m_lru gg ++ [pk] else c1.m_lru gg := by
    intro gg hgg
    have hne : gg ≠ pe.cache_state := by
      rcases hs with hs | hs <;> rcases hgg with rfl | rfl <;> rw [hs] <;> decide
    rw [hl]
    by_cases hg : gg = pe.cache_state + 1
    · rw [if_pos hg, ← hg, lru_set_same, lru_set_other _ _ hne]
    · rw [if_neg hg, lru_set_other _ _ hg, lru_set_other _ _ hne]
  have hl2 : c3.m_lru = lru_set (lru_set c1.m_lru pe.cache_state ((c1.m_lru pe.cache_state).erase
        ({ pe with in_storage := false, cache_state := pe.cache_state + 1 }
          : cached_piece_entry).key))
      (pe.cache_state + 1)
      (lru_set c1.m_lru pe.cache_state ((c1.m_lru pe.cache_state).erase
        ({ pe with in_storage := false, cache_state := pe.cache_state + 1 }
          : cached_piece_entry).key) (pe.cache_state + 1)
        ++ [({ pe with in_storage := false, cache_state := pe.cache_state + 1 }
          : cached_piece_entry).key]) := by
    rw [hqk]; exact hl
  have hlists := lru_lists_relink
    (q := { pe with in_storage := false, cache_state := pe.cache_state + 1 })
    h1 hfq rfl (fun _ => hnb) hp hl2
  refine ⟨⟨?_, ?_, ?_, ?_, hlists⟩, ?_⟩
  · rw [hp, replace_piece_keys]; exact h1.keys
  · intro x hx
    rw [hp] at hx
    rcases mem_replace_piece hx with rfl | hx
    · exact hpe
    · exact h1.pieces x hx
  · rw [hr, hp, total_replace _ _ _ pe hfq, h1.read_size]; ring
  · rw [hw, hp, total_replace _ _ _ pe hfq, h1.write_size]; ring
  · refine eviction_frame_local hf1 (fun b hb => (no_protected_of_empty hpe hnb b hb).2)
      (fun e => absurd e hign) hfind ?_
    intro gg k hgg hk
    rw [hlru gg hgg] at hk
    by_cases hg : gg = pe.cache_state + 1
    · rw [if_pos hg] at hk
      rcases List.mem_append.1 hk with hk | hk
      · exact Or.inl hk
      · rw [List.mem_singleton] at hk
        exact Or.inr ⟨hk, hign⟩
    · rw [if_neg hg] at hk
      exact Or.inl hk

/-- `move_to_ghost` on a piece without blocks, other than the piece to ignore,
keeps the invariant and the frame. -/
theorem move_to_ghost_spec (ign : Option piece_key) {c : block_cache} {pk : piece_key}
    {pe : cached_piece_entry} (h : cache_invariant c) (hf : c.find_piece pk = some pe)
    (hnb : pe.num_blocks = 0) (hign : ign ≠ some pk) :
    cache_invariant (c.move_to_ghost pk) ∧ eviction_frame ign c (c.move_to_ghost pk) := by
  unfold block_cache.move_to_ghost
  rw [hf]
  dsimp only
  split_ifs with hv hs
  · exact ⟨cache_invariant_erase_piece h hf hnb,
      eviction_frame_erase_piece h hf hnb (fun e => absurd e hign)⟩
  · exact ⟨h, eviction_frame_refl _ _⟩
  · have hs2 : pe.cache_state = read_lru1 ∨ pe.cache_state = read_lru2 := by
      simp only [bne_iff_ne, ne_eq, Bool.and_eq_true, decide_eq_true_eq, not_and,
        Decidable.not_not] at hs
      by_cases h2 : pe.cache_state = read_lru1
      · exact Or.inl h2
      · exact Or.inr (hs h2)
    have hg : pe.cache_state + 1 = read_lru1_ghost ∨ pe.cache_state + 1 = read_lru2_ghost := by
      rcases hs2 with e | e <;> rw [e]
      · exact Or.inl rfl
      · exact Or.inr rfl
    obtain ⟨i1, i2, i3, i4, i5⟩ :=
      trim_ghost_spec ign hg (c.m_lru (pe.cache_state + 1)).length c h
    have hnot : pk ∉ c.m_lru (pe.cache_state + 1) :=
      not_in_ghost_of_state h hf hg (by omega)
    have hf1 := (i3 pk hnot).trans hf
    exact and_frame_trans i2 (ghost_link_spec ign i1 hf1 hnb hign hs2 _ rfl rfl rfl rfl)

/-! ## The block loop of `try_evict_blocks` -/

theorem evict_scan_zero (bs : List cached_block_entry) (a : evict_acc) :
    evict_scan 0 bs a = (bs, a) := by
  cases bs <;> rfl

theorem evict_scan_nil (n : Nat) (a : evict_acc) : evict_scan n [] a = ([], a) := by
  cases n <;> rfl

theorem evict_scan_cons (n : Nat) (b : cached_block_entry) (bs : List cached_block_entry)
    (a : evict_acc) :
    evict_scan (n + 1) (b :: bs) a
      = if a.num ≤ 0 then (b :: bs, a)
        else if (b.buf == 0 || decide (b.refcount > 0) || b.dirty || b.pending) = true then
          (b :: (evict_scan n bs a).1, (evict_scan n bs a).2)
        else
          ({ b with buf := 0 } :: (evict_scan n bs
              { num := a.num - 1, num_blocks := a.num_blocks - 1
                read_cache_size := a.read_cache_size - 1
                to_delete := a.to_delete ++ [b.buf] }).1,
            (evict_scan n bs
              { num := a.num - 1, num_blocks := a.num_blocks - 1
                read_cache_size := a.read_cache_size - 1
                to_delete := a.to_delete ++ [b.buf] }).2) := rfl

/-- The block loop keeps every protected slot, never empties a dirty slot, and
lowers `num`, `num_blocks` and the read size by the number of slots it
empties. -/
theorem evict_scan_spec : ∀ (n : Nat) (bs : List cached_block_entry) (a : evict_acc),
    (∀ b ∈ bs, b.buf = 0 → ¬ b.is_protected) →
    List.Forall₂ slot_kept bs (evict_scan n bs a).1
    ∧ (∀ b ∈ (evict_scan n bs a).1, b.buf = 0 → ¬ b.is_protected)
    ∧ count_dirty (evict_scan n bs a).1 = count_dirty bs
    ∧ (evict_scan n bs a).2.num_blocks - count_filled (evict_scan n bs a).1
        = a.num_blocks - count_filled bs
    ∧ (evict_scan n bs a).2.read_cache_size - count_filled (evict_scan n bs a).1
        = a.read_cache_size - count_filled bs
    ∧ (evict_scan n bs a).2.num - count_filled (evict_scan n bs a).1
        = a.num - count_filled bs
    ∧ count_filled (evict_scan n bs a).1 ≤ count_filled bs := by
  intro n
  induction n with
  | zero =>
    intro bs a h
    rw [evict_scan_zero]
    exact ⟨forall₂_slot_kept_refl _, h, rfl, rfl, rfl, rfl, le_refl _⟩
  | succ n ih =>
    intro bs a h
    cases bs with
    | nil =>
      rw [evict_scan_nil]
      exact ⟨forall₂_slot_kept_refl _, h, rfl, rfl, rfl, rfl, le_refl _⟩
    | cons b bs =>
      have htl : ∀ x ∈ bs, x.buf = 0 → ¬ x.is_protected :=
        fun x hx => h x (List.mem_cons_of_mem _ hx)
      rw [evict_scan_cons]
      by_cases hnum : a.num ≤ 0
      · rw [if_pos hnum]
        exact ⟨forall₂_slot_kept_refl _, h, rfl, rfl, rfl, rfl, le_refl _⟩
      · rw [if_neg hnum]
        by_cases hc : (b.buf == 0 || decide (b.refcount > 0) || b.dirty || b.pending) = true
        · rw [if_pos hc]
          obtain ⟨i1, i2, i3, i4, i5, i6, i7⟩ := ih bs a htl
          refine ⟨List.Forall₂.cons (fun _ => rfl) i1, ?_, ?_, ?_, ?_, ?_, ?_⟩
          · intro x hx
            rcases List.mem_cons.1 hx with rfl | hx
            · exact h _ (List.mem_cons_self _ _)
            · exact i2 x hx
          · rw [count_dirty_cons, count_dirty_cons, i3]
          · rw [count_filled_cons, count_filled_cons]; dsimp only; omega
          · rw [count_filled_cons, count_filled_cons]; dsimp only; omega
          · rw [count_filled_cons, count_filled_cons]; dsimp only; omega
          · rw [count_filled_cons, count_filled_cons]; omega
        · rw [if_neg hc]
          simp only [Bool.or_eq_true, beq_iff_eq, decide_eq_true_eq, not_or,
            Bool.not_eq_true] at hc
          obtain ⟨⟨⟨hb, hr⟩, hd⟩, hpd⟩ := hc
          have hnp : ¬ b.is_protected := by
            rintro (h1 | h1 | h1)
            · exact hr h1
            · rw [hd] at h1; cases h1
            · rw [hpd] at h1; cases h1
          obtain ⟨i1, i2, i3, i4, i5, i6, i7⟩ := ih bs
            { num := a.num - 1, num_blocks := a.num_blocks - 1
              read_cache_size := a.read_cache_size - 1
              to_delete := a.to_delete ++ [b.buf] } htl
          refine ⟨List.Forall₂.cons (fun hp => absurd hp hnp) i1, ?_, ?_, ?_, ?_, ?_, ?_⟩
          · intro x hx
            rcases List.mem_cons.1 hx with rfl | hx
            · intro _; exact hnp
            · exact i2 x hx
          · rw [count_dirty_cons, count_dirty_cons, i3]
            simp [hb, hd]
          · rw [count_filled_cons, count_filled_cons]
            simp only [hb, if_true, if_false] at i4 ⊢
            omega
          · rw [count_filled_cons, count_filled_cons]
            simp only [hb, if_true, if_false] at i5 ⊢
            omega
          · rw [count_filled_cons, count_filled_cons]
            simp only [hb, if_true, if_false] at i6 ⊢
            omega
          · rw [count_filled_cons, count_filled_cons]
            simp only [hb, if_true, if_false]
            omega

/-- The block loop on one piece, which is not the piece to ignore, keeps the
invariant and the frame. -/
theorem evict_from_piece_spec (ign : Option piece_key) (st : evict_state) {pk : piece_key}
    {pe : cached_piece_entry} (limit : Nat) (h : cache_invariant st.c)
    (hf : st.c.find_piece pk = some pe) (hign : ign ≠ some pk) :
    cache_invariant (evict_from_piece st pe limit).c
      ∧ eviction_frame ign st.c (evict_from_piece st pe limit).c := by
  have hkey : pe.key = pk := (find_piece_some_mem hf).2
  have hpe := h.pieces pe (find_piece_some_mem hf).1
  obtain ⟨i1, i2, i3, i4, i5, _, i7⟩ := evict_scan_spec limit pe.blocks
    { num := st.num, num_blocks := pe.num_blocks
      read_cache_size := st.c.m_read_cache_size, to_delete := st.to_delete } hpe.2.2
  have hfq : st.c.find_piece
      ({ pe with
          blocks := (evict_scan limit pe.blocks
            { num := st.num, num_blocks := pe.num_blocks
              read_cache_size := st.c.m_read_cache_size, to_delete := st.to_delete }).1
          num_blocks := (evict_scan limit pe.blocks
            { num := st.num, num_blocks := pe.num_blocks
              read_cache_size := st.c.m_read_cache_size, to_delete := st.to_delete }).2.num_blocks }
        : cached_piece_entry).key = some pe := by
    show st.c.find_piece pe.key = some pe
    rw [hkey]; exact hf
  have hsplit1 := count_filled_split pe.blocks
  have hsplit2 := count_filled_split (evict_scan limit pe.blocks
    { num := st.num, num_blocks := pe.num_blocks
      read_cache_size := st.c.m_read_cache_size, to_delete := st.to_delete }).1
  have hnn := count_filled_nonneg (evict_scan limit pe.blocks
    { num := st.num, num_blocks := pe.num_blocks
      read_cache_size := st.c.m_read_cache_size, to_delete := st.to_delete }).1
  have h1 := hpe.1
  have h2 := hpe.2.1
  dsimp only at i4 i5
  refine ⟨cache_invariant_store h hfq ⟨?_, ?_, i2⟩ rfl ?_ rfl rfl ?_ ?_, ?_⟩
  · show (evict_scan _ _ _).2.num_blocks = count_filled (evict_scan _ _ _).1
    omega
  · show pe.num_dirty = count_dirty (evict_scan _ _ _).1
    rw [i3]; exact h2
  · intro _ hz
    show (evict_scan _ _ _).2.num_blocks = 0
    omega
  · show (evict_scan _ _ _).2.read_cache_size = _
    dsimp only
    omega
  · show st.c.m_write_cache_size = _
    dsimp only
    omega
  · refine eviction_frame_store hfq i1 ?_ rfl rfl
    show ign ≠ some pe.key
    rw [hkey]; exact hign

/-! ## `try_evict_blocks`: invariant and frame -/

theorem evict_read_step_spec (ign : Option piece_key) (st : evict_state) (pk : piece_key)
    (h : cache_invariant st.c) :
    cache_invariant (evict_read_step ign st pk).c
      ∧ eviction_frame ign st.c (evict_read_step ign st pk).c := by
  unfold evict_read_step
  by_cases hnum : st.num ≤ 0
  · rw [if_pos hnum]; exact ⟨h, eviction_frame_refl _ _⟩
  · rw [if_neg hnum]
    cases hf : st.c.find_piece pk with
    | none => exact ⟨h, eviction_frame_refl _ _⟩
    | some pe =>
      dsimp only
      by_cases hig : ign = some pk
      · rw [if_pos hig]; exact ⟨h, eviction_frame_refl _ _⟩
      · rw [if_neg hig]
        by_cases hok : pe.ok_to_evict false = true
        · rw [if_pos hok]
          exact move_to_ghost_spec ign h hf (ok_to_evict_num_blocks hok) hig
        · rw [if_neg hok]
          by_cases hpin : pe.num_blocks ≤ pe.pinned
          · rw [if_pos hpin]; exact ⟨h, eviction_frame_refl _ _⟩
          · rw [if_neg hpin]
            have h1 := evict_from_piece_spec ign st pe.blocks_in_piece.toNat h hf hig
            cases hf1 : (evict_from_piece st pe pe.blocks_in_piece.toNat).c.find_piece pk with
            | none => exact h1
            | some pe1 =>
              dsimp only
              by_cases hok1 : pe1.ok_to_evict false = true
              · rw [if_pos hok1]
                exact and_frame_trans h1.2
                  (move_to_ghost_spec ign h1.1 hf1 (ok_to_evict_num_blocks hok1) hig)
              · rw [if_neg hok1]; exact h1

theorem evict_write_step_spec (ign : Option piece_key) (pass : Nat) (st : evict_state)
    (pk : piece_key) (h : cache_invariant st.c) :
    cache_invariant (evict_write_step ign pass st pk).c
      ∧ eviction_frame ign st.c (evict_write_step ign pass st pk).c := by
  unfold evict_write_step
  by_cases hnum : st.num ≤ 0
  · rw [if_pos hnum]; exact ⟨h, eviction_frame_refl _ _⟩
  · rw [if_neg hnum]
    cases hf : st.c.find_piece pk with
    | none => exact ⟨h, eviction_frame_refl _ _⟩
    | some pe =>
      dsimp only
      by_cases hig : ign = some pk
      · rw [if_pos hig]; exact ⟨h, eviction_frame_refl _ _⟩
      · rw [if_neg hig]
        by_cases hok : pe.ok_to_evict false = true
        · rw [if_pos hok]
          exact ⟨cache_invariant_erase_piece h hf (ok_to_evict_num_blocks hok),
            eviction_frame_erase_piece h hf (ok_to_evict_num_blocks hok)
              (fun e => absurd e hig)⟩
        · rw [if_neg hok]
          by_cases hpin : (pe.num_dirty == pe.num_blocks) = true
          · rw [if_pos hpin]; exact ⟨h, eviction_frame_refl _ _⟩
          · rw [if_neg hpin]
            have h1 := evict_from_piece_spec ign st
              (write_pass_limit pe pass st.c.m_block_size).toNat h hf hig
            cases hf1 : (evict_from_piece st pe
                (write_pass_limit pe pass st.c.m_block_size).toNat).c.find_piece pk with
            | none => exact h1
            | some pe1 =>
              dsimp only
              by_cases hok1 : pe1.ok_to_evict false = true
              · rw [if_pos hok1]
                exact and_frame_trans h1.2
                  ⟨cache_invariant_erase_piece h1.1 hf1 (ok_to_evict_num_blocks hok1),
                    eviction_frame_erase_piece h1.1 hf1 (ok_to_evict_num_blocks hok1)
                      (fun e => absurd e hig)⟩
              · rw [if_neg hok1]; exact h1

/-- A piece loop keeps the invariant and the frame when each of its iterations
does. -/
theorem evict_fold_spec (ign : Option piece_key) (step : evict_state → piece_key → evict_state)
    (hstep : ∀ st pk, cache_invariant st.c →
      cache_invariant (step st pk).c ∧ eviction_frame ign st.c (step st pk).c) :
    ∀ (l : List piece_key) (st : evict_state), cache_invariant st.c →
      cache_invariant (l.foldl step st).c ∧ eviction_frame ign st.c (l.foldl step st).c := by
  intro l
  induction l with
  | nil => intro st h; exact ⟨h, eviction_frame_refl _ _⟩
  | cons k l ih =>
    intro st h
    rw [List.foldl_cons]
    have h1 := hstep st k h
    exact and_frame_trans h1.2 (ih _ h1.1)

theorem evict_read_lists_spec (ign : Option piece_key) (order : Nat × Nat) (st : evict_state)
    (h : cache_invariant st.c) :
    cache_invariant (evict_read_lists ign order st).c
      ∧ eviction_frame ign st.c (evict_read_lists ign order st).c := by
  have h1 := evict_fold_spec ign _ (evict_read_step_spec ign) (st.c.m_lru volatile_read_lru) st h
  have h2 := evict_fold_spec ign _ (evict_read_step_spec ign)
    (((st.c.m_lru volatile_read_lru).foldl (evict_read_step ign) st).c.m_lru order.1) _ h1.1
  have h3 := evict_fold_spec ign _ (evict_read_step_spec ign)
    (((((st.c.m_lru volatile_read_lru).foldl (evict_read_step ign) st).c.m_lru order.1).foldl
      (evict_read_step ign) ((st.c.m_lru volatile_read_lru).foldl (evict_read_step ign) st)).c.m_lru
        order.2) _ h2.1
  exact and_frame_trans h1.2 (and_frame_trans h2.2 h3)

theorem evict_write_list_spec (ign : Option piece_key) (st : evict_state)
    (h : cache_invariant st.c) :
    cache_invariant (evict_write_list ign st).c
      ∧ eviction_frame ign st.c (evict_write_list ign st).c := by
  unfold evict_write_list
  by_cases hc : (decide (st.num > 0) && decide (st.c.m_read_cache_size > st.c.m_pinned_blocks)) = true
  · rw [if_pos hc]
    have h1 := evict_fold_spec ign _ (evict_write_step_spec ign 0) (st.c.m_lru write_lru) st h
    have h2 := evict_fold_spec ign _ (evict_write_step_spec ign 1)
      (((st.c.m_lru write_lru).foldl (evict_write_step ign 0) st).c.m_lru write_lru) _ h1.1
    exact and_frame_trans h1.2 h2
  · rw [if_neg hc]; exact ⟨h, eviction_frame_refl _ _⟩

theorem lru_list_ok_congr {c c2 : block_cache} {g : Nat} (hp : c2.m_pieces = c.m_pieces)
    (hl : c2.m_lru g = c.m_lru g) (hok : lru_list_ok c g) : lru_list_ok c2 g := by
  have hfind : ∀ k, c2.find_piece k = c.find_piece k := by
    intro k; unfold block_cache.find_piece; rw [hp]
  refine ⟨by rw [hl]; exact hok.1, fun k hk => ?_⟩
  rw [hl] at hk
  obtain ⟨p0, hp0, hs0, hn0⟩ := hok.2 k hk
  exact ⟨p0, by rw [hfind]; exact hp0, hs0, hn0⟩

/-- The invariant and the frame only depend on the pieces, the lists and the
two sizes. -/
theorem cache_invariant_congr {c c2 : block_cache} (h : cache_invariant c)
    (hp : c2.m_pieces = c.m_pieces)
    (hl : ∀ i, i < num_lrus → c2.m_lru i = c.m_lru i)
    (hr : c2.m_read_cache_size = c.m_read_cache_size)
    (hw : c2.m_write_cache_size = c.m_write_cache_size) : cache_invariant c2 := by
  have hfind : ∀ k, c2.find_piece k = c.find_piece k := by
    intro k; unfold block_cache.find_piece; rw [hp]
  have hg : ∀ g, c2.m_lru g = c.m_lru g → lru_list_ok c g → lru_list_ok c2 g := by
    intro g hl hok
    refine ⟨by rw [hl]; exact hok.1, fun k hk => ?_⟩
    rw [hl] at hk
    obtain ⟨p0, hp0, hs0, hn0⟩ := hok.2 k hk
    exact ⟨p0, by rw [hfind]; exact hp0, hs0, hn0⟩
  exact ⟨by rw [hp]; exact h.keys, by rw [hp]; exact h.pieces, by rw [hr, hp]; exact h.read_size,
    by rw [hw, hp]; exact h.write_size, fun i hi => hg i (hl i hi) (h.lists i hi)⟩

theorem eviction_frame_congr {ign : Option piece_key} {c c1 c2 : block_cache}
    (h : eviction_frame ign c c1) (hp : c2.m_pieces = c1.m_pieces) (hl : c2.m_lru = c1.m_lru) :
    eviction_frame ign c c2 := by
  have hfind : ∀ k, c2.find_piece k = c1.find_piece k := by
    intro k; unfold block_cache.find_piece; rw [hp]
  refine ⟨?_, ?_, ?_⟩
  · intro k hk g hg hm
    rw [hl] at hm
    exact h.ghost_ign k hk g hg hm
  · intro k p hk hf h3 h5
    rw [hfind]; exact h.keep_ign k p hk hf h3 h5
  · intro k p hf hpr
    obtain ⟨p2, hp2, hr⟩ := h.keep_prot k p hf hpr
    exact ⟨p2, by rw [hfind]; exact hp2, hr⟩

/-- `try_evict_blocks` keeps the cache invariant, and relates the cache before
and after by the eviction frame. -/
theorem try_evict_blocks_spec (c : block_cache) (num : Int) (ign : Option piece_key)
    (h : cache_invariant c) :
    cache_invariant (c.try_evict_blocks num ign).1
      ∧ eviction_frame ign c (c.try_evict_blocks num ign).1 := by
  unfold block_cache.try_evict_blocks
  by_cases hnum : num ≤ 0
  · rw [if_pos hnum]; exact ⟨h, eviction_frame_refl _ _⟩
  · rw [if_neg hnum]
    have h1 := evict_read_lists_spec ign c.evict_order { c := c, num := num, to_delete := [] } h
    have h2 := evict_write_list_spec ign _ h1.1
    have h3 := and_frame_trans h1.2 h2
    dsimp only
    split_ifs with hd
    · exact h3
    · exact ⟨cache_invariant_congr h3.1 rfl (fun _ _ => rfl) rfl rfl,
        eviction_frame_congr h3.2 rfl rfl⟩

/-! ## C1: what `try_evict_blocks` leaves untouched -/

theorem forall₂_slot_kept_get : ∀ {l1 l2 : List cached_block_entry},
    List.Forall₂ slot_kept l1 l2 → ∀ (j : Nat) (b : cached_block_entry),
    l1[j]? = some b → b.is_protected → l2[j]? = some b := by
  intro l1 l2 h
  induction h with
  | nil => intro j b hj; simp at hj
  | cons hab _ ih =>
    intro j b hj hp
    cases j with
    | zero =>
      simp only [List.getElem?_cons_zero, Option.some.injEq] at hj ⊢
      subst hj
      exact hab hp
    | succ j =>
      simp only [List.getElem?_cons_succ] at hj ⊢
      exact ih j b hj hp

theorem count_filled_pos {bs : List cached_block_entry} {b : cached_block_entry}
    (hb : b ∈ bs) (hne : b.buf ≠ 0) : 0 < count_filled bs := by
  have h0 := count_filled_nonneg bs
  by_contra hlt
  have hz : count_filled bs = 0 := by omega
  exact hne (count_filled_zero_mem hz b hb)

/-- C1. For every cache state that satisfies the cache invariant, every `num`
and every piece to ignore, `try_evict_blocks(num, ignore)` leaves untouched
every block slot that was pinned (`refcount > 0`), dirty or pending before the
call: the piece is still cached and the slot holds the same buffer, dirty flag
and refcount (it is the same slot).  And no block of the piece to ignore is
freed: every slot of it that held a buffer holds the same buffer afterwards. -/
theorem try_evict_blocks_frame (c : block_cache) (num : Int) (ignore : Option piece_key)
    (h : cache_invariant c) :
    (∀ (k : piece_key) (p : cached_piece_entry) (j : Nat) (b : cached_block_entry),
        c.find_piece k = some p → p.blocks[j]? = some b →
        (b.refcount > 0 ∨ b.dirty = true ∨ b.pending = true) →
        ∃ p2 b2, (c.try_evict_blocks num ignore).1.find_piece k = some p2
          ∧ p2.blocks[j]? = some b2
          ∧ b2.buf = b.buf ∧ b2.dirty = b.dirty ∧ b2.refcount = b.refcount ∧ b2 = b)
    ∧ (∀ (k : piece_key) (p : cached_piece_entry) (j : Nat) (b : cached_block_entry),
        ignore = some k → c.find_piece k = some p → p.blocks[j]? = some b → b.buf ≠ 0 →
        ∃ p2 b2, (c.try_evict_blocks num ignore).1.find_piece k = some p2
          ∧ p2.blocks[j]? = some b2 ∧ b2.buf = b.buf) := by
  obtain ⟨_, hfr⟩ := try_evict_blocks_spec c num ignore h
  constructor
  · intro k p j b hf hj hp
    have hmem : b ∈ p.blocks := List.getElem?_mem hj
    obtain ⟨p2, hf2, hr⟩ := hfr.keep_prot k p hf ⟨b, hmem, hp⟩
    exact ⟨p2, b, hf2, forall₂_slot_kept_get hr j b hj hp, rfl, rfl, rfl, rfl⟩
  · intro k p j b hk hf hj hne
    have hmem : b ∈ p.blocks := List.getElem?_mem hj
    have hpi := h.pieces p (find_piece_some_mem hf).1
    have hpos := count_filled_pos hmem hne
    have hnb : p.num_blocks ≠ 0 := by rw [hpi.1]; omega
    have hnot : ∀ g, (g = read_lru1_ghost ∨ g = read_lru2_ghost) → k ∉ c.m_lru g := by
      intro g hg hm
      obtain ⟨p0, hp0, _, hn0⟩ := (ghost_list_of h hg).2 k hm
      rw [hf] at hp0
      cases hp0
      exact hnb (hn0 hg)
    exact ⟨p, b, hfr.keep_ign k p hk hf (hnot _ (Or.inl rfl)) (hnot _ (Or.inr rfl)), hj, rfl⟩

/-- Witness of C1 and scenario "eviction respects pinning": in `pinned_example`
the pinned block 0 survives `try_evict_blocks(1)`. -/
theorem try_evict_blocks_frame_witness :
    cache_invariant pinned_example
    ∧ (∃ p2 b2, (pinned_example.try_evict_blocks 1 none).1.find_piece (1, 0) = some p2
          ∧ p2.blocks[0]? = some b2
          ∧ b2.buf = 11 ∧ b2.dirty = false ∧ b2.refcount = 1
          ∧ b2 = { buf := 11, refcount := 1 }) :=
  ⟨by decide,
   (try_evict_blocks_frame pinned_example 1 none (by decide)).1 (1, 0)
      { storage := 1, piece := 0
        blocks := [{ buf := 11, refcount := 1 }, { buf := 12 }]
        num_blocks := 2, pinned := 1, refcount := 1
        cache_state := read_lru1, in_storage := true }
      0 { buf := 11, refcount := 1 } (by decide) (by decide) (by decide)⟩

/-- Scenario "eviction respects pinning", evaluated: `try_evict_blocks(1)` skips
the pinned block 0, frees block 1 and returns 0; a second block cannot be
found, so `try_evict_blocks(2)` returns the remaining count 1. -/
theorem try_evict_blocks_pinned_scenario :
    ((pinned_example.try_evict_blocks 1 none).1.find_piece (1, 0)).map
        (fun p => p.blocks.map (fun b => b.buf)) = some [11, 0]
    ∧ (pinned_example.try_evict_blocks 1 none).2 = 0
    ∧ (pinned_example.try_evict_blocks 2 none).2 = 1 := by
  decide

/-! ## C3: promotion to `read_lru2` -/

/-- C3. For every cached piece in `read_lru1` and every non-null requester
different from the piece's `last_requester`, `cache_hit` (with
`volatile_read = false`) moves the piece to the most-recently-used end (the
back) of `read_lru2`, unlinks it from `read_lru1`, sets its `cache_state` to
`read_lru2` and its `last_requester` to the new requester. -/
theorem cache_hit_promotes_to_lru2 (c : block_cache) (pk : piece_key) (p : cached_piece_entry)
    (requester : Nat) (hf : c.find_piece pk = some p) (hs : p.cache_state = read_lru1)
    (hr : requester ≠ 0) (hne : requester ≠ p.last_requester) :
    (c.cache_hit pk requester false).m_lru read_lru2 = c.m_lru read_lru2 ++ [pk]
    ∧ (c.cache_hit pk requester false).m_lru read_lru1 = (c.m_lru read_lru1).erase pk
    ∧ (∀ i, i ≠ read_lru1 → i ≠ read_lru2 →
        (c.cache_hit pk requester false).m_lru i = c.m_lru i)
    ∧ (c.cache_hit pk requester false).find_piece pk
        = some { p with last_requester := requester, cache_state := read_lru2 } := by
  have hkey : p.key = pk := (find_piece_some_mem hf).2
  have hne2 : ¬ p.last_requester = requester := fun e => hne e.symm
  have hfq : c.find_piece
      ({ p with last_requester := requester, cache_state := read_lru2 }
        : cached_piece_entry).key = some p := by
    show c.find_piece p.key = some p
    rw [hkey]; exact hf
  have hstore := find_piece_store_same c _ p hfq
  have hcall : c.cache_hit pk requester false
      = { (c.store { p with last_requester := requester, cache_state := read_lru2 }) with
          m_lru := lru_set (lru_set c.m_lru read_lru1 ((c.m_lru read_lru1).erase pk)) read_lru2
            (lru_set c.m_lru read_lru1 ((c.m_lru read_lru1).erase pk) read_lru2 ++ [pk])
          m_last_cache_op := c.m_last_cache_op } := by
    unfold block_cache.cache_hit
    rw [hf]
    simp [hs, hr, hne2, read_lru1, read_lru2, read_lru1_ghost, read_lru2_ghost, write_lru,
      volatile_read_lru]
  rw [hcall]
  refine ⟨?_, ?_, ?_, ?_⟩
  · dsimp only
    rw [lru_set_same, lru_set_other _ _ (by decide)]
  · dsimp only
    rw [lru_set_other _ _ (by decide), lru_set_same]
  · intro i h1 h2
    dsimp only
    rw [lru_set_other _ _ h2, lru_set_other _ _ h1]
  · have : ({ p with last_requester := requester, cache_state := read_lru2 }
        : cached_piece_entry).key = pk := hkey
    rw [this] at hstore
    exact hstore

/-- Witness of C3, scenario "cache promotion": requester 100 has read piece 7
(`promotion_example`), then requester 200 reads it. -/
theorem cache_hit_promotes_to_lru2_witness :
    promotion_example.m_lru read_lru1 = [(1, 7)]
    ∧ (promotion_example.find_piece (1, 7)).map (fun p => p.last_requester) = some 100
    ∧ (promotion_example.cache_hit (1, 7) 200 false).m_lru read_lru2 = [(1, 7)]
    ∧ (promotion_example.cache_hit (1, 7) 200 false).m_lru read_lru1 = []
    ∧ ((promotion_example.cache_hit (1, 7) 200 false).find_piece (1, 7)).map
        (fun p => (p.cache_state, p.last_requester)) = some (read_lru2, 200) := by
  have h := cache_hit_promotes_to_lru2 promotion_example (1, 7)
    { storage := 1, piece := 7, last_requester := 100
      blocks := [{}, {}], cache_state := read_lru1, in_storage := true }
    200 (by decide) (by decide) (by decide) (by decide)
  refine ⟨by decide, by decide, ?_, ?_, ?_⟩
  · rw [h.1]; decide
  · rw [h.2.1]; decide
  · rw [h.2.2.2]; decide

/-! ## Writing one slot -/

theorem get_block_cons_zero (b : cached_block_entry) (bs : List cached_block_entry) :
    get_block (b :: bs) 0 = b := rfl

theorem get_block_cons_succ (b : cached_block_entry) (bs : List cached_block_entry) (i : Nat) :
    get_block (b :: bs) (i + 1) = get_block bs i := rfl

theorem set_block_cons_zero (b b2 : cached_block_entry) (bs : List cached_block_entry) :
    set_block (b :: bs) 0 b2 = b2 :: bs := rfl

theorem set_block_cons_succ (b b2 : cached_block_entry) (bs : List cached_block_entry)
    (i : Nat) : set_block (b :: bs) (i + 1) b2 = b :: set_block bs i b2 := rfl

theorem get_block_mem : ∀ {bs : List cached_block_entry} {i : Nat}, i < bs.length →
    get_block bs i ∈ bs := by
  intro bs
  induction bs with
  | nil => intro i hi; simp at hi
  | cons b bs ih =>
    intro i hi
    cases i with
    | zero => exact List.mem_cons_self _ _
    | succ i =>
      rw [get_block_cons_succ]
      exact List.mem_cons_of_mem _ (ih (by simpa using hi))

theorem get_block_set_same : ∀ {bs : List cached_block_entry} {i : Nat} (b2 : cached_block_entry),
    i < bs.length → get_block (set_block bs i b2) i = b2 := by
  intro bs
  induction bs with
  | nil => intro i b2 hi; simp at hi
  | cons b bs ih =>
    intro i b2 hi
    cases i with
    | zero => rfl
    | succ i =>
      rw [set_block_cons_succ, get_block_cons_succ]
      exact ih b2 (by simpa using hi)

theorem get_block_set_other : ∀ (bs : List cached_block_entry) (i k : Nat)
    (b2 : cached_block_entry), k ≠ i → get_block (set_block bs i b2) k = get_block bs k := by
  intro bs
  induction bs with
  | nil => intro i k b2 _; rfl
  | cons b bs ih =>
    intro i k b2 hk
    cases i with
    | zero =>
      cases k with
      | zero => exact absurd rfl hk
      | succ k => rfl
    | succ i =>
      cases k with
      | zero => rfl
      | succ k =>
        rw [set_block_cons_succ, get_block_cons_succ, get_block_cons_succ]
        exact ih i k b2 (fun e => hk (by rw [e]))

theorem set_block_length (bs : List cached_block_entry) (i : Nat) (b2 : cached_block_entry) :
    (set_block bs i b2).length = bs.length := by
  unfold set_block; simp

theorem set_block_set_block (bs : List cached_block_entry) (i : Nat)
    (b2 b3 : cached_block_entry) : set_block (set_block bs i b2) i b3 = set_block bs i b3 := by
  unfold set_block; simp

theorem mem_set_block {bs : List cached_block_entry} {i : Nat} {b2 x : cached_block_entry}
    (h : x ∈ set_block bs i b2) : x ∈ bs ∨ x = b2 := by
  unfold set_block at h
  exact List.mem_or_eq_of_mem_set h

theorem count_filled_set : ∀ (bs : List cached_block_entry) (i : Nat) (b2 : cached_block_entry),
    i < bs.length →
    count_filled (set_block bs i b2) = count_filled bs - filled_ind (get_block bs i) + filled_ind b2 := by
  intro bs
  induction bs with
  | nil => intro i b2 hi; simp at hi
  | cons b bs ih =>
    intro i b2 hi
    cases i with
    | zero =>
      rw [set_block_cons_zero, get_block_cons_zero, count_filled_cons, count_filled_cons]
      unfold filled_ind; ring
    | succ i =>
      rw [set_block_cons_succ, get_block_cons_succ, count_filled_cons, count_filled_cons,
        ih i b2 (by simpa using hi)]
      ring

theorem count_dirty_set : ∀ (bs : List cached_block_entry) (i : Nat) (b2 : cached_block_entry),
    i < bs.length →
    count_dirty (set_block bs i b2) = count_dirty bs - dirty_ind (get_block bs i) + dirty_ind b2 := by
  intro bs
  induction bs with
  | nil => intro i b2 hi; simp at hi
  | cons b bs ih =>
    intro i b2 hi
    cases i with
    | zero =>
      rw [set_block_cons_zero, get_block_cons_zero, count_dirty_cons, count_dirty_cons]
      unfold dirty_ind; ring
    | succ i =>
      rw [set_block_cons_succ, get_block_cons_succ, count_dirty_cons, count_dirty_cons,
        ih i b2 (by simpa using hi)]
      ring

theorem ind_split (b : cached_block_entry) : filled_ind b = clean_ind b + dirty_ind b := by
  unfold filled_ind clean_ind dirty_ind
  by_cases h : b.buf = 0 <;> by_cases hd : b.dirty = true <;> simp [h, hd]

theorem count_clean_set (bs : List cached_block_entry) (i : Nat) (b2 : cached_block_entry)
    (hi : i < bs.length) :
    count_clean (set_block bs i b2) = count_clean bs - clean_ind (get_block bs i) + clean_ind b2 := by
  have h1 := count_filled_set bs i b2 hi
  have h2 := count_dirty_set bs i b2 hi
  have h3 := count_filled_split bs
  have h4 := count_filled_split (set_block bs i b2)
  have h5 := ind_split (get_block bs i)
  have h6 := ind_split b2
  omega

/-- Writing one slot of a piece and adjusting the two counters by the change of
that slot keeps the invariant of the piece. -/
theorem piece_invariant_set_slot {pe q : cached_piece_entry} {i : Nat} {b2 : cached_block_entry}
    (hpe : piece_invariant pe) (hi : i < pe.blocks.length) (hb2 : b2.buf = 0 → ¬ b2.is_protected)
    (hb : q.blocks = set_block pe.blocks i b2)
    (hnb : q.num_blocks = pe.num_blocks - filled_ind (get_block pe.blocks i) + filled_ind b2)
    (hnd : q.num_dirty = pe.num_dirty - dirty_ind (get_block pe.blocks i) + dirty_ind b2) :
    piece_invariant q := by
  refine ⟨?_, ?_, ?_⟩
  · rw [hnb, hb, count_filled_set _ _ _ hi, hpe.1]
  · rw [hnd, hb, count_dirty_set _ _ _ hi, hpe.2.1]
  · intro x hx
    rw [hb] at hx
    rcases mem_set_block hx with hx | rfl
    · exact hpe.2.2 x hx
    · exact hb2

/-- Writing back a piece of which one slot has been written, the counters of
the piece and of the cache adjusted by the change of that slot. -/
theorem cache_invariant_set_slot {c c2 : block_cache} {pe q : cached_piece_entry} {i : Nat}
    {b : cached_block_entry} (h : cache_invariant c) (hf : c.find_piece q.key = some pe)
    (hi : i < pe.blocks.length) (hb2 : b.buf = 0 → ¬ b.is_protected)
    (hb : q.blocks = set_block pe.blocks i b)
    (hnb : q.num_blocks = pe.num_blocks - filled_ind (get_block pe.blocks i) + filled_ind b)
    (hnd : q.num_dirty = pe.num_dirty - dirty_ind (get_block pe.blocks i) + dirty_ind b)
    (hs : q.cache_state = pe.cache_state)
    (hg : (pe.cache_state = read_lru1_ghost ∨ pe.cache_state = read_lru2_ghost) →
      filled_ind b = 0)
    (hp : c2.m_pieces = replace_piece q c.m_pieces) (hl : c2.m_lru = c.m_lru)
    (hr : c2.m_read_cache_size
      = c.m_read_cache_size - clean_ind (get_block pe.blocks i) + clean_ind b)
    (hw : c2.m_write_cache_size
      = c.m_write_cache_size - dirty_ind (get_block pe.blocks i) + dirty_ind b) :
    cache_invariant c2 := by
  have hpe := h.pieces pe (find_piece_some_mem hf).1
  refine cache_invariant_store h hf (piece_invariant_set_slot hpe hi hb2 hb hnb hnd) hs ?_ hp hl
    ?_ ?_
  · intro hgs hz
    have h1 : count_filled pe.blocks = 0 := by rw [← hpe.1]; exact hz
    have h2 := count_filled_zero_mem h1 _ (get_block_mem hi)
    have h3 : filled_ind (get_block pe.blocks i) = 0 := by unfold filled_ind; simp [h2]
    rw [hnb, hz, h3, hg hgs]; ring
  · rw [hr, hb, count_clean_set _ _ _ hi]; ring
  · rw [hw, hb, count_dirty_set _ _ _ hi]; ring

/-! ## `free_block`, `allocate_piece`, `update_cache_state`, `bump_lru` -/

theorem piece_invariant_congr {p q : cached_piece_entry} (hp : piece_invariant p)
    (hb : q.blocks = p.blocks) (hnb : q.num_blocks = p.num_blocks)
    (hnd : q.num_dirty = p.num_dirty) : piece_invariant q := by
  unfold piece_invariant at hp ⊢
  rw [hb, hnb, hnd]
  exact hp

theorem filled_ind_of_buf {b : cached_block_entry} (h : b.buf ≠ 0) : filled_ind b = 1 := by
  unfold filled_ind; simp [h]

theorem free_block_eq {c : block_cache} {pk : piece_key} {pe : cached_piece_entry}
    (block : Nat) (hf : c.find_piece pk = some pe) :
    c.free_block pk block
      = { (c.store (freed_piece pe block)) with
          m_write_cache_size := if (get_block pe.blocks block).dirty
            then c.m_write_cache_size - 1 else c.m_write_cache_size
          m_read_cache_size := if (get_block pe.blocks block).dirty
            then c.m_read_cache_size else c.m_read_cache_size - 1
          m_in_use := c.m_in_use - 1 } := by
  unfold block_cache.free_block
  rw [hf]

/-- `free_block` within its asserted preconditions (the slot holds a buffer, is
not pinned and not pending) keeps the invariant; it empties that slot and
touches no other piece and no list. -/
theorem free_block_spec {c : block_cache} {pk : piece_key} {pe : cached_piece_entry}
    (block : Nat) (h : cache_invariant c) (hf : c.find_piece pk = some pe)
    (hi : block < pe.blocks.length) (hbuf : (get_block pe.blocks block).buf ≠ 0)
    (hrc : ¬ (get_block pe.blocks block).refcount > 0)
    (hpend : (get_block pe.blocks block).pending = false) :
    cache_invariant (c.free_block pk block)
    ∧ (c.free_block pk block).find_piece pk = some (freed_piece pe block)
    ∧ (∀ k, k ≠ pk → (c.free_block pk block).find_piece k = c.find_piece k)
    ∧ (c.free_block pk block).m_lru = c.m_lru := by
  have hkey : pe.key = pk := (find_piece_some_mem hf).2
  have hkq : (freed_piece pe block).key = pk := hkey
  rw [free_block_eq block hf]
  have hfq : c.find_piece (freed_piece pe block).key = some pe := by
    rw [hkq]; exact hf
  have hfind := find_after_store (q := freed_piece pe block)
    (d := { (c.store (freed_piece pe block)) with
          m_write_cache_size := if (get_block pe.blocks block).dirty
            then c.m_write_cache_size - 1 else c.m_write_cache_size
          m_read_cache_size := if (get_block pe.blocks block).dirty
            then c.m_read_cache_size else c.m_read_cache_size - 1
          m_in_use := c.m_in_use - 1 }) hf hkq rfl
  refine ⟨?_, hfind.1, hfind.2, rfl⟩
  refine cache_invariant_set_slot (i := block)
    (b := { get_block pe.blocks block with dirty := false, buf := 0 }) h hfq hi ?_ rfl ?_ ?_ rfl
    (fun _ => rfl) rfl rfl ?_ ?_
  · intro _ hp
    rcases hp with hp | hp | hp
    · exact hrc hp
    · cases hp
    · dsimp only at hp
      rw [hpend] at hp
      cases hp
  · show pe.num_blocks - 1 = _
    rw [filled_ind_of_buf hbuf]
    unfold filled_ind; simp
  · show (if (get_block pe.blocks block).dirty = true then pe.num_dirty - 1 else pe.num_dirty) = _
    unfold dirty_ind
    by_cases hd : (get_block pe.blocks block).dirty = true <;> simp [hbuf, hd]
  · show (if (get_block pe.blocks block).dirty = true then c.m_read_cache_size
      else c.m_read_cache_size - 1) = _
    unfold clean_ind
    by_cases hd : (get_block pe.blocks block).dirty = true <;> simp [hbuf, hd]
  · show (if (get_block pe.blocks block).dirty = true then c.m_write_cache_size - 1
      else c.m_write_cache_size) = _
    unfold dirty_ind
    by_cases hd : (get_block pe.blocks block).dirty = true <;> simp [hbuf, hd]

theorem count_filled_replicate (n : Nat) : count_filled (List.replicate n {}) = 0 := by
  induction n with
  | zero => rfl
  | succ n ih => rw [List.replicate_succ, count_filled_cons, ih]; rfl

theorem find_none_keys {l : List cached_piece_entry} {k : piece_key}
    (h : l.find? (fun p => p.key == k) = none) : k ∉ l.map cached_piece_entry.key := by
  intro hm
  obtain ⟨p, hp, hk⟩ := List.mem_map.1 hm
  have := List.find?_eq_none.1 h p hp
  simp [hk] at this

theorem new_piece_invariant (bs : Int) (j : disk_io_job) (cs : Nat) :
    piece_invariant (new_piece bs j cs) ∧ count_clean (new_piece bs j cs).blocks = 0
      ∧ count_dirty (new_piece bs j cs).blocks = 0 := by
  have hz := count_filled_replicate (Int.tdiv (j.piece_size + bs - 1) bs).toNat
  have hsp := count_filled_split (List.replicate (Int.tdiv (j.piece_size + bs - 1) bs).toNat
    ({} : cached_block_entry))
  have h1 := count_clean_nonneg (List.replicate (Int.tdiv (j.piece_size + bs - 1) bs).toNat
    ({} : cached_block_entry))
  have h2 := count_dirty_nonneg (List.replicate (Int.tdiv (j.piece_size + bs - 1) bs).toNat
    ({} : cached_block_entry))
  have hb : (new_piece bs j cs).blocks
      = List.replicate (Int.tdiv (j.piece_size + bs - 1) bs).toNat {} := rfl
  have hnb : (new_piece bs j cs).num_blocks = 0 := rfl
  have hnd : (new_piece bs j cs).num_dirty = 0 := rfl
  refine ⟨⟨?_, ?_, ?_⟩, ?_, ?_⟩
  · rw [hb, hnb, hz]
  · rw [hb, hnd]; omega
  · intro b hb2 _
    rw [hb] at hb2
    have : b = {} := List.eq_of_mem_replicate hb2
    subst this
    rintro (hp | hp | hp)
    · exact absurd hp (by decide)
    · cases hp
    · cases hp
  · rw [hb]; omega
  · rw [hb]; omega

theorem allocate_piece_new {c : block_cache} {j : disk_io_job} (cs : Nat)
    (hf : c.find_piece (j.storage, j.piece) = none) :
    c.allocate_piece j cs
      = { c with
          m_pieces := c.m_pieces ++ [new_piece c.m_block_size j cs]
          m_lru := lru_set c.m_lru cs (c.m_lru cs ++ [(j.storage, j.piece)])
          m_last_cache_op := if cs == read_lru1 then cache_miss else c.m_last_cache_op } := by
  unfold block_cache.allocate_piece
  rw [hf]

theorem allocate_piece_existing {c : block_cache} {j : disk_io_job} {p : cached_piece_entry}
    (cs : Nat) (hf : c.find_piece (j.storage, j.piece) = some p) :
    c.allocate_piece j cs
      = if p.cache_state > cs then
          { (c.store (relinked_piece p cs)) with
            m_lru := lru_set (lru_set c.m_lru p.cache_state
                ((c.m_lru p.cache_state).erase (j.storage, j.piece))) cs
              (lru_set c.m_lru p.cache_state
                ((c.m_lru p.cache_state).erase (j.storage, j.piece)) cs ++ [(j.storage, j.piece)]) }
        else c.store { p with marked_for_deletion := false } := by
  unfold block_cache.allocate_piece
  rw [hf]

/-- `allocate_piece` for a state that is not a ghost state keeps the
invariant. -/
theorem allocate_piece_spec (c : block_cache) (j : disk_io_job) (cs : Nat)
    (h : cache_invariant c) (hcs1 : cs ≠ read_lru1_ghost) (hcs2 : cs ≠ read_lru2_ghost) :
    cache_invariant (c.allocate_piece j cs) := by
  cases hf : c.find_piece (j.storage, j.piece) with
  | none =>
    rw [allocate_piece_new cs hf]
    have hnew := new_piece_invariant c.m_block_size j cs
    have hkn : (new_piece c.m_block_size j cs).key = (j.storage, j.piece) := rfl
    have hfn : c.m_pieces.find? (fun p => p.key == (new_piece c.m_block_size j cs).key) = none := hf
    have hfo : ∀ k, k ≠ (j.storage, j.piece) → block_cache.find_piece
        { c with
          m_pieces := c.m_pieces ++ [new_piece c.m_block_size j cs]
          m_lru := lru_set c.m_lru cs (c.m_lru cs ++ [(j.storage, j.piece)])
          m_last_cache_op := if cs == read_lru1 then cache_miss else c.m_last_cache_op } k
        = c.find_piece k := by
      intro k hne
      show (c.m_pieces ++ [new_piece c.m_block_size j cs]).find? (fun p => p.key == k) = _
      rw [find_append_absent _ _ k hfn, if_neg (by rw [hkn]; exact hne)]
      rfl
    have hfn2 : block_cache.find_piece
        { c with
          m_pieces := c.m_pieces ++ [new_piece c.m_block_size j cs]
          m_lru := lru_set c.m_lru cs (c.m_lru cs ++ [(j.storage, j.piece)])
          m_last_cache_op := if cs == read_lru1 then cache_miss else c.m_last_cache_op }
          (j.storage, j.piece)
        = some (new_piece c.m_block_size j cs) := by
      show (c.m_pieces ++ [new_piece c.m_block_size j cs]).find?
        (fun p => p.key == (j.storage, j.piece)) = _
      rw [find_append_absent _ _ _ hfn, if_pos hkn.symm]
    have hmem : ∀ g, lru_list_ok c g → ∀ k ∈ c.m_lru g, k ∈ c.m_lru g ∧ k ≠ (j.storage, j.piece) := by
      intro g hok k hk
      refine ⟨hk, ?_⟩
      rintro rfl
      obtain ⟨p0, hp0, _, _⟩ := hok.2 _ hk
      rw [hf] at hp0; cases hp0
    have hlists : ∀ g, g < num_lrus → lru_list_ok
        { c with
          m_pieces := c.m_pieces ++ [new_piece c.m_block_size j cs]
          m_lru := lru_set c.m_lru cs (c.m_lru cs ++ [(j.storage, j.piece)])
          m_last_cache_op := if cs == read_lru1 then cache_miss else c.m_last_cache_op } g := by
      intro g hgl
      have hok := h.lists g hgl
      by_cases hg : g = cs
      · subst hg
        refine lru_list_ok_push (l := c.m_lru g) hok ?_ hok.1 (hmem g hok) hfo hfn2 rfl ?_
        · show lru_set _ _ _ g = _
          rw [lru_set_same]
        · rintro (e | e)
          · exact absurd e hcs1
          · exact absurd e hcs2
      · refine lru_list_ok_shrink hok ?_ ?_ hfo
        · show (lru_set _ _ _ g).Nodup
          rw [lru_set_other _ _ hg]; exact hok.1
        · intro k hk
          have hk2 : k ∈ lru_set c.m_lru cs (c.m_lru cs ++ [(j.storage, j.piece)]) g := hk
          rw [lru_set_other _ _ hg] at hk2
          exact hmem g hok k hk2
    refine ⟨?_, ?_, ?_, ?_, hlists⟩
    · show ((c.m_pieces ++ [_]).map cached_piece_entry.key).Nodup
      rw [List.map_append, List.nodup_append]
      refine ⟨h.keys, List.nodup_singleton _, ?_⟩
      intro a ha hb
      simp only [List.map_cons, List.map_nil, List.mem_singleton] at hb
      subst hb
      exact find_none_keys hfn ha
    · intro x hx
      have hx2 : x ∈ c.m_pieces ++ [new_piece c.m_block_size j cs] := hx
      rcases List.mem_append.1 hx2 with hx2 | hx2
      · exact h.pieces x hx2
      · rw [List.mem_singleton] at hx2
        subst hx2
        exact hnew.1
    · show c.m_read_cache_size = total _ (c.m_pieces ++ [_])
      rw [total_append, h.read_size, hnew.2.1]; ring
    · show c.m_write_cache_size = total _ (c.m_pieces ++ [_])
      rw [total_append, h.write_size, hnew.2.2]; ring
  | some p =>
    have hkey : p.key = (j.storage, j.piece) := (find_piece_some_mem hf).2
    have hpi := h.pieces p (find_piece_some_mem hf).1
    rw [allocate_piece_existing cs hf]
    by_cases hgt : p.cache_state > cs
    · rw [if_pos hgt]
      have hfq : c.find_piece (relinked_piece p cs).key = some p := by
        show c.find_piece p.key = some p
        rw [hkey]; exact hf
      refine cache_invariant_move (t := cs) h hfq rfl rfl rfl rfl hcs1 hcs2 rfl ?_ rfl rfl
      show _ = lru_set (lru_set c.m_lru p.cache_state ((c.m_lru p.cache_state).erase p.key)) cs
        (lru_set c.m_lru p.cache_state ((c.m_lru p.cache_state).erase p.key) cs ++ [p.key])
      rw [hkey]
    · rw [if_neg hgt]
      have hfq : c.find_piece ({ p with marked_for_deletion := false }
          : cached_piece_entry).key = some p := by
        show c.find_piece p.key = some p
        rw [hkey]; exact hf
      refine cache_invariant_store h hfq (piece_invariant_congr hpi rfl rfl rfl) rfl
        (fun _ hz => hz) rfl rfl ?_ ?_
      · show c.m_read_cache_size = _
        ring
      · show c.m_write_cache_size = _
        ring

theorem desired_state_cases (p : cached_piece_entry) :
    desired_state p = p.cache_state ∨ desired_state p = write_lru
      ∨ desired_state p = read_lru1 := by
  unfold desired_state
  split_ifs <;> simp

theorem desired_state_dirty {p : cached_piece_entry} (h : p.num_dirty > 0) :
    desired_state p = write_lru := by
  unfold desired_state
  simp [h]

/-- `update_cache_state` keeps the invariant; the piece takes its desired
state and nothing else changes in `m_pieces`. -/
theorem update_cache_state_spec {c : block_cache} {pk : piece_key} {p : cached_piece_entry}
    (h : cache_invariant c) (hf : c.find_piece pk = some p) :
    cache_invariant (c.update_cache_state pk)
    ∧ (c.update_cache_state pk).find_piece pk = some { p with cache_state := desired_state p }
    ∧ (∀ k, k ≠ pk → (c.update_cache_state pk).find_piece k = c.find_piece k) := by
  have hkey : p.key = pk := (find_piece_some_mem hf).2
  unfold block_cache.update_cache_state
  rw [hf]
  dsimp only
  by_cases hd : (desired_state p == p.cache_state) = true
  · rw [if_pos hd]
    have hd2 : desired_state p = p.cache_state := by simpa using hd
    refine ⟨h, ?_, fun _ _ => rfl⟩
    rw [hf, hd2]
  · rw [if_neg hd]
    have hd2 : desired_state p ≠ p.cache_state := by simpa using hd
    have hkq : ({ p with cache_state := desired_state p } : cached_piece_entry).key = pk := hkey
    have hfq : c.find_piece ({ p with cache_state := desired_state p }
        : cached_piece_entry).key = some p := by rw [hkq]; exact hf
    have hfind := find_after_store (q := { p with cache_state := desired_state p })
      (d := { (c.store { p with cache_state := desired_state p }) with
        m_lru := lru_set (lru_set c.m_lru p.cache_state ((c.m_lru p.cache_state).erase pk))
          (desired_state p)
          (lru_set c.m_lru p.cache_state ((c.m_lru p.cache_state).erase pk) (desired_state p)
            ++ [pk]) }) hf hkq rfl
    refine ⟨?_, hfind.1, hfind.2⟩
    have ht : desired_state p ≠ read_lru1_ghost ∧ desired_state p ≠ read_lru2_ghost := by
      rcases desired_state_cases p with e | e | e
      · exact absurd e hd2
      · rw [e]; exact ⟨by decide, by decide⟩
      · rw [e]; exact ⟨by decide, by decide⟩
    refine cache_invariant_move (t := desired_state p) h hfq rfl rfl rfl rfl ht.1 ht.2 rfl ?_ rfl rfl
    show _ = lru_set (lru_set c.m_lru p.cache_state ((c.m_lru p.cache_state).erase p.key))
      (desired_state p)
      (lru_set c.m_lru p.cache_state ((c.m_lru p.cache_state).erase p.key) (desired_state p)
        ++ [p.key])
    rw [hkey]

/-- `bump_lru` on a piece that is not a ghost keeps the invariant and the
pieces. -/
theorem bump_lru_spec {c : block_cache} {pk : piece_key} {p : cached_piece_entry}
    (h : cache_invariant c) (hf : c.find_piece pk = some p)
    (hs1 : p.cache_state ≠ read_lru1_ghost) (hs2 : p.cache_state ≠ read_lru2_ghost) :
    cache_invariant (c.bump_lru pk)
    ∧ (c.bump_lru pk).m_pieces = c.m_pieces
    ∧ (c.bump_lru pk).m_lru
        = lru_set c.m_lru p.cache_state ((c.m_lru p.cache_state).erase pk ++ [pk]) := by
  unfold block_cache.bump_lru
  rw [hf]
  refine ⟨⟨h.keys, h.pieces, h.read_size, h.write_size, ?_⟩, rfl, rfl⟩
  intro g hgl
  have hok := h.lists g hgl
  by_cases hg : g = p.cache_state
  · subst hg
    refine lru_list_ok_push (l := (c.m_lru p.cache_state).erase pk) hok ?_ (hok.1.erase _) ?_
      (fun _ _ => rfl) hf rfl ?_
    · show lru_set _ _ _ _ = _
      rw [lru_set_same]
    · intro k hk
      have := (List.Nodup.mem_erase_iff hok.1).1 hk
      exact ⟨this.2, this.1⟩
    · rintro (e | e)
      · exact absurd e hs1
      · exact absurd e hs2
  · refine lru_list_ok_congr (c := c) rfl ?_ hok
    show lru_set _ _ _ _ = _
    rw [lru_set_other _ _ hg]

theorem find_piece_congr {c c2 : block_cache} (h : c2.m_pieces = c.m_pieces) (k : piece_key) :
    c2.find_piece k = c.find_piece k := by
  unfold block_cache.find_piece; rw [h]

/-! ## `add_dirty_block` -/

/-- The piece entry `allocate_piece(j, write_lru)` returns is in the write
state. -/
theorem allocate_piece_write_state {c : block_cache} {j : disk_io_job}
    {pe0 : cached_piece_entry}
    (hf1 : (c.allocate_piece j write_lru).find_piece (j.storage, j.piece) = some pe0) :
    pe0.cache_state = write_lru := by
  cases hf : c.find_piece (j.storage, j.piece) with
  | none =>
    rw [allocate_piece_new _ hf] at hf1
    have hfn : c.m_pieces.find? (fun p => p.key == (new_piece c.m_block_size j write_lru).key)
        = none := hf
    have : (c.m_pieces ++ [new_piece c.m_block_size j write_lru]).find?
        (fun p => p.key == (j.storage, j.piece)) = some pe0 := hf1
    rw [find_append_absent _ _ _ hfn] at this
    have hk : (j.storage, j.piece) = (new_piece c.m_block_size j write_lru).key := rfl
    rw [if_pos hk] at this
    cases this
    rfl
  | some p =>
    have hkey : p.key = (j.storage, j.piece) := (find_piece_some_mem hf).2
    rw [allocate_piece_existing _ hf] at hf1
    by_cases hgt : p.cache_state > write_lru
    · rw [if_pos hgt] at hf1
      have := (find_after_store (q := relinked_piece p write_lru)
        (d := { (c.store (relinked_piece p write_lru)) with
          m_lru := lru_set (lru_set c.m_lru p.cache_state
              ((c.m_lru p.cache_state).erase (j.storage, j.piece))) write_lru
            (lru_set c.m_lru p.cache_state
              ((c.m_lru p.cache_state).erase (j.storage, j.piece)) write_lru
                ++ [(j.storage, j.piece)]) }) hf hkey rfl).1
      rw [this] at hf1
      cases hf1
      rfl
    · rw [if_neg hgt] at hf1
      have := (find_after_store (q := { p with marked_for_deletion := false })
        (d := c.store { p with marked_for_deletion := false }) hf hkey rfl).1
      rw [this] at hf1
      cases hf1
      exact Nat.eq_zero_of_not_pos hgt

/-- What `allocate_piece` keeps of a piece that is cached already: its slots,
counters and hash state. -/
theorem allocate_piece_keeps {c : block_cache} {j : disk_io_job} {p : cached_piece_entry}
    (cs : Nat) (hf : c.find_piece (j.storage, j.piece) = some p) :
    ∃ pe0, (c.allocate_piece j cs).find_piece (j.storage, j.piece) = some pe0
      ∧ pe0.blocks = p.blocks ∧ pe0.num_dirty = p.num_dirty ∧ pe0.num_blocks = p.num_blocks
      ∧ pe0.hash = p.hash ∧ pe0.hashing_done = p.hashing_done := by
  have hkey : p.key = (j.storage, j.piece) := (find_piece_some_mem hf).2
  rw [allocate_piece_existing _ hf]
  by_cases hgt : p.cache_state > cs
  · rw [if_pos hgt]
    exact ⟨_, (find_after_store (q := relinked_piece p cs)
        (d := { (c.store (relinked_piece p cs)) with
          m_lru := lru_set (lru_set c.m_lru p.cache_state
              ((c.m_lru p.cache_state).erase (j.storage, j.piece))) cs
            (lru_set c.m_lru p.cache_state
              ((c.m_lru p.cache_state).erase (j.storage, j.piece)) cs
                ++ [(j.storage, j.piece)]) }) hf hkey rfl).1, rfl, rfl, rfl, rfl, rfl⟩
  · rw [if_neg hgt]
    exact ⟨_, (find_after_store (q := { p with marked_for_deletion := false })
        (d := c.store { p with marked_for_deletion := false }) hf hkey rfl).1,
      rfl, rfl, rfl, rfl, rfl⟩

theorem cleared_piece_slot {pe : cached_piece_entry} {block : Nat}
    (hi : block < pe.blocks.length) :
    (get_block (cleared_piece pe block).blocks block).buf = 0
    ∧ (get_block (cleared_piece pe block).blocks block).refcount
        = (get_block pe.blocks block).refcount
    ∧ (get_block (cleared_piece pe block).blocks block).pending
        = (get_block pe.blocks block).pending
    ∧ (get_block (cleared_piece pe block).blocks block).hitcount
        = (get_block pe.blocks block).hitcount
    ∧ (cleared_piece pe block).blocks.length = pe.blocks.length
    ∧ (cleared_piece pe block).cache_state = pe.cache_state := by
  unfold cleared_piece
  by_cases hb : (get_block pe.blocks block).buf = 0
  · rw [if_pos hb]
    exact ⟨hb, rfl, rfl, rfl, rfl, rfl⟩
  · rw [if_neg hb]
    have hg : get_block (freed_piece pe block).blocks block
        = { get_block pe.blocks block with dirty := false, buf := 0 } :=
      get_block_set_same _ hi
    rw [hg]
    exact ⟨rfl, rfl, rfl, rfl, set_block_length _ _ _, rfl⟩

/-- `clear_slot` within the preconditions `add_dirty_block` asserts keeps the
invariant and leaves the slot empty. -/
theorem clear_slot_spec {c : block_cache} {pk : piece_key} {pe : cached_piece_entry}
    (block buffer : Nat) (h : cache_invariant c) (hf : c.find_piece pk = some pe)
    (hi : block < pe.blocks.length) (hrc : (get_block pe.blocks block).refcount = 0)
    (hne : (get_block pe.blocks block).buf ≠ buffer)
    (hpend : (get_block pe.blocks block).buf ≠ 0 → (get_block pe.blocks block).pending = false) :
    cache_invariant (c.clear_slot pk block buffer)
    ∧ (c.clear_slot pk block buffer).find_piece pk = some (cleared_piece pe block)
    ∧ (∀ k, k ≠ pk → (c.clear_slot pk block buffer).find_piece k = c.find_piece k)
    ∧ (c.clear_slot pk block buffer).m_lru = c.m_lru := by
  unfold block_cache.clear_slot cleared_piece
  rw [hf]
  dsimp only
  by_cases hb : (get_block pe.blocks block).buf = 0
  · rw [if_neg (by simp [hb]), if_pos hb]
    exact ⟨h, hf, fun _ _ => rfl, rfl⟩
  · rw [if_pos (by simp [hb, hne]), if_neg hb]
    exact free_block_spec block h hf hi hb (by rw [hrc]; decide) (hpend hb)

theorem update_cache_state_noop {c : block_cache} {pk : piece_key} {p : cached_piece_entry}
    (hf : c.find_piece pk = some p) (hd : desired_state p = p.cache_state) :
    c.update_cache_state pk = c := by
  unfold block_cache.update_cache_state
  rw [hf]
  dsimp only
  rw [if_pos (by simp [hd])]

theorem piece_num_dirty_nonneg {p : cached_piece_entry} (hp : piece_invariant p) :
    0 ≤ p.num_dirty := by
  rw [hp.2.1]; exact count_dirty_nonneg _

/-- `install_dirty` on an empty slot of a piece of the write list keeps the
invariant; the piece becomes `dirtied_piece`, goes to the back of the write
list and the write size grows by one. -/
theorem install_dirty_spec {c : block_cache} {pk : piece_key} {pe : cached_piece_entry}
    (block : Nat) (j : disk_io_job) (h : cache_invariant c) (hf : c.find_piece pk = some pe)
    (hi : block < pe.blocks.length) (hempty : (get_block pe.blocks block).buf = 0)
    (hbuf : j.buffer ≠ 0) (hs : pe.cache_state = write_lru) :
    cache_invariant (c.install_dirty pk block j)
    ∧ (c.install_dirty pk block j).find_piece pk = some (dirtied_piece pe block j)
    ∧ (∀ k, k ≠ pk → (c.install_dirty pk block j).find_piece k = c.find_piece k)
    ∧ (c.install_dirty pk block j).m_lru
        = lru_set c.m_lru write_lru ((c.m_lru write_lru).erase pk ++ [pk])
    ∧ (c.install_dirty pk block j).m_write_cache_size = c.m_write_cache_size + 1
    ∧ (c.install_dirty pk block j).m_read_cache_size = c.m_read_cache_size := by
  have hkey : pe.key = pk := (find_piece_some_mem hf).2
  have hpe := h.pieces pe (find_piece_some_mem hf).1
  have hkq : (dirtied_piece pe block j).key = pk := hkey
  have hfq : c.find_piece (dirtied_piece pe block j).key = some pe := by rw [hkq]; exact hf
  have hfind := find_after_store (q := dirtied_piece pe block j)
    (d := { (c.store (dirtied_piece pe block j)) with
      m_write_cache_size := c.m_write_cache_size + 1 }) hf hkq rfl
  have hfi : filled_ind (get_block pe.blocks block) = 0 := by unfold filled_ind; simp [hempty]
  have hdi : dirty_ind (get_block pe.blocks block) = 0 := by unfold dirty_ind; simp [hempty]
  have hci : clean_ind (get_block pe.blocks block) = 0 := by unfold clean_ind; simp [hempty]
  have h4 : cache_invariant { (c.store (dirtied_piece pe block j)) with
      m_write_cache_size := c.m_write_cache_size + 1 } := by
    refine cache_invariant_set_slot (i := block)
      (b := { get_block pe.blocks block with buf := j.buffer, dirty := true }) h hfq hi ?_ rfl
      ?_ ?_ rfl ?_ rfl rfl ?_ ?_
    · intro hb; exact absurd hb hbuf
    · show pe.num_blocks + 1 = _
      rw [hfi]; unfold filled_ind; simp [hbuf]
    · show pe.num_dirty + 1 = _
      rw [hdi]; unfold dirty_ind; simp [hbuf]
    · intro hg
      rw [hs] at hg
      rcases hg with hg | hg <;> exact absurd hg (by decide)
    · show c.m_read_cache_size = _
      rw [hci]; unfold clean_ind; simp [hbuf]
    · show c.m_write_cache_size + 1 = _
      rw [hdi]; unfold dirty_ind; simp [hbuf]
  have hdes : desired_state (dirtied_piece pe block j) = (dirtied_piece pe block j).cache_state := by
    have h0 := piece_num_dirty_nonneg hpe
    have : (dirtied_piece pe block j).num_dirty > 0 := by
      show pe.num_dirty + 1 > 0
      omega
    rw [desired_state_dirty this]
    exact hs.symm
  have hinst : c.install_dirty pk block j
      = ({ (c.store (dirtied_piece pe block j)) with
          m_write_cache_size := c.m_write_cache_size + 1 } : block_cache).bump_lru pk := by
    unfold block_cache.install_dirty
    rw [hf]
    dsimp only
    rw [update_cache_state_noop hfind.1 hdes]
  rw [hinst]
  have hb := bump_lru_spec h4 hfind.1
    (by show pe.cache_state ≠ _; rw [hs]; decide) (by show pe.cache_state ≠ _; rw [hs]; decide)
  refine ⟨hb.1, ?_, ?_, ?_, ?_, ?_⟩
  · rw [find_piece_congr hb.2.1]; exact hfind.1
  · intro k hk
    rw [find_piece_congr hb.2.1]; exact hfind.2 k hk
  · rw [hb.2.2]
    show lru_set c.m_lru pe.cache_state ((c.m_lru pe.cache_state).erase pk ++ [pk]) = _
    rw [hs]
  · unfold block_cache.bump_lru
    rw [hfind.1]
  · unfold block_cache.bump_lru
    rw [hfind.1]
    rfl

/-- `add_dirty_block` within its asserted preconditions keeps the cache
invariant.  With `pe0` the entry `allocate_piece` returns, the entry of the
piece afterwards is `pe0` with the slot cleared and then made dirty with the
buffer of the job. -/
theorem add_dirty_block_spec (c : block_cache) (j : disk_io_job) (evict : Int)
    (h : cache_invariant c) (hpre : add_dirty_block_pre c j) :
    cache_invariant (c.add_dirty_block j evict).1
    ∧ ∃ pe0, (c.allocate_piece j write_lru).find_piece (j.storage, j.piece) = some pe0
        ∧ pe0.cache_state = write_lru
        ∧ c.block_of j < pe0.blocks.length
        ∧ (c.add_dirty_block j evict).1.find_piece (j.storage, j.piece)
            = some (dirtied_piece (cleared_piece pe0 (c.block_of j)) (c.block_of j) j) := by
  obtain ⟨hbuf, pe0, hf1, hi, hrc, hne, hpend⟩ := hpre
  have h1 := allocate_piece_spec c j write_lru h (by decide) (by decide)
  have hs0 := allocate_piece_write_state hf1
  have h2 : cache_invariant
      (if evict > 0 then
        ((c.allocate_piece j write_lru).try_evict_blocks evict (some (j.storage, j.piece))).1
       else c.allocate_piece j write_lru)
      ∧ (if evict > 0 then
          ((c.allocate_piece j write_lru).try_evict_blocks evict (some (j.storage, j.piece))).1
         else c.allocate_piece j write_lru).find_piece (j.storage, j.piece) = some pe0 := by
    by_cases he : evict > 0
    · rw [if_pos he]
      have hev := try_evict_blocks_spec (c.allocate_piece j write_lru) evict
        (some (j.storage, j.piece)) h1
      refine ⟨hev.1, hev.2.keep_ign _ pe0 rfl hf1 ?_ ?_⟩
      · exact not_in_ghost_of_state h1 hf1 (Or.inl rfl) (by rw [hs0]; decide)
      · exact not_in_ghost_of_state h1 hf1 (Or.inr rfl) (by rw [hs0]; decide)
    · rw [if_neg he]
      exact ⟨h1, hf1⟩
  have h3 := clear_slot_spec (c.block_of j) j.buffer h2.1 h2.2 hi hrc hne hpend
  have hcl := @cleared_piece_slot pe0 (c.block_of j) hi
  have h4 := install_dirty_spec (c.block_of j) j h3.1 h3.2.1 (by rw [hcl.2.2.2.2.1]; exact hi)
    hcl.1 hbuf (by rw [hcl.2.2.2.2.2]; exact hs0)
  exact ⟨h4.1, pe0, hf1, hs0, hi, h4.2.1⟩

/-! ## `evict_piece` and `abort_dirty` -/

theorem evict_piece_scan_cons (b : cached_block_entry) (bs : List cached_block_entry)
    (a : drop_acc) :
    evict_piece_scan (b :: bs) a
      = if b.buf == 0 || b.refcount > 0 then
          (b :: (evict_piece_scan bs a).1, (evict_piece_scan bs a).2)
        else if !b.dirty then
          (if a.num_blocks - 1 == 0 then
            ({ b with buf := 0, dirty := false } :: bs,
              { a with num_blocks := a.num_blocks - 1, read_cache_size := a.read_cache_size - 1
                       num_to_delete := a.num_to_delete + 1 })
          else
            ({ b with buf := 0, dirty := false } :: (evict_piece_scan bs
              { a with num_blocks := a.num_blocks - 1, read_cache_size := a.read_cache_size - 1
                       num_to_delete := a.num_to_delete + 1 }).1,
             (evict_piece_scan bs
              { a with num_blocks := a.num_blocks - 1, read_cache_size := a.read_cache_size - 1
                       num_to_delete := a.num_to_delete + 1 }).2))
        else
          (if a.num_blocks - 1 == 0 then
            ({ b with buf := 0, dirty := false } :: bs,
              { a with num_blocks := a.num_blocks - 1, num_dirty := a.num_dirty - 1
                       write_cache_size := a.write_cache_size - 1
                       num_to_delete := a.num_to_delete + 1 })
          else
            ({ b with buf := 0, dirty := false } :: (evict_piece_scan bs
              { a with num_blocks := a.num_blocks - 1, num_dirty := a.num_dirty - 1
                       write_cache_size := a.write_cache_size - 1
                       num_to_delete := a.num_to_delete + 1 }).1,
             (evict_piece_scan bs
              { a with num_blocks := a.num_blocks - 1, num_dirty := a.num_dirty - 1
                       write_cache_size := a.write_cache_size - 1
                       num_to_delete := a.num_to_delete + 1 }).2)) := by
  rw [evict_piece_scan]
  by_cases h1 : (b.buf == 0 || decide (b.refcount > 0)) = true
  · rw [if_pos h1, if_pos h1]
  · rw [if_neg h1, if_neg h1]
    by_cases h2 : (!b.dirty) = true
    · rw [if_pos h2]
      simp only [h2, if_true]
    · rw [if_neg h2]
      simp only [h2]
      rfl

theorem scan_keeps_skip {b : cached_block_entry} {bs : List cached_block_entry}
    {a : drop_acc} {r : List cached_block_entry × drop_acc} (h : scan_keeps bs a r)
    (hb : b.buf = 0 → ¬ b.is_protected) : scan_keeps (b :: bs) a (b :: r.1, r.2) := by
  obtain ⟨h1, h2, h3, h4, h5, h6⟩ := h
  refine ⟨?_, ?_, ?_, ?_, ?_, ?_⟩
  · show r.2.num_blocks - count_filled (b :: r.1) = _
    rw [count_filled_cons, count_filled_cons]; omega
  · show r.2.num_dirty - count_dirty (b :: r.1) = _
    rw [count_dirty_cons, count_dirty_cons]; omega
  · show r.2.read_cache_size - count_clean (b :: r.1) = _
    rw [count_clean_cons, count_clean_cons]; omega
  · show r.2.write_cache_size - count_dirty (b :: r.1) = _
    rw [count_dirty_cons, count_dirty_cons]; omega
  · show count_filled (b :: r.1) ≤ _
    rw [count_filled_cons, count_filled_cons]; omega
  · intro x hx
    rcases List.mem_cons.1 hx with rfl | hx
    · exact hb
    · exact h6 x hx

theorem not_protected_freed {b : cached_block_entry} (hrc : ¬ b.refcount > 0)
    (hp : b.pending = false) :
    ¬ ({ b with buf := 0, dirty := false } : cached_block_entry).is_protected := by
  unfold cached_block_entry.is_protected
  simp only [not_or]
  exact ⟨hrc, by simp, by simp [hp]⟩

/-- Freeing a clean slot in the block loop. -/
theorem scan_keeps_free_clean {b : cached_block_entry} {bs : List cached_block_entry}
    {a : drop_acc} {r : List cached_block_entry × drop_acc} (hbuf : b.buf ≠ 0)
    (hd : b.dirty = false) (hrc : ¬ b.refcount > 0) (hp : b.pending = false)
    (h : scan_keeps bs { a with num_blocks := a.num_blocks - 1
                                read_cache_size := a.read_cache_size - 1
                                num_to_delete := a.num_to_delete + 1 } r) :
    scan_keeps (b :: bs) a ({ b with buf := 0, dirty := false } :: r.1, r.2) := by
  obtain ⟨h1, h2, h3, h4, h5, h6⟩ := h
  dsimp only at h1 h2 h3 h4
  refine ⟨?_, ?_, ?_, ?_, ?_, ?_⟩
  · show r.2.num_blocks - count_filled (_ :: r.1) = _
    rw [count_filled_cons, count_filled_cons, if_neg hbuf]
    simp only [if_true]; omega
  · show r.2.num_dirty - count_dirty (_ :: r.1) = _
    rw [count_dirty_cons, count_dirty_cons, if_neg hbuf]
    simp only [if_true, hd]; simp; omega
  · show r.2.read_cache_size - count_clean (_ :: r.1) = _
    rw [count_clean_cons, count_clean_cons, if_neg hbuf]
    simp only [if_true, hd]; simp; omega
  · show r.2.write_cache_size - count_dirty (_ :: r.1) = _
    rw [count_dirty_cons, count_dirty_cons, if_neg hbuf]
    simp only [if_true, hd]; simp; omega
  · show count_filled (_ :: r.1) ≤ _
    rw [count_filled_cons, count_filled_cons, if_neg hbuf]
    simp only [if_true]; omega
  · intro x hx
    rcases List.mem_cons.1 hx with rfl | hx
    · exact fun _ => not_protected_freed hrc hp
    · exact h6 x hx

/-- Freeing a dirty slot in the block loop. -/
theorem scan_keeps_free_dirty {b : cached_block_entry} {bs : List cached_block_entry}
    {a : drop_acc} {r : List cached_block_entry × drop_acc} (hbuf : b.buf ≠ 0)
    (hd : b.dirty = true) (hrc : ¬ b.refcount > 0) (hp : b.pending = false)
    (h : scan_keeps bs { a with num_blocks := a.num_blocks - 1, num_dirty := a.num_dirty - 1
                                write_cache_size := a.write_cache_size - 1
                                num_to_delete := a.num_to_delete + 1 } r) :
    scan_keeps (b :: bs) a ({ b with buf := 0, dirty := false } :: r.1, r.2) := by
  obtain ⟨h1, h2, h3, h4, h5, h6⟩ := h
  dsimp only at h1 h2 h3 h4
  refine ⟨?_, ?_, ?_, ?_, ?_, ?_⟩
  · show r.2.num_blocks - count_filled (_ :: r.1) = _
    rw [count_filled_cons, count_filled_cons, if_neg hbuf]
    simp only [if_true]; omega
  · show r.2.num_dirty - count_dirty (_ :: r.1) = _
    rw [count_dirty_cons, count_dirty_cons, if_neg hbuf]
    simp only [if_true, hd]; omega
  · show r.2.read_cache_size - count_clean (_ :: r.1) = _
    rw [count_clean_cons, count_clean_cons, if_neg hbuf]
    simp only [if_true, hd]; omega
  · show r.2.write_cache_size - count_dirty (_ :: r.1) = _
    rw [count_dirty_cons, count_dirty_cons, if_neg hbuf]
    simp only [if_true, hd]; omega
  · show count_filled (_ :: r.1) ≤ _
    rw [count_filled_cons, count_filled_cons, if_neg hbuf]
    simp only [if_true]; omega
  · intro x hx
    rcases List.mem_cons.1 hx with rfl | hx
    · exact fun _ => not_protected_freed hrc hp
    · exact h6 x hx

theorem scan_keeps_stop (bs : List cached_block_entry) (a : drop_acc)
    (h : ∀ b ∈ bs, b.buf = 0 → ¬ b.is_protected) : scan_keeps bs a (bs, a) :=
  ⟨rfl, rfl, rfl, rfl, le_refl _, h⟩

theorem evict_piece_scan_spec : ∀ (bs : List cached_block_entry) (a : drop_acc),
    (∀ b ∈ bs, b.buf = 0 → ¬ b.is_protected) →
    (∀ b ∈ bs, b.buf ≠ 0 → ¬ b.refcount > 0 → b.pending = false) →
    scan_keeps bs a (evict_piece_scan bs a) := by
  intro bs
  induction bs with
  | nil => intro a h _; exact scan_keeps_stop [] a h
  | cons b bs ih =>
    intro a h hp
    have h2 : ∀ x ∈ bs, x.buf = 0 → ¬ x.is_protected :=
      fun x hx => h x (List.mem_cons_of_mem _ hx)
    have hp2 : ∀ x ∈ bs, x.buf ≠ 0 → ¬ x.refcount > 0 → x.pending = false :=
      fun x hx => hp x (List.mem_cons_of_mem _ hx)
    rw [evict_piece_scan_cons]
    by_cases h1 : (b.buf == 0 || decide (b.refcount > 0)) = true
    · rw [if_pos h1]
      exact scan_keeps_skip (ih a h2 hp2) (h b (List.mem_cons_self _ _))
    · rw [if_neg h1]
      have hbuf : b.buf ≠ 0 := by
        intro e; apply h1; simp [e]
      have hrc : ¬ b.refcount > 0 := by
        intro e; apply h1; simp [e]
      have hpend := hp b (List.mem_cons_self _ _) hbuf hrc
      by_cases hd : (!b.dirty) = true
      · rw [if_pos hd]
        have hd2 : b.dirty = false := by simpa using hd
        by_cases hz : (a.num_blocks - 1 == 0) = true
        · rw [if_pos hz]
          exact scan_keeps_free_clean hbuf hd2 hrc hpend (scan_keeps_stop bs _ h2)
        · rw [if_neg hz]
          exact scan_keeps_free_clean hbuf hd2 hrc hpend (ih _ h2 hp2)
      · rw [if_neg hd]
        have hd2 : b.dirty = true := by simpa using hd
        by_cases hz : (a.num_blocks - 1 == 0) = true
        · rw [if_pos hz]
          exact scan_keeps_free_dirty hbuf hd2 hrc hpend (scan_keeps_stop bs _ h2)
        · rw [if_neg hz]
          exact scan_keeps_free_dirty hbuf hd2 hrc hpend (ih _ h2 hp2)

theorem abort_dirty_scan_spec : ∀ (bs : List cached_block_entry) (a : drop_acc),
    (∀ b ∈ bs, b.buf = 0 → ¬ b.is_protected) →
    (∀ b ∈ bs, b.buf ≠ 0 → ¬ b.refcount > 0 → b.dirty = true → b.pending = false) →
    scan_keeps bs a (abort_dirty_scan bs a)
      ∧ (abort_dirty_scan bs a).2.read_cache_size = a.read_cache_size := by
  intro bs
  induction bs with
  | nil => intro a h _; exact ⟨scan_keeps_stop [] a h, rfl⟩
  | cons b bs ih =>
    intro a h hp
    have h2 : ∀ x ∈ bs, x.buf = 0 → ¬ x.is_protected :=
      fun x hx => h x (List.mem_cons_of_mem _ hx)
    have hp2 : ∀ x ∈ bs, x.buf ≠ 0 → ¬ x.refcount > 0 → x.dirty = true → x.pending = false :=
      fun x hx => hp x (List.mem_cons_of_mem _ hx)
    rw [abort_dirty_scan]
    by_cases h1 : (!b.dirty || decide (b.refcount > 0) || b.buf == 0) = true
    · rw [if_pos h1]
      exact ⟨scan_keeps_skip (ih a h2 hp2).1 (h b (List.mem_cons_self _ _)), (ih a h2 hp2).2⟩
    · rw [if_neg h1]
      have hbuf : b.buf ≠ 0 := by
        intro e; apply h1; simp [e]
      have hrc : ¬ b.refcount > 0 := by
        intro e; apply h1; simp [e]
      have hd : b.dirty = true := by
        by_contra e; apply h1; simp [e]
      have hpend := hp b (List.mem_cons_self _ _) hbuf hrc hd
      exact ⟨scan_keeps_free_dirty hbuf hd hrc hpend (ih _ h2 hp2).1, (ih _ h2 hp2).2⟩

/-- Writing back the piece one of the block loops has left, with the sizes the
loop has counted down. -/
theorem dropped_store_spec {c d : block_cache} {pk : piece_key} {pe : cached_piece_entry}
    {r : List cached_block_entry × drop_acc} (h : cache_invariant c)
    (hf : c.find_piece pk = some pe) (hk : scan_keeps pe.blocks (c.drop_start pe) r)
    (hp : d.m_pieces = replace_piece (dropped_piece pe r) c.m_pieces)
    (hl : d.m_lru = c.m_lru) (hr : d.m_read_cache_size = r.2.read_cache_size)
    (hw : d.m_write_cache_size = r.2.write_cache_size) :
    cache_invariant d ∧ d.find_piece pk = some (dropped_piece pe r)
      ∧ ∀ k, k ≠ pk → d.find_piece k = c.find_piece k := by
  have hkey : pe.key = pk := (find_piece_some_mem hf).2
  have hpe := h.pieces pe (find_piece_some_mem hf).1
  have hkq : (dropped_piece pe r).key = pk := hkey
  have hfq : c.find_piece (dropped_piece pe r).key = some pe := by rw [hkq]; exact hf
  obtain ⟨h1, h2, h3, h4, h5, h6⟩ := hk
  have e1 : (c.drop_start pe).num_blocks = pe.num_blocks := rfl
  have e2 : (c.drop_start pe).num_dirty = pe.num_dirty := rfl
  have e3 : (c.drop_start pe).read_cache_size = c.m_read_cache_size := rfl
  have e4 : (c.drop_start pe).write_cache_size = c.m_write_cache_size := rfl
  rw [e1] at h1
  rw [e2] at h2
  rw [e3] at h3
  rw [e4] at h4
  have hnn := count_filled_nonneg r.1
  have hb1 := hpe.1
  have hb2 := hpe.2.1
  refine ⟨cache_invariant_store h hfq ⟨?_, ?_, h6⟩ rfl ?_ hp hl ?_ ?_,
    find_after_store hf hkq hp⟩
  · show r.2.num_blocks = count_filled r.1
    omega
  · show r.2.num_dirty = count_dirty r.1
    omega
  · intro _ hz
    show r.2.num_blocks = 0
    omega
  · show d.m_read_cache_size = _ - _ + count_clean r.1
    rw [hr]; omega
  · show d.m_write_cache_size = _ - _ + count_dirty r.1
    rw [hw]; omega

theorem free_deleted_spec (c : block_cache) (n : Nat) :
    (c.free_deleted n).m_pieces = c.m_pieces ∧ (c.free_deleted n).m_lru = c.m_lru
      ∧ (c.free_deleted n).m_read_cache_size = c.m_read_cache_size
      ∧ (c.free_deleted n).m_write_cache_size = c.m_write_cache_size := by
  unfold block_cache.free_deleted block_cache.free_buffers
  split_ifs <;> exact ⟨rfl, rfl, rfl, rfl⟩

theorem cache_invariant_free_deleted {c : block_cache} (h : cache_invariant c) (n : Nat) :
    cache_invariant (c.free_deleted n) :=
  cache_invariant_congr h (free_deleted_spec c n).1
    (fun i _ => by rw [(free_deleted_spec c n).2.1]) (free_deleted_spec c n).2.2.1
    (free_deleted_spec c n).2.2.2

/-- The tail of `evict_piece` keeps the invariant. -/
theorem evict_emptied_spec {c : block_cache} {pk : piece_key} {pe1 : cached_piece_entry}
    (jobs : List Nat) (h : cache_invariant c) (hf : c.find_piece pk = some pe1) :
    cache_invariant (c.evict_emptied pk pe1 jobs).1 := by
  have hkey : pe1.key = pk := (find_piece_some_mem hf).2
  have hpe := h.pieces pe1 (find_piece_some_mem hf).1
  unfold block_cache.evict_emptied
  by_cases hok : pe1.ok_to_evict true = true
  · rw [if_pos hok]
    have hnb := ok_to_evict_num_blocks hok
    have hkq : ({ pe1 with hash := none, jobs := [] } : cached_piece_entry).key = pk := hkey
    have hfq : c.find_piece ({ pe1 with hash := none, jobs := [] } : cached_piece_entry).key
        = some pe1 := by rw [hkq]; exact hf
    have h3 : cache_invariant (c.store { pe1 with hash := none, jobs := [] }) := by
      refine cache_invariant_store h hfq (piece_invariant_congr hpe rfl rfl rfl) rfl
        (fun _ hz => hz) rfl rfl ?_ ?_
      · show c.m_read_cache_size = _
        ring
      · show c.m_write_cache_size = _
        ring
    have hf3 := (find_after_store (q := { pe1 with hash := none, jobs := [] })
      (d := c.store { pe1 with hash := none, jobs := [] }) hf hkq rfl).1
    dsimp only
    split_ifs
    · exact h3
    · exact cache_invariant_erase_piece h3 hf3 hnb
    · exact (move_to_ghost_spec none h3 hf3 hnb (by simp)).1
  · rw [if_neg hok]
    exact h

/-- `evict_piece` keeps the invariant. -/
theorem evict_piece_spec {c : block_cache} {pk : piece_key} (jobs : List Nat)
    (h : cache_invariant c) (hpre : evict_piece_pre c pk) :
    cache_invariant (c.evict_piece pk jobs).1 := by
  obtain ⟨pe, hf, hp⟩ := hpre
  have hpe := h.pieces pe (find_piece_some_mem hf).1
  have hk := evict_piece_scan_spec pe.blocks (c.drop_start pe) hpe.2.2 hp
  unfold block_cache.evict_piece
  rw [hf]
  dsimp only
  have h1 := dropped_store_spec (d := { (c.store (dropped_piece pe
      (evict_piece_scan pe.blocks (c.drop_start pe)))) with
      m_read_cache_size := (evict_piece_scan pe.blocks (c.drop_start pe)).2.read_cache_size
      m_write_cache_size := (evict_piece_scan pe.blocks (c.drop_start pe)).2.write_cache_size })
    h hf hk rfl rfl rfl rfl
  refine evict_emptied_spec jobs (cache_invariant_free_deleted h1.1 _) ?_
  rw [find_piece_congr (free_deleted_spec _ _).1]
  exact h1.2.1

/-- `abort_dirty` keeps the invariant. -/
theorem abort_dirty_spec {c : block_cache} {pk : piece_key}
    (h : cache_invariant c) (hpre : abort_dirty_pre c pk) :
    cache_invariant (c.abort_dirty pk) := by
  obtain ⟨pe, hf, hp⟩ := hpre
  have hpe := h.pieces pe (find_piece_some_mem hf).1
  have hk := abort_dirty_scan_spec pe.blocks (c.drop_start pe) hpe.2.2 hp
  unfold block_cache.abort_dirty
  rw [hf]
  dsimp only
  have h1 := dropped_store_spec (d := { (c.store (dropped_piece pe
      (abort_dirty_scan pe.blocks (c.drop_start pe)))) with
      m_write_cache_size := (abort_dirty_scan pe.blocks (c.drop_start pe)).2.write_cache_size })
    h hf hk.1 rfl rfl hk.2.symm rfl
  have h2 := cache_invariant_free_deleted h1.1
    (abort_dirty_scan pe.blocks (c.drop_start pe)).2.num_to_delete
  refine (update_cache_state_spec
    (p := dropped_piece pe (abort_dirty_scan pe.blocks (c.drop_start pe))) h2 ?_).1
  rw [find_piece_congr (free_deleted_spec _ _).1]
  exact h1.2.1

/-! ## `blocks_flushed` -/

theorem replace_piece_replace_piece {q1 q2 : cached_piece_entry} (hk : q1.key = q2.key) :
    ∀ l : List cached_piece_entry, replace_piece q2 (replace_piece q1 l) = replace_piece q2 l := by
  intro l
  induction l with
  | nil => rfl
  | cons a l ih =>
    by_cases h : a.key = q1.key
    · rw [replace_cons_eq l h, replace_cons_eq l hk, replace_cons_eq l (h.trans hk)]
    · rw [replace_cons_ne l h, replace_cons_ne _ (fun e => h (e.trans hk.symm)),
        replace_cons_ne l (fun e => h (e.trans hk.symm)), ih]

theorem replace_piece_self : ∀ (l : List cached_piece_entry) (p : cached_piece_entry),
    l.find? (fun x => x.key == p.key) = some p → replace_piece p l = l := by
  intro l
  induction l with
  | nil => intro p _; rfl
  | cons a l ih =>
    intro p h
    by_cases hk : a.key = p.key
    · rw [find_cons_eq l hk] at h
      cases h
      exact replace_cons_eq l rfl
    · rw [find_cons_ne l hk] at h
      rw [replace_cons_ne l hk, ih p h]

theorem flushed_to_refl {c : block_cache} {pk : piece_key} {pe : cached_piece_entry}
    (hf : c.find_piece pk = some pe) (he : ∀ b ∈ pe.blocks, b.buf = 0 → ¬ b.is_protected) :
    flushed_to c c pe pe 0 := by
  have hkey : pe.key = pk := (find_piece_some_mem hf).2
  refine ⟨?_, rfl, rfl, rfl, rfl, rfl, rfl, rfl, rfl, rfl, rfl, by ring, he⟩
  rw [replace_piece_self]
  rw [hkey]; exact hf

theorem flushed_to_trans {c c1 c2 : block_cache} {pe pe1 pe2 : cached_piece_entry} {n m : Int}
    (h1 : flushed_to c c1 pe pe1 n) (h2 : flushed_to c1 c2 pe1 pe2 m) :
    flushed_to c c2 pe pe2 (n + m) := by
  refine ⟨?_, h2.key.trans h1.key, h2.lru.trans h1.lru, h2.read.trans h1.read,
    h2.write.trans h1.write, h2.num_blocks.trans h1.num_blocks, h2.num_dirty.trans h1.num_dirty,
    h2.cache_state.trans h1.cache_state, h2.hash.trans h1.hash, h2.length.trans h1.length,
    h2.filled.trans h1.filled, ?_, h2.empty⟩
  · rw [h2.pieces, h1.pieces, replace_piece_replace_piece h2.key.symm]
  · rw [h2.dirty, h1.dirty]; ring

theorem flushed_to_find {c c2 : block_cache} {pk : piece_key} {pe pe2 : cached_piece_entry}
    {n : Int} (hf : c.find_piece pk = some pe) (h : flushed_to c c2 pe pe2 n) :
    c2.find_piece pk = some pe2 ∧ ∀ k, k ≠ pk → c2.find_piece k = c.find_piece k :=
  find_after_store hf (h.key.trans (find_piece_some_mem hf).2) h.pieces

/-- One round of the loop of `blocks_flushed`. -/
theorem flush_one_spec {c : block_cache} {pk : piece_key} {pe : cached_piece_entry}
    {block : Nat} (hf : c.find_piece pk = some pe)
    (he : ∀ b ∈ pe.blocks, b.buf = 0 → ¬ b.is_protected) (hi : block < pe.blocks.length)
    (hd : (get_block pe.blocks block).dirty = true) :
    flushed_to c (c.flush_one pk block) pe (flushed_piece pe block) 1 := by
  have hkey : pe.key = pk := (find_piece_some_mem hf).2
  have hbuf : (get_block pe.blocks block).buf ≠ 0 := by
    intro e
    exact he _ (get_block_mem hi) e (Or.inr (Or.inl hd))
  have hk1 : (unflagged_piece pe block).key = pk := hkey
  have hf1 := (find_after_store (q := unflagged_piece pe block)
    (d := c.store (unflagged_piece pe block)) hf hk1 rfl).1
  have hg : get_block (unflagged_piece pe block).blocks block
      = { get_block pe.blocks block with pending := false, dirty := false } :=
    get_block_set_same _ hi
  have hs : ∀ x, set_block (unflagged_piece pe block).blocks block x
      = set_block pe.blocks block x := fun x => set_block_set_block _ _ _ _
  unfold block_cache.flush_one
  rw [hf]
  dsimp only
  unfold block_cache.dec_block_refcount
  rw [hf1]
  dsimp only
  rw [hg, hs]
  have hbuf2 : (flushed_slot (get_block pe.blocks block)).buf ≠ 0 := hbuf
  refine ⟨?_, rfl, rfl, rfl, rfl, rfl, rfl, rfl, rfl, ?_, ?_, ?_, ?_⟩
  · show replace_piece (flushed_piece pe block)
      (replace_piece (unflagged_piece pe block) c.m_pieces) = _
    exact replace_piece_replace_piece (show (unflagged_piece pe block).key = (flushed_piece pe block).key from rfl) _
  · show (set_block pe.blocks block (flushed_slot (get_block pe.blocks block))).length = _
    rw [set_block_length]
  · show count_filled (set_block pe.blocks block (flushed_slot (get_block pe.blocks block))) = _
    rw [count_filled_set _ _ _ hi, filled_ind_of_buf hbuf, filled_ind_of_buf hbuf2]
    ring
  · show count_dirty (set_block pe.blocks block (flushed_slot (get_block pe.blocks block))) = _
    rw [count_dirty_set _ _ _ hi]
    have e1 : dirty_ind (get_block pe.blocks block) = 1 := by
      unfold dirty_ind; simp [hbuf, hd]
    have e2 : dirty_ind (flushed_slot (get_block pe.blocks block)) = 0 := by
      unfold dirty_ind flushed_slot; simp
    rw [e1, e2]; ring
  · intro b hb hz
    have hb2 : b ∈ set_block pe.blocks block (flushed_slot (get_block pe.blocks block)) := hb
    rcases mem_set_block hb2 with hb3 | rfl
    · exact he b hb3 hz
    · exact absurd hz hbuf2

/-- The loop of `blocks_flushed`. -/
theorem flush_fold_spec (pk : piece_key) : ∀ (flushed : List Nat) (c : block_cache)
    (pe : cached_piece_entry), c.find_piece pk = some pe →
    (∀ b ∈ pe.blocks, b.buf = 0 → ¬ b.is_protected) → blocks_flushed_pre pk flushed c →
    ∃ pe2, flushed_to c (flushed.foldl (block_cache.flush_one pk) c) pe pe2 flushed.length := by
  intro flushed
  induction flushed with
  | nil =>
    intro c pe hf he _
    exact ⟨pe, flushed_to_refl hf he⟩
  | cons b bs ih =>
    intro c pe hf he hpre
    obtain ⟨⟨p0, hp0, hi, hd, _⟩, hrest⟩ := hpre
    rw [hf] at hp0
    cases hp0
    have h1 := flush_one_spec hf he hi hd
    obtain ⟨pe2, h2⟩ := ih (c.flush_one pk b) _ (flushed_to_find hf h1).1 h1.empty hrest
    refine ⟨pe2, ?_⟩
    have h3 := flushed_to_trans h1 h2
    rw [List.foldl_cons, List.length_cons]
    have e : ((bs.length + 1 : Nat) : Int) = 1 + (bs.length : Int) := by push_cast; ring
    rw [e]
    exact h3

/-- `blocks_flushed` is `update_cache_state` on a cache `d` that satisfies the
invariant, has the lists of `c`, and in which the piece has lost
`flushed.length` from `num_dirty` while its state, hash and `num_blocks` are
those before the call. -/
theorem blocks_flushed_spec {c : block_cache} {pk : piece_key} {pe : cached_piece_entry}
    (flushed : List Nat) (h : cache_invariant c) (hf : c.find_piece pk = some pe)
    (hpre : blocks_flushed_pre pk flushed c) :
    ∃ d q, c.blocks_flushed pk flushed = d.update_cache_state pk
      ∧ cache_invariant d ∧ d.find_piece pk = some q
      ∧ (∀ k, k ≠ pk → d.find_piece k = c.find_piece k) ∧ d.m_lru = c.m_lru
      ∧ q.num_dirty = pe.num_dirty - flushed.length ∧ q.hash = pe.hash
      ∧ q.cache_state = pe.cache_state ∧ q.num_blocks = pe.num_blocks := by
  have hkey : pe.key = pk := (find_piece_some_mem hf).2
  have hpe := h.pieces pe (find_piece_some_mem hf).1
  obtain ⟨pe2, hft⟩ := flush_fold_spec pk flushed c pe hf hpe.2.2 hpre
  have hfind := flushed_to_find hf hft
  have hf2 : block_cache.find_piece
      { (flushed.foldl (block_cache.flush_one pk) c) with
        m_write_cache_size :=
          (flushed.foldl (block_cache.flush_one pk) c).m_write_cache_size - (flushed.length : Int)
        m_read_cache_size :=
          (flushed.foldl (block_cache.flush_one pk) c).m_read_cache_size + (flushed.length : Int) }
      pk = some pe2 := hfind.1
  unfold block_cache.blocks_flushed
  dsimp only
  rw [hf2]
  dsimp only
  have hkq : ({ pe2 with num_dirty := pe2.num_dirty - (flushed.length : Int) }
      : cached_piece_entry).key = pk := hft.key.trans hkey
  have hfq : c.find_piece ({ pe2 with num_dirty := pe2.num_dirty - (flushed.length : Int) }
      : cached_piece_entry).key = some pe := by rw [hkq]; exact hf
  have hp : ∀ q : cached_piece_entry, q.key = pe2.key →
      replace_piece q (flushed.foldl (block_cache.flush_one pk) c).m_pieces
        = replace_piece q c.m_pieces := by
    intro q hq
    rw [hft.pieces]
    exact replace_piece_replace_piece hq.symm _
  have hsplit1 := count_filled_split pe.blocks
  have hsplit2 := count_filled_split pe2.blocks
  have e1 := hft.filled
  have e2 := hft.dirty
  have e3 := hft.num_blocks
  have e4 := hft.num_dirty
  have e5 := hpe.1
  have e6 := hpe.2.1
  refine ⟨_, _, rfl, ?_, (find_after_store hf2 hkq rfl).1, ?_, hft.lru, ?_, hft.hash,
    hft.cache_state, hft.num_blocks⟩
  · refine cache_invariant_store h hfq ⟨?_, ?_, hft.empty⟩ hft.cache_state ?_ (hp _ rfl)
      hft.lru ?_ ?_
    · show pe2.num_blocks = count_filled pe2.blocks
      omega
    · show pe2.num_dirty - (flushed.length : Int) = count_dirty pe2.blocks
      omega
    · intro _ hz
      show pe2.num_blocks = 0
      omega
    · show (flushed.foldl (block_cache.flush_one pk) c).m_read_cache_size + (flushed.length : Int)
        = c.m_read_cache_size - count_clean pe.blocks + count_clean pe2.blocks
      rw [hft.read]; omega
    · show (flushed.foldl (block_cache.flush_one pk) c).m_write_cache_size - (flushed.length : Int)
        = c.m_write_cache_size - count_dirty pe.blocks + count_dirty pe2.blocks
      rw [hft.write]; omega
  · intro k hk
    rw [(find_after_store hf2 hkq rfl).2 k hk]
    exact hfind.2 k hk
  · show pe2.num_dirty - (flushed.length : Int) = _
    rw [hft.num_dirty]

/-- `blocks_flushed` keeps the invariant. -/
theorem blocks_flushed_invariant {c : block_cache} {pk : piece_key} (flushed : List Nat)
    (h : cache_invariant c) (hpc : piece_satisfies c pk (fun _ => True))
    (hpre : blocks_flushed_pre pk flushed c) : cache_invariant (c.blocks_flushed pk flushed) := by
  obtain ⟨pe, hf, _⟩ := hpc
  obtain ⟨d, q, he, hd, hq, _⟩ := blocks_flushed_spec flushed h hf hpre
  rw [he]
  exact (update_cache_state_spec hd hq).1

/-! ## `cache_hit` and `insert_blocks` -/

/-- The three outcomes of `cache_hit`: nothing happens (the piece is not in a
ghost list), only the piece entry is written (the piece is outside the read
lists), or the piece is moved to the back of `read_lru1` or `read_lru2`. -/
theorem cache_hit_cases {c : block_cache} {pk : piece_key} {p : cached_piece_entry}
    (requester : Nat) (volatile_read : Bool) (hf : c.find_piece pk = some p) :
    (c.cache_hit pk requester volatile_read = c
        ∧ p.cache_state ≠ read_lru1_ghost ∧ p.cache_state ≠ read_lru2_ghost)
    ∨ (∃ q, c.cache_hit pk requester volatile_read = c.store q
        ∧ q.key = p.key ∧ q.blocks = p.blocks ∧ q.num_blocks = p.num_blocks
        ∧ q.num_dirty = p.num_dirty ∧ q.cache_state = p.cache_state
        ∧ p.cache_state ≠ read_lru1_ghost ∧ p.cache_state ≠ read_lru2_ghost)
    ∨ (∃ q t op, c.cache_hit pk requester volatile_read
            = { (c.store q) with
                m_lru := lru_set (lru_set c.m_lru p.cache_state ((c.m_lru p.cache_state).erase pk))
                  t (lru_set c.m_lru p.cache_state ((c.m_lru p.cache_state).erase pk) t ++ [pk])
                m_last_cache_op := op }
        ∧ q.key = p.key ∧ q.blocks = p.blocks ∧ q.num_blocks = p.num_blocks
        ∧ q.num_dirty = p.num_dirty ∧ q.cache_state = t ∧ (t = read_lru1 ∨ t = read_lru2)) := by
  unfold block_cache.cache_hit
  rw [hf]
  dsimp only
  by_cases h1 : ((p.last_requester == requester || requester == 0)
      && (p.cache_state == read_lru1 || p.cache_state == read_lru2
        || p.cache_state == write_lru || p.cache_state == volatile_read_lru)) = true
  · rw [if_pos h1]
    left
    refine ⟨rfl, ?_, ?_⟩ <;>
    · intro e
      rw [e] at h1
      simp at h1
  · rw [if_neg h1]
    by_cases h2 : (p.cache_state == volatile_read_lru && volatile_read) = true
    · rw [if_pos h2]
      left
      refine ⟨rfl, ?_, ?_⟩ <;>
      · intro e
        rw [e] at h2
        simp at h2
    · rw [if_neg h2]
      right
      by_cases hr : (requester != 0) = true
      · rw [if_pos hr]
        dsimp only
        by_cases h3 : (decide (p.cache_state < read_lru1)
            || decide (p.cache_state > read_lru2_ghost)) = true
        · rw [if_pos h3]
          left
          refine ⟨_, rfl, rfl, rfl, rfl, rfl, rfl, ?_, ?_⟩ <;>
          · intro e
            rw [e] at h3
            exact absurd h3 (by decide)
        · rw [if_neg h3]
          right
          by_cases h4 : (p.cache_state == read_lru1_ghost || p.cache_state == read_lru2_ghost)
              = true
          · rw [if_pos h4]
            refine ⟨_, _, _, rfl, rfl, rfl, rfl, rfl, rfl, ?_⟩
            split_ifs <;> simp
          · rw [if_neg h4]
            refine ⟨_, _, _, rfl, rfl, rfl, rfl, rfl, rfl, ?_⟩
            split_ifs <;> simp
      · rw [if_neg hr]
        by_cases h3 : (decide (p.cache_state < read_lru1)
            || decide (p.cache_state > read_lru2_ghost)) = true
        · rw [if_pos h3]
          left
          refine ⟨_, rfl, rfl, rfl, rfl, rfl, rfl, ?_, ?_⟩ <;>
          · intro e
            rw [e] at h3
            exact absurd h3 (by decide)
        · rw [if_neg h3]
          right
          by_cases h4 : (p.cache_state == read_lru1_ghost || p.cache_state == read_lru2_ghost)
              = true
          · rw [if_pos h4]
            refine ⟨_, _, _, rfl, rfl, rfl, rfl, rfl, rfl, ?_⟩
            split_ifs <;> simp
          · rw [if_neg h4]
            refine ⟨_, _, _, rfl, rfl, rfl, rfl, rfl, rfl, ?_⟩
            split_ifs <;> simp

/-- `cache_hit` keeps the invariant and the blocks of the piece, and leaves the
piece outside the ghost lists. -/
theorem cache_hit_spec {c : block_cache} {pk : piece_key} {p : cached_piece_entry}
    (requester : Nat) (volatile_read : Bool) (h : cache_invariant c)
    (hf : c.find_piece pk = some p) :
    cache_invariant (c.cache_hit pk requester volatile_read)
    ∧ ∃ q, (c.cache_hit pk requester volatile_read).find_piece pk = some q
        ∧ q.blocks = p.blocks
        ∧ q.cache_state ≠ read_lru1_ghost ∧ q.cache_state ≠ read_lru2_ghost := by
  have hkey : p.key = pk := (find_piece_some_mem hf).2
  have hpe := h.pieces p (find_piece_some_mem hf).1
  rcases cache_hit_cases requester volatile_read hf with
    ⟨he, h3, h5⟩ | ⟨q, he, hk, hb, hnb, hnd, hs, h3, h5⟩ | ⟨q, t, op, he, hk, hb, hnb, hnd, hs, ht⟩
  · rw [he]
    exact ⟨h, p, hf, rfl, h3, h5⟩
  · rw [he]
    have hfq : c.find_piece q.key = some p := by rw [hk, hkey]; exact hf
    refine ⟨?_, q, (find_after_store hf (hk.trans hkey) rfl).1, hb, by rw [hs]; exact h3,
      by rw [hs]; exact h5⟩
    refine cache_invariant_store h hfq (piece_invariant_congr hpe hb hnb hnd) hs
      (fun _ hz => by rw [hnb]; exact hz) rfl rfl ?_ ?_
    · show c.m_read_cache_size = _
      rw [hb]; ring
    · show c.m_write_cache_size = _
      rw [hb]; ring
  · rw [he]
    have hfq : c.find_piece q.key = some p := by rw [hk, hkey]; exact hf
    have ht3 : t ≠ read_lru1_ghost := by rcases ht with rfl | rfl <;> decide
    have ht5 : t ≠ read_lru2_ghost := by rcases ht with rfl | rfl <;> decide
    refine ⟨?_, q, (find_after_store hf (hk.trans hkey) rfl).1, hb, by rw [hs]; exact ht3,
      by rw [hs]; exact ht5⟩
    refine cache_invariant_move h hfq hb hnb hnd hs ht3 ht5 rfl ?_ rfl rfl
    rw [hk, hkey]

theorem ind_congr {a b : cached_block_entry} (h1 : b.buf = a.buf) (h2 : b.dirty = a.dirty) :
    filled_ind b = filled_ind a ∧ dirty_ind b = dirty_ind a ∧ clean_ind b = clean_ind a := by
  unfold filled_ind dirty_ind clean_ind
  rw [h1, h2]
  exact ⟨rfl, rfl, rfl⟩

/-- Writing a slot without touching its buffer and its dirty flag keeps the
invariant. -/
theorem cache_invariant_touch_slot {c d : block_cache} {pk : piece_key}
    {pe q : cached_piece_entry} {i : Nat} {b : cached_block_entry} (h : cache_invariant c)
    (hf : c.find_piece pk = some pe) (hk : q.key = pk) (hi : i < pe.blocks.length)
    (h1 : b.buf = (get_block pe.blocks i).buf) (h2 : b.dirty = (get_block pe.blocks i).dirty)
    (hbuf : b.buf ≠ 0) (hb : q.blocks = set_block pe.blocks i b)
    (hnb : q.num_blocks = pe.num_blocks) (hnd : q.num_dirty = pe.num_dirty)
    (hs : q.cache_state = pe.cache_state)
    (hp : d.m_pieces = replace_piece q c.m_pieces) (hl : d.m_lru = c.m_lru)
    (hr : d.m_read_cache_size = c.m_read_cache_size)
    (hw : d.m_write_cache_size = c.m_write_cache_size) :
    cache_invariant d ∧ d.find_piece pk = some q
      ∧ ∀ k, k ≠ pk → d.find_piece k = c.find_piece k := by
  have hpe := h.pieces pe (find_piece_some_mem hf).1
  have hi3 := ind_congr h1 h2
  have hfq : c.find_piece q.key = some pe := by rw [hk]; exact hf
  refine ⟨cache_invariant_store h hfq ?_ hs (fun _ hz => by rw [hnb]; exact hz) hp hl ?_ ?_,
    find_after_store hf hk hp⟩
  · refine piece_invariant_set_slot hpe hi (fun e => absurd e hbuf) hb ?_ ?_
    · rw [hnb, hi3.1]; ring
    · rw [hnd, hi3.2.1]; ring
  · rw [hr, hb, count_clean_set _ _ _ hi, hi3.2.2]; ring
  · rw [hw, hb, count_dirty_set _ _ _ hi, hi3.2.1]; ring

/-- `inc_block_refcount` on a filled slot keeps the invariant; only the
reference counts change. -/
theorem inc_block_refcount_spec {c : block_cache} {pk : piece_key} {pe : cached_piece_entry}
    {block : Nat} (h : cache_invariant c) (hf : c.find_piece pk = some pe)
    (hi : block < pe.blocks.length) (hbuf : (get_block pe.blocks block).buf ≠ 0) :
    cache_invariant (c.inc_block_refcount pk block).1
    ∧ ∃ q, (c.inc_block_refcount pk block).1.find_piece pk = some q
        ∧ q.blocks.length = pe.blocks.length
        ∧ (get_block q.blocks block).buf ≠ 0
        ∧ q.cache_state = pe.cache_state := by
  have hkey : pe.key = pk := (find_piece_some_mem hf).2
  unfold block_cache.inc_block_refcount
  rw [hf]
  dsimp only
  rw [if_neg (by simpa using hbuf)]
  dsimp only
  have h1 := cache_invariant_touch_slot
    (d := { (c.store (referenced_piece pe block)) with
      m_pinned_blocks := if (get_block pe.blocks block).refcount == 0
        then c.m_pinned_blocks + 1 else c.m_pinned_blocks })
    (q := referenced_piece pe block) (b := referenced_slot (get_block pe.blocks block))
    h hf hkey hi rfl rfl hbuf rfl rfl rfl rfl rfl rfl rfl rfl
  refine ⟨h1.1, referenced_piece pe block, h1.2.1, ?_, ?_, rfl⟩
  · show (set_block pe.blocks block (referenced_slot (get_block pe.blocks block))).length = _
    rw [set_block_length]
  · show (get_block (set_block pe.blocks block (referenced_slot (get_block pe.blocks block)))
      block).buf ≠ 0
    rw [get_block_set_same _ hi]
    exact hbuf

theorem cache_invariant_free_buffers {c : block_cache} (h : cache_invariant c) (n : Nat) :
    cache_invariant (c.free_buffers n) :=
  cache_invariant_congr h rfl (fun _ _ => rfl) rfl rfl

/-- One round of the loop of `insert_blocks` on a piece outside the ghost
lists keeps the invariant, the length of the `blocks` array and the state. -/
theorem insert_one_spec {c : block_cache} {pk : piece_key} {pe : cached_piece_entry}
    {block : Nat} (inc_refcount : Bool) (base : Nat) (h : cache_invariant c)
    (hf : c.find_piece pk = some pe) (hi : block < pe.blocks.length) (hbase : base ≠ 0)
    (h3 : pe.cache_state ≠ read_lru1_ghost) (h5 : pe.cache_state ≠ read_lru2_ghost) :
    cache_invariant (block_cache.insert_one pk inc_refcount c block base)
    ∧ ∃ q, (block_cache.insert_one pk inc_refcount c block base).find_piece pk = some q
        ∧ q.blocks.length = pe.blocks.length ∧ q.cache_state = pe.cache_state := by
  have hkey : pe.key = pk := (find_piece_some_mem hf).2
  have hpe := h.pieces pe (find_piece_some_mem hf).1
  unfold block_cache.insert_one
  rw [hf]
  dsimp only
  by_cases hb : (get_block pe.blocks block).buf = 0
  · rw [if_neg (by simp [hb]), hf]
    dsimp only
    rw [if_neg (by simp [hb])]
    have hnp := hpe.2.2 _ (get_block_mem hi) hb
    have hnd : (get_block pe.blocks block).dirty = false := by
      unfold cached_block_entry.is_protected at hnp
      simp only [not_or] at hnp
      simpa using hnp.2.1
    have hbuf2 : (filled_slot (get_block pe.blocks block) base).buf ≠ 0 := hbase
    have e1 : filled_ind (get_block pe.blocks block) = 0 := by unfold filled_ind; simp [hb]
    have e2 : dirty_ind (get_block pe.blocks block) = 0 := by unfold dirty_ind; simp [hb]
    have e3 : clean_ind (get_block pe.blocks block) = 0 := by unfold clean_ind; simp [hb]
    have e4 : filled_ind (filled_slot (get_block pe.blocks block) base) = 1 :=
      filled_ind_of_buf hbuf2
    have e5 : dirty_ind (filled_slot (get_block pe.blocks block) base) = 0 := by
      unfold dirty_ind filled_slot; simp [hnd]
    have e6 : clean_ind (filled_slot (get_block pe.blocks block) base) = 1 := by
      unfold clean_ind filled_slot; simp [hnd, hbase]
    have hkq : (inserted_piece pe block base).key = pk := hkey
    have h2 : cache_invariant { (c.store (inserted_piece pe block base)) with
        m_read_cache_size := c.m_read_cache_size + 1 } := by
      refine cache_invariant_set_slot (q := inserted_piece pe block base) (i := block)
        (b := filled_slot (get_block pe.blocks block) base) h (by rw [hkq]; exact hf) hi
        (fun e => absurd e hbuf2) rfl ?_ ?_ rfl ?_ rfl rfl ?_ ?_
      · show pe.num_blocks + 1 = _
        rw [e1, e4]; ring
      · show pe.num_dirty = _
        rw [e2, e5]; ring
      · rintro (e | e)
        · exact absurd e h3
        · exact absurd e h5
      · show c.m_read_cache_size + 1 = _
        rw [e3, e6]; ring
      · show c.m_write_cache_size = _
        rw [e2, e5]; ring
    have hf2 := (find_after_store (q := inserted_piece pe block base)
      (d := { (c.store (inserted_piece pe block base)) with
        m_read_cache_size := c.m_read_cache_size + 1 }) hf hkq rfl).1
    have hlen : (inserted_piece pe block base).blocks.length = pe.blocks.length := by
      show (set_block pe.blocks block _).length = _
      rw [set_block_length]
    by_cases hinc : inc_refcount = true
    · rw [if_pos hinc]
      have hg : (get_block (inserted_piece pe block base).blocks block).buf ≠ 0 := by
        show (get_block (set_block pe.blocks block _) block).buf ≠ 0
        rw [get_block_set_same _ hi]
        exact hbuf2
      obtain ⟨h4, q, hq, hl, _, hs⟩ := inc_block_refcount_spec h2 hf2 (by rw [hlen]; exact hi) hg
      exact ⟨h4, q, hq, hl.trans hlen, hs⟩
    · rw [if_neg hinc]
      exact ⟨h2, _, hf2, hlen, rfl⟩
  · by_cases hinc : inc_refcount = true
    · rw [if_pos (by simp [hb, hinc])]
      obtain ⟨h1, q, hq, hl, hg, hs⟩ := inc_block_refcount_spec h hf hi hb
      rw [hq]
      dsimp only
      rw [if_pos (by simpa using hg)]
      exact ⟨cache_invariant_free_buffers h1 1, q, hq, hl, hs⟩
    · rw [if_neg (by simp [hinc]), hf]
      dsimp only
      rw [if_pos (by simpa using hb)]
      exact ⟨cache_invariant_free_buffers h 1, pe, hf, rfl, rfl⟩

/-- The loop of `insert_blocks`. -/
theorem insert_loop_spec (pk : piece_key) (inc_refcount : Bool) : ∀ (iov : List Nat) (block : Nat)
    (c : block_cache) (pe : cached_piece_entry), cache_invariant c →
    c.find_piece pk = some pe → block + iov.length ≤ pe.blocks.length →
    (∀ base ∈ iov, base ≠ 0) → pe.cache_state ≠ read_lru1_ghost →
    pe.cache_state ≠ read_lru2_ghost →
    cache_invariant (block_cache.insert_loop pk inc_refcount iov block c) := by
  intro iov
  induction iov with
  | nil => intro block c pe h _ _ _ _ _; exact h
  | cons base iov ih =>
    intro block c pe h hf hlen hb h3 h5
    have hl : block + (iov.length + 1) ≤ pe.blocks.length := by
      simpa using hlen
    obtain ⟨h1, q, hq, hql, hqs⟩ := insert_one_spec inc_refcount base h hf
      (show block < pe.blocks.length by omega) (hb base (List.mem_cons_self _ _)) h3 h5
    rw [block_cache.insert_loop]
    exact ih (block + 1) _ q h1 hq (by rw [hql]; omega)
      (fun x hx => hb x (List.mem_cons_of_mem _ hx)) (by rw [hqs]; exact h3)
      (by rw [hqs]; exact h5)

/-- `insert_blocks` keeps the invariant. -/
theorem insert_blocks_spec {c : block_cache} {pk : piece_key} {block : Nat} {iov : List Nat}
    (j : disk_io_job) (inc_refcount : Bool) (h : cache_invariant c)
    (hpre : insert_blocks_pre c pk block iov) :
    cache_invariant (c.insert_blocks pk block iov j inc_refcount) := by
  obtain ⟨⟨pe, hf, hlen⟩, hb⟩ := hpre
  obtain ⟨h1, q, hq, hqb, h3, h5⟩ := cache_hit_spec j.requester j.volatile_read h hf
  unfold block_cache.insert_blocks
  exact insert_loop_spec pk inc_refcount iov block _ q h1 hq (by rw [hqb]; exact hlen) hb h3 h5

/-! ## C2: the accounting invariant -/

theorem total_congr (f g : cached_piece_entry → Int) : ∀ l : List cached_piece_entry,
    (∀ p ∈ l, f p = g p) → total f l = total g l := by
  intro l
  induction l with
  | nil => intro _; rfl
  | cons a l ih =>
    intro h
    unfold total at ih ⊢
    rw [List.map_cons, List.map_cons, List.sum_cons, List.sum_cons,
      h a (List.mem_cons_self _ _), ih (fun p hp => h p (List.mem_cons_of_mem _ hp))]

/-- The cache invariant gives the accounting invariant in the words of the
specification. -/
theorem accounting_of_invariant {c : block_cache} (h : cache_invariant c) :
    accounting_invariant c := by
  refine ⟨fun p hp => ⟨(h.pieces p hp).1, ?_⟩, ?_, h.read_size⟩
  · rw [count_marked_dirty_eq _ (h.pieces p hp).2.2]
    exact (h.pieces p hp).2.1
  · rw [h.write_size]
    exact (total_congr _ _ _ (fun p hp => count_marked_dirty_eq _ (h.pieces p hp).2.2)).symm

/-- C2. In every cache on which `check_invariant` passes, the accounting
invariant holds (per piece `num_blocks` is the number of slots holding a
buffer and `num_dirty` the number of slots marked dirty; `m_write_cache_size`
is the total number of dirty slots and `m_read_cache_size` the total number of
filled slots that are not dirty), and `add_dirty_block`, `insert_blocks`,
`blocks_flushed`, `free_block`, `evict_piece`, `abort_dirty` and
`try_evict_blocks`, each called within its asserted preconditions, lead to a
cache on which `check_invariant` passes and the accounting invariant holds. -/
theorem accounting_invariant_preserved (c : block_cache) (h : cache_invariant c) :
    accounting_invariant c
    ∧ (∀ j evict, add_dirty_block_pre c j →
        cache_invariant (c.add_dirty_block j evict).1
          ∧ accounting_invariant (c.add_dirty_block j evict).1)
    ∧ (∀ pk block iov j inc_refcount, insert_blocks_pre c pk block iov →
        cache_invariant (c.insert_blocks pk block iov j inc_refcount)
          ∧ accounting_invariant (c.insert_blocks pk block iov j inc_refcount))
    ∧ (∀ pk flushed, piece_satisfies c pk (fun _ => True) → blocks_flushed_pre pk flushed c →
        cache_invariant (c.blocks_flushed pk flushed)
          ∧ accounting_invariant (c.blocks_flushed pk flushed))
    ∧ (∀ pk block, free_block_pre c pk block →
        cache_invariant (c.free_block pk block) ∧ accounting_invariant (c.free_block pk block))
    ∧ (∀ pk jobs, evict_piece_pre c pk →
        cache_invariant (c.evict_piece pk jobs).1
          ∧ accounting_invariant (c.evict_piece pk jobs).1)
    ∧ (∀ pk, abort_dirty_pre c pk →
        cache_invariant (c.abort_dirty pk) ∧ accounting_invariant (c.abort_dirty pk))
    ∧ (∀ num ignore,
        cache_invariant (c.try_evict_blocks num ignore).1
          ∧ accounting_invariant (c.try_evict_blocks num ignore).1) := by
  have both : ∀ {d : block_cache}, cache_invariant d → cache_invariant d ∧ accounting_invariant d :=
    fun hd => ⟨hd, accounting_of_invariant hd⟩
  refine ⟨accounting_of_invariant h, ?_, ?_, ?_, ?_, ?_, ?_, ?_⟩
  · intro j evict hpre
    exact both (add_dirty_block_spec c j evict h hpre).1
  · intro pk block iov j inc_refcount hpre
    exact both (insert_blocks_spec j inc_refcount h hpre)
  · intro pk flushed hp hpre
    exact both (blocks_flushed_invariant flushed h hp hpre)
  · rintro pk block ⟨pe, hf, hi, hrc, hpend, hbuf⟩
    exact both (free_block_spec block h hf hi hbuf (by rw [hrc]; decide) hpend).1
  · intro pk jobs hpre
    exact both (evict_piece_spec jobs h hpre)
  · intro pk hpre
    exact both (abort_dirty_spec h hpre)
  · intro num ignore
    exact both (try_evict_blocks_spec c num ignore h).1

/-- Witness of C2: `write_example` passes `check_invariant` and meets the
preconditions of each of the operations, and the accounting invariant holds
after each of them. -/
theorem accounting_invariant_preserved_witness :
    cache_invariant write_example
    ∧ add_dirty_block_pre write_example write_job_example
    ∧ accounting_invariant (write_example.add_dirty_block write_job_example 0).1
    ∧ insert_blocks_pre write_example (1, 0) 2 [44]
    ∧ accounting_invariant (write_example.insert_blocks (1, 0) 2 [44] write_job_example false)
    ∧ blocks_flushed_pre (1, 0) [0] write_example
    ∧ accounting_invariant (write_example.blocks_flushed (1, 0) [0])
    ∧ free_block_pre write_example (1, 0) 1
    ∧ accounting_invariant (write_example.free_block (1, 0) 1)
    ∧ evict_piece_pre write_example (1, 0)
    ∧ accounting_invariant (write_example.evict_piece (1, 0) []).1
    ∧ abort_dirty_pre write_example (1, 0)
    ∧ accounting_invariant (write_example.abort_dirty (1, 0))
    ∧ accounting_invariant (write_example.try_evict_blocks 1 none).1 :=
  ⟨by decide, by decide,
    ((accounting_invariant_preserved write_example (by decide)).2.1 _ _ (by decide)).2,
    by decide,
    ((accounting_invariant_preserved write_example (by decide)).2.2.1 _ _ _ _ _ (by decide)).2,
    by decide,
    ((accounting_invariant_preserved write_example (by decide)).2.2.2.1 _ _ (by decide)
      (by decide)).2,
    by decide,
    ((accounting_invariant_preserved write_example (by decide)).2.2.2.2.1 _ _ (by decide)).2,
    by decide,
    ((accounting_invariant_preserved write_example (by decide)).2.2.2.2.2.1 _ _ (by decide)).2,
    by decide,
    ((accounting_invariant_preserved write_example (by decide)).2.2.2.2.2.2.1 _ (by decide)).2,
    ((accounting_invariant_preserved write_example (by decide)).2.2.2.2.2.2.2 _ _).2⟩

/-! ## C4: what `add_dirty_block` does to a slot that holds a buffer -/

/-- C4 fails as stated: in `write_example` slot 1 of the piece holds buffer 12
with no reference and not pending; `add_dirty_block` for that slot with buffer
34 meets the asserted preconditions, and afterwards the slot holds buffer 34,
marked dirty, not the buffer it held before. -/
theorem add_dirty_block_replaces_buffer :
    cache_invariant write_example
    ∧ (write_example.find_piece (1, 0)).map (fun p => get_block p.blocks 1)
        = some { buf := 12, refcount := 0, dirty := false, pending := false }
    ∧ add_dirty_block_pre write_example overwrite_job_example
    ∧ write_example.block_of overwrite_job_example = 1
    ∧ ((write_example.add_dirty_block overwrite_job_example 0).1.find_piece (1, 0)).map
        (fun p => get_block p.blocks 1)
        = some { buf := 34, refcount := 0, dirty := true, pending := false } := by
  decide

/-! ## C5: writing blocks and flushing them -/

theorem get_block_replicate (n i : Nat) :
    get_block (List.replicate n ({} : cached_block_entry)) i = {} := by
  unfold get_block
  rw [List.getD_eq_getElem?_getD, List.getElem?_replicate]
  split_ifs <;> rfl

theorem get_block_dirty_lt {bs : List cached_block_entry} {i : Nat}
    (h : (get_block bs i).dirty = true) : i < bs.length := by
  by_contra hlt
  have : get_block bs i = {} := by
    unfold get_block
    rw [List.getD_eq_getElem?_getD, List.getElem?_eq_none (by omega)]
    rfl
  rw [this] at h
  cases h

theorem slot_of_find {c : block_cache} {pk : piece_key} {p : cached_piece_entry}
    (hf : c.find_piece pk = some p) (i : Nat) : c.slot_of pk i = get_block p.blocks i := by
  unfold block_cache.slot_of; rw [hf]

theorem num_dirty_of_find {c : block_cache} {pk : piece_key} {p : cached_piece_entry}
    (hf : c.find_piece pk = some p) : c.num_dirty_of pk = p.num_dirty := by
  unfold block_cache.num_dirty_of; rw [hf]

theorem state_of_find {c : block_cache} {pk : piece_key} {p : cached_piece_entry}
    (hf : c.find_piece pk = some p) : c.state_of pk = some p.cache_state := by
  unfold block_cache.state_of; rw [hf]; rfl

/-- A dirty slot belongs to a cached piece. -/
theorem find_of_slot_dirty {c : block_cache} {pk : piece_key} {i : Nat}
    (h : (c.slot_of pk i).dirty = true) :
    ∃ p, c.find_piece pk = some p ∧ i < p.blocks.length ∧ (get_block p.blocks i).dirty = true := by
  cases hf : c.find_piece pk with
  | none =>
    unfold block_cache.slot_of at h
    rw [hf] at h
    cases h
  | some p =>
    rw [slot_of_find hf] at h
    exact ⟨p, rfl, get_block_dirty_lt h, h⟩

/-- The entry `allocate_piece` returns has the slots and the `num_dirty` the
piece had, those of an empty piece when it was not cached. -/
theorem allocate_piece_slots (c : block_cache) (j : disk_io_job) (cs : Nat) :
    ∃ pe0, (c.allocate_piece j cs).find_piece (j.storage, j.piece) = some pe0
      ∧ pe0.num_dirty = c.num_dirty_of (j.storage, j.piece)
      ∧ ∀ i, get_block pe0.blocks i = c.slot_of (j.storage, j.piece) i := by
  cases hf : c.find_piece (j.storage, j.piece) with
  | none =>
    have hfn : c.m_pieces.find? (fun p => p.key == (new_piece c.m_block_size j cs).key)
        = none := hf
    have hk : (j.storage, j.piece) = (new_piece c.m_block_size j cs).key := rfl
    refine ⟨new_piece c.m_block_size j cs, ?_, ?_, ?_⟩
    · rw [allocate_piece_new cs hf]
      show (c.m_pieces ++ [new_piece c.m_block_size j cs]).find?
        (fun p => p.key == (j.storage, j.piece)) = _
      rw [find_append_absent _ _ _ hfn, if_pos hk]
    · unfold block_cache.num_dirty_of
      rw [hf]
      rfl
    · intro i
      unfold block_cache.slot_of
      rw [hf]
      exact get_block_replicate _ i
  | some p =>
    obtain ⟨pe0, h0, hb, hnd, _⟩ := allocate_piece_keeps cs hf
    refine ⟨pe0, h0, ?_, ?_⟩
    · rw [hnd, num_dirty_of_find hf]
    · intro i
      rw [hb, slot_of_find hf]

theorem cleared_piece_keeps {pe : cached_piece_entry} {block : Nat}
    (hd : (get_block pe.blocks block).dirty = false) :
    (cleared_piece pe block).num_dirty = pe.num_dirty
      ∧ ∀ i, i ≠ block → get_block (cleared_piece pe block).blocks i = get_block pe.blocks i := by
  unfold cleared_piece
  by_cases hb : (get_block pe.blocks block).buf = 0
  · rw [if_pos hb]
    exact ⟨rfl, fun _ _ => rfl⟩
  · rw [if_neg hb]
    refine ⟨?_, fun i hi => ?_⟩
    · show (if (get_block pe.blocks block).dirty = true then pe.num_dirty - 1 else pe.num_dirty)
        = pe.num_dirty
      rw [if_neg (by simp [hd])]
    · show get_block (set_block pe.blocks block _) i = _
      exact get_block_set_other _ _ _ _ hi

/-- One `add_dirty_block` on a slot that is not dirty: `num_dirty` of the piece
grows by one, the slot becomes dirty, the other slots stay as they are, and
the piece is in the write list. -/
theorem add_dirty_block_step (c : block_cache) (j : disk_io_job) (evict : Int)
    (h : cache_invariant c) (hpre : add_dirty_block_pre c j)
    (hnd : (c.slot_of (j.storage, j.piece) (c.block_of j)).dirty = false) :
    cache_invariant (c.add_dirty_block j evict).1
    ∧ (c.add_dirty_block j evict).1.num_dirty_of (j.storage, j.piece)
        = c.num_dirty_of (j.storage, j.piece) + 1
    ∧ ((c.add_dirty_block j evict).1.slot_of (j.storage, j.piece) (c.block_of j)).dirty = true
    ∧ (∀ i, i ≠ c.block_of j → (c.add_dirty_block j evict).1.slot_of (j.storage, j.piece) i
        = c.slot_of (j.storage, j.piece) i)
    ∧ (c.add_dirty_block j evict).1.state_of (j.storage, j.piece) = some write_lru := by
  obtain ⟨hinv, pe0, hf0, hs0, hi, hfind⟩ := add_dirty_block_spec c j evict h hpre
  obtain ⟨pe1, hf1, hnd1, hsl⟩ := allocate_piece_slots c j write_lru
  rw [hf0] at hf1
  cases hf1
  have hd0 : (get_block pe0.blocks (c.block_of j)).dirty = false := by rw [hsl]; exact hnd
  have hck := cleared_piece_keeps hd0
  have hcl := @cleared_piece_slot pe0 (c.block_of j) hi
  have hi2 : c.block_of j < (cleared_piece pe0 (c.block_of j)).blocks.length := by
    rw [hcl.2.2.2.2.1]; exact hi
  refine ⟨hinv, ?_, ?_, ?_, ?_⟩
  · rw [num_dirty_of_find hfind, ← hnd1, ← hck.1]
    rfl
  · rw [slot_of_find hfind]
    show (get_block (set_block _ _ _) _).dirty = _
    rw [get_block_set_same _ hi2]
  · intro i hne
    rw [slot_of_find hfind, ← hsl i, ← hck.2 i hne]
    show get_block (set_block _ _ _) i = _
    exact get_block_set_other _ _ _ _ hne
  · rw [state_of_find hfind]
    show some (cleared_piece pe0 (c.block_of j)).cache_state = _
    rw [hcl.2.2.2.2.2, hs0]

/-- `inc_block_refcount` on a filled slot writes `referenced_piece`. -/
theorem inc_block_refcount_find {c : block_cache} {pk : piece_key} {pe : cached_piece_entry}
    {block : Nat} (hf : c.find_piece pk = some pe)
    (hbuf : (get_block pe.blocks block).buf ≠ 0) :
    (c.inc_block_refcount pk block).1.find_piece pk = some (referenced_piece pe block) := by
  have hkey : pe.key = pk := (find_piece_some_mem hf).2
  unfold block_cache.inc_block_refcount
  rw [hf]
  dsimp only
  rw [if_neg (by simpa using hbuf)]
  exact (find_after_store (q := referenced_piece pe block)
    (d := { (c.store (referenced_piece pe block)) with
      m_pinned_blocks := if (get_block pe.blocks block).refcount == 0
        then c.m_pinned_blocks + 1 else c.m_pinned_blocks }) hf hkey rfl).1

/-- Marking a dirty slot for flushing keeps the invariant, `num_dirty` and the
state of the piece; the slot stays dirty and is pending, the other slots stay
as they are. -/
theorem mark_flushing_step {c : block_cache} {pk : piece_key} {block : Nat}
    (h : cache_invariant c) (hd : (c.slot_of pk block).dirty = true) :
    cache_invariant (c.mark_flushing pk block)
    ∧ (c.mark_flushing pk block).num_dirty_of pk = c.num_dirty_of pk
    ∧ (c.mark_flushing pk block).state_of pk = c.state_of pk
    ∧ ((c.mark_flushing pk block).slot_of pk block).dirty = true
    ∧ ((c.mark_flushing pk block).slot_of pk block).pending = true
    ∧ (∀ i, i ≠ block → (c.mark_flushing pk block).slot_of pk i = c.slot_of pk i) := by
  obtain ⟨pe, hf, hi, hdp⟩ := find_of_slot_dirty hd
  have hkey : pe.key = pk := (find_piece_some_mem hf).2
  have hpe := h.pieces pe (find_piece_some_mem hf).1
  have hbuf : (get_block pe.blocks block).buf ≠ 0 := by
    intro e
    exact hpe.2.2 _ (get_block_mem hi) e (Or.inr (Or.inl hdp))
  have hbuf2 : (pending_slot (get_block pe.blocks block)).buf ≠ 0 := hbuf
  have hkq : (pending_piece pe block).key = pk := hkey
  have h1 := cache_invariant_touch_slot (d := c.store (pending_piece pe block))
    (q := pending_piece pe block) (b := pending_slot (get_block pe.blocks block))
    h hf hkq hi rfl rfl hbuf2 rfl rfl rfl rfl rfl rfl rfl rfl
  have hlen : (pending_piece pe block).blocks.length = pe.blocks.length := by
    show (set_block pe.blocks block _).length = _
    rw [set_block_length]
  have hg : get_block (pending_piece pe block).blocks block
      = pending_slot (get_block pe.blocks block) := get_block_set_same _ hi
  have hbuf3 : (get_block (pending_piece pe block).blocks block).buf ≠ 0 := by
    rw [hg]; exact hbuf2
  have h2 := inc_block_refcount_spec h1.1 h1.2.1 (by rw [hlen]; exact hi) hbuf3
  have hfind := inc_block_refcount_find h1.2.1 hbuf3
  have hmark : c.mark_flushing pk block
      = ((c.store (pending_piece pe block)).inc_block_refcount pk block).1 := by
    unfold block_cache.mark_flushing
    rw [hf]
  rw [hmark]
  have hslot : get_block (referenced_piece (pending_piece pe block) block).blocks block
      = referenced_slot (pending_slot (get_block pe.blocks block)) := by
    show get_block (set_block (pending_piece pe block).blocks block _) block = _
    rw [get_block_set_same _ (by rw [hlen]; exact hi), hg]
  refine ⟨h2.1, ?_, ?_, ?_, ?_, ?_⟩
  · rw [num_dirty_of_find hfind, num_dirty_of_find hf]
    rfl
  · rw [state_of_find hfind, state_of_find hf]
    rfl
  · rw [slot_of_find hfind, hslot]
    exact hdp
  · rw [slot_of_find hfind, hslot]
    rfl
  · intro i hne
    rw [slot_of_find hfind, slot_of_find hf]
    show get_block (set_block (set_block pe.blocks block _) block _) i = _
    rw [get_block_set_other _ _ _ _ hne, get_block_set_other _ _ _ _ hne]

/-- Marking the blocks of a list for flushing. -/
theorem mark_flushing_fold (pk : piece_key) : ∀ (l : List Nat) (c : block_cache),
    cache_invariant c → (∀ b ∈ l, (c.slot_of pk b).dirty = true) →
    cache_invariant (l.foldl (block_cache.mark_flushing pk) c)
    ∧ (l.foldl (block_cache.mark_flushing pk) c).num_dirty_of pk = c.num_dirty_of pk
    ∧ (l.foldl (block_cache.mark_flushing pk) c).state_of pk = c.state_of pk
    ∧ (∀ i, (c.slot_of pk i).dirty = true →
        ((l.foldl (block_cache.mark_flushing pk) c).slot_of pk i).dirty = true)
    ∧ (∀ i, (c.slot_of pk i).pending = true →
        ((l.foldl (block_cache.mark_flushing pk) c).slot_of pk i).pending = true)
    ∧ (∀ b ∈ l, ((l.foldl (block_cache.mark_flushing pk) c).slot_of pk b).pending = true) := by
  intro l
  induction l with
  | nil =>
    intro c h _
    exact ⟨h, rfl, rfl, fun _ hi => hi, fun _ hi => hi, fun b hb => by cases hb⟩
  | cons b bs ih =>
    intro c h hd
    obtain ⟨m1, m2, m3, m4, m5, m6⟩ := mark_flushing_step h (hd b (List.mem_cons_self _ _))
    have keepd : ∀ i, (c.slot_of pk i).dirty = true →
        ((c.mark_flushing pk b).slot_of pk i).dirty = true := by
      intro i hi
      by_cases e : i = b
      · rw [e]; exact m4
      · rw [m6 i e]; exact hi
    have keepp : ∀ i, (c.slot_of pk i).pending = true →
        ((c.mark_flushing pk b).slot_of pk i).pending = true := by
      intro i hi
      by_cases e : i = b
      · rw [e]; exact m5
      · rw [m6 i e]; exact hi
    obtain ⟨i1, i2, i3, i4, i5, i6⟩ := ih (c.mark_flushing pk b) m1
      (fun x hx => keepd x (hd x (List.mem_cons_of_mem _ hx)))
    rw [List.foldl_cons]
    refine ⟨i1, i2.trans m2, i3.trans m3, fun i hi => i4 i (keepd i hi),
      fun i hi => i5 i (keepp i hi), ?_⟩
    intro x hx
    rcases List.mem_cons.1 hx with rfl | hx
    · exact i5 _ m5
    · exact i6 x hx

/-- The assertions of the loop of `blocks_flushed` hold when the blocks are
distinct slots that are dirty and pending. -/
theorem blocks_flushed_pre_of_slots (pk : piece_key) : ∀ (l : List Nat) (c : block_cache)
    (pe : cached_piece_entry), c.find_piece pk = some pe →
    (∀ b ∈ pe.blocks, b.buf = 0 → ¬ b.is_protected) → l.Nodup →
    (∀ b ∈ l, (get_block pe.blocks b).dirty = true ∧ (get_block pe.blocks b).pending = true) →
    blocks_flushed_pre pk l c := by
  intro l
  induction l with
  | nil => intro _ _ _ _ _ _; trivial
  | cons b bs ih =>
    intro c pe hf he hnd hs
    have hb := hs b (List.mem_cons_self _ _)
    have hi := get_block_dirty_lt hb.1
    have h1 := flush_one_spec hf he hi hb.1
    refine ⟨⟨pe, hf, hi, hb.1, hb.2⟩, ?_⟩
    refine ih (c.flush_one pk b) (flushed_piece pe b) (flushed_to_find hf h1).1 h1.empty
      (List.nodup_cons.1 hnd).2 ?_
    intro x hx
    have hne : x ≠ b := fun e => (List.nodup_cons.1 hnd).1 (e ▸ hx)
    have hg : get_block (flushed_piece pe b).blocks x = get_block pe.blocks x := by
      show get_block (set_block pe.blocks b _) x = _
      exact get_block_set_other _ _ _ _ hne
    rw [hg]
    exact hs x (List.mem_cons_of_mem _ hx)

theorem written_blocks_length (evict : Int) : ∀ (js : List disk_io_job) (c : block_cache),
    (written_blocks evict js c).length = js.length := by
  intro js
  induction js with
  | nil => intro _; rfl
  | cons j js ih =>
    intro c
    rw [written_blocks, List.length_cons, List.length_cons, ih]

/-- The writes of `write_blocks`: `num_dirty` grows by the number of jobs, the
written slots are distinct and dirty, and the piece is in the write list. -/
theorem write_blocks_spec (pk : piece_key) (evict : Int) : ∀ (js : List disk_io_job)
    (c : block_cache) (W : List Nat), cache_invariant c → writes_ok pk evict js c →
    (∀ b ∈ W, (c.slot_of pk b).dirty = true) → W.Nodup →
    cache_invariant (write_blocks evict js c)
    ∧ (write_blocks evict js c).num_dirty_of pk = c.num_dirty_of pk + js.length
    ∧ (∀ b ∈ W ++ written_blocks evict js c,
        ((write_blocks evict js c).slot_of pk b).dirty = true)
    ∧ (W ++ written_blocks evict js c).Nodup
    ∧ (js ≠ [] → (write_blocks evict js c).state_of pk = some write_lru) := by
  intro js
  induction js with
  | nil =>
    intro c W h _ hW hnd
    refine ⟨h, ?_, ?_, ?_, fun e => absurd rfl e⟩
    · show c.num_dirty_of pk = c.num_dirty_of pk + ((0 : Nat) : Int)
      simp
    · intro b hb
      rw [written_blocks, List.append_nil] at hb
      exact hW b hb
    · rw [written_blocks, List.append_nil]
      exact hnd
  | cons j js ih =>
    intro c W h hw hW hnd
    obtain ⟨hk, hpre, hclean, hrest⟩ := hw
    have hstep := add_dirty_block_step c j evict h hpre
    rw [hk] at hstep
    obtain ⟨s1, s2, s3, s4, s5⟩ := hstep hclean
    have hnotin : c.block_of j ∉ W := by
      intro hm
      have := hW _ hm
      rw [hclean] at this
      cases this
    have hW1 : ∀ b ∈ W ++ [c.block_of j],
        ((c.add_dirty_block j evict).1.slot_of pk b).dirty = true := by
      intro b hb
      rcases List.mem_append.1 hb with hb | hb
      · have hne : b ≠ c.block_of j := fun e => hnotin (e ▸ hb)
        rw [s4 b hne]
        exact hW b hb
      · rw [List.mem_singleton] at hb
        rw [hb]; exact s3
    have hnd1 : (W ++ [c.block_of j]).Nodup := by
      rw [List.nodup_append]
      refine ⟨hnd, List.nodup_singleton _, ?_⟩
      intro a ha hb
      rw [List.mem_singleton] at hb
      exact hnotin (hb ▸ ha)
    obtain ⟨i1, i2, i3, i4, i5⟩ := ih (c.add_dirty_block j evict).1 (W ++ [c.block_of j]) s1
      hrest hW1 hnd1
    have happ : W ++ written_blocks evict (j :: js) c
        = (W ++ [c.block_of j]) ++ written_blocks evict js (c.add_dirty_block j evict).1 := by
      rw [written_blocks, List.append_assoc]
      rfl
    have hwb : write_blocks evict (j :: js) c
        = write_blocks evict js (c.add_dirty_block j evict).1 := rfl
    rw [happ, hwb]
    refine ⟨i1, ?_, i3, i4, fun _ => ?_⟩
    · rw [i2, s2, List.length_cons]
      push_cast
      ring
    · by_cases hjs : js = []
      · rw [hjs]
        exact s5
      · exact i5 hjs

theorem update_cache_state_lru {c : block_cache} {pk : piece_key} {p : cached_piece_entry}
    (hf : c.find_piece pk = some p) (hd : desired_state p ≠ p.cache_state) :
    pk ∈ (c.update_cache_state pk).m_lru (desired_state p) := by
  unfold block_cache.update_cache_state
  rw [hf]
  dsimp only
  rw [if_neg (by simpa using hd)]
  show pk ∈ lru_set _ _ _ _
  rw [lru_set_same]
  exact List.mem_append_right _ (List.mem_singleton_self _)

theorem blocks_flushed_absent {c : block_cache} {pk : piece_key}
    (hf : c.find_piece pk = none) : (c.blocks_flushed pk []).find_piece pk = none := by
  have hf2 : block_cache.find_piece
      { c with
        m_write_cache_size := c.m_write_cache_size - (([] : List Nat).length : Int)
        m_read_cache_size := c.m_read_cache_size + (([] : List Nat).length : Int) } pk = none := hf
  unfold block_cache.blocks_flushed
  dsimp only [List.foldl]
  rw [hf2]
  exact hf2

/-- C5 fails as stated, in three ways.  In `dirty_example` block 1 is already
dirty: writing it again and flushing it leaves `num_dirty` at 0, not at its
value 1 before the write.  In the empty cache, writing block 0 of a piece
creates the hash state of the piece, and after the flush no dirty block
remains but the piece is still in the write list and not in `read_lru1`.  And
for the empty set of blocks a piece of `read_lru2` without dirty blocks stays
in `read_lru2`. -/
theorem write_then_flush_breaks :
    (cache_invariant dirty_example
      ∧ add_dirty_block_pre dirty_example overwrite_job_example
      ∧ dirty_example.num_dirty_of (1, 0) = 1
      ∧ (dirty_example.write_then_flush (1, 0) [overwrite_job_example] 0).num_dirty_of (1, 0) = 0)
    ∧ (writes_ok (1, 0) 0 [first_block_job_example] {}
      ∧ (({} : block_cache).write_then_flush (1, 0) [first_block_job_example] 0).num_dirty_of
          (1, 0) = 0
      ∧ (({} : block_cache).write_then_flush (1, 0) [first_block_job_example] 0).state_of (1, 0)
          = some write_lru
      ∧ (({} : block_cache).write_then_flush (1, 0) [first_block_job_example] 0).m_lru write_lru
          = [(1, 0)]
      ∧ (({} : block_cache).write_then_flush (1, 0) [first_block_job_example] 0).m_lru read_lru1
          = [])
    ∧ (cache_invariant (promotion_example.cache_hit (1, 7) 200 false)
      ∧ (promotion_example.cache_hit (1, 7) 200 false).num_dirty_of (1, 7) = 0
      ∧ ((promotion_example.cache_hit (1, 7) 200 false).write_then_flush (1, 7) [] 0).state_of
          (1, 7) = some read_lru2) := by
  decide

/-- C5, amended. For every cache on which `check_invariant` passes, every
piece and every list of write jobs for blocks of that piece, each written with
`add_dirty_block` within its asserted preconditions to a slot that is not
dirty: the writes followed by `blocks_flushed` on the same blocks (each marked
pending and pinned by the caller) leave `num_dirty` at its value before the
writes; and when at least one block was written, then once `num_dirty` is 0
and the piece has no hash state, the piece is in `read_lru1` and no longer in
the write list. -/
theorem write_then_flush_restores (c : block_cache) (pk : piece_key) (js : List disk_io_job)
    (evict : Int) (h : cache_invariant c) (hw : writes_ok pk evict js c) :
    (c.write_then_flush pk js evict).num_dirty_of pk = c.num_dirty_of pk
    ∧ (js ≠ [] → ∃ q, (c.write_then_flush pk js evict).find_piece pk = some q
        ∧ (q.num_dirty = 0 → q.hash = none →
            q.cache_state = read_lru1
            ∧ pk ∈ (c.write_then_flush pk js evict).m_lru read_lru1
            ∧ pk ∉ (c.write_then_flush pk js evict).m_lru write_lru)) := by
  obtain ⟨w1, w2, w3, w4, w5⟩ := write_blocks_spec pk evict js c [] h hw
    (fun b hb => by cases hb) List.nodup_nil
  rw [List.nil_append] at w3 w4
  obtain ⟨m1, m2, m3, m4, m5, m6⟩ := mark_flushing_fold pk (written_blocks evict js c)
    (write_blocks evict js c) w1 w3
  have hlen := written_blocks_length evict js c
  unfold block_cache.write_then_flush
  cases hf2 : ((written_blocks evict js c).foldl (block_cache.mark_flushing pk)
      (write_blocks evict js c)).find_piece pk with
  | none =>
    have hwn : written_blocks evict js c = [] := by
      cases hwb : written_blocks evict js c with
      | nil => rfl
      | cons b bs =>
        exfalso
        have hb : b ∈ written_blocks evict js c := by rw [hwb]; exact List.mem_cons_self _ _
        obtain ⟨p, hp, _⟩ := find_of_slot_dirty (m4 b (w3 b hb))
        rw [hf2] at hp
        cases hp
    have hjs : js = [] := by
      rw [hwn] at hlen
      exact List.length_eq_zero.1 hlen.symm
    subst hjs
    have hfc : c.find_piece pk = none := by
      rw [hwn] at hf2
      exact hf2
    refine ⟨?_, fun e => absurd rfl e⟩
    rw [hwn]
    show (c.blocks_flushed pk []).num_dirty_of pk = _
    unfold block_cache.num_dirty_of
    rw [blocks_flushed_absent hfc, hfc]
  | some pe2 =>
    have hpe2 := m1.pieces pe2 (find_piece_some_mem hf2).1
    have hpre : blocks_flushed_pre pk (written_blocks evict js c)
        ((written_blocks evict js c).foldl (block_cache.mark_flushing pk)
          (write_blocks evict js c)) := by
      refine blocks_flushed_pre_of_slots pk _ _ pe2 hf2 hpe2.2.2 w4 (fun b hb => ⟨?_, ?_⟩)
      · rw [← slot_of_find hf2]; exact m4 b (w3 b hb)
      · rw [← slot_of_find hf2]; exact m6 b hb
    obtain ⟨d, q, he, hd, hq, _, _, hqn, _, hqs, _⟩ :=
      blocks_flushed_spec (written_blocks evict js c) m1 hf2 hpre
    obtain ⟨u1, u2, _⟩ := update_cache_state_spec hd hq
    rw [he]
    have hnd2 : pe2.num_dirty = c.num_dirty_of pk + js.length := by
      rw [← num_dirty_of_find hf2, m2, w2]
    refine ⟨?_, fun hne => ⟨_, u2, fun hz hh => ?_⟩⟩
    · rw [num_dirty_of_find u2]
      show q.num_dirty = _
      rw [hqn, hnd2, hlen]
      ring
    · have hz2 : q.num_dirty = 0 := hz
      have hh2 : q.hash = none := hh
      have hs2 : pe2.cache_state = write_lru := by
        have := (m3.trans (w5 hne))
        rw [state_of_find hf2] at this
        exact Option.some.inj this
      have hdes : desired_state q = read_lru1 := by
        unfold desired_state
        rw [hz2, hh2, hqs, hs2]
        decide
      have hdne : desired_state q ≠ q.cache_state := by
        rw [hdes, hqs, hs2]; decide
      refine ⟨hdes, ?_, ?_⟩
      · have := update_cache_state_lru hq hdne
        rw [hdes] at this
        exact this
      · intro hm
        obtain ⟨p0, hp0, hs0, _⟩ := (u1.lists write_lru (by decide)).2 pk hm
        rw [u2] at hp0
        cases hp0
        have hs1 : desired_state q = write_lru := hs0
        rw [hdes] at hs1
        exact absurd hs1 (by decide)

/-- Witness of the amended C5: in the empty cache, block 2 of a piece is
written and flushed; `num_dirty` is 0 as before, the piece has no hash state
and is in `read_lru1`, not in the write list. -/
theorem write_then_flush_restores_witness :
    cache_invariant ({} : block_cache)
    ∧ writes_ok (1, 0) 0 [write_job_example] {}
    ∧ ((({} : block_cache).write_then_flush (1, 0) [write_job_example] 0).find_piece (1, 0)).map
        (fun q => (q.num_dirty, q.hash, q.cache_state)) = some (0, none, read_lru1)
    ∧ (({} : block_cache).write_then_flush (1, 0) [write_job_example] 0).num_dirty_of (1, 0)
        = ({} : block_cache).num_dirty_of (1, 0)
    ∧ ([write_job_example] ≠ [] →
        ∃ q, (({} : block_cache).write_then_flush (1, 0) [write_job_example] 0).find_piece (1, 0)
            = some q
          ∧ (q.num_dirty = 0 → q.hash = none →
            q.cache_state = read_lru1
            ∧ (1, 0) ∈ (({} : block_cache).write_then_flush (1, 0) [write_job_example] 0).m_lru
                read_lru1
            ∧ (1, 0) ∉ (({} : block_cache).write_then_flush (1, 0) [write_job_example] 0).m_lru
                write_lru)) :=
  ⟨by decide, by decide, by decide,
    write_then_flush_restores {} (1, 0) [write_job_example] 0 (by decide) (by decide)⟩

/-! # The peer connection -/

/-! ## C9: `incoming_choke` -/

theorem abort_all_spec : ∀ (l : List pending_block) (p : peer_connection),
    (p.abort_all l).picker_aborted = p.picker_aborted ++ l.map (fun i => i.block)
    ∧ (p.abort_all l).m_download_queue = p.m_download_queue
    ∧ (p.abort_all l).m_peer_choked = p.m_peer_choked := by
  intro l
  induction l with
  | nil => intro p; simp [peer_connection.abort_all]
  | cons a l ih =>
    intro p
    have hc : p.abort_all (a :: l) = (p.abort_download a.block).abort_all l := rfl
    rw [hc]
    obtain ⟨h1, h2, h3⟩ := ih (p.abort_download a.block)
    refine ⟨?_, h2, h3⟩
    rw [h1]
    show (p.picker_aborted ++ [a.block]) ++ _ = _
    simp

/-- C9 fails as stated: for a peer with an extension that consumes the choke
message, not on parole and with a piece picker, `incoming_choke` changes
nothing: the peer is not marked choked and the request queue keeps its three
blocks; and for a disconnecting peer the message is ignored as well, so
`m_peer_choked` stays false. -/
theorem incoming_choke_ignored :
    (({ choke_example with m_extensions := { on_choke := true } }).on_parole = false
      ∧ ({ choke_example with m_extensions := { on_choke := true } }).t.has_picker = true
      ∧ (peer_connection.incoming_choke
          { choke_example with m_extensions := { on_choke := true } }).m_peer_choked = false
      ∧ (peer_connection.incoming_choke
          { choke_example with m_extensions := { on_choke := true } }).m_request_queue.length = 3
      ∧ (peer_connection.incoming_choke
          { choke_example with m_extensions := { on_choke := true } }).picker_aborted = [])
    ∧ (({ t := torrent_example, m_peer_choked := false, m_disconnecting := true }
          : peer_connection).queue_invariant
      ∧ (peer_connection.incoming_choke
          { t := torrent_example, m_peer_choked := false, m_disconnecting := true }).m_peer_choked
          = false) := by
  decide

/-- C9, amended. For every peer that is not disconnecting, none of whose
extensions consumes the choke message, that is not on parole and whose torrent
has a piece picker, `incoming_choke` sets `m_peer_choked`, empties the request
queue, calls `abort_download` on the picker once for each block that was in
the request queue, in their order, resets the time-critical count to 0 and
leaves the download queue unchanged. -/
theorem incoming_choke_clears_requests (p : peer_connection)
    (hext : p.m_extensions.on_choke = false) (hdis : p.m_disconnecting = false)
    (hpar : p.on_parole = false) (hpick : p.t.has_picker = true) :
    p.incoming_choke.m_peer_choked = true
    ∧ p.incoming_choke.m_request_queue = []
    ∧ p.incoming_choke.picker_aborted
        = p.picker_aborted ++ p.m_request_queue.map (fun i => i.block)
    ∧ p.incoming_choke.m_queued_time_critical = 0
    ∧ p.incoming_choke.m_download_queue = p.m_download_queue := by
  have hse : ∀ q : peer_connection, (q.set_endgame false).m_request_queue = q.m_request_queue
      ∧ (q.set_endgame false).picker_aborted = q.picker_aborted
      ∧ (q.set_endgame false).m_download_queue = q.m_download_queue
      ∧ (q.set_endgame false).m_peer_choked = q.m_peer_choked
      ∧ (q.set_endgame false).t = q.t
      ∧ (q.set_endgame false).on_parole = q.on_parole := by
    intro q
    unfold peer_connection.set_endgame
    split_ifs <;> exact ⟨rfl, rfl, rfl, rfl, rfl, rfl⟩
  obtain ⟨e1, e2, e3, e4, e5, e6⟩ := hse { p with m_peer_choked := true }
  have hf := abort_all_spec (({ p with m_peer_choked := true }).set_endgame false).m_request_queue
    (({ p with m_peer_choked := true }).set_endgame false)
  have hpar2 : (({ p with m_peer_choked := true }).set_endgame false).on_parole = false := by
    rw [e6]; exact hpar
  have hpick2 : (({ p with m_peer_choked := true }).set_endgame false).t.has_picker = true := by
    rw [e5]; exact hpick
  have hc1 : p.incoming_choke
      = (({ p with m_peer_choked := true }).set_endgame false).clear_request_queue := by
    unfold peer_connection.incoming_choke peer_connection.is_disconnecting
    rw [if_neg (by simp [hext]), if_neg (by simp [hdis])]
  have hc2 : ∀ q : peer_connection, q.t.has_picker = true → q.on_parole = false →
      q.clear_request_queue
        = { (q.abort_all q.m_request_queue) with
            m_request_queue := [], m_queued_time_critical := 0 } := by
    intro q h1 h2
    unfold peer_connection.clear_request_queue
    rw [if_neg (by simp [h1]), if_pos (by simp [h2])]
  rw [hc1, hc2 _ hpick2 hpar2]
  refine ⟨?_, rfl, ?_, rfl, ?_⟩
  · show (peer_connection.abort_all _ _).m_peer_choked = true
    rw [hf.2.2, e4]
  · show (peer_connection.abort_all _ _).picker_aborted = _
    rw [hf.1, e1, e2]
  · show (peer_connection.abort_all _ _).m_download_queue = _
    rw [hf.2.1, e3]

/-- Witness of the amended C9, scenario "choke clears the request queue":
request queue `[b1, b2, b3]`, download queue `[b0]`. -/
theorem incoming_choke_clears_requests_witness :
    choke_example.m_request_queue.map (fun i => i.block)
        = [{ piece_index := 0, block_index := 1 }, { piece_index := 1, block_index := 0 },
           { piece_index := 1, block_index := 1 }]
    ∧ choke_example.incoming_choke.m_peer_choked = true
    ∧ choke_example.incoming_choke.m_request_queue = []
    ∧ choke_example.incoming_choke.picker_aborted
        = choke_example.picker_aborted ++ choke_example.m_request_queue.map (fun i => i.block)
    ∧ choke_example.incoming_choke.m_queued_time_critical = 0
    ∧ choke_example.incoming_choke.m_download_queue = choke_example.m_download_queue :=
  ⟨by decide,
    incoming_choke_clears_requests choke_example (by decide) (by decide) (by decide) (by decide)⟩

/-! ## C6: the outstanding bytes after a reject -/

/-- C6, the path that breaks the invariant. `reject_example` has the block
(5, 0), of expected length 16384, as its only outstanding request and passes
`check_invariant`. A reject-request for that block whose length field is 100
removes the entry and subtracts the length field, not the expected length of
the block: the download queue is empty and `m_outstanding_bytes` is 16284,
which `check_invariant`, called by the handler itself at that point, rejects. -/
theorem incoming_reject_request_breaks_invariant :
    reject_example.outstanding_bytes_invariant
    ∧ reject_example.queue_invariant
    ∧ (reject_example.t.to_req { piece_index := 5, block_index := 0 }).length = 16384
    ∧ (reject_example.incoming_reject_request { piece := 5, start := 0, length := 100 }
        []).m_download_queue = []
    ∧ (reject_example.incoming_reject_request { piece := 5, start := 0, length := 100 }
        []).m_outstanding_bytes = 16284
    ∧ ¬ (reject_example.incoming_reject_request { piece := 5, start := 0, length := 100 }
        []).outstanding_bytes_invariant := by
  decide

/-- The sibling path: `disconnect` takes the same entry off the download queue
and subtracts the expected length of the block, which keeps the count at the
sum over the queue. -/
theorem disconnect_subtracts_expected_length :
    (reject_example.disconnect errors.torrent_paused 0).m_download_queue = []
    ∧ (reject_example.disconnect errors.torrent_paused 0).m_outstanding_bytes = 0 := by
  decide

/-! ## C8: the length of the upload queue -/

/-- C8, the input on which the code exceeds the limit. `upload_example` has
`max_allowed_in_request_queue = 1` and one request in its upload queue, which
is within the limit. A further legal request passes the test
`m_requests.size() > max_allowed_in_request_queue` and is appended, the send
buffer being full: the upload queue holds two requests when `incoming_request`
returns. -/
theorem incoming_request_exceeds_limit :
    upload_example.m_settings.max_allowed_in_request_queue = 1
    ∧ upload_example.m_requests.length = 1
    ∧ upload_example.invalid_request { piece := 4, start := 0, length := 16384 } = false
    ∧ (upload_example.incoming_request { piece := 4, start := 0, length := 16384 } 0).m_requests
        = [{ piece := 3, start := 0, length := 16384 }, { piece := 4, start := 0, length := 16384 }]
    ∧ ((upload_example.incoming_request { piece := 4, start := 0, length := 16384 }
        0).m_requests.length : Int) > upload_example.m_settings.max_allowed_in_request_queue := by
  decide

/-! ## C7: requests that `incoming_request` turns down -/

theorem upload_frame_refl (p : peer_connection) : upload_frame p p :=
  ⟨rfl, rfl, rfl, rfl, rfl, rfl, fun _ => rfl⟩

theorem upload_frame_trans {p q s : peer_connection} (h1 : upload_frame p q)
    (h2 : upload_frame q s) : upload_frame p s :=
  ⟨h2.requests.trans h1.requests, h2.invalid.trans h1.invalid, h2.torrent.trans h1.torrent,
    h2.settings.trans h1.settings, h2.extensions.trans h1.extensions,
    h2.interested.trans h1.interested, fun r => (h2.rejects r).trans (h1.rejects r)⟩

theorem upload_frame_drop_download (p : peer_connection) (qe : pending_block) :
    upload_frame p (p.drop_download qe) := by
  unfold peer_connection.drop_download peer_connection.abort_download
  dsimp only
  split_ifs <;> exact ⟨rfl, rfl, rfl, rfl, rfl, rfl, fun _ => rfl⟩

theorem upload_frame_drop_request (p : peer_connection) (qe : pending_block) :
    upload_frame p (p.drop_request qe) := by
  unfold peer_connection.drop_request peer_connection.abort_download
  dsimp only
  split_ifs <;> exact ⟨rfl, rfl, rfl, rfl, rfl, rfl, fun _ => rfl⟩

theorem upload_frame_foldl (f : peer_connection → pending_block → peer_connection)
    (hf : ∀ p qe, upload_frame p (f p qe)) : ∀ (l : List pending_block) (p : peer_connection),
    upload_frame p (l.foldl f p) := by
  intro l
  induction l with
  | nil => intro p; exact upload_frame_refl p
  | cons a l ih => intro p; exact upload_frame_trans (hf p a) (ih (f p a))

theorem upload_frame_disconnect (p : peer_connection) (ec : errors) (error : Int) :
    upload_frame p (p.disconnect ec error) := by
  unfold peer_connection.disconnect
  by_cases hd : p.m_disconnecting = true
  · rw [if_pos hd]; exact upload_frame_refl p
  · rw [if_neg hd]
    by_cases hp : p.t.has_picker = true
    · rw [if_pos hp]
      have h1 := upload_frame_foldl _ upload_frame_drop_download p.m_download_queue.reverse p
      have h2 := upload_frame_foldl _ upload_frame_drop_request
        (p.m_download_queue.reverse.foldl peer_connection.drop_download p).m_request_queue.reverse
        (p.m_download_queue.reverse.foldl peer_connection.drop_download p)
      have h3 := upload_frame_trans h1 h2
      exact ⟨h3.requests, h3.invalid, h3.torrent, h3.settings, h3.extensions, h3.interested,
        h3.rejects⟩
    · rw [if_neg hp]
      exact ⟨rfl, rfl, rfl, rfl, rfl, rfl, fun _ => rfl⟩

theorem upload_frame_disconnect_if_redundant (p : peer_connection) :
    upload_frame p p.disconnect_if_redundant.1 := by
  unfold peer_connection.disconnect_if_redundant
  split_ifs <;> first | exact upload_frame_refl p | exact upload_frame_disconnect p _ _

theorem upload_frame_write_not_interested (p : peer_connection) :
    upload_frame p p.write_not_interested := by
  refine ⟨rfl, rfl, rfl, rfl, rfl, rfl, fun r => ?_⟩
  show (p.sent ++ [message.not_interested]).count _ = _
  rw [List.count_append]
  simp

theorem upload_frame_write_choke (p : peer_connection) : upload_frame p p.write_choke := by
  refine ⟨rfl, rfl, rfl, rfl, rfl, rfl, fun r => ?_⟩
  show (p.sent ++ [message.choke]).count _ = _
  rw [List.count_append]
  simp

theorem upload_frame_send_not_interested (p : peer_connection) :
    upload_frame p p.send_not_interested := by
  unfold peer_connection.send_not_interested
  by_cases h1 : (!p.m_interesting) = true
  · rw [if_pos h1]; exact upload_frame_disconnect_if_redundant p
  · rw [if_neg h1]
    by_cases h2 : (!p.t.ready_for_connections) = true
    · rw [if_pos h2]; exact upload_frame_refl p
    · rw [if_neg h2]
      have h3 : upload_frame p { p with m_interesting := false } :=
        ⟨rfl, rfl, rfl, rfl, rfl, rfl, fun _ => rfl⟩
      have h4 := upload_frame_trans h3
        (upload_frame_disconnect_if_redundant { p with m_interesting := false })
      dsimp only
      split_ifs
      · exact h4
      · exact upload_frame_trans h4 (upload_frame_write_not_interested _)

theorem upload_frame_incoming_have_none (p : peer_connection) :
    upload_frame p p.incoming_have_none := by
  unfold peer_connection.incoming_have_none
  by_cases h1 : p.m_extensions.on_have_none = true
  · rw [if_pos h1]; exact upload_frame_refl p
  · rw [if_neg h1]
    by_cases h2 : p.is_disconnecting = true
    · rw [if_pos h2]; exact upload_frame_refl p
    · rw [if_neg h2]
      have h3 : upload_frame p { p with
          m_bitfield_received := true
          m_have_piece := p.m_have_piece.map (fun _ => false)
          m_num_pieces := 0
          m_has_metadata := true } :=
        ⟨rfl, rfl, rfl, rfl, rfl, rfl, fun _ => rfl⟩
      exact upload_frame_trans h3 (upload_frame_trans (upload_frame_send_not_interested _)
        (upload_frame_disconnect_if_redundant _))

theorem upload_frame_have_none_if_no_bitfield (p : peer_connection) :
    upload_frame p p.have_none_if_no_bitfield := by
  unfold peer_connection.have_none_if_no_bitfield
  split_ifs
  · exact upload_frame_incoming_have_none p
  · exact upload_frame_refl p

theorem invalid_request_congr {p q : peer_connection} (h : upload_frame p q) (r : peer_request) :
    q.invalid_request r = p.invalid_request r := by
  unfold peer_connection.invalid_request
  rw [h.torrent, h.interested]

/-- The branch for an invalid request: the request is rejected and counted and
the upload queue stays as it is. -/
theorem reject_invalid_spec (p : peer_connection) (r : peer_request) :
    (p.reject_invalid r).m_requests = p.m_requests
    ∧ (p.reject_invalid r).m_num_invalid_requests = p.m_num_invalid_requests + 1
    ∧ (p.reject_invalid r).sent.count (message.reject_request r)
        = p.sent.count (message.reject_request r) + 1 := by
  have h0 : ({ (p.write_reject_request r) with
      m_num_invalid_requests := p.m_num_invalid_requests + 1 } : peer_connection).sent.count
        (message.reject_request r) = p.sent.count (message.reject_request r) + 1 := by
    show (p.sent ++ [message.reject_request r]).count _ = _
    rw [List.count_append]
    simp
  unfold peer_connection.reject_invalid
  dsimp only
  split_ifs
  · have f := upload_frame_disconnect { (p.write_reject_request r) with
      m_num_invalid_requests := p.m_num_invalid_requests + 1 }
      errors.too_many_requests_when_choked 2
    exact ⟨f.requests, f.invalid, (f.rejects r).trans h0⟩
  · have f := upload_frame_write_choke { (p.write_reject_request r) with
      m_num_invalid_requests := p.m_num_invalid_requests + 1 }
    exact ⟨f.requests, f.invalid, (f.rejects r).trans h0⟩
  · exact ⟨rfl, rfl, h0⟩

/-- C7 fails as stated. The request `bad_request_example` names a piece the
torrent does not have. When the torrent has no valid metadata, or the upload
queue is over the limit, the reject-request is written but the count of
invalid requests does not grow; when the peer is disconnecting, or an
extension consumes the request, nothing is written at all. -/
theorem incoming_request_uncounted_rejects :
    request_example.invalid_request bad_request_example = true
    ∧ ((peer_connection.incoming_request
          { request_example with t := { torrent_example with valid_metadata := false } }
          bad_request_example 0).sent = [message.reject_request bad_request_example]
      ∧ (peer_connection.incoming_request
          { request_example with t := { torrent_example with valid_metadata := false } }
          bad_request_example 0).m_num_invalid_requests = 0)
    ∧ ((peer_connection.incoming_request
          { request_example with
            m_settings := { max_allowed_in_request_queue := 1 }
            m_requests := [{ piece := 3, start := 0, length := 16384 },
                           { piece := 4, start := 0, length := 16384 }] }
          bad_request_example 0).sent = [message.reject_request bad_request_example]
      ∧ (peer_connection.incoming_request
          { request_example with
            m_settings := { max_allowed_in_request_queue := 1 }
            m_requests := [{ piece := 3, start := 0, length := 16384 },
                           { piece := 4, start := 0, length := 16384 }] }
          bad_request_example 0).m_num_invalid_requests = 0)
    ∧ ((peer_connection.incoming_request { request_example with m_disconnecting := true }
          bad_request_example 0).sent = []
      ∧ (peer_connection.incoming_request { request_example with m_disconnecting := true }
          bad_request_example 0).m_num_invalid_requests = 0)
    ∧ ((peer_connection.incoming_request
          { request_example with m_extensions := { on_request := fun _ => true } }
          bad_request_example 0).sent = []
      ∧ (peer_connection.incoming_request
          { request_example with m_extensions := { on_request := fun _ => true } }
          bad_request_example 0).m_num_invalid_requests = 0) := by
  decide

/-- C7, amended. When the request `r` fails the test of `incoming_request`
(piece index in range, `start ≥ 0` and inside the piece, `length > 0`,
`start + length` within the piece, `length ≤ block_size`, the remote
interested, the piece passed, predictively announced or served in seed mode),
the upload queue is unchanged; and when the request is turned down for
super-seeding, or the peer is not disconnecting (also not by the have-none a
missing bitfield stands for), no extension consumes the request, the torrent
has valid metadata and the upload queue holds at most
`max_allowed_in_request_queue` requests, a reject-request for `r` is written
and the count of invalid requests grows by one. -/
theorem incoming_request_rejects_invalid (p : peer_connection) (r : peer_request) (now : Int)
    (hinv : p.invalid_request r = true) :
    (p.incoming_request r now).m_requests = p.m_requests
    ∧ ((p.t.super_seeding && !p.super_seeded_piece r.piece) = true
        ∨ (p.have_none_if_no_bitfield.m_disconnecting = false
            ∧ p.m_extensions.on_request r = false
            ∧ p.t.valid_metadata = true
            ∧ (p.m_requests.length : Int) ≤ p.m_settings.max_allowed_in_request_queue) →
        (p.incoming_request r now).sent.count (message.reject_request r)
            = p.sent.count (message.reject_request r) + 1
        ∧ (p.incoming_request r now).m_num_invalid_requests = p.m_num_invalid_requests + 1) := by
  have hrej : ∀ q : peer_connection, (q.write_reject_request r).sent.count
      (message.reject_request r) = q.sent.count (message.reject_request r) + 1 := by
    intro q
    show (q.sent ++ [message.reject_request r]).count _ = _
    rw [List.count_append]
    simp
  unfold peer_connection.incoming_request
  by_cases hss : (p.t.super_seeding && !p.super_seeded_piece r.piece) = true
  · rw [if_pos hss]
    exact ⟨rfl, fun _ => ⟨hrej _, rfl⟩⟩
  · rw [if_neg hss]
    have f := upload_frame_have_none_if_no_bitfield p
    dsimp only
    by_cases h1 : p.have_none_if_no_bitfield.is_disconnecting = true
    · rw [if_pos h1]
      refine ⟨f.requests, ?_⟩
      rintro (h | ⟨h, _⟩)
      · exact absurd h hss
      · exact absurd h1 (by unfold peer_connection.is_disconnecting; simp [h])
    · rw [if_neg h1]
      by_cases h2 : p.have_none_if_no_bitfield.m_extensions.on_request r = true
      · rw [if_pos h2]
        refine ⟨f.requests, ?_⟩
        rintro (h | ⟨_, h, _⟩)
        · exact absurd h hss
        · rw [f.extensions, h] at h2
          cases h2
      · rw [if_neg h2, if_neg h1]
        by_cases h3 : (!p.have_none_if_no_bitfield.t.valid_metadata) = true
        · rw [if_pos h3]
          refine ⟨f.requests, ?_⟩
          rintro (h | ⟨_, _, h, _⟩)
          · exact absurd h hss
          · rw [f.torrent, h] at h3
            cases h3
        · rw [if_neg h3]
          by_cases h4 : decide ((p.have_none_if_no_bitfield.m_requests.length : Int)
              > p.have_none_if_no_bitfield.m_settings.max_allowed_in_request_queue) = true
          · rw [if_pos h4]
            refine ⟨f.requests, ?_⟩
            rintro (h | ⟨_, _, _, h⟩)
            · exact absurd h hss
            · rw [f.requests, f.settings] at h4
              have := of_decide_eq_true h4
              omega
          · rw [if_neg h4]
            have hinv2 : p.have_none_if_no_bitfield.invalid_request r = true := by
              rw [invalid_request_congr f]; exact hinv
            rw [if_pos hinv2]
            obtain ⟨r1, r2, r3⟩ := reject_invalid_spec p.have_none_if_no_bitfield r
            exact ⟨r1.trans f.requests,
              fun _ => ⟨r3.trans (by rw [f.rejects]), r2.trans (by rw [f.invalid])⟩⟩

/-- Witness of the amended C7: `request_example` is asked for a piece the
torrent does not have. -/
theorem incoming_request_rejects_invalid_witness :
    request_example.invalid_request bad_request_example = true
    ∧ (request_example.incoming_request bad_request_example 0).m_requests
        = request_example.m_requests
    ∧ (request_example.incoming_request bad_request_example 0).sent.count
          (message.reject_request bad_request_example)
        = request_example.sent.count (message.reject_request bad_request_example) + 1
    ∧ (request_example.incoming_request bad_request_example 0).m_num_invalid_requests
        = request_example.m_num_invalid_requests + 1 :=
  ⟨by decide,
    (incoming_request_rejects_invalid request_example bad_request_example 0 (by decide)).1,
    (incoming_request_rejects_invalid request_example bad_request_example 0 (by decide)).2
      (Or.inr (by decide))⟩

/-- The loop of `fill_send_buffer` only takes requests off the upload queue. -/
theorem fill_send_loop_length (w : Int) : ∀ (rs : List peer_request) (p : peer_connection),
    (fill_send_loop w rs p).1.length ≤ rs.length := by
  intro rs
  induction rs with
  | nil => intro p; simp [fill_send_loop]
  | cons r rs ih =>
    intro p
    rw [fill_send_loop]
    dsimp only
    split_ifs <;>
      first
      | exact le_refl _
      | exact Nat.succ_le_succ (ih _)
      | exact Nat.le_succ_of_le (ih _)

theorem fill_send_buffer_length (p : peer_connection) :
    p.fill_send_buffer.m_requests.length ≤ p.m_requests.length := by
  unfold peer_connection.fill_send_buffer
  split_ifs
  · exact le_refl _
  · exact fill_send_loop_length _ _ _

/-- The branch for a legal request leaves at most one request more in the
upload queue. -/
theorem accept_request_length (p : peer_connection) (r : peer_request) (now : Int) :
    (p.accept_request r now).m_requests.length ≤ p.m_requests.length + 1 := by
  unfold peer_connection.accept_request
  dsimp only
  split_ifs
  · rw [(upload_frame_disconnect p _ _).requests]; exact Nat.le_succ _
  · rw [(upload_frame_disconnect (p.write_reject_request r) _ _).requests]; exact Nat.le_succ _
  · exact Nat.le_succ _
  · refine le_trans (fill_send_buffer_length _) ?_
    cases p.m_accept_fast.indexOf? r.piece <;> simp

/-- The upload queue after `incoming_request` is as long as before, or holds
at most `max_allowed_in_request_queue + 1` requests: the limit is exceeded by
one request at most. -/
theorem incoming_request_queue_bound (p : peer_connection) (r : peer_request) (now : Int) :
    (p.incoming_request r now).m_requests.length = p.m_requests.length
    ∨ ((p.incoming_request r now).m_requests.length : Int)
        ≤ p.m_settings.max_allowed_in_request_queue + 1 := by
  have f := upload_frame_have_none_if_no_bitfield p
  unfold peer_connection.incoming_request
  by_cases hss : (p.t.super_seeding && !p.super_seeded_piece r.piece) = true
  · rw [if_pos hss]; exact Or.inl rfl
  · rw [if_neg hss]
    dsimp only
    by_cases h1 : p.have_none_if_no_bitfield.is_disconnecting = true
    · rw [if_pos h1]; exact Or.inl (by rw [f.requests])
    · rw [if_neg h1]
      by_cases h2 : p.have_none_if_no_bitfield.m_extensions.on_request r = true
      · rw [if_pos h2]; exact Or.inl (by rw [f.requests])
      · rw [if_neg h2, if_neg h1]
        by_cases h3 : (!p.have_none_if_no_bitfield.t.valid_metadata) = true
        · rw [if_pos h3]; exact Or.inl (by rw [← f.requests]; rfl)
        · rw [if_neg h3]
          by_cases h4 : decide ((p.have_none_if_no_bitfield.m_requests.length : Int)
              > p.have_none_if_no_bitfield.m_settings.max_allowed_in_request_queue) = true
          · rw [if_pos h4]; exact Or.inl (by rw [← f.requests]; rfl)
          · rw [if_neg h4]
            by_cases h5 : p.have_none_if_no_bitfield.invalid_request r = true
            · rw [if_pos h5]
              exact Or.inl (by rw [(reject_invalid_spec _ r).1, f.requests])
            · rw [if_neg h5]
              right
              have hle := accept_request_length p.have_none_if_no_bitfield r now
              have hmax : ¬ ((p.have_none_if_no_bitfield.m_requests.length : Int)
                  > p.have_none_if_no_bitfield.m_settings.max_allowed_in_request_queue) := by
                intro e; exact h4 (decide_eq_true e)
              rw [f.settings] at hmax
              omega

/-! ## C10: `incoming_reject_request` -/

theorem match_request_iff (r : peer_request) (b : piece_block) (bs : Int) :
    match_request r b bs = true
      ↔ b.piece_index = r.piece ∧ b.block_index = Int.tdiv r.start bs
          ∧ Int.tmod r.start bs = 0 := by
  unfold match_request
  by_cases h1 : b.piece_index = r.piece <;> by_cases h2 : b.block_index = Int.tdiv r.start bs <;>
    by_cases h3 : Int.tmod r.start bs = 0 <;> simp [h1, h2, h3]

/-- In a queue without repeated blocks, the first entry a predicate on the
block finds is the entry with that block, and erasing it is erasing that
entry. -/
theorem find_unique_block (f : pending_block → Bool) (b : pending_block) :
    ∀ l : List pending_block, (l.map (fun i => i.block)).Nodup → b ∈ l → f b = true →
    (∀ x ∈ l, f x = true → x.block = b.block) →
    l.find? f = some b ∧ l.eraseP f = l.erase b := by
  intro l
  induction l with
  | nil => intro _ hb; cases hb
  | cons a l ih =>
    intro hnd hb hfb hu
    rw [List.map_cons, List.nodup_cons] at hnd
    by_cases ha : f a = true
    · have hab : a = b := by
        rcases List.mem_cons.1 hb with e | hm
        · exact e.symm
        · exfalso
          apply hnd.1
          rw [hu a (List.mem_cons_self _ _) ha]
          exact List.mem_map_of_mem _ hm
      subst hab
      refine ⟨by simp [List.find?_cons, ha], ?_⟩
      rw [List.eraseP_cons_of_pos ha, List.erase_cons_head]
    · have hne : a ≠ b := fun e => ha (e ▸ hfb)
      have hbl : b ∈ l := by
        rcases List.mem_cons.1 hb with e | hm
        · exact absurd e.symm hne
        · exact hm
      obtain ⟨i1, i2⟩ := ih hnd.2 hbl hfb (fun x hx => hu x (List.mem_cons_of_mem _ hx))
      refine ⟨by simp [List.find?_cons, ha, i1], ?_⟩
      rw [List.eraseP_cons_of_neg ha, i2, List.erase_cons_tail]
      simpa using hne

theorem reject_forget_keeps (p : peer_connection) (r : peer_request) :
    (p.reject_forget r).m_download_queue = p.m_download_queue
    ∧ (p.reject_forget r).m_outstanding_bytes = p.m_outstanding_bytes
    ∧ (p.reject_forget r).picker_aborted = p.picker_aborted
    ∧ (p.reject_forget r).m_request_queue = p.m_request_queue := by
  unfold peer_connection.reject_forget
  split_ifs <;> exact ⟨rfl, rfl, rfl, rfl⟩

/-- The entry a reject matches is taken off the download queue, the length
field of the reject is subtracted from the outstanding bytes, and the block
goes back to the picker, or to the front of the request queue when the peer is
on parole, unless the entry had timed out or was not wanted. -/
theorem reject_matching_spec (p : peer_connection) (r : peer_request) (b : pending_block)
    (hfind : p.m_download_queue.find? (fun i => match_request r i.block p.t.block_size)
      = some b) :
    (p.reject_matching r).m_download_queue
        = p.m_download_queue.eraseP (fun i => match_request r i.block p.t.block_size)
    ∧ (p.reject_matching r).m_outstanding_bytes
        = (if p.m_outstanding_bytes - r.length < 0 then 0 else p.m_outstanding_bytes - r.length)
    ∧ (p.reject_matching r).picker_aborted
        = (if p.on_parole || p.t.is_seed || b.timed_out || b.not_wanted then p.picker_aborted
            else p.picker_aborted ++ [b.block])
    ∧ (p.reject_matching r).m_request_queue
        = (if p.on_parole && !b.timed_out && !b.not_wanted then b :: p.m_request_queue
            else p.m_request_queue) := by
  unfold peer_connection.reject_matching
  rw [hfind]
  dsimp only
  have hpar : ∀ (dq : List pending_block) (ob : Int),
      ({ p with m_download_queue := dq, m_outstanding_bytes := ob } : peer_connection).on_parole
        = p.on_parole := fun _ _ => rfl
  rw [hpar]
  cases h1 : p.on_parole <;> cases h2 : p.t.is_seed <;> cases h3 : b.timed_out <;>
    cases h4 : b.not_wanted <;>
    simp [peer_connection.abort_download]

/-- C10 fails as stated, in four ways, each on a peer whose download queue
holds the block (5, 0) and nothing else. A reject with `start = 100` names that
block (`100 / 16384 = 0`) but matches no entry, and nothing is removed. A
reject whose length field, 100, is not the length of the block lowers the
outstanding bytes by 100, not by the length 16384 of the block. The block of an
entry that has timed out, but is not marked not-wanted, does not go back to the
picker. And for a peer on parole the block goes to the front of the request
queue, not to the picker. -/
theorem incoming_reject_request_departs :
    ((reject_example.incoming_reject_request { piece := 5, start := 100, length := 16384 }
        []).m_download_queue = reject_example.m_download_queue)
    ∧ ((reject_example.t.to_req { piece_index := 5, block_index := 0 }).length = 16384
      ∧ (reject_example.incoming_reject_request { piece := 5, start := 0, length := 100 }
        []).m_outstanding_bytes = reject_example.m_outstanding_bytes - 100)
    ∧ ((peer_connection.incoming_reject_request
          { reject_example with
            m_download_queue :=
              [{ block := { piece_index := 5, block_index := 0 }, timed_out := true }] }
          { piece := 5, start := 0, length := 16384 } []).m_download_queue = []
      ∧ (peer_connection.incoming_reject_request
          { reject_example with
            m_download_queue :=
              [{ block := { piece_index := 5, block_index := 0 }, timed_out := true }] }
          { piece := 5, start := 0, length := 16384 } []).picker_aborted = [])
    ∧ ((peer_connection.incoming_reject_request
          { reject_example with m_peer_info := some { on_parole := true } }
          { piece := 5, start := 0, length := 16384 } []).picker_aborted = []
      ∧ (peer_connection.incoming_reject_request
          { reject_example with m_peer_info := some { on_parole := true } }
          { piece := 5, start := 0, length := 16384 } []).m_request_queue
          = [{ block := { piece_index := 5, block_index := 0 } }]) := by
  decide

/-- C10, amended. For every peer that passes `check_invariant`, is not
disconnecting and none of whose extensions consumes the message, and every
reject-request `r` with `r.start` a multiple of the block size and the length
of the block in its length field, whose block `(r.piece, r.start / block_size)`
is the block of an entry `b` of the download queue: when
`incoming_reject_request` reaches its last statement, exactly that entry is
removed from the download queue, the others keeping their order; the
outstanding bytes are lowered by the length of the block (to 0 if fewer were
outstanding); and the block has been returned to the picker (`abort_download`)
unless the entry was marked not-wanted or timed-out, the torrent is a seed, or
the peer is on parole, in which case an entry neither not-wanted nor timed-out
goes to the front of the request queue. The last statement then picks and
requests further blocks when nothing is queued and fewer than two requests are
outstanding. -/
theorem incoming_reject_request_removes_entry (p : peer_connection) (r : peer_request)
    (picks : List pending_block) (b : pending_block)
    (hext : p.m_extensions.on_reject r = false) (hdis : p.m_disconnecting = false)
    (hq : p.queue_invariant) (hmod : Int.tmod r.start p.t.block_size = 0)
    (hlen : r.length = (p.t.to_req b.block).length)
    (hb : b ∈ p.m_download_queue)
    (hblock : b.block
      = { piece_index := r.piece, block_index := Int.tdiv r.start p.t.block_size }) :
    ∃ s : peer_connection, p.incoming_reject_request r picks = s.reject_refill picks
      ∧ s.m_download_queue = p.m_download_queue.erase b
      ∧ s.m_outstanding_bytes = max (p.m_outstanding_bytes - (p.t.to_req b.block).length) 0
      ∧ ((p.t.to_req b.block).length ≤ p.m_outstanding_bytes →
          s.m_outstanding_bytes = p.m_outstanding_bytes - (p.t.to_req b.block).length)
      ∧ s.picker_aborted
          = (if p.on_parole || p.t.is_seed || b.timed_out || b.not_wanted then p.picker_aborted
              else p.picker_aborted ++ [b.block])
      ∧ s.m_request_queue
          = (if p.on_parole && !b.timed_out && !b.not_wanted then b :: p.m_request_queue
              else p.m_request_queue) := by
  have hnd : (p.m_download_queue.map (fun i => i.block)).Nodup := by
    have := hq.2.2
    rw [List.map_append] at this
    exact this.of_append_left
  have hfb : match_request r b.block p.t.block_size = true := by
    rw [match_request_iff, hblock]
    exact ⟨rfl, rfl, hmod⟩
  have hu : ∀ x ∈ p.m_download_queue, match_request r x.block p.t.block_size = true →
      x.block = b.block := by
    intro x _ hx
    rw [match_request_iff] at hx
    rw [hblock]
    cases hxb : x.block with
    | mk pi bi =>
      rw [hxb] at hx
      simp only at hx
      rw [hx.1, hx.2.1]
  obtain ⟨hfind, herase⟩ := find_unique_block
    (fun i => match_request r i.block p.t.block_size) b p.m_download_queue hnd hb hfb hu
  obtain ⟨m1, m2, m3, m4⟩ := reject_matching_spec p r b hfind
  obtain ⟨k1, k2, k3, k4⟩ := reject_forget_keeps (p.reject_matching r) r
  rw [hlen] at m2
  refine ⟨(p.reject_matching r).reject_forget r, ?_, ?_, ?_, ?_, ?_, ?_⟩
  · unfold peer_connection.incoming_reject_request peer_connection.is_disconnecting
    rw [if_neg (by simp [hext]), if_neg (by simp [hdis])]
  · rw [k1, m1, herase]
  · rw [k2, m2]
    split_ifs <;> omega
  · intro hle
    rw [k2, m2, if_neg (by omega)]
  · rw [k3, m3]
  · rw [k4, m4]

/-- Witness of the amended C10, scenario "reject returns block to picker":
download queue `[(piece 5, start 0, length 16384)]` and
`reject-request(5, 0, 16384)`, the picker having no further block to hand out:
afterwards the download queue is empty, no byte is outstanding and the block
(5, 0) has been returned to the picker. -/
theorem incoming_reject_request_removes_entry_witness :
    ((reject_example.incoming_reject_request { piece := 5, start := 0, length := 16384 }
        []).m_download_queue = []
      ∧ (reject_example.incoming_reject_request { piece := 5, start := 0, length := 16384 }
        []).m_outstanding_bytes = 0
      ∧ (reject_example.incoming_reject_request { piece := 5, start := 0, length := 16384 }
        []).picker_aborted = [{ piece_index := 5, block_index := 0 }])
    ∧ ∃ s : peer_connection,
        reject_example.incoming_reject_request { piece := 5, start := 0, length := 16384 } []
          = s.reject_refill []
      ∧ s.m_download_queue = reject_example.m_download_queue.erase
          { block := { piece_index := 5, block_index := 0 } }
      ∧ s.m_outstanding_bytes = reject_example.m_outstanding_bytes - 16384 :=
  ⟨by decide,
    (fun ⟨s, a1, a2, _, a4, _, _⟩ => ⟨s, a1, a2, a4 (by decide)⟩)
      (incoming_reject_request_removes_entry reject_example
        { piece := 5, start := 0, length := 16384 } []
        { block := { piece_index := 5, block_index := 0 } }
        rfl rfl (by decide) (by decide) (by decide) (by decide) rfl)⟩

/-! ## What an eviction frees: slots -/

theorem forall₂_slot_emptied_refl :
    ∀ bs : List cached_block_entry, List.Forall₂ slot_emptied bs bs := by
  intro bs
  induction bs with
  | nil => exact List.Forall₂.nil
  | cons b bs ih => exact List.Forall₂.cons (Or.inl rfl) ih

theorem emptied_not_evictable (b : cached_block_entry) :
    ({ b with buf := 0 } : cached_block_entry).evictable = false := by
  simp [cached_block_entry.evictable]

theorem slot_emptied_trans {a b d : cached_block_entry} (h1 : slot_emptied a b)
    (h2 : slot_emptied b d) : slot_emptied a d := by
  rcases h1 with rfl | ⟨e1, rfl⟩
  · exact h2
  · rcases h2 with rfl | ⟨e2, _⟩
    · exact Or.inr ⟨e1, rfl⟩
    · rw [emptied_not_evictable] at e2; cases e2

theorem forall₂_slot_emptied_trans : ∀ {l1 l2 l3 : List cached_block_entry},
    List.Forall₂ slot_emptied l1 l2 → List.Forall₂ slot_emptied l2 l3 →
    List.Forall₂ slot_emptied l1 l3 := by
  intro l1 l2 l3 h12
  induction h12 generalizing l3 with
  | nil => intro h; cases h; exact List.Forall₂.nil
  | cons hab _ ih =>
    intro h
    cases h with
    | cons hbc htl => exact List.Forall₂.cons (slot_emptied_trans hab hbc) (ih htl)

/-- Slots that lost buffers hold no evictable slot the original did not. -/
theorem forall₂_slot_emptied_exhausted : ∀ {l1 l2 : List cached_block_entry},
    List.Forall₂ slot_emptied l1 l2 → (∀ b ∈ l1, b.evictable = false) →
    ∀ b ∈ l2, b.evictable = false := by
  intro l1 l2 h
  induction h with
  | nil => intro _ b hb; cases hb
  | cons hab _ ih =>
    intro h1 b hb
    rcases List.mem_cons.1 hb with rfl | hb
    · rcases hab with e | ⟨_, e⟩
      · rw [e]; exact h1 _ (List.mem_cons_self _ _)
      · rw [e]; exact emptied_not_evictable _
    · exact ih (fun x hx => h1 x (List.mem_cons_of_mem _ hx)) b hb

theorem count_pinned_cons (b : cached_block_entry) (bs : List cached_block_entry) :
    count_pinned (b :: bs) = (if b.refcount > 0 then 1 else 0) + count_pinned bs := by
  unfold count_pinned
  by_cases h : b.refcount > 0 <;> simp [List.countP_cons, h] <;> ring

theorem forall₂_slot_emptied_pinned : ∀ {l1 l2 : List cached_block_entry},
    List.Forall₂ slot_emptied l1 l2 → count_pinned l2 = count_pinned l1 := by
  intro l1 l2 h
  induction h with
  | nil => rfl
  | cons hab _ ih =>
    rw [count_pinned_cons, count_pinned_cons, ih]
    rcases hab with e | ⟨_, e⟩ <;> rw [e]

theorem forall₂_slot_emptied_filled : ∀ {l1 l2 : List cached_block_entry},
    List.Forall₂ slot_emptied l1 l2 → count_filled l2 ≤ count_filled l1 := by
  intro l1 l2 h
  induction h with
  | nil => exact le_refl _
  | cons hab _ ih =>
    rw [count_filled_cons, count_filled_cons]
    rcases hab with e | ⟨_, e⟩
    · rw [e]; omega
    · rw [e]
      simp only [if_true]
      split_ifs <;> omega

/-- A piece all of whose filled slots are pinned has no evictable slot. -/
theorem no_evictable_of_pinned : ∀ (bs : List cached_block_entry),
    count_filled bs ≤ count_pinned bs → (∀ b ∈ bs, b.buf = 0 → ¬ b.is_protected) →
    ∀ b ∈ bs, b.evictable = false := by
  intro bs
  induction bs with
  | nil => intro _ _ b hb; cases hb
  | cons a bs ih =>
    intro hle hemp b hb
    have htl : ∀ x ∈ bs, x.buf = 0 → ¬ x.is_protected :=
      fun x hx => hemp x (List.mem_cons_of_mem _ hx)
    have hgen : ∀ l : List cached_block_entry, (∀ x ∈ l, x.buf = 0 → ¬ x.is_protected) →
        count_pinned l ≤ count_filled l := by
      intro l
      induction l with
      | nil => intro _; exact le_refl _
      | cons x l ihl =>
        intro hx
        have h1 := ihl (fun y hy => hx y (List.mem_cons_of_mem _ hy))
        have h2 := hx x (List.mem_cons_self _ _)
        rw [count_pinned_cons, count_filled_cons]
        by_cases hb0 : x.buf = 0
        · have h3 : ¬ x.refcount > 0 := fun e => h2 hb0 (Or.inl e)
          rw [if_pos hb0, if_neg h3]; omega
        · rw [if_neg hb0]; split_ifs <;> omega
    have h1 := hgen bs htl
    rw [count_pinned_cons, count_filled_cons] at hle
    have ha := hemp a (List.mem_cons_self _ _)
    rcases List.mem_cons.1 hb with rfl | hb
    · by_cases hb0 : b.buf = 0
      · simp [cached_block_entry.evictable, hb0]
      · by_cases hr : b.refcount > 0
        · simp [cached_block_entry.evictable, hr]
        · rw [if_neg hb0, if_neg hr] at hle
          omega
    · refine ih ?_ htl b hb
      by_cases hb0 : a.buf = 0
      · have h3 : ¬ a.refcount > 0 := fun e => ha hb0 (Or.inl e)
        rw [if_pos hb0, if_neg h3] at hle; omega
      · rw [if_neg hb0] at hle
        split_ifs at hle <;> omega

/-- The block loop only empties evictable slots; it lowers `num` by the number
of buffers it adds to `to_delete`, stops at zero, frees nothing when no slot is
evictable, and leaves no evictable slot when it covers the whole array and
ends with `num > 0`. -/
theorem evict_scan_progress : ∀ (n : Nat) (bs : List cached_block_entry) (a : evict_acc),
    0 ≤ a.num →
    List.Forall₂ slot_emptied bs (evict_scan n bs a).1
    ∧ 0 ≤ (evict_scan n bs a).2.num
    ∧ ((evict_scan n bs a).2.to_delete.length : Int)
        = a.to_delete.length + (a.num - (evict_scan n bs a).2.num)
    ∧ ((∀ b ∈ bs, b.evictable = false) → (evict_scan n bs a).2.num = a.num)
    ∧ (bs.length ≤ n → 0 < (evict_scan n bs a).2.num →
        ∀ b ∈ (evict_scan n bs a).1, b.evictable = false) := by
  intro n
  induction n with
  | zero =>
    intro bs a h
    rw [evict_scan_zero]
    refine ⟨forall₂_slot_emptied_refl _, h, by dsimp only; omega, fun _ => rfl, ?_⟩
    intro hl _ b hb
    have : bs = [] := List.eq_nil_of_length_eq_zero (by omega)
    rw [this] at hb; cases hb
  | succ n ih =>
    intro bs a h
    cases bs with
    | nil =>
      rw [evict_scan_nil]
      exact ⟨forall₂_slot_emptied_refl _, h, by dsimp only; omega, fun _ => rfl,
        fun _ _ b hb => by cases hb⟩
    | cons b bs =>
      rw [evict_scan_cons]
      by_cases hnum : a.num ≤ 0
      · rw [if_pos hnum]
        refine ⟨forall₂_slot_emptied_refl _, h, by dsimp only; omega, fun _ => rfl, ?_⟩
        intro _ hpos
        exact absurd hpos (by dsimp only; omega)
      · rw [if_neg hnum]
        by_cases hc : (b.buf == 0 || decide (b.refcount > 0) || b.dirty || b.pending) = true
        · rw [if_pos hc]
          obtain ⟨i1, i2, i3, i4, i5⟩ := ih bs a h
          have hne : b.evictable = false := by
            unfold cached_block_entry.evictable; rw [hc]; rfl
          refine ⟨List.Forall₂.cons (Or.inl rfl) i1, i2, i3, ?_, ?_⟩
          · intro hall
            exact i4 (fun x hx => hall x (List.mem_cons_of_mem _ hx))
          · intro hl hpos x hx
            rcases List.mem_cons.1 hx with rfl | hx
            · exact hne
            · exact i5 (by simpa using hl) hpos x hx
        · rw [if_neg hc]
          have hev : b.evictable = true := by
            unfold cached_block_entry.evictable
            rw [Bool.not_eq_true] at hc
            rw [hc]; rfl
          obtain ⟨i1, i2, i3, i4, i5⟩ := ih bs
            { num := a.num - 1, num_blocks := a.num_blocks - 1
              read_cache_size := a.read_cache_size - 1
              to_delete := a.to_delete ++ [b.buf] } (by dsimp only; omega)
          refine ⟨List.Forall₂.cons (Or.inr ⟨hev, rfl⟩) i1, i2, ?_, ?_, ?_⟩
          · rw [i3]
            simp only [List.length_append, List.length_singleton, Nat.cast_add, Nat.cast_one]
            ring
          · intro hall
            have := hall b (List.mem_cons_self _ _)
            rw [hev] at this; cases this
          · intro hl hpos x hx
            rcases List.mem_cons.1 hx with rfl | hx
            · exact emptied_not_evictable _
            · exact i5 (by simpa using hl) hpos x hx

/-! ## What an eviction frees: pieces -/

theorem find_erase_same (k : piece_key) : ∀ l : List cached_piece_entry,
    (l.map cached_piece_entry.key).Nodup →
    (l.eraseP (fun p => p.key == k)).find? (fun p => p.key == k) = none := by
  intro l
  induction l with
  | nil => intro _; rfl
  | cons a l ih =>
    intro hn
    rw [List.map_cons, List.nodup_cons] at hn
    by_cases h : a.key = k
    · rw [erase_cons_eq l h]
      rw [List.find?_eq_none]
      intro x hx hxk
      have hxk2 : x.key = k := by simpa using hxk
      exact hn.1 (List.mem_map.2 ⟨x, hx, by rw [hxk2, h]⟩)
    · rw [erase_cons_ne l h, find_cons_ne _ h]
      exact ih hn.2

theorem erase_piece_find_same {c : block_cache} (h : cache_invariant c) (pk : piece_key) :
    (c.erase_piece pk).find_piece pk = none := by
  cases hf : c.find_piece pk with
  | none => unfold block_cache.erase_piece; rw [hf]; exact hf
  | some pe =>
    unfold block_cache.find_piece
    rw [erase_piece_pieces hf]
    exact find_erase_same pk _ h.keys

theorem filled_slots_some {c : block_cache} {k : piece_key} {p : cached_piece_entry}
    (h : c.find_piece k = some p) : c.filled_slots k = count_filled p.blocks := by
  unfold block_cache.filled_slots; rw [h]

theorem filled_slots_none {c : block_cache} {k : piece_key}
    (h : c.find_piece k = none) : c.filled_slots k = 0 := by
  unfold block_cache.filled_slots; rw [h]

theorem filled_slots_congr {c d : block_cache} {k : piece_key}
    (h : d.find_piece k = c.find_piece k) : d.filled_slots k = c.filled_slots k := by
  unfold block_cache.filled_slots; rw [h]

theorem filled_slots_nonneg (c : block_cache) (k : piece_key) : 0 ≤ c.filled_slots k := by
  unfold block_cache.filled_slots
  cases c.find_piece k with
  | none => exact le_refl _
  | some p => exact count_filled_nonneg _

theorem filled_slots_empty {c : block_cache} (h : cache_invariant c) {k : piece_key}
    {p : cached_piece_entry} (hf : c.find_piece k = some p) (hnb : p.num_blocks = 0) :
    c.filled_slots k = 0 := by
  rw [filled_slots_some hf, ← (h.pieces p (find_piece_some_mem hf).1).1, hnb]

theorem kept_except_refl (pk : piece_key) (c : block_cache) : kept_except pk c c :=
  fun _ _ => Or.inl rfl

theorem kept_except_trans {pk : piece_key} {c1 c2 c3 : block_cache}
    (h12 : kept_except pk c1 c2) (h23 : kept_except pk c2 c3) : kept_except pk c1 c3 := by
  intro k hk
  rcases h23 k hk with e | ⟨e, z⟩
  · rcases h12 k hk with e1 | ⟨e1, z1⟩
    · exact Or.inl (e.trans e1)
    · exact Or.inr ⟨e.trans e1, z1⟩
  · rcases h12 k hk with e1 | ⟨_, z1⟩
    · exact Or.inr ⟨e, by rw [← filled_slots_congr e1]; exact z⟩
    · exact Or.inr ⟨e, z1⟩

theorem kept_except_filled {pk : piece_key} {c c2 : block_cache} (h : kept_except pk c c2)
    {k : piece_key} (hk : k ≠ pk) : c2.filled_slots k = c.filled_slots k := by
  rcases h k hk with e | ⟨e, z⟩
  · exact filled_slots_congr e
  · rw [filled_slots_none e, z]

theorem evict_progress_refl (st : evict_state) (h : 0 ≤ st.num) : evict_progress st st :=
  ⟨h, le_refl _, by omega, rfl, rfl, by omega,
   fun _ p2 hf => ⟨p2, hf, forall₂_slot_emptied_refl _, rfl⟩, fun _ _ => rfl⟩

theorem evict_progress_trans {s1 s2 s3 : evict_state} (h12 : evict_progress s1 s2)
    (h23 : evict_progress s2 s3) : evict_progress s1 s3 := by
  have a1 := h12.num_le
  have a2 := h23.num_le
  refine ⟨h23.num_nonneg, le_trans a2 a1, ?_, ?_, ?_, ?_, ?_, ?_⟩
  · rw [h23.read_size, h12.read_size]; ring
  · rw [h23.write_size, h12.write_size]
  · rw [h23.in_use, h12.in_use]
  · rw [h23.deleted, h12.deleted]; ring
  · intro k p3 hf
    obtain ⟨p2, hf2, hr2, hp2⟩ := h23.shrunk k p3 hf
    obtain ⟨p1, hf1, hr1, hp1⟩ := h12.shrunk k p2 hf2
    exact ⟨p1, hf1, forall₂_slot_emptied_trans hr1 hr2, hp2.trans hp1⟩
  · intro he k
    rw [h23.same (by omega) k, h12.same (by omega) k]

theorem evict_progress_filled {st st2 : evict_state} (h : evict_progress st st2)
    (k : piece_key) : st2.c.filled_slots k ≤ st.c.filled_slots k := by
  cases hf : st2.c.find_piece k with
  | none => rw [filled_slots_none hf]; exact filled_slots_nonneg _ _
  | some p2 =>
    obtain ⟨p, hp, hr, _⟩ := h.shrunk k p2 hf
    rw [filled_slots_some hf, filled_slots_some hp]
    exact forall₂_slot_emptied_filled hr

theorem evict_progress_exhausted {st st2 : evict_state} (h : evict_progress st st2)
    {k : piece_key} (hk : st.c.exhausted k) : st2.c.exhausted k := by
  intro p2 hf
  obtain ⟨p, hp, hr, _⟩ := h.shrunk k p2 hf
  exact forall₂_slot_emptied_exhausted hr (hk p hp)

theorem evict_progress_pinned {st st2 : evict_state} (h : evict_progress st st2)
    (hinv : cache_invariant st2.c) (hp : pinned_ok st.c) : pinned_ok st2.c := by
  intro p2 hm
  have hf := find_piece_of_mem hinv.keys hm
  obtain ⟨p, hfp, hr, hpin⟩ := h.shrunk _ p2 hf
  rw [hpin, hp p (find_piece_some_mem hfp).1, forall₂_slot_emptied_pinned hr]

theorem relinked_refl (pk : piece_key) (c : block_cache) : relinked pk c c :=
  ⟨rfl, rfl, rfl, kept_except_refl _ _, fun p2 h => ⟨p2, h, rfl, rfl⟩,
   fun h => filled_slots_none h, fun _ _ _ _ => rfl⟩

/-- A bookkeeping step frees nothing. -/
theorem relinked_progress {pk : piece_key} {st : evict_state} {c2 : block_cache}
    (hn : 0 ≤ st.num) (h : relinked pk st.c c2) :
    evict_progress st { st with c := c2 } := by
  have hsame : ∀ k, c2.filled_slots k = st.c.filled_slots k := by
    intro k
    by_cases hk : k = pk
    · subst hk
      cases hf : c2.find_piece k with
      | none => rw [filled_slots_none hf, h.empty hf]
      | some p2 =>
        obtain ⟨p, hp, hb, _⟩ := h.self p2 hf
        rw [filled_slots_some hf, filled_slots_some hp, hb]
    · exact kept_except_filled h.others hk
  refine ⟨hn, le_refl _, ?_, h.write_size, h.in_use, ?_, ?_, fun _ k => hsame k⟩
  · show c2.m_read_cache_size = _
    rw [h.read_size]; dsimp only; omega
  · dsimp only; omega
  · intro k p2 hf
    have hf2 : c2.find_piece k = some p2 := hf
    by_cases hk : k = pk
    · subst hk
      obtain ⟨p, hp, hb, hpin⟩ := h.self p2 hf2
      exact ⟨p, hp, by rw [hb]; exact forall₂_slot_emptied_refl _, hpin⟩
    · rcases h.others k hk with e | ⟨e, _⟩
      · exact ⟨p2, by rw [← e]; exact hf2, forall₂_slot_emptied_refl _, rfl⟩
      · rw [e] at hf2; cases hf2

theorem erase_piece_relinked {c : block_cache} {pk : piece_key} {pe : cached_piece_entry}
    (h : cache_invariant c) (hf : c.find_piece pk = some pe) (hnb : pe.num_blocks = 0) :
    relinked pk c (c.erase_piece pk) := by
  have hnone := erase_piece_find_same h pk
  refine ⟨?_, ?_, ?_, fun k hk => Or.inl (erase_piece_find_other k hk), ?_, ?_, ?_⟩
  · unfold block_cache.erase_piece; rw [hf]
  · unfold block_cache.erase_piece; rw [hf]
  · unfold block_cache.erase_piece; rw [hf]
  · intro p2 hp2
    rw [hnone] at hp2; cases hp2
  · intro _
    exact filled_slots_empty h hf hnb
  · intro j hj _ _
    rw [erase_piece_lru hf, lru_set_other _ _ (fun e => hj (by rw [state_of_find hf, e]))]

/-- The loop that trims a ghost list frees nothing: it keeps the sizes and
erases only pieces without blocks. -/
theorem trim_ghost_kept {g : Nat} (hg : g = read_lru1_ghost ∨ g = read_lru2_ghost) :
    ∀ (fuel : Nat) (c : block_cache), cache_invariant c →
      (block_cache.trim_ghost g fuel c).m_read_cache_size = c.m_read_cache_size
      ∧ (block_cache.trim_ghost g fuel c).m_write_cache_size = c.m_write_cache_size
      ∧ (block_cache.trim_ghost g fuel c).m_in_use = c.m_in_use
      ∧ ∀ k, (block_cache.trim_ghost g fuel c).find_piece k = c.find_piece k
          ∨ ((block_cache.trim_ghost g fuel c).find_piece k = none ∧ c.filled_slots k = 0) := by
  intro fuel
  induction fuel with
  | zero => intro c _; exact ⟨rfl, rfl, rfl, fun _ => Or.inl rfl⟩
  | succ fuel ih =>
    intro c h
    rw [trim_ghost_succ]
    by_cases hsz : ((c.m_lru g).length : Int) ≥ c.m_ghost_size
    · rw [if_pos hsz]
      cases hh : (c.m_lru g).head? with
      | none => exact ⟨rfl, rfl, rfl, fun _ => Or.inl rfl⟩
      | some k0 =>
        have hkm : k0 ∈ c.m_lru g := List.mem_of_mem_head? hh
        obtain ⟨p0, hf0, _, hn1⟩ := (ghost_list_of h hg).2 k0 hkm
        have hn0 := hn1 hg
        have hrel := erase_piece_relinked h hf0 hn0
        obtain ⟨i1, i2, i3, i4⟩ := ih (c.erase_piece k0) (cache_invariant_erase_piece h hf0 hn0)
        refine ⟨i1.trans hrel.read_size, i2.trans hrel.write_size, i3.trans hrel.in_use, ?_⟩
        intro k
        by_cases hk : k = k0
        · subst hk
          have hnone := erase_piece_find_same h k
          have hz := filled_slots_empty h hf0 hn0
          rcases i4 k with e | ⟨e, _⟩
          · exact Or.inr ⟨e.trans hnone, hz⟩
          · exact Or.inr ⟨e, hz⟩
        · have he := erase_piece_find_other (c := c) k hk
          rcases i4 k with e | ⟨e, z⟩
          · exact Or.inl (e.trans he)
          · exact Or.inr ⟨e, by rw [← filled_slots_congr he]; exact z⟩
    · rw [if_neg hsz]
      exact ⟨rfl, rfl, rfl, fun _ => Or.inl rfl⟩

/-- `move_to_ghost` on a piece without blocks frees nothing. -/
theorem move_to_ghost_relinked {c : block_cache} {pk : piece_key} {pe : cached_piece_entry}
    (h : cache_invariant c) (hf : c.find_piece pk = some pe) (hnb : pe.num_blocks = 0) :
    relinked pk c (c.move_to_ghost pk) := by
  unfold block_cache.move_to_ghost
  rw [hf]
  dsimp only
  split_ifs with hv hs
  · exact erase_piece_relinked h hf hnb
  · exact relinked_refl _ _
  · have hs2 : pe.cache_state = read_lru1 ∨ pe.cache_state = read_lru2 := by
      simp only [bne_iff_ne, ne_eq, Bool.and_eq_true, decide_eq_true_eq, not_and,
        Decidable.not_not] at hs
      by_cases h2 : pe.cache_state = read_lru1
      · exact Or.inl h2
      · exact Or.inr (hs h2)
    have hg : pe.cache_state + 1 = read_lru1_ghost ∨ pe.cache_state + 1 = read_lru2_ghost := by
      rcases hs2 with e | e <;> rw [e]
      · exact Or.inl rfl
      · exact Or.inr rfl
    obtain ⟨_, _, i3, i4, _⟩ :=
      trim_ghost_spec none hg (c.m_lru (pe.cache_state + 1)).length c h
    obtain ⟨j1, j2, j3, j4⟩ := trim_ghost_kept hg (c.m_lru (pe.cache_state + 1)).length c h
    have hnot : pk ∉ c.m_lru (pe.cache_state + 1) :=
      not_in_ghost_of_state h hf hg (by omega)
    have hf1 := (i3 pk hnot).trans hf
    have hkey : pe.key = pk := (find_piece_some_mem hf).2
    have hst := find_after_store (q := { pe with in_storage := false
                                                 cache_state := pe.cache_state + 1 })
      (d := (block_cache.trim_ghost (pe.cache_state + 1)
        (c.m_lru (pe.cache_state + 1)).length c).store
          { pe with in_storage := false, cache_state := pe.cache_state + 1 }) hf1 hkey rfl
    refine ⟨j1, j2, j3, ?_, ?_, ?_, ?_⟩
    · intro k hk
      have e1 := hst.2 k hk
      rcases j4 k with e | ⟨e, z⟩
      · exact Or.inl (e1.trans e)
      · exact Or.inr ⟨e1.trans e, z⟩
    · intro p2 hp2
      have e1 : some _ = some p2 := hst.1.symm.trans hp2
      cases e1
      exact ⟨pe, hf, rfl, rfl⟩
    · intro hn
      have e1 : some _ = none := hst.1.symm.trans hn
      cases e1
    · intro j hj h3 h5
      have hjs : j ≠ pe.cache_state := fun e => hj (by rw [state_of_find hf, e])
      have hjg : j ≠ pe.cache_state + 1 := by
        rcases hg with e | e <;> rw [e]
        · exact h3
        · exact h5
      show lru_set (lru_set _ _ _) _ _ j = _
      rw [lru_set_other _ _ hjg, lru_set_other _ _ hjs]
      exact i4 j hjg

/-- The block loop on one piece: what it frees is what `num` goes down by. -/
theorem evict_from_piece_progress (st : evict_state) {pk : piece_key}
    {pe : cached_piece_entry} (limit : Nat) (h : cache_invariant st.c)
    (hf : st.c.find_piece pk = some pe) (hn : 0 ≤ st.num) :
    evict_progress st (evict_from_piece st pe limit)
      ∧ kept_except pk st.c (evict_from_piece st pe limit).c
      ∧ (evict_from_piece st pe limit).c.m_lru = st.c.m_lru
      ∧ (evict_from_piece st pe limit).c.state_of pk = st.c.state_of pk
      ∧ (st.c.exhausted pk → (evict_from_piece st pe limit).num = st.num)
      ∧ (pe.blocks.length ≤ limit → 0 < (evict_from_piece st pe limit).num →
          (evict_from_piece st pe limit).c.exhausted pk) := by
  have hkey : pe.key = pk := (find_piece_some_mem hf).2
  have hpe := h.pieces pe (find_piece_some_mem hf).1
  have hsp := evict_scan_spec limit pe.blocks
    { num := st.num, num_blocks := pe.num_blocks
      read_cache_size := st.c.m_read_cache_size, to_delete := st.to_delete } hpe.2.2
  have hpr := evict_scan_progress limit pe.blocks
    { num := st.num, num_blocks := pe.num_blocks
      read_cache_size := st.c.m_read_cache_size, to_delete := st.to_delete } hn
  unfold evict_from_piece
  dsimp only at hsp hpr ⊢
  generalize evict_scan limit pe.blocks
    { num := st.num, num_blocks := pe.num_blocks
      read_cache_size := st.c.m_read_cache_size, to_delete := st.to_delete } = r at hsp hpr ⊢
  obtain ⟨_, _, _, _, i5, i6, i7⟩ := hsp
  obtain ⟨j1, j2, j3, j4, j5⟩ := hpr
  have hst := find_after_store
    (q := { pe with blocks := r.1, num_blocks := r.2.num_blocks })
    (d := { (st.c.store { pe with blocks := r.1, num_blocks := r.2.num_blocks }) with
            m_read_cache_size := r.2.read_cache_size }) hf hkey rfl
  have hfill : ∀ k, k ≠ pk →
      ({ (st.c.store { pe with blocks := r.1, num_blocks := r.2.num_blocks }) with
          m_read_cache_size := r.2.read_cache_size } : block_cache).filled_slots k
        = st.c.filled_slots k := fun k hk => filled_slots_congr (hst.2 k hk)
  refine ⟨⟨j2, (show r.2.num ≤ st.num by omega), ?_, rfl, rfl, j3, ?_, ?_⟩,
    fun k hk => Or.inl (hst.2 k hk), rfl,
    ?_, ?_, ?_⟩
  · show r.2.read_cache_size = st.c.m_read_cache_size - (st.num - r.2.num)
    omega
  · intro k p2 hp2
    by_cases hk : k = pk
    · subst hk
      have e1 : some _ = some p2 := hst.1.symm.trans hp2
      cases e1
      exact ⟨pe, hf, j1, rfl⟩
    · exact ⟨p2, by rw [← hst.2 k hk]; exact hp2, forall₂_slot_emptied_refl _, rfl⟩
  · intro he k
    by_cases hk : k = pk
    · subst hk
      rw [filled_slots_some hst.1, filled_slots_some hf]
      show count_filled r.1 = count_filled pe.blocks
      have he2 : r.2.num = st.num := he
      omega
    · exact hfill k hk
  · rw [state_of_find hst.1, state_of_find hf]
  · intro hex
    exact j4 (hex pe hf)
  · intro hl hpos p1 hp1
    have e1 : some _ = some p1 := hst.1.symm.trans hp1
    cases e1
    exact j5 hl hpos

theorem exhausted_of_empty {c : block_cache} (h : cache_invariant c) {pk : piece_key}
    {pe : cached_piece_entry} (hf : c.find_piece pk = some pe) (hnb : pe.num_blocks = 0) :
    c.exhausted pk := by
  intro p hp b hb
  rw [hf] at hp
  cases hp
  have hz : count_filled pe.blocks = 0 := by
    rw [← (h.pieces pe (find_piece_some_mem hf).1).1, hnb]
  have hb0 := count_filled_zero_mem hz b hb
  simp [cached_block_entry.evictable, hb0]

theorem exhausted_of_absent {c : block_cache} {pk : piece_key}
    (hf : c.find_piece pk = none) : c.exhausted pk := by
  intro p hp
  rw [hf] at hp; cases hp

/-- One iteration of the piece loop over a read list: what it frees, what it
leaves alone, and that it leaves no evictable slot in its piece unless `num`
has reached zero. -/
theorem evict_read_step_progress (ign : Option piece_key) (st : evict_state) (pk : piece_key)
    (h : cache_invariant st.c) (hn : 0 ≤ st.num) :
    evict_progress st (evict_read_step ign st pk)
      ∧ kept_except pk st.c (evict_read_step ign st pk).c
      ∧ (∀ j, st.c.state_of pk ≠ some j → j ≠ read_lru1_ghost → j ≠ read_lru2_ghost →
          (evict_read_step ign st pk).c.m_lru j = st.c.m_lru j)
      ∧ ((ign ≠ some pk → st.c.exhausted pk) → (evict_read_step ign st pk).num = st.num)
      ∧ (pinned_ok st.c → 0 < (evict_read_step ign st pk).num → ign ≠ some pk →
          (evict_read_step ign st pk).c.exhausted pk) := by
  have hrefl : ∀ (_ : pinned_ok st.c → 0 < st.num → ign ≠ some pk → st.c.exhausted pk),
      evict_progress st st ∧ kept_except pk st.c st.c
      ∧ (∀ j, st.c.state_of pk ≠ some j → j ≠ read_lru1_ghost → j ≠ read_lru2_ghost →
          st.c.m_lru j = st.c.m_lru j)
      ∧ ((ign ≠ some pk → st.c.exhausted pk) → st.num = st.num)
      ∧ (pinned_ok st.c → 0 < st.num → ign ≠ some pk → st.c.exhausted pk) :=
    fun hd => ⟨evict_progress_refl st hn, kept_except_refl _ _, fun _ _ _ _ => rfl,
      fun _ => rfl, hd⟩
  unfold evict_read_step
  by_cases hnum : st.num ≤ 0
  · rw [if_pos hnum]
    exact hrefl (fun _ hpos => absurd hpos (by omega))
  · rw [if_neg hnum]
    cases hf : st.c.find_piece pk with
    | none => exact hrefl (fun _ _ _ => exhausted_of_absent hf)
    | some pe =>
      dsimp only
      by_cases hig : ign = some pk
      · rw [if_pos hig]
        exact hrefl (fun _ _ hne => absurd hig hne)
      · rw [if_neg hig]
        by_cases hok : pe.ok_to_evict false = true
        · rw [if_pos hok]
          have hnb := ok_to_evict_num_blocks hok
          have hrel := move_to_ghost_relinked h hf hnb
          have hpg := relinked_progress hn hrel
          refine ⟨hpg, hrel.others, hrel.lists, fun _ => rfl, fun _ _ _ => ?_⟩
          · exact evict_progress_exhausted hpg (exhausted_of_empty h hf hnb)
        · rw [if_neg hok]
          by_cases hpin : pe.num_blocks ≤ pe.pinned
          · rw [if_pos hpin]
            refine hrefl (fun hp _ _ => ?_)
            intro p hp2 b hb
            rw [hf] at hp2
            cases hp2
            have hpe := h.pieces pe (find_piece_some_mem hf).1
            have hpp := hp pe (find_piece_some_mem hf).1
            exact no_evictable_of_pinned pe.blocks (by rw [← hpe.1, ← hpp]; exact hpin)
              hpe.2.2 b hb
          · rw [if_neg hpin]
            have hlim : pe.blocks.length ≤ pe.blocks_in_piece.toNat := by
              unfold cached_piece_entry.blocks_in_piece
              rw [Int.toNat_ofNat]
            obtain ⟨e1, e2, e3, e4, e5, e6⟩ :=
              evict_from_piece_progress st pe.blocks_in_piece.toNat h hf hn
            have hinv1 := (evict_from_piece_spec ign st pe.blocks_in_piece.toNat h hf hig).1
            cases hf1 : (evict_from_piece st pe pe.blocks_in_piece.toNat).c.find_piece pk with
            | none =>
              refine ⟨e1, e2, fun j _ _ _ => by rw [e3], fun hx => e5 (hx hig),
                fun _ _ _ => ?_⟩
              exact exhausted_of_absent hf1
            | some pe1 =>
              dsimp only
              by_cases hok1 : pe1.ok_to_evict false = true
              · rw [if_pos hok1]
                have hnb1 := ok_to_evict_num_blocks hok1
                have hrel := move_to_ghost_relinked hinv1 hf1 hnb1
                have hpg := relinked_progress e1.num_nonneg hrel
                refine ⟨evict_progress_trans e1 hpg, kept_except_trans e2 hrel.others, ?_,
                  fun hx => e5 (hx hig), fun _ _ _ => ?_⟩
                · intro j hj h3 h5
                  have := hrel.lists j (by rw [e4]; exact hj) h3 h5
                  exact this.trans (by rw [e3])
                · exact evict_progress_exhausted hpg (exhausted_of_empty hinv1 hf1 hnb1)
              · rw [if_neg hok1]
                exact ⟨e1, e2, fun j _ _ _ => by rw [e3], fun hx => e5 (hx hig),
                  fun _ hpos _ => e6 hlim hpos⟩

/-- One iteration of the piece loop over the write list. -/
theorem evict_write_step_progress (ign : Option piece_key) (pass : Nat) (st : evict_state)
    (pk : piece_key) (h : cache_invariant st.c) (hn : 0 ≤ st.num) :
    evict_progress st (evict_write_step ign pass st pk)
      ∧ kept_except pk st.c (evict_write_step ign pass st pk).c
      ∧ ((ign ≠ some pk → st.c.exhausted pk) → (evict_write_step ign pass st pk).num = st.num) := by
  have hrefl : evict_progress st st ∧ kept_except pk st.c st.c
      ∧ ((ign ≠ some pk → st.c.exhausted pk) → st.num = st.num) :=
    ⟨evict_progress_refl st hn, kept_except_refl _ _, fun _ => rfl⟩
  unfold evict_write_step
  by_cases hnum : st.num ≤ 0
  · rw [if_pos hnum]; exact hrefl
  · rw [if_neg hnum]
    cases hf : st.c.find_piece pk with
    | none => exact hrefl
    | some pe =>
      dsimp only
      by_cases hig : ign = some pk
      · rw [if_pos hig]; exact hrefl
      · rw [if_neg hig]
        by_cases hok : pe.ok_to_evict false = true
        · rw [if_pos hok]
          have hrel := erase_piece_relinked h hf (ok_to_evict_num_blocks hok)
          exact ⟨relinked_progress hn hrel, hrel.others, fun _ => rfl⟩
        · rw [if_neg hok]
          by_cases hpin : (pe.num_dirty == pe.num_blocks) = true
          · rw [if_pos hpin]; exact hrefl
          · rw [if_neg hpin]
            obtain ⟨e1, e2, _, _, e5, _⟩ := evict_from_piece_progress st
              (write_pass_limit pe pass st.c.m_block_size).toNat h hf hn
            have hinv1 := (evict_from_piece_spec ign st
              (write_pass_limit pe pass st.c.m_block_size).toNat h hf hig).1
            cases hf1 : (evict_from_piece st pe
                (write_pass_limit pe pass st.c.m_block_size).toNat).c.find_piece pk with
            | none => exact ⟨e1, e2, fun hx => e5 (hx hig)⟩
            | some pe1 =>
              dsimp only
              by_cases hok1 : pe1.ok_to_evict false = true
              · rw [if_pos hok1]
                have hrel := erase_piece_relinked hinv1 hf1 (ok_to_evict_num_blocks hok1)
                exact ⟨evict_progress_trans e1 (relinked_progress e1.num_nonneg hrel),
                  kept_except_trans e2 hrel.others, fun hx => e5 (hx hig)⟩
              · rw [if_neg hok1]
                exact ⟨e1, e2, fun hx => e5 (hx hig)⟩

/-! ## What an eviction frees: the piece loops -/

theorem kept_compose {c1 c2 c3 : block_cache} {k : piece_key}
    (h12 : c2.find_piece k = c1.find_piece k
      ∨ (c2.find_piece k = none ∧ c1.filled_slots k = 0))
    (h23 : c3.find_piece k = c2.find_piece k
      ∨ (c3.find_piece k = none ∧ c2.filled_slots k = 0)) :
    c3.find_piece k = c1.find_piece k ∨ (c3.find_piece k = none ∧ c1.filled_slots k = 0) := by
  rcases h23 with e | ⟨e, z⟩
  · rcases h12 with e1 | ⟨e1, z1⟩
    · exact Or.inl (e.trans e1)
    · exact Or.inr ⟨e.trans e1, z1⟩
  · rcases h12 with e1 | ⟨_, z1⟩
    · exact Or.inr ⟨e, by rw [← filled_slots_congr e1]; exact z⟩
    · exact Or.inr ⟨e, z1⟩

theorem kept_filled {c c2 : block_cache} {k : piece_key}
    (h : c2.find_piece k = c.find_piece k ∨ (c2.find_piece k = none ∧ c.filled_slots k = 0)) :
    c2.filled_slots k = c.filled_slots k := by
  rcases h with e | ⟨e, z⟩
  · exact filled_slots_congr e
  · rw [filled_slots_none e, z]

theorem state_of_none {c : block_cache} {pk : piece_key} (hf : c.find_piece pk = none) :
    c.state_of pk = none := by
  unfold block_cache.state_of; rw [hf]; rfl

theorem state_of_congr {c d : block_cache} {k : piece_key}
    (h : d.find_piece k = c.find_piece k) : d.state_of k = c.state_of k := by
  unfold block_cache.state_of; rw [h]

theorem kept_state {c c2 : block_cache} {k : piece_key} {j : Nat}
    (h : c2.find_piece k = c.find_piece k ∨ (c2.find_piece k = none ∧ c.filled_slots k = 0))
    (hs : c.state_of k ≠ some j) : c2.state_of k ≠ some j := by
  rcases h with e | ⟨e, _⟩
  · rw [state_of_congr e]; exact hs
  · rw [state_of_none e]; exact fun x => by cases x

/-- A piece loop of `try_evict_blocks`, given what each of its iterations does:
the invariant is kept, `num` counts what is freed, the pieces outside the list
are not touched, and nothing is freed when the pieces of the list hold no
evictable slot. -/
theorem evict_fold_progress (ign : Option piece_key)
    (step : evict_state → piece_key → evict_state)
    (hstep : ∀ st pk, cache_invariant st.c → 0 ≤ st.num →
      cache_invariant (step st pk).c ∧ evict_progress st (step st pk)
        ∧ kept_except pk st.c (step st pk).c
        ∧ ((ign ≠ some pk → st.c.exhausted pk) → (step st pk).num = st.num)) :
    ∀ (l : List piece_key) (st : evict_state), cache_invariant st.c → 0 ≤ st.num →
      cache_invariant (l.foldl step st).c
        ∧ evict_progress st (l.foldl step st)
        ∧ (∀ k, k ∉ l → (l.foldl step st).c.find_piece k = st.c.find_piece k
            ∨ ((l.foldl step st).c.find_piece k = none ∧ st.c.filled_slots k = 0))
        ∧ ((∀ k ∈ l, ign ≠ some k → st.c.exhausted k) → (l.foldl step st).num = st.num) := by
  intro l
  induction l with
  | nil =>
    intro st h hn
    exact ⟨h, evict_progress_refl st hn, fun _ _ => Or.inl rfl, fun _ => rfl⟩
  | cons pk l ih =>
    intro st h hn
    rw [List.foldl_cons]
    obtain ⟨a1, a2, a3, a4⟩ := hstep st pk h hn
    obtain ⟨b1, b3, b4, b5⟩ := ih (step st pk) a1 a2.num_nonneg
    refine ⟨b1, evict_progress_trans a2 b3, ?_, ?_⟩
    · intro k hk
      have hk1 : k ≠ pk := fun e => hk (e ▸ List.mem_cons_self _ _)
      have hk2 : k ∉ l := fun e => hk (List.mem_cons_of_mem _ e)
      exact kept_compose (a3 k hk1) (b4 k hk2)
    · intro hall
      rw [b5 (fun k hk hne => evict_progress_exhausted a2 (hall k (List.mem_cons_of_mem _ hk) hne)),
        a4 (hall pk (List.mem_cons_self _ _))]

theorem evict_read_step_sound (ign : Option piece_key) (st : evict_state) (pk : piece_key)
    (h : cache_invariant st.c) (hn : 0 ≤ st.num) :
    cache_invariant (evict_read_step ign st pk).c ∧ evict_progress st (evict_read_step ign st pk)
      ∧ kept_except pk st.c (evict_read_step ign st pk).c
      ∧ ((ign ≠ some pk → st.c.exhausted pk) → (evict_read_step ign st pk).num = st.num) := by
  obtain ⟨a1, a2, _, a4, _⟩ := evict_read_step_progress ign st pk h hn
  exact ⟨(evict_read_step_spec ign st pk h).1, a1, a2, a4⟩

theorem evict_write_step_sound (ign : Option piece_key) (pass : Nat) (st : evict_state)
    (pk : piece_key) (h : cache_invariant st.c) (hn : 0 ≤ st.num) :
    cache_invariant (evict_write_step ign pass st pk).c
      ∧ evict_progress st (evict_write_step ign pass st pk)
      ∧ kept_except pk st.c (evict_write_step ign pass st pk).c
      ∧ ((ign ≠ some pk → st.c.exhausted pk) → (evict_write_step ign pass st pk).num = st.num) := by
  obtain ⟨a1, a2, a4⟩ := evict_write_step_progress ign pass st pk h hn
  exact ⟨(evict_write_step_spec ign pass st pk h).1, a1, a2, a4⟩

/-- The piece loop over read pieces goes through its list in order: a piece
loses a block only when the pieces before it hold no evictable slot any more,
and when the loop ends with `num > 0` no piece of the list holds one.  It
changes no list other than those of its pieces and the ghost lists. -/
theorem evict_read_fold_order (ign : Option piece_key) :
    ∀ (l : List piece_key) (st : evict_state), cache_invariant st.c → pinned_ok st.c →
      0 ≤ st.num → l.Nodup →
      (0 < (l.foldl (evict_read_step ign) st).num →
          ∀ k ∈ l, ign ≠ some k → (l.foldl (evict_read_step ign) st).c.exhausted k)
      ∧ (∀ xs k ys, l = xs ++ k :: ys →
          (l.foldl (evict_read_step ign) st).c.filled_slots k < st.c.filled_slots k →
          ∀ k2 ∈ xs, ign ≠ some k2 → (l.foldl (evict_read_step ign) st).c.exhausted k2)
      ∧ (∀ j, (∀ k ∈ l, st.c.state_of k ≠ some j) → j ≠ read_lru1_ghost →
          j ≠ read_lru2_ghost → (l.foldl (evict_read_step ign) st).c.m_lru j = st.c.m_lru j) := by
  intro l
  induction l with
  | nil =>
    intro st _ _ _ _
    refine ⟨fun _ k hk => (by cases hk), ?_, fun _ _ _ _ => rfl⟩
    intro xs k ys he
    cases xs <;> cases he
  | cons pk l ih =>
    intro st h hp hn hnd
    rw [List.nodup_cons] at hnd
    rw [List.foldl_cons]
    obtain ⟨a1, a2, a3, _, a5⟩ := evict_read_step_progress ign st pk h hn
    have hinv1 := (evict_read_step_spec ign st pk h).1
    have hp1 := evict_progress_pinned a1 hinv1 hp
    obtain ⟨_, b3, _, _⟩ := evict_fold_progress ign _ (evict_read_step_sound ign) l
      (evict_read_step ign st pk) hinv1 a1.num_nonneg
    obtain ⟨c1, c2, c3⟩ := ih (evict_read_step ign st pk) hinv1 hp1 a1.num_nonneg hnd.2
    have hle := b3.num_le
    have hnn := b3.num_nonneg
    refine ⟨?_, ?_, ?_⟩
    · intro hpos k hk hne
      rcases List.mem_cons.1 hk with rfl | hk
      · exact evict_progress_exhausted b3 (a5 hp (by omega) hne)
      · exact c1 hpos k hk hne
    · intro xs k ys he hlt k2 hk2 hne
      cases xs with
      | nil => cases hk2
      | cons x xs =>
        rw [List.cons_append] at he
        injection he with he1 he2
        subst he1
        have hkl : k ∈ l := by rw [he2]; exact List.mem_append_right _ (List.mem_cons_self _ _)
        have hkne : k ≠ pk := fun e => hnd.1 (e ▸ hkl)
        have hlt1 : (l.foldl (evict_read_step ign) (evict_read_step ign st pk)).c.filled_slots k
            < (evict_read_step ign st pk).c.filled_slots k := by
          rw [kept_except_filled a2 hkne]; exact hlt
        rcases List.mem_cons.1 hk2 with rfl | hk2
        · have hnum : (l.foldl (evict_read_step ign) (evict_read_step ign st k2)).num
              ≠ (evict_read_step ign st k2).num := by
            intro e
            have := b3.same e k
            omega
          exact evict_progress_exhausted b3 (a5 hp (by omega) hne)
        · exact c2 xs k ys he2 hlt1 k2 hk2 hne
    · intro j hj h3 h5
      rw [c3 j (fun k hk => kept_state (a2 k (fun e => hnd.1 (e ▸ hk)))
        (hj k (List.mem_cons_of_mem _ hk))) h3 h5]
      exact a3 j (hj pk (List.mem_cons_self _ _)) h3 h5

theorem evict_write_step_lists (ign : Option piece_key) (pass : Nat) (st : evict_state)
    (pk : piece_key) :
    ∀ j k, k ∈ (evict_write_step ign pass st pk).c.m_lru j → k ∈ st.c.m_lru j := by
  intro j k
  have herase : ∀ c : block_cache, k ∈ (c.erase_piece pk).m_lru j → k ∈ c.m_lru j := by
    intro c hk
    cases hf : c.find_piece pk with
    | none =>
      unfold block_cache.erase_piece at hk
      rw [hf] at hk
      exact hk
    | some pe =>
      rw [erase_piece_lru hf] at hk
      exact mem_lru_unlink hk
  unfold evict_write_step
  by_cases hnum : st.num ≤ 0
  · rw [if_pos hnum]; exact id
  · rw [if_neg hnum]
    cases hf : st.c.find_piece pk with
    | none => exact id
    | some pe =>
      dsimp only
      by_cases hig : ign = some pk
      · rw [if_pos hig]; exact id
      · rw [if_neg hig]
        by_cases hok : pe.ok_to_evict false = true
        · rw [if_pos hok]; exact herase _
        · rw [if_neg hok]
          by_cases hpin : (pe.num_dirty == pe.num_blocks) = true
          · rw [if_pos hpin]; exact id
          · rw [if_neg hpin]
            cases hf1 : (evict_from_piece st pe
                (write_pass_limit pe pass st.c.m_block_size).toNat).c.find_piece pk with
            | none => exact id
            | some pe1 =>
              dsimp only
              by_cases hok1 : pe1.ok_to_evict false = true
              · rw [if_pos hok1]
                intro hk
                exact herase (evict_from_piece st pe
                  (write_pass_limit pe pass st.c.m_block_size).toNat).c hk
              · rw [if_neg hok1]; exact id

theorem evict_write_fold_lists (ign : Option piece_key) (pass : Nat) :
    ∀ (l : List piece_key) (st : evict_state) (j : Nat) (k : piece_key),
      k ∈ (l.foldl (evict_write_step ign pass) st).c.m_lru j → k ∈ st.c.m_lru j := by
  intro l
  induction l with
  | nil => intro st j k hk; exact hk
  | cons pk l ih =>
    intro st j k hk
    rw [List.foldl_cons] at hk
    exact evict_write_step_lists ign pass st pk j k (ih _ j k hk)

/-! ## What an eviction frees: the whole call -/

theorem lru_state_of {c : block_cache} (h : cache_invariant c) {i : Nat} (hi : i < num_lrus)
    {k : piece_key} (hk : k ∈ c.m_lru i) : c.state_of k = some i := by
  obtain ⟨p, hp, hs, _⟩ := (h.lists i hi).2 k hk
  rw [state_of_find hp, hs]

theorem evict_order_cases (c : block_cache) :
    c.evict_order = (read_lru1, read_lru2) ∨ c.evict_order = (read_lru2, read_lru1) := by
  unfold block_cache.evict_order
  split_ifs <;> simp

theorem evict_read_lists_progress (ign : Option piece_key) (order : Nat × Nat)
    (st : evict_state) (h : cache_invariant st.c) (hn : 0 ≤ st.num) :
    cache_invariant (evict_read_lists ign order st).c
      ∧ evict_progress st (evict_read_lists ign order st)
      ∧ ((∀ k, ign ≠ some k → st.c.exhausted k) → (evict_read_lists ign order st).num = st.num) := by
  obtain ⟨a1, a2, _, a4⟩ := evict_fold_progress ign _ (evict_read_step_sound ign)
    (st.c.m_lru volatile_read_lru) st h hn
  obtain ⟨b1, b2, _, b4⟩ := evict_fold_progress ign _ (evict_read_step_sound ign)
    (((st.c.m_lru volatile_read_lru).foldl (evict_read_step ign) st).c.m_lru order.1) _ a1
    a2.num_nonneg
  obtain ⟨c1, c2, _, c4⟩ := evict_fold_progress ign _ (evict_read_step_sound ign)
    (((((st.c.m_lru volatile_read_lru).foldl (evict_read_step ign) st).c.m_lru order.1).foldl
      (evict_read_step ign) ((st.c.m_lru volatile_read_lru).foldl (evict_read_step ign) st)).c.m_lru
        order.2) _ b1 b2.num_nonneg
  refine ⟨c1, evict_progress_trans a2 (evict_progress_trans b2 c2), ?_⟩
  intro hall
  have e1 := a4 (fun k _ hne => hall k hne)
  have e2 := b4 (fun k _ hne => evict_progress_exhausted a2 (hall k hne))
  have e3 := c4 (fun k _ hne =>
    evict_progress_exhausted b2 (evict_progress_exhausted a2 (hall k hne)))
  exact e3.trans (e2.trans e1)

theorem evict_write_list_progress (ign : Option piece_key) (st : evict_state)
    (h : cache_invariant st.c) (hn : 0 ≤ st.num) :
    cache_invariant (evict_write_list ign st).c
      ∧ evict_progress st (evict_write_list ign st)
      ∧ (∀ k, k ∉ st.c.m_lru write_lru →
          (evict_write_list ign st).c.filled_slots k = st.c.filled_slots k)
      ∧ ((∀ k, ign ≠ some k → st.c.exhausted k) → (evict_write_list ign st).num = st.num)
      ∧ (st.num ≤ 0 → evict_write_list ign st = st) := by
  unfold evict_write_list
  by_cases hc : (decide (st.num > 0) && decide (st.c.m_read_cache_size > st.c.m_pinned_blocks)) = true
  · rw [if_pos hc]
    obtain ⟨a1, a2, a3, a4⟩ := evict_fold_progress ign _ (evict_write_step_sound ign 0)
      (st.c.m_lru write_lru) st h hn
    obtain ⟨b1, b2, b3, b4⟩ := evict_fold_progress ign _ (evict_write_step_sound ign 1)
      (((st.c.m_lru write_lru).foldl (evict_write_step ign 0) st).c.m_lru write_lru) _ a1
      a2.num_nonneg
    refine ⟨b1, evict_progress_trans a2 b2, ?_, ?_, ?_⟩
    · intro k hk
      have hk2 : k ∉ ((st.c.m_lru write_lru).foldl (evict_write_step ign 0) st).c.m_lru write_lru :=
        fun e => hk (evict_write_fold_lists ign 0 _ st _ k e)
      rw [kept_filled (b3 k hk2), kept_filled (a3 k hk)]
    · intro hall
      have e1 := a4 (fun k _ hne => hall k hne)
      have e2 := b4 (fun k _ hne => evict_progress_exhausted a2 (hall k hne))
      exact e2.trans e1
    · intro hle
      simp only [Bool.and_eq_true, decide_eq_true_eq] at hc
      omega
  · rw [if_neg hc]
    exact ⟨h, evict_progress_refl st hn, fun _ _ => rfl, fun _ => rfl, fun _ => rfl⟩

/-- The three read lists hold different pieces, none of them in the write
list. -/
theorem evict_sequence_nodup {c : block_cache} (h : cache_invariant c) :
    c.evict_sequence.Nodup
      ∧ (∀ k ∈ c.evict_sequence, c.state_of k ≠ some write_lru)
      ∧ (∀ k ∈ c.evict_sequence, k ∉ c.m_lru write_lru) := by
  have hv := (h.lists volatile_read_lru (by decide)).1
  have h1 := (h.lists read_lru1 (by decide)).1
  have h2 := (h.lists read_lru2 (by decide)).1
  have sv : ∀ k ∈ c.m_lru volatile_read_lru, c.state_of k = some volatile_read_lru :=
    fun k hk => lru_state_of h (by decide) hk
  have s1 : ∀ k ∈ c.m_lru read_lru1, c.state_of k = some read_lru1 :=
    fun k hk => lru_state_of h (by decide) hk
  have s2 : ∀ k ∈ c.m_lru read_lru2, c.state_of k = some read_lru2 :=
    fun k hk => lru_state_of h (by decide) hk
  have sw : ∀ k ∈ c.m_lru write_lru, c.state_of k = some write_lru :=
    fun k hk => lru_state_of h (by decide) hk
  have hstate : ∀ k ∈ c.evict_sequence, c.state_of k = some volatile_read_lru
      ∨ c.state_of k = some read_lru1 ∨ c.state_of k = some read_lru2 := by
    intro k hk
    unfold block_cache.evict_sequence at hk
    rcases evict_order_cases c with e | e <;> rw [e] at hk <;>
      rcases List.mem_append.1 hk with hk | hk
    · rcases List.mem_append.1 hk with hk | hk
      · exact Or.inl (sv k hk)
      · exact Or.inr (Or.inl (s1 k hk))
    · exact Or.inr (Or.inr (s2 k hk))
    · rcases List.mem_append.1 hk with hk | hk
      · exact Or.inl (sv k hk)
      · exact Or.inr (Or.inr (s2 k hk))
    · exact Or.inr (Or.inl (s1 k hk))
  have hnw : ∀ k ∈ c.evict_sequence, c.state_of k ≠ some write_lru := by
    intro k hk e
    rcases hstate k hk with e1 | e1 | e1 <;> rw [e1] at e <;> exact absurd e (by decide)
  refine ⟨?_, hnw, fun k hk hw => hnw k hk (sw k hw)⟩
  unfold block_cache.evict_sequence
  rcases evict_order_cases c with e | e <;> rw [e]
  · refine List.Nodup.append (List.Nodup.append hv h1 ?_) h2 ?_
    · intro k hk1 hk2
      have := (sv k hk1).symm.trans (s1 k hk2)
      exact absurd this (by decide)
    · intro k hk1 hk2
      rcases List.mem_append.1 hk1 with hk1 | hk1
      · exact absurd ((sv k hk1).symm.trans (s2 k hk2)) (by decide)
      · exact absurd ((s1 k hk1).symm.trans (s2 k hk2)) (by decide)
  · refine List.Nodup.append (List.Nodup.append hv h2 ?_) h1 ?_
    · intro k hk1 hk2
      exact absurd ((sv k hk1).symm.trans (s2 k hk2)) (by decide)
    · intro k hk1 hk2
      rcases List.mem_append.1 hk1 with hk1 | hk1
      · exact absurd ((sv k hk1).symm.trans (s1 k hk2)) (by decide)
      · exact absurd ((s2 k hk1).symm.trans (s1 k hk2)) (by decide)

/-- The loop over the three read lists is one pass over `evict_sequence`:
emptying a list changes neither of the lists visited after it. -/
theorem evict_read_lists_eq (ign : Option piece_key) (st : evict_state)
    (h : cache_invariant st.c) (hp : pinned_ok st.c) (hn : 0 ≤ st.num) :
    evict_read_lists ign st.c.evict_order st
      = st.c.evict_sequence.foldl (evict_read_step ign) st := by
  have hv := (h.lists volatile_read_lru (by decide)).1
  have sv : ∀ k ∈ st.c.m_lru volatile_read_lru, st.c.state_of k = some volatile_read_lru :=
    fun k hk => lru_state_of h (by decide) hk
  obtain ⟨a1, a2, _, _⟩ := evict_fold_progress ign _ (evict_read_step_sound ign)
    (st.c.m_lru volatile_read_lru) st h hn
  have hp1 := evict_progress_pinned a2 a1 hp
  obtain ⟨_, _, a3⟩ := evict_read_fold_order ign (st.c.m_lru volatile_read_lru) st h hp hn hv
  have key : ∀ o1 o2 : Nat, (o1 = read_lru1 ∧ o2 = read_lru2) ∨ (o1 = read_lru2 ∧ o2 = read_lru1) →
      evict_read_lists ign (o1, o2) st
        = (st.c.m_lru volatile_read_lru ++ st.c.m_lru o1 ++ st.c.m_lru o2).foldl
            (evict_read_step ign) st := by
    intro o1 o2 ho
    have hne : o1 ≠ o2 ∧ o1 < num_lrus ∧ o1 ≠ volatile_read_lru ∧ o2 ≠ volatile_read_lru
        ∧ o1 ≠ read_lru1_ghost ∧ o1 ≠ read_lru2_ghost ∧ o2 ≠ read_lru1_ghost
        ∧ o2 ≠ read_lru2_ghost := by
      rcases ho with ⟨rfl, rfl⟩ | ⟨rfl, rfl⟩ <;> decide
    obtain ⟨n1, n2, n3, n4, n5, n6, n7, n8⟩ := hne
    have e1 : ((st.c.m_lru volatile_read_lru).foldl (evict_read_step ign) st).c.m_lru o1
        = st.c.m_lru o1 :=
      a3 o1 (fun k hk e => n3 (Option.some.inj ((sv k hk).symm.trans e)).symm) n5 n6
    have e2 : ((st.c.m_lru volatile_read_lru).foldl (evict_read_step ign) st).c.m_lru o2
        = st.c.m_lru o2 :=
      a3 o2 (fun k hk e => n4 (Option.some.inj ((sv k hk).symm.trans e)).symm) n7 n8
    have hnd1 : (st.c.m_lru o1).Nodup := (h.lists o1 n2).1
    obtain ⟨_, _, b3⟩ := evict_read_fold_order ign (st.c.m_lru o1)
      ((st.c.m_lru volatile_read_lru).foldl (evict_read_step ign) st) a1 hp1 a2.num_nonneg hnd1
    have e3 : ((st.c.m_lru o1).foldl (evict_read_step ign)
        ((st.c.m_lru volatile_read_lru).foldl (evict_read_step ign) st)).c.m_lru o2
        = st.c.m_lru o2 := by
      rw [b3 o2 ?_ n7 n8, e2]
      intro k hk e
      have hk1 : k ∈ ((st.c.m_lru volatile_read_lru).foldl (evict_read_step ign) st).c.m_lru o1 := by
        rw [e1]; exact hk
      exact n1 (Option.some.inj ((lru_state_of a1 n2 hk1).symm.trans e))
    unfold evict_read_lists
    dsimp only
    rw [e1, e3, List.foldl_append, List.foldl_append]
  unfold block_cache.evict_sequence
  rcases evict_order_cases st.c with e | e <;> rw [e]
  · exact key _ _ (Or.inl ⟨rfl, rfl⟩)
  · exact key _ _ (Or.inr ⟨rfl, rfl⟩)

/-- The result of `try_evict_blocks` for `num > 0` in terms of the state its
loops end in: the pieces and lists are those of the state, the returned value
is its `num`, and its `to_delete` buffers go back to the pool. -/
theorem try_evict_blocks_unfold (c : block_cache) (num : Int) (ign : Option piece_key)
    (hnum : ¬ num ≤ 0) :
    (c.try_evict_blocks num ign).1.m_pieces
        = (evict_write_list ign (evict_read_lists ign c.evict_order
            { c := c, num := num, to_delete := [] })).c.m_pieces
      ∧ (c.try_evict_blocks num ign).1.m_read_cache_size
        = (evict_write_list ign (evict_read_lists ign c.evict_order
            { c := c, num := num, to_delete := [] })).c.m_read_cache_size
      ∧ (c.try_evict_blocks num ign).1.m_write_cache_size
        = (evict_write_list ign (evict_read_lists ign c.evict_order
            { c := c, num := num, to_delete := [] })).c.m_write_cache_size
      ∧ (c.try_evict_blocks num ign).1.m_in_use
        = (evict_write_list ign (evict_read_lists ign c.evict_order
            { c := c, num := num, to_delete := [] })).c.m_in_use
          - (c.evicted_buffers num ign).length
      ∧ (c.try_evict_blocks num ign).2
        = (evict_write_list ign (evict_read_lists ign c.evict_order
            { c := c, num := num, to_delete := [] })).num
      ∧ c.evicted_buffers num ign
        = (evict_write_list ign (evict_read_lists ign c.evict_order
            { c := c, num := num, to_delete := [] })).to_delete := by
  unfold block_cache.try_evict_blocks block_cache.evicted_buffers
  rw [if_neg hnum, if_neg hnum]
  dsimp only
  split_ifs with hd
  · refine ⟨rfl, rfl, rfl, ?_, rfl, rfl⟩
    have : (evict_write_list ign (evict_read_lists ign c.evict_order
        { c := c, num := num, to_delete := [] })).to_delete.length = 0 := by simpa using hd
    rw [this]
    simp
  · exact ⟨rfl, rfl, rfl, rfl, rfl, rfl⟩

/-- C16. `try_evict_blocks(num, ignore)` returns 0 and changes nothing when
`num ≤ 0`.  Otherwise, on a cache that satisfies the invariant, it returns
`num` minus the number of blocks it freed (the buffers it hands back to the
pool), a value between 0 and `num`; `m_read_cache_size` and the number of
clean blocks in the cache drop by exactly that number, `m_write_cache_size`
and the number of dirty blocks are unchanged; and when no piece other than the
one to ignore holds an evictable block (filled, not pinned, not dirty, not
pending), it returns `num`, a remaining count above 0. -/
theorem try_evict_blocks_count (c : block_cache) (num : Int) (ignore : Option piece_key)
    (h : cache_invariant c) :
    (num ≤ 0 → c.try_evict_blocks num ignore = (c, 0))
    ∧ (0 < num →
        (c.try_evict_blocks num ignore).2 = num - (c.evicted_buffers num ignore).length
        ∧ 0 ≤ (c.try_evict_blocks num ignore).2
        ∧ (c.try_evict_blocks num ignore).2 ≤ num
        ∧ (c.try_evict_blocks num ignore).1.m_read_cache_size
            = c.m_read_cache_size - (c.evicted_buffers num ignore).length
        ∧ (c.try_evict_blocks num ignore).1.m_write_cache_size = c.m_write_cache_size
        ∧ (c.try_evict_blocks num ignore).1.m_in_use
            = c.m_in_use - (c.evicted_buffers num ignore).length
        ∧ total (fun p => count_clean p.blocks) (c.try_evict_blocks num ignore).1.m_pieces
            = total (fun p => count_clean p.blocks) c.m_pieces
              - (c.evicted_buffers num ignore).length
        ∧ total (fun p => count_dirty p.blocks) (c.try_evict_blocks num ignore).1.m_pieces
            = total (fun p => count_dirty p.blocks) c.m_pieces
        ∧ ((∀ k, ignore ≠ some k → c.exhausted k) →
            (c.try_evict_blocks num ignore).2 = num ∧ 0 < (c.try_evict_blocks num ignore).2)) := by
  refine ⟨?_, ?_⟩
  · intro hle
    unfold block_cache.try_evict_blocks
    rw [if_pos hle]
  · intro hpos
    have hnum : ¬ num ≤ 0 := by omega
    have hinv2 := (try_evict_blocks_spec c num ignore h).1
    obtain ⟨u1, u2, u3, u4, u5, u6⟩ := try_evict_blocks_unfold c num ignore hnum
    obtain ⟨a1, a2, a3⟩ := evict_read_lists_progress ignore c.evict_order
      { c := c, num := num, to_delete := [] } h (le_of_lt hpos)
    obtain ⟨b1, b2, _, b4, _⟩ := evict_write_list_progress ignore _ a1 a2.num_nonneg
    have hp := evict_progress_trans a2 b2
    have hdel := hp.deleted
    have hr := hp.read_size
    have hw := hp.write_size
    have hi := hp.in_use
    have hnn := hp.num_nonneg
    have hle := hp.num_le
    rw [← u6] at hdel
    rw [← u5] at hdel hr hnn hle
    rw [← u2] at hr
    rw [← u3] at hw
    dsimp only at hdel hr hw hi hnn hle
    simp only [List.length_nil, Nat.cast_zero, zero_add] at hdel
    have hrs : (c.try_evict_blocks num ignore).1.m_read_cache_size
        = c.m_read_cache_size - (c.evicted_buffers num ignore).length := by omega
    refine ⟨by omega, hnn, hle, hrs, hw, ?_, ?_, ?_, ?_⟩
    · rw [u4, hi]
    · rw [← hinv2.read_size, ← h.read_size]; exact hrs
    · rw [← hinv2.write_size, ← h.write_size]; exact hw
    · intro hall
      have e1 := a3 hall
      have e2 := b4 (fun k hne => evict_progress_exhausted a2 (hall k hne))
      have e3 : (c.try_evict_blocks num ignore).2 = num := by
        rw [u5, e2, e1]
      exact ⟨e3, by rw [e3]; exact hpos⟩

/-- Witness of C16 and of the scenario "eviction respects pinning": in
`pinned_example` a call for two blocks frees the one unpinned block and
returns the remaining count 1. -/
theorem try_evict_blocks_count_witness :
    cache_invariant pinned_example
    ∧ (pinned_example.evicted_buffers 2 none).length = 1
    ∧ (pinned_example.try_evict_blocks 2 none).2 = 1
    ∧ (pinned_example.try_evict_blocks 2 none).1.m_read_cache_size = 1 := by
  have h := (try_evict_blocks_count pinned_example 2 none (by decide)).2 (by decide)
  have hl : (pinned_example.evicted_buffers 2 none).length = 1 := by decide
  refine ⟨by decide, hl, ?_, ?_⟩
  · rw [h.1, hl]; rfl
  · rw [h.2.2.2.1, hl]; rfl

/-- C17. On a cache that satisfies the invariant and whose `pinned` counters
agree with the slots, `try_evict_blocks` works through the pieces of
`evict_sequence`: the volatile list first, then `read_lru2` before `read_lru1`
after a ghost hit in list 1, `read_lru1` before `read_lru2` after a ghost hit
in list 2, and after a miss the list holding more pieces first; each list
from its least recently used piece.  A piece loses a block only when every
piece before it in that sequence, the piece to ignore apart, has no evictable
block left, and a piece of the write list only when no piece of the three
read lists has one. -/
theorem try_evict_blocks_order (c : block_cache) (num : Int) (ignore : Option piece_key)
    (h : cache_invariant c) (hp : pinned_ok c) :
    (c.m_last_cache_op = ghost_hit_lru1 →
        c.evict_sequence = c.m_lru volatile_read_lru ++ c.m_lru read_lru2 ++ c.m_lru read_lru1)
    ∧ (c.m_last_cache_op = ghost_hit_lru2 →
        c.evict_sequence = c.m_lru volatile_read_lru ++ c.m_lru read_lru1 ++ c.m_lru read_lru2)
    ∧ (c.m_last_cache_op = cache_miss →
        (c.m_lru read_lru2).length > (c.m_lru read_lru1).length →
        c.evict_sequence = c.m_lru volatile_read_lru ++ c.m_lru read_lru2 ++ c.m_lru read_lru1)
    ∧ (c.m_last_cache_op = cache_miss →
        (c.m_lru read_lru1).length > (c.m_lru read_lru2).length →
        c.evict_sequence = c.m_lru volatile_read_lru ++ c.m_lru read_lru1 ++ c.m_lru read_lru2)
    ∧ (∀ xs k ys, c.evict_sequence = xs ++ k :: ys →
        (c.try_evict_blocks num ignore).1.filled_slots k < c.filled_slots k →
        ∀ k2 ∈ xs, ignore ≠ some k2 → (c.try_evict_blocks num ignore).1.exhausted k2)
    ∧ (∀ k ∈ c.m_lru write_lru,
        (c.try_evict_blocks num ignore).1.filled_slots k < c.filled_slots k →
        ∀ k2 ∈ c.evict_sequence, ignore ≠ some k2 →
          (c.try_evict_blocks num ignore).1.exhausted k2) := by
  have hseq : ∀ o : Nat × Nat, c.evict_order = o →
      c.evict_sequence = c.m_lru volatile_read_lru ++ c.m_lru o.1 ++ c.m_lru o.2 := by
    intro o ho
    unfold block_cache.evict_sequence
    rw [ho]
  refine ⟨?_, ?_, ?_, ?_, ?_, ?_⟩
  · intro e
    refine hseq (read_lru2, read_lru1) ?_
    unfold block_cache.evict_order
    rw [e]; rfl
  · intro e
    refine hseq (read_lru1, read_lru2) ?_
    unfold block_cache.evict_order
    rw [e]; rfl
  · intro e hl
    refine hseq (read_lru2, read_lru1) ?_
    unfold block_cache.evict_order
    rw [e, if_pos (by decide), if_pos hl]
  · intro e hl
    refine hseq (read_lru1, read_lru2) ?_
    unfold block_cache.evict_order
    rw [e, if_pos (by decide), if_neg (by omega)]
  · intro xs k ys hsplit hlt k2 hk2 hne
    by_cases hnum : num ≤ 0
    · unfold block_cache.try_evict_blocks at hlt
      rw [if_pos hnum] at hlt
      exact absurd hlt (lt_irrefl _)
    · obtain ⟨u1, _, _, _, _, _⟩ := try_evict_blocks_unfold c num ignore hnum
      have hn0 : (0 : Int) ≤ num := by omega
      obtain ⟨a1, a2, _⟩ := evict_read_lists_progress ignore c.evict_order
        { c := c, num := num, to_delete := [] } h hn0
      obtain ⟨_, b2, b3, _, _⟩ := evict_write_list_progress ignore _ a1 a2.num_nonneg
      obtain ⟨s1, s2, s3⟩ := evict_sequence_nodup h
      have heq := evict_read_lists_eq ignore { c := c, num := num, to_delete := [] } h hp hn0
      obtain ⟨_, o2, o3⟩ := evict_read_fold_order ignore c.evict_sequence
        { c := c, num := num, to_delete := [] } h hp hn0 s1
      have hkseq : k ∈ c.evict_sequence := by
        rw [hsplit]; exact List.mem_append_right _ (List.mem_cons_self _ _)
      have hwl : (evict_read_lists ignore c.evict_order
          { c := c, num := num, to_delete := [] }).c.m_lru write_lru = c.m_lru write_lru := by
        rw [heq]
        exact o3 write_lru s2 (by decide) (by decide)
      have hf4 := b3 k (by rw [hwl]; exact s3 k hkseq)
      have hfr := filled_slots_congr (find_piece_congr u1 k)
      rw [hfr, hf4, heq] at hlt
      have hex := o2 xs k ys hsplit hlt k2 hk2 hne
      rw [← heq] at hex
      have hex4 := evict_progress_exhausted b2 hex
      intro p hf
      rw [find_piece_congr u1 k2] at hf
      exact hex4 p hf
  · intro k hkw hlt k2 hk2 hne
    by_cases hnum : num ≤ 0
    · unfold block_cache.try_evict_blocks at hlt
      rw [if_pos hnum] at hlt
      exact absurd hlt (lt_irrefl _)
    · obtain ⟨u1, _, _, _, _, _⟩ := try_evict_blocks_unfold c num ignore hnum
      have hn0 : (0 : Int) ≤ num := by omega
      obtain ⟨a1, a2, _⟩ := evict_read_lists_progress ignore c.evict_order
        { c := c, num := num, to_delete := [] } h hn0
      obtain ⟨_, b2, _, _, b5⟩ := evict_write_list_progress ignore _ a1 a2.num_nonneg
      obtain ⟨s1, _, s3⟩ := evict_sequence_nodup h
      have heq := evict_read_lists_eq ignore { c := c, num := num, to_delete := [] } h hp hn0
      obtain ⟨o1, _, _⟩ := evict_read_fold_order ignore c.evict_sequence
        { c := c, num := num, to_delete := [] } h hp hn0 s1
      obtain ⟨_, _, g3, _⟩ := evict_fold_progress ignore _ (evict_read_step_sound ignore)
        c.evict_sequence { c := c, num := num, to_delete := [] } h hn0
      have hknot : k ∉ c.evict_sequence := fun e => s3 k e hkw
      have hf3 := kept_filled (g3 k hknot)
      have hfr := filled_slots_congr (find_piece_congr u1 k)
      rw [hfr] at hlt
      have hpos : 0 < (evict_read_lists ignore c.evict_order
          { c := c, num := num, to_delete := [] }).num := by
        by_contra hle
        rw [b5 (by omega), heq, hf3] at hlt
        exact absurd hlt (lt_irrefl _)
      rw [heq] at hpos
      have hex := o1 hpos k2 hk2 hne
      rw [← heq] at hex
      have hex4 := evict_progress_exhausted b2 hex
      intro p hf
      rw [find_piece_congr u1 k2] at hf
      exact hex4 p hf

/-- Witness of C17: in `order_example`, after a ghost hit in list 1, a call
for two blocks frees the block of the volatile piece and the block of the
`read_lru2` piece; the `read_lru1` piece, last in the sequence, keeps its
block. -/
theorem try_evict_blocks_order_witness :
    cache_invariant order_example ∧ pinned_ok order_example
    ∧ order_example.evict_sequence = [(1, 0), (1, 2), (1, 1)]
    ∧ (order_example.try_evict_blocks 2 none).1.filled_slots (1, 2) = 0
    ∧ (order_example.try_evict_blocks 2 none).1.filled_slots (1, 1) = 1
    ∧ (order_example.try_evict_blocks 2 none).1.exhausted (1, 0) :=
  ⟨by decide, by decide, by decide, by decide, by decide,
   (try_evict_blocks_order order_example 2 none (by decide) (by decide)).2.2.2.2.1
     [(1, 0)] (1, 2) [(1, 1)] (by decide) (by decide) (1, 0) (List.mem_singleton.2 rfl)
     (by decide)⟩

/-! ## C18, C19: cache hits that do not move the piece -/

/-- A hit on a piece of the volatile list never relinks it: whoever asks, and
whether the read is volatile or not, the lists are as before and the piece is
still in state `volatile_read_lru`. -/
theorem cache_hit_volatile_stays (c : block_cache) (pk : piece_key) (p : cached_piece_entry)
    (requester : Nat) (volatile_read : Bool) (hf : c.find_piece pk = some p)
    (hs : p.cache_state = volatile_read_lru) :
    (c.cache_hit pk requester volatile_read).m_lru = c.m_lru
      ∧ (c.cache_hit pk requester volatile_read).state_of pk = some volatile_read_lru
      ∧ (c.cache_hit pk requester volatile_read).m_last_cache_op = c.m_last_cache_op := by
  have hkey : p.key = pk := (find_piece_some_mem hf).2
  have hst : c.state_of pk = some volatile_read_lru := by rw [state_of_find hf, hs]
  have hp1 : (if (requester != 0) = true then
      ({ p with last_requester := requester } : cached_piece_entry) else p).cache_state
      = volatile_read_lru := by
    split_ifs <;> exact hs
  have hk1 : (if (requester != 0) = true then
      ({ p with last_requester := requester } : cached_piece_entry) else p).key = pk := by
    split_ifs <;> exact hkey
  have hcond : (decide ((if (requester != 0) = true then
        ({ p with last_requester := requester } : cached_piece_entry) else p).cache_state
          < read_lru1)
      || decide ((if (requester != 0) = true then
        ({ p with last_requester := requester } : cached_piece_entry) else p).cache_state
          > read_lru2_ghost)) = true := by
    rw [hp1]; decide
  unfold block_cache.cache_hit
  rw [hf]
  dsimp only
  by_cases h1 : ((p.last_requester == requester || requester == 0)
      && (p.cache_state == read_lru1 || p.cache_state == read_lru2
        || p.cache_state == write_lru || p.cache_state == volatile_read_lru)) = true
  · rw [if_pos h1]
    exact ⟨rfl, hst, rfl⟩
  · rw [if_neg h1]
    by_cases h2 : (p.cache_state == volatile_read_lru && volatile_read) = true
    · rw [if_pos h2]
      exact ⟨rfl, hst, rfl⟩
    · rw [if_neg h2, if_pos hcond]
      refine ⟨rfl, ?_, rfl⟩
      rw [state_of_find (find_after_store (d := c.store _) hf hk1 rfl).1, hp1]

/-- A volatile read of a piece of the volatile list changes nothing. -/
theorem cache_hit_volatile_read (c : block_cache) (pk : piece_key) (p : cached_piece_entry)
    (requester : Nat) (hf : c.find_piece pk = some p)
    (hs : p.cache_state = volatile_read_lru) : c.cache_hit pk requester true = c := by
  unfold block_cache.cache_hit
  rw [hf]
  dsimp only
  by_cases h1 : ((p.last_requester == requester || requester == 0)
      && (p.cache_state == read_lru1 || p.cache_state == read_lru2
        || p.cache_state == write_lru || p.cache_state == volatile_read_lru)) = true
  · rw [if_pos h1]
  · rw [if_neg h1, if_pos (by simp [hs])]

/-- C18. The code does not do what the claim (and the comment in `cache_hit`)
says: in `volatile_example` the piece of the volatile list was last requested
by `100`; a proper read (`volatile_read = false`) by the requester `200`
records the new requester and returns at the test `cache_state < read_lru1`:
the piece is still in state `volatile_read_lru` and in the volatile list, and
`read_lru1` is empty. -/
theorem cache_hit_volatile_not_promoted :
    cache_invariant volatile_example
    ∧ volatile_example.state_of (1, 0) = some volatile_read_lru
    ∧ (volatile_example.cache_hit (1, 0) 200 false).state_of (1, 0) = some volatile_read_lru
    ∧ (volatile_example.cache_hit (1, 0) 200 false).m_lru volatile_read_lru = [(1, 0)]
    ∧ (volatile_example.cache_hit (1, 0) 200 false).m_lru read_lru1 = []
    ∧ ((volatile_example.cache_hit (1, 0) 200 false).find_piece (1, 0)).map
        (fun p => p.last_requester) = some 200
    ∧ volatile_example.cache_hit (1, 0) 200 true = volatile_example := by
  refine ⟨by decide, by decide, by decide, by decide, by decide, by decide, ?_⟩
  exact cache_hit_volatile_read volatile_example (1, 0)
    { storage := 1, piece := 0, last_requester := 100
      blocks := [{ buf := 21 }], num_blocks := 1
      cache_state := volatile_read_lru, in_storage := true } 200 (by decide) rfl

/-- C19. For every piece in `read_lru1`, `read_lru2`, `write_lru` or
`volatile_read_lru`, `cache_hit` with a requester equal to the piece's
`last_requester`, or with a null requester, returns at once: the cache is
the same afterwards, so the piece's `cache_state`, the six LRU lists with
their order, `last_requester` and `m_last_cache_op` are as before. -/
theorem cache_hit_same_requester (c : block_cache) (pk : piece_key) (p : cached_piece_entry)
    (requester : Nat) (volatile_read : Bool) (hf : c.find_piece pk = some p)
    (hs : p.cache_state = read_lru1 ∨ p.cache_state = read_lru2
      ∨ p.cache_state = write_lru ∨ p.cache_state = volatile_read_lru)
    (hr : requester = p.last_requester ∨ requester = 0) :
    c.cache_hit pk requester volatile_read = c := by
  unfold block_cache.cache_hit
  rw [hf]
  dsimp only
  rw [if_pos]
  have h1 : (p.last_requester == requester || requester == 0) = true := by
    rcases hr with e | e
    · simp [e]
    · simp [e]
  have h2 : (p.cache_state == read_lru1 || p.cache_state == read_lru2
      || p.cache_state == write_lru || p.cache_state == volatile_read_lru) = true := by
    rcases hs with e | e | e | e <;> simp [e]
  rw [h1, h2]
  rfl

/-- Witness of C19 on `promotion_example`, whose piece 7 is in `read_lru1` with
last requester `100`: a hit by `100` and a hit without requester change
nothing. -/
theorem cache_hit_same_requester_witness :
    promotion_example.cache_hit (1, 7) 100 false = promotion_example
    ∧ promotion_example.cache_hit (1, 7) 0 false = promotion_example :=
  ⟨cache_hit_same_requester promotion_example (1, 7)
      { storage := 1, piece := 7, last_requester := 100
        blocks := [{}, {}], cache_state := read_lru1, in_storage := true }
      100 false (by decide) (Or.inl rfl) (Or.inl rfl),
   cache_hit_same_requester promotion_example (1, 7)
      { storage := 1, piece := 7, last_requester := 100
        blocks := [{}, {}], cache_state := read_lru1, in_storage := true }
      0 false (by decide) (Or.inl rfl) (Or.inr rfl)⟩

/-! ## C20: a dirty block in an empty slot -/

theorem allocate_piece_write_size (c : block_cache) (j : disk_io_job) (cs : Nat) :
    (c.allocate_piece j cs).m_write_cache_size = c.m_write_cache_size := by
  unfold block_cache.allocate_piece
  cases c.find_piece (j.storage, j.piece) with
  | none => rfl
  | some p =>
    dsimp only
    split_ifs <;> rfl

theorem allocate_piece_num_blocks (c : block_cache) (j : disk_io_job) (cs : Nat)
    {pe0 : cached_piece_entry}
    (hf0 : (c.allocate_piece j cs).find_piece (j.storage, j.piece) = some pe0) :
    pe0.num_blocks = c.num_blocks_of (j.storage, j.piece) := by
  cases hf : c.find_piece (j.storage, j.piece) with
  | none =>
    have hfn : c.m_pieces.find? (fun p => p.key == (new_piece c.m_block_size j cs).key)
        = none := hf
    have hk : (j.storage, j.piece) = (new_piece c.m_block_size j cs).key := rfl
    rw [allocate_piece_new cs hf] at hf0
    have h1 : (c.m_pieces ++ [new_piece c.m_block_size j cs]).find?
        (fun p => p.key == (j.storage, j.piece)) = some pe0 := hf0
    rw [find_append_absent _ _ _ hfn, if_pos hk] at h1
    cases h1
    unfold block_cache.num_blocks_of
    rw [hf]
    rfl
  | some p =>
    obtain ⟨pe1, hf1, _, _, hnb, _⟩ := allocate_piece_keeps cs hf
    rw [hf0] at hf1
    cases hf1
    unfold block_cache.num_blocks_of
    rw [hf]
    exact hnb

theorem try_evict_blocks_write_size (c : block_cache) (num : Int) (ign : Option piece_key)
    (h : cache_invariant c) :
    (c.try_evict_blocks num ign).1.m_write_cache_size = c.m_write_cache_size := by
  by_cases hnum : num ≤ 0
  · unfold block_cache.try_evict_blocks
    rw [if_pos hnum]
  · obtain ⟨_, _, u3, _, _, _⟩ := try_evict_blocks_unfold c num ign hnum
    obtain ⟨a1, a2, _⟩ := evict_read_lists_progress ign c.evict_order
      { c := c, num := num, to_delete := [] } h (by dsimp only; omega)
    obtain ⟨_, b2, _, _, _⟩ := evict_write_list_progress ign _ a1 a2.num_nonneg
    rw [u3, b2.write_size, a2.write_size]

theorem clear_slot_empty {c : block_cache} {pk : piece_key} {pe : cached_piece_entry}
    (block buffer : Nat) (hf : c.find_piece pk = some pe)
    (hb : (get_block pe.blocks block).buf = 0) : c.clear_slot pk block buffer = c := by
  unfold block_cache.clear_slot
  rw [hf]
  dsimp only
  rw [if_neg (by simp [hb])]

/-- C20. `add_dirty_block`, within its asserted preconditions, on a slot that
is empty: the slot holds the buffer of the job and is dirty, the job has lost
its buffer, `num_blocks` and `num_dirty` of the piece and `m_write_cache_size`
are one higher than before, and the piece is in state `write_lru`, at the back
(the most recently used end) of the write list and in no other list, whatever
list it was in before. -/
theorem add_dirty_block_empty_slot (c : block_cache) (j : disk_io_job) (evict : Int)
    (h : cache_invariant c) (hpre : add_dirty_block_pre c j)
    (hempty : (c.slot_of (j.storage, j.piece) (c.block_of j)).buf = 0) :
    ∃ pe, (c.add_dirty_block j evict).1.find_piece (j.storage, j.piece) = some pe
      ∧ (get_block pe.blocks (c.block_of j)).buf = j.buffer
      ∧ (get_block pe.blocks (c.block_of j)).dirty = true
      ∧ (c.add_dirty_block j evict).2.buffer = 0
      ∧ pe.num_blocks = c.num_blocks_of (j.storage, j.piece) + 1
      ∧ pe.num_dirty = c.num_dirty_of (j.storage, j.piece) + 1
      ∧ (c.add_dirty_block j evict).1.m_write_cache_size = c.m_write_cache_size + 1
      ∧ pe.cache_state = write_lru
      ∧ ((c.add_dirty_block j evict).1.m_lru write_lru).getLast? = some (j.storage, j.piece)
      ∧ (∀ i, i < num_lrus → i ≠ write_lru →
          (j.storage, j.piece) ∉ (c.add_dirty_block j evict).1.m_lru i) := by
  obtain ⟨hinv, pe0, hf0, hs0, hi, hfind⟩ := add_dirty_block_spec c j evict h hpre
  obtain ⟨pe1, hf1, hnd1, hsl⟩ := allocate_piece_slots c j write_lru
  rw [hf0] at hf1
  cases hf1
  have hb0 : (get_block pe0.blocks (c.block_of j)).buf = 0 := by rw [hsl]; exact hempty
  have hcl : cleared_piece pe0 (c.block_of j) = pe0 := by
    unfold cleared_piece; rw [if_pos hb0]
  rw [hcl] at hfind
  have hnb := allocate_piece_num_blocks c j write_lru hf0
  have h1 := allocate_piece_spec c j write_lru h (by decide) (by decide)
  -- the cache after the eviction
  have h2 : cache_invariant
      (if evict > 0 then
        ((c.allocate_piece j write_lru).try_evict_blocks evict (some (j.storage, j.piece))).1
       else c.allocate_piece j write_lru)
      ∧ (if evict > 0 then
          ((c.allocate_piece j write_lru).try_evict_blocks evict (some (j.storage, j.piece))).1
         else c.allocate_piece j write_lru).find_piece (j.storage, j.piece) = some pe0
      ∧ (if evict > 0 then
          ((c.allocate_piece j write_lru).try_evict_blocks evict (some (j.storage, j.piece))).1
         else c.allocate_piece j write_lru).m_write_cache_size = c.m_write_cache_size := by
    by_cases he : evict > 0
    · rw [if_pos he]
      have hev := try_evict_blocks_spec (c.allocate_piece j write_lru) evict
        (some (j.storage, j.piece)) h1
      refine ⟨hev.1, hev.2.keep_ign _ pe0 rfl hf0 ?_ ?_, ?_⟩
      · exact not_in_ghost_of_state h1 hf0 (Or.inl rfl) (by rw [hs0]; decide)
      · exact not_in_ghost_of_state h1 hf0 (Or.inr rfl) (by rw [hs0]; decide)
      · rw [try_evict_blocks_write_size _ _ _ h1, allocate_piece_write_size]
    · rw [if_neg he]
      exact ⟨h1, hf0, allocate_piece_write_size c j write_lru⟩
  have hres : (c.add_dirty_block j evict).1
      = (if evict > 0 then
          ((c.allocate_piece j write_lru).try_evict_blocks evict (some (j.storage, j.piece))).1
         else c.allocate_piece j write_lru).install_dirty (j.storage, j.piece) (c.block_of j) j := by
    unfold block_cache.add_dirty_block
    dsimp only
    rw [clear_slot_empty (c.block_of j) j.buffer h2.2.1 hb0]
  have h4 := install_dirty_spec (c.block_of j) j h2.1 h2.2.1 hi hb0 hpre.1 hs0
  rw [← hres] at h4
  obtain ⟨_, _, _, k4, k5, _⟩ := h4
  have hlast : ((c.add_dirty_block j evict).1.m_lru write_lru).getLast?
      = some (j.storage, j.piece) := by
    rw [k4, lru_set_same, List.getLast?_append]
    rfl
  refine ⟨_, hfind, ?_, ?_, rfl, ?_, ?_, ?_, hs0, hlast, ?_⟩
  · show (get_block (set_block _ _ _) _).buf = _
    rw [get_block_set_same _ hi]
  · show (get_block (set_block _ _ _) _).dirty = _
    rw [get_block_set_same _ hi]
  · show pe0.num_blocks + 1 = _
    rw [hnb]
  · show pe0.num_dirty + 1 = _
    rw [hnd1]
  · rw [k5, h2.2.2]
  · intro i hi2 hne hm
    obtain ⟨p2, hp2, hst2, _⟩ := (hinv.lists i hi2).2 _ hm
    rw [hfind] at hp2
    cases hp2
    exact hne (hst2.symm.trans hs0)

/-- Witness of C20: in `write_example` the job for the empty slot 2 of the
piece in the write list, and in `promotion_example` a job for block 0 of the
piece held in `read_lru1`, which ends at the back of the write list. -/
theorem add_dirty_block_empty_slot_witness :
    (∃ pe, (write_example.add_dirty_block write_job_example 0).1.find_piece (1, 0) = some pe
      ∧ (get_block pe.blocks 2).buf = 33 ∧ pe.num_blocks = 3 ∧ pe.num_dirty = 2
      ∧ (write_example.add_dirty_block write_job_example 0).1.m_write_cache_size = 2)
    ∧ (∃ pe, (promotion_example.add_dirty_block read_piece_job_example 0).1.find_piece (1, 7)
        = some pe
      ∧ (get_block pe.blocks 0).buf = 41 ∧ pe.cache_state = write_lru
      ∧ ((promotion_example.add_dirty_block read_piece_job_example 0).1.m_lru write_lru).getLast?
          = some (1, 7)
      ∧ (1, 7) ∉ (promotion_example.add_dirty_block read_piece_job_example 0).1.m_lru read_lru1) := by
  obtain ⟨pe, a1, a2, _, _, a5, a6, a7, _, _, _⟩ :=
    add_dirty_block_empty_slot write_example write_job_example 0 (by decide) (by decide)
      (by decide)
  obtain ⟨pe2, b1, b2, _, _, _, _, _, b8, b9, b10⟩ :=
    add_dirty_block_empty_slot promotion_example read_piece_job_example 0 (by decide)
      (by decide) (by decide)
  exact ⟨⟨pe, a1, a2, a5, a6, a7⟩, ⟨pe2, b1, b2, b8, b9, b10 read_lru1 (by decide) (by decide)⟩⟩

/-! ## The wire protocol: integers -/

/-- The phase `read_packet_size` of `on_receive` once the four bytes of the
length are there. -/
theorem on_receive_length (c : bt_peer_connection) (hs : c.m_state = read_packet_size)
    (hfin : c.packet_finished = true) :
    c.on_receive false
      = if (decide (read_int32 c.m_recv_buffer 0 > 1024 * 1024)
            || decide (read_int32 c.m_recv_buffer 0 < 0)) = true then
          Except.error "packet > 1 MB"
        else if (read_int32 c.m_recv_buffer 0 == 0) = true then
          Except.ok ({ (c.call incoming_call.keepalive) with
            m_state := read_packet_size }.reset_recv_buffer 4)
        else Except.ok ({ c with m_state := read_packet }.reset_recv_buffer
          (read_int32 c.m_recv_buffer 0)) := by
  unfold bt_peer_connection.on_receive
  simp [hs, hfin]

/-- C11. In the phase `read_packet_size`, once the four bytes of the length are
there, `on_receive` throws (the connection is closed, `read_packet` is not
entered) when the length, read as a big-endian signed 32-bit integer, is
negative or above 1048576; for a length from 1 to 1048576 it moves to
`read_packet` expecting that many bytes; and a length of 0 is a keepalive:
`incoming_keepalive` is called and the phase stays `read_packet_size`,
expecting 4 bytes. -/
theorem on_receive_packet_size (c : bt_peer_connection) (hs : c.m_state = read_packet_size)
    (hp : c.m_packet_size = 4) (hl : c.m_recv_buffer.length = 4) :
    ((read_int32 c.m_recv_buffer 0 < 0 ∨ 1048576 < read_int32 c.m_recv_buffer 0) →
        c.on_receive false = Except.error "packet > 1 MB")
    ∧ ((1 ≤ read_int32 c.m_recv_buffer 0 ∧ read_int32 c.m_recv_buffer 0 ≤ 1048576) →
        c.on_receive false = Except.ok
          { c with m_state := read_packet, m_recv_buffer := []
                   m_packet_size := read_int32 c.m_recv_buffer 0 })
    ∧ (read_int32 c.m_recv_buffer 0 = 0 →
        c.on_receive false = Except.ok
          { c with m_state := read_packet_size, m_recv_buffer := [], m_packet_size := 4
                   incoming := c.incoming ++ [incoming_call.keepalive] }) := by
  have hfin : c.packet_finished = true := by
    unfold bt_peer_connection.packet_finished
    rw [hp, hl]; rfl
  have hon := on_receive_length c hs hfin
  refine ⟨?_, ?_, ?_⟩
  · intro h
    rw [hon, if_pos]
    simp only [Bool.or_eq_true, decide_eq_true_eq]
    omega
  · intro h
    rw [hon, if_neg, if_neg]
    · rfl
    · simp only [beq_iff_eq]; omega
    · simp only [Bool.or_eq_true, decide_eq_true_eq]; omega
  · intro h
    rw [hon, if_neg, if_pos]
    · rfl
    · simp only [beq_iff_eq]; exact h
    · simp only [Bool.or_eq_true, decide_eq_true_eq]; omega

/-- Witness of C11: the prefix `0x00200001` (2 MiB + 1) is rejected, the prefix
13 leads to `read_packet` expecting 13 bytes, the prefix 0 is a keepalive. -/
theorem on_receive_packet_size_witness :
    ({ m_state := read_packet_size, m_packet_size := 4
       m_recv_buffer := [0, 32, 0, 1] } : bt_peer_connection).on_receive false
      = Except.error "packet > 1 MB"
    ∧ ({ m_state := read_packet_size, m_packet_size := 4
         m_recv_buffer := [0, 0, 0, 13] } : bt_peer_connection).on_receive false
      = Except.ok { m_state := read_packet, m_packet_size := 13, m_recv_buffer := [] }
    ∧ ({ m_state := read_packet_size, m_packet_size := 4
         m_recv_buffer := [0, 0, 0, 0] } : bt_peer_connection).on_receive false
      = Except.ok { m_state := read_packet_size, m_packet_size := 4, m_recv_buffer := []
                    incoming := [incoming_call.keepalive] } :=
  ⟨(on_receive_packet_size
      { m_state := read_packet_size, m_packet_size := 4, m_recv_buffer := [0, 32, 0, 1] }
      rfl rfl rfl).1 (Or.inr (by decide)),
   (on_receive_packet_size
      { m_state := read_packet_size, m_packet_size := 4, m_recv_buffer := [0, 0, 0, 13] }
      rfl rfl rfl).2.1 (by decide),
   (on_receive_packet_size
      { m_state := read_packet_size, m_packet_size := 4, m_recv_buffer := [0, 0, 0, 0] }
      rfl rfl rfl).2.2 (by decide)⟩

/-! ## C12: the protocol name -/

/-- The phase a connection is in after `on_receive`, when it did not throw. -/
theorem on_receive_protocol_string (c : bt_peer_connection)
    (hs : c.m_state = read_protocol_string) (hf : c.packet_finished = true) :
    c.on_receive false
      = match std_equal c.m_recv_buffer protocol_string with
        | none => Except.error "undefined: read past the end of protocol_string"
        | some false =>
          if (c.m_recv_buffer.length == 7
              && std_equal c.m_recv_buffer version_cmd == some true) = true then
            Except.error "closing"
          else Except.error "got invalid protocol name"
        | some true => Except.ok ({ c with m_state := read_info_hash }.reset_recv_buffer 28) := by
  unfold bt_peer_connection.on_receive
  simp [hs, hf]

/-- The names the handshake accepts: every non-empty prefix of the array
`"BitTorrent protocol"`, terminating zero included. -/
theorem on_receive_accepts_initial (c : bt_peer_connection) (k : Nat)
    (hs : c.m_state = read_protocol_string) (hp : c.m_packet_size = k)
    (hk : k ≤ 20) (hb : c.m_recv_buffer = protocol_string.take k) :
    c.on_receive false = Except.ok
      { c with m_state := read_info_hash, m_recv_buffer := [], m_packet_size := 28 } := by
  have hlen : c.m_recv_buffer.length = k := by
    rw [hb, List.length_take]
    have : protocol_string.length = 20 := rfl
    omega
  have hf : c.packet_finished = true := by
    unfold bt_peer_connection.packet_finished
    rw [hp, hlen]; simp
  rw [on_receive_protocol_string c hs hf]
  have he : std_equal c.m_recv_buffer protocol_string = some true := by
    unfold std_equal
    have : protocol_string.length = 20 := rfl
    rw [if_pos (by omega), hlen, hb]
    simp
  rw [he]
  rfl

/-- C12. The code does not do what the claim says: a handshake that announces
the protocol-name length 3 and sends the three bytes `Bit` is not rejected.
`read_protocol_length` accepts every length from 1 to 100, and
`read_protocol_string` compares only the received bytes with the start of
`"BitTorrent protocol"` (`std::equal` over the received range), so the
connection proceeds to `read_info_hash`.  The 19 bytes `not a real protocol`
are rejected and the 19 bytes `BitTorrent protocol` are accepted. -/
theorem on_receive_accepts_short_name :
    ({ m_state := read_protocol_length, m_packet_size := 1
       m_recv_buffer := [3] } : bt_peer_connection).on_receive false
      = Except.ok { m_state := read_protocol_string, m_packet_size := 3, m_recv_buffer := [] }
    ∧ ({ m_state := read_protocol_string, m_packet_size := 3
         m_recv_buffer := [66, 105, 116] } : bt_peer_connection).on_receive false
      = Except.ok { m_state := read_info_hash, m_packet_size := 28, m_recv_buffer := [] }
    ∧ ({ m_state := read_protocol_string, m_packet_size := 19
         m_recv_buffer := [110, 111, 116, 32, 97, 32, 114, 101, 97, 108, 32, 112, 114, 111,
           116, 111, 99, 111, 108] } : bt_peer_connection).on_receive false
      = Except.error "got invalid protocol name"
    ∧ ({ m_state := read_protocol_string, m_packet_size := 19
         m_recv_buffer := [66, 105, 116, 84, 111, 114, 114, 101, 110, 116, 32, 112, 114, 111,
           116, 111, 99, 111, 108] } : bt_peer_connection).on_receive false
      = Except.ok { m_state := read_info_hash, m_packet_size := 28, m_recv_buffer := [] } := by
  refine ⟨rfl, rfl, rfl, rfl⟩

/-! ## C14: the length of each message -/

/-- What `dispatch_message` rejects: a message id without handler, and a message
of the wrong length for choke, unchoke, interested, not-interested (1), have
(5), request and cancel (13), dht-port (3) and extended (at least 2). -/
theorem dispatch_message_rejects (c : bt_peer_connection) (t : attached_torrent)
    (ht : c.m_torrent = some t) :
    ((char_to_int (buffer_at c.m_recv_buffer 0) < 0
        ∨ (10 ≤ char_to_int (buffer_at c.m_recv_buffer 0)
            ∧ char_to_int (buffer_at c.m_recv_buffer 0) ≤ 19)
        ∨ 21 ≤ char_to_int (buffer_at c.m_recv_buffer 0)) →
      c.dispatch_message = Except.error "unknown message id")
    ∧ (char_to_int (buffer_at c.m_recv_buffer 0) = 0 → c.m_packet_size ≠ 1 →
        c.dispatch_message = Except.error "choke message size != 1")
    ∧ (char_to_int (buffer_at c.m_recv_buffer 0) = 1 → c.m_packet_size ≠ 1 →
        c.dispatch_message = Except.error "unchoke message size != 1")
    ∧ (char_to_int (buffer_at c.m_recv_buffer 0) = 2 → c.m_packet_size ≠ 1 →
        c.dispatch_message = Except.error "interested message size != 1")
    ∧ (char_to_int (buffer_at c.m_recv_buffer 0) = 3 → c.m_packet_size ≠ 1 →
        c.dispatch_message = Except.error "not interested message size != 1")
    ∧ (char_to_int (buffer_at c.m_recv_buffer 0) = 4 → c.m_packet_size ≠ 5 →
        c.dispatch_message = Except.error "have message size != 5")
    ∧ (char_to_int (buffer_at c.m_recv_buffer 0) = 6 → c.m_packet_size ≠ 13 →
        c.dispatch_message = Except.error "request message size != 13")
    ∧ (char_to_int (buffer_at c.m_recv_buffer 0) = 8 → c.m_packet_size ≠ 13 →
        c.dispatch_message = Except.error "cancel message size != 13")
    ∧ (char_to_int (buffer_at c.m_recv_buffer 0) = 9 → c.m_packet_size ≠ 3 →
        c.dispatch_message = Except.error "dht_port message size != 3")
    ∧ (char_to_int (buffer_at c.m_recv_buffer 0) = 20 → c.m_packet_size < 2 →
        c.dispatch_message = Except.error "extended message smaller than 2 bytes") := by
  have hnone : c.m_torrent.isNone = false := by rw [ht]; rfl
  refine ⟨?_, ?_, ?_, ?_, ?_, ?_, ?_, ?_, ?_, ?_⟩
  · intro h
    unfold bt_peer_connection.dispatch_message
    rw [hnone, if_neg (by decide)]
    dsimp only
    rcases h with h | h | h
    · rw [if_pos]
      show (decide _ || decide _) = true
      rw [Bool.or_eq_true, decide_eq_true_eq, decide_eq_true_eq]
      exact Or.inl h
    · generalize char_to_int (buffer_at c.m_recv_buffer 0) = n at h
      obtain ⟨h1, h2⟩ := h
      have hn : n = 10 ∨ n = 11 ∨ n = 12 ∨ n = 13 ∨ n = 14 ∨ n = 15 ∨ n = 16 ∨ n = 17
          ∨ n = 18 ∨ n = 19 := by omega
      rcases hn with rfl | rfl | rfl | rfl | rfl | rfl | rfl | rfl | rfl | rfl <;> rfl
    · rw [if_pos]
      show (decide _ || decide _) = true
      rw [Bool.or_eq_true, decide_eq_true_eq, decide_eq_true_eq]
      exact Or.inr h
  all_goals
    intro hid hsz
    unfold bt_peer_connection.dispatch_message
    rw [hnone, hid]
    simp [m_message_handler, bt_peer_connection.on_choke, bt_peer_connection.on_unchoke,
      bt_peer_connection.on_interested, bt_peer_connection.on_not_interested,
      bt_peer_connection.on_have, bt_peer_connection.on_request, bt_peer_connection.on_cancel,
      bt_peer_connection.on_dht_port, bt_peer_connection.on_extended, hsz]

/-- C14. The code does not do what the claim says for the piece message:
`on_piece` has no test of the packet size.  A message that consists of the id
byte 7 alone (length 1, less than the 9 bytes of a piece header) is dispatched
without a protocol error, and `incoming_piece` is called with the length
`1 - 9 = -8` and header fields read from beyond the packet. -/
theorem dispatch_message_short_piece :
    ({ m_state := read_packet, m_packet_size := 1, m_recv_buffer := [7]
       m_torrent := some { num_pieces := 4 } } : bt_peer_connection).dispatch_message
      = Except.ok
          ({ m_state := read_packet, m_packet_size := 1, m_recv_buffer := [7]
             m_torrent := some { num_pieces := 4 }
             incoming := [incoming_call.piece { piece := 0, start := 0, length := -8 } []] },
           true)
    ∧ ({ m_state := read_packet, m_packet_size := 1, m_recv_buffer := [7]
         m_torrent := some { num_pieces := 4 } } : bt_peer_connection).on_receive false
      = Except.ok
          { m_state := read_packet_size, m_packet_size := 4, m_recv_buffer := []
            m_torrent := some { num_pieces := 4 }
            incoming := [incoming_call.piece { piece := 0, start := 0, length := -8 } []] } := by
  refine ⟨rfl, rfl⟩

/-! ## C15: the handshake -/

/-- C15. `write_handshake` appends exactly 68 bytes to the send buffer: the
byte 19, the 19 bytes `BitTorrent protocol`, the 8 reserved bytes, all zero
except byte 5 = 0x10 and byte 7 = 0x01, the 20 bytes of the info-hash of the
torrent and the 20 bytes of the local peer-id, in that order. -/
theorem write_handshake_bytes (c : bt_peer_connection) (t : attached_torrent)
    (ht : c.m_torrent = some t) (hih : t.info_hash.length = 20)
    (hpid : c.ses_peer_id.length = 20) :
    ∃ bytes, c.write_handshake = { c with m_send_buffer := c.m_send_buffer ++ bytes }
      ∧ bytes.length = 68
      ∧ bytes = [19] ++ [66, 105, 116, 84, 111, 114, 114, 101, 110, 116, 32, 112, 114, 111,
          116, 111, 99, 111, 108] ++ [0, 0, 0, 0, 0, 16, 0, 1] ++ t.info_hash ++ c.ses_peer_id
      ∧ bytes.take 1 = [19]
      ∧ (bytes.drop 1).take 19 = protocol_string.take 19
      ∧ (bytes.drop 20).take 8 = [0, 0, 0, 0, 0, 16, 0, 1]
      ∧ (bytes.drop 28).take 20 = t.info_hash
      ∧ bytes.drop 48 = c.ses_peer_id := by
  refine ⟨[19] ++ [66, 105, 116, 84, 111, 114, 114, 101, 110, 116, 32, 112, 114, 111,
    116, 111, 99, 111, 108] ++ [0, 0, 0, 0, 0, 16, 0, 1] ++ t.info_hash ++ c.ses_peer_id,
    ?_, ?_, rfl, rfl, rfl, rfl, ?_, ?_⟩
  · unfold bt_peer_connection.write_handshake
    rw [ht]
    simp [protocol_string]
  · simp [hih, hpid]
  · have : ([19] ++ [66, 105, 116, 84, 111, 114, 114, 101, 110, 116, 32, 112, 114, 111,
        116, 111, 99, 111, 108] ++ [0, 0, 0, 0, 0, 16, 0, 1] ++ t.info_hash
        ++ c.ses_peer_id).drop 28 = t.info_hash ++ c.ses_peer_id := rfl
    rw [this, List.take_append_of_le_length (by omega), List.take_of_length_le (by omega)]
  · have : ([19] ++ [66, 105, 116, 84, 111, 114, 114, 101, 110, 116, 32, 112, 114, 111,
        116, 111, 99, 111, 108] ++ [0, 0, 0, 0, 0, 16, 0, 1] ++ t.info_hash
        ++ c.ses_peer_id).drop 48 = (t.info_hash ++ c.ses_peer_id).drop 20 := rfl
    rw [this, List.drop_append_of_le_length (by omega), List.drop_of_length_le (by omega)]
    rfl

/-- Witness of C15: the handshake for the info-hash 1, 2, ..., 20 and the
peer-id 101, 102, ..., 120. -/
theorem write_handshake_bytes_witness :
    ∃ bytes, ({ m_torrent := some { info_hash := List.range' 1 20 }
                ses_peer_id := List.range' 101 20 } : bt_peer_connection).write_handshake
        = { m_torrent := some { info_hash := List.range' 1 20 }
            ses_peer_id := List.range' 101 20, m_send_buffer := [] ++ bytes }
      ∧ bytes.length = 68
      ∧ bytes.take 28 = [19, 66, 105, 116, 84, 111, 114, 114, 101, 110, 116, 32, 112, 114, 111,
          116, 111, 99, 111, 108, 0, 0, 0, 0, 0, 16, 0, 1] := by
  obtain ⟨bytes, h1, h2, h3, _⟩ := write_handshake_bytes
    { m_torrent := some { info_hash := List.range' 1 20 }, ses_peer_id := List.range' 101 20 }
    { info_hash := List.range' 1 20 } rfl rfl rfl
  exact ⟨bytes, h1, h2, by rw [h3]; rfl⟩

/-! ## The wire protocol: bitfields -/

theorem wrap_int32_eq {x : Int} (h : in_int32 x) : wrap_int32 x = x := by
  unfold wrap_int32
  unfold in_int32 at h
  rw [Int.emod_eq_of_lt (by omega) (by omega)]
  omega

theorem narrow_zero (signed : Bool) (bits : Nat) (h : 1 ≤ bits) : narrow signed bits 0 = 0 := by
  unfold narrow
  cases signed
  · simp
  · have hp : (2 : Int) ^ bits = 2 * 2 ^ (bits - 1) := by
      rw [← pow_succ']
      congr 1
      omega
    have h0 : (0 : Int) < 2 ^ (bits - 1) := by positivity
    simp only [if_true, zero_add]
    rw [Int.emod_eq_of_lt (le_of_lt h0) (by rw [hp]; omega)]
    omega

/-- As long as the product `request_queue_time × download_rate` fits in an
`int` and the type of `m_desired_queue_size` holds the quotient and
`m_max_out_request_queue`, `update_desired_queue_size` computes the value of
the specification, which is never below 2; a snubbed peer gets 1. -/
theorem update_desired_queue_size_clamp (p : peer_connection) (signed : Bool) (bits : Nat) :
    (p.m_snubbed = true → (p.update_desired_queue_size signed bits).m_desired_queue_size = 1)
    ∧ (p.m_snubbed = false →
        in_int32 (p.m_settings.request_queue_time * p.download_payload_rate) →
        narrow signed bits (Int.tdiv (p.m_settings.request_queue_time * p.download_payload_rate)
            p.t.block_size)
          = Int.tdiv (p.m_settings.request_queue_time * p.download_payload_rate) p.t.block_size →
        narrow signed bits p.m_max_out_request_queue = p.m_max_out_request_queue →
        (p.update_desired_queue_size signed bits).m_desired_queue_size = p.spec_queue_size
        ∧ 2 ≤ (p.update_desired_queue_size signed bits).m_desired_queue_size) := by
  refine ⟨fun hs => ?_, fun hs ho hq hm => ?_⟩
  · unfold peer_connection.update_desired_queue_size
    rw [if_pos hs]
  · unfold peer_connection.update_desired_queue_size peer_connection.spec_queue_size clamp
    rw [if_neg (by rw [hs]; decide)]
    dsimp only
    rw [wrap_int32_eq ho, hq, hm]
    generalize Int.tdiv (p.m_settings.request_queue_time * p.download_payload_rate)
      p.t.block_size = q
    unfold min_request_queue
    constructor
    · split_ifs <;> simp only [max_def, min_def] <;> split_ifs <;> omega
    · split_ifs <;> omega

/-- C29. The claim fails for fast peers, whatever the type of the member
`m_desired_queue_size` is.  For a peer that is not snubbed and downloads
1,431,655,766 bytes a second, with `request_queue_time` 3, blocks of 16384
bytes and `max_out_request_queue` 200, the specification gives
`clamp(262144, 2, 200) = 200`; the product `2^32 + 2` does not fit in an `int`,
the wrapped value is 2, the quotient is 0, and `update_desired_queue_size`
sets the queue size to 2 for every type of the member.  At 357,913,942 bytes
a second nothing overflows: the quotient is 65536 and the specification gives
200, but a member of at most 16 bits, signed or not, keeps 0 of it and the
queue size is set to 2.  At 800,000,000 bytes a second the wrapped product is
negative: an `int` member gets 2 where the specification gives 200, and an
unsigned member of 16 bits keeps 15413 of the quotient and gets 200. -/
theorem update_desired_queue_size_narrows :
    (wrapped_rate_example.m_snubbed = false
      ∧ wrapped_rate_example.m_settings.request_queue_time
          * wrapped_rate_example.download_payload_rate = 4294967298
      ∧ wrap_int32 4294967298 = 2
      ∧ wrapped_rate_example.spec_queue_size = 200
      ∧ ∀ (signed : Bool) (bits : Nat), 1 ≤ bits →
          (wrapped_rate_example.update_desired_queue_size signed bits).m_desired_queue_size = 2)
    ∧ (fast_peer_example.m_snubbed = false
      ∧ in_int32 (fast_peer_example.m_settings.request_queue_time
          * fast_peer_example.download_payload_rate)
      ∧ Int.tdiv (fast_peer_example.m_settings.request_queue_time
          * fast_peer_example.download_payload_rate) fast_peer_example.t.block_size = 65536
      ∧ fast_peer_example.spec_queue_size = 200
      ∧ ∀ (signed : Bool) (bits : Nat), 1 ≤ bits → bits ≤ 16 →
          (fast_peer_example.update_desired_queue_size signed bits).m_desired_queue_size = 2)
    ∧ (overflow_example.spec_queue_size = 200
      ∧ wrap_int32 2400000000 = -1894967296
      ∧ (overflow_example.update_desired_queue_size true 32).m_desired_queue_size = 2
      ∧ narrow false 16 (Int.tdiv (-1894967296) 16384) = 15413
      ∧ (overflow_example.update_desired_queue_size false 16).m_desired_queue_size = 200) := by
  refine ⟨⟨by decide, by decide, by decide, by decide, ?_⟩,
    ⟨by decide, by decide, by decide, by decide, ?_⟩,
    by decide, by decide, by decide, by decide, by decide⟩
  · intro signed bits hb
    have hq : Int.tdiv (wrap_int32 (wrapped_rate_example.m_settings.request_queue_time
        * wrapped_rate_example.download_payload_rate)) wrapped_rate_example.t.block_size = 0 := by
      decide
    unfold peer_connection.update_desired_queue_size
    rw [if_neg (by decide)]
    dsimp only
    rw [hq, narrow_zero signed bits hb]
    have hm : ¬ (0 > wrapped_rate_example.m_max_out_request_queue) := by decide
    simp only [if_neg hm]
    decide
  · intro signed bits h1 h16
    interval_cases bits <;> cases signed <;> decide

/-! ## C30: `add_request` -/

/-- C30 fails as stated: a time-critical request is not queued when the
torrent is in upload mode or when the picker refuses to mark the block as
downloading; `add_request` returns false and the request queue is as
before. -/
theorem add_request_refused :
    ((peer_connection.add_request
        { busy_example with t := { torrent_example with upload_mode := true } }
        { piece_index := 2, block_index := 0 } req_time_critical).2 = false
      ∧ (peer_connection.add_request
        { busy_example with t := { torrent_example with upload_mode := true } }
        { piece_index := 2, block_index := 0 } req_time_critical).1.m_request_queue
          = busy_example.m_request_queue)
    ∧ ((peer_connection.add_request
        { busy_example with
          t := { torrent_example with picker_mark_as_downloading := fun _ => false } }
        { piece_index := 2, block_index := 0 } req_time_critical).2 = false
      ∧ (peer_connection.add_request
        { busy_example with
          t := { torrent_example with picker_mark_as_downloading := fun _ => false } }
        { piece_index := 2, block_index := 0 } req_time_critical).1.m_request_queue
          = busy_example.m_request_queue) := by
  decide

/-- C30, amended. With `req_busy` set and `req_time_critical` clear,
`add_request` returns false and leaves the request queue, the download queue
and the picker untouched whenever either queue holds a busy entry.  With
`req_time_critical` set, busy entries do not block the request: unless the
torrent is in upload mode or the picker refuses to mark the block as
downloading, `add_request` returns true and the new entry, busy when
`req_busy` is set, is inserted at index `m_queued_time_critical` of the request
queue, the entries before and after it keeping their order, and
`m_queued_time_critical` grows by one.  The peer is not disconnecting, as
`add_request` asserts, and `m_queued_time_critical` is an index of the
request queue, as `check_invariant` asserts. -/
theorem add_request_busy_rule (p : peer_connection) (block : piece_block) (flags : Nat)
    (hdis : p.m_disconnecting = false)
    (hq : 0 ≤ p.m_queued_time_critical
      ∧ p.m_queued_time_critical ≤ (p.m_request_queue.length : Int)) :
    (flags &&& req_busy ≠ 0 → flags &&& req_time_critical = 0 →
      ((∃ i ∈ p.m_download_queue, i.busy = true) ∨ (∃ i ∈ p.m_request_queue, i.busy = true)) →
      (p.add_request block flags).2 = false
      ∧ (p.add_request block flags).1.m_request_queue = p.m_request_queue
      ∧ (p.add_request block flags).1.m_download_queue = p.m_download_queue
      ∧ (p.add_request block flags).1.m_queued_time_critical = p.m_queued_time_critical
      ∧ (p.add_request block flags).1.picker_marked = p.picker_marked
      ∧ (p.add_request block flags).1.picker_aborted = p.picker_aborted)
    ∧ (flags &&& req_time_critical ≠ 0 → p.t.upload_mode = false →
      p.t.picker_mark_as_downloading block = true →
      (p.add_request block flags).2 = true
      ∧ (p.add_request block flags).1.m_request_queue
          = p.m_request_queue.take p.m_queued_time_critical.toNat
            ++ { block := block, busy := flags &&& req_busy != 0 }
              :: p.m_request_queue.drop p.m_queued_time_critical.toNat
      ∧ (p.add_request block flags).1.m_request_queue.get? p.m_queued_time_critical.toNat
          = some { block := block, busy := flags &&& req_busy != 0 }
      ∧ (p.add_request block flags).1.m_queued_time_critical = p.m_queued_time_critical + 1
      ∧ (p.add_request block flags).1.m_download_queue = p.m_download_queue
      ∧ (p.add_request block flags).1.picker_marked = p.picker_marked ++ [block]) := by
  refine ⟨fun hb ht hbusy => ?_, fun ht hu hm => ?_⟩
  · have hany : (p.m_download_queue.any (fun i => i.busy)
        || p.m_request_queue.any (fun i => i.busy)) = true := by
      rw [Bool.or_eq_true, List.any_eq_true, List.any_eq_true]
      exact hbusy
    unfold peer_connection.add_request
    by_cases hu : p.t.upload_mode = true
    · rw [if_pos hu]
      exact ⟨rfl, rfl, rfl, rfl, rfl, rfl⟩
    · rw [if_neg hu, if_neg (by rw [hdis]; decide)]
      have hcond : ((flags &&& req_busy != 0) && !(flags &&& req_time_critical != 0)
          && (p.peer_speed.m_download_queue.any (fun i => i.busy)
            || p.peer_speed.m_request_queue.any (fun i => i.busy))) = true := by
        have e1 : p.peer_speed.m_download_queue = p.m_download_queue := by
          unfold peer_connection.peer_speed; dsimp only; split_ifs <;> rfl
        have e2 : p.peer_speed.m_request_queue = p.m_request_queue := by
          unfold peer_connection.peer_speed; dsimp only; split_ifs <;> rfl
        rw [e1, e2, hany]
        have hb1 : (flags &&& req_busy != 0) = true := bne_iff_ne.2 hb
        have hb2 : (flags &&& req_time_critical != 0) = false := by
          rw [ht]; rfl
        rw [hb1, hb2]
        rfl
      dsimp only
      rw [if_pos hcond]
      unfold peer_connection.peer_speed
      dsimp only
      split_ifs <;> exact ⟨rfl, rfl, rfl, rfl, rfl, rfl⟩
  · have hlen : p.m_queued_time_critical.toNat ≤ p.m_request_queue.length := by omega
    have hins : p.m_request_queue.insertIdx p.m_queued_time_critical.toNat
          ({ block := block, busy := flags &&& req_busy != 0 } : pending_block)
        = p.m_request_queue.take p.m_queued_time_critical.toNat
            ++ { block := block, busy := flags &&& req_busy != 0 }
              :: p.m_request_queue.drop p.m_queued_time_critical.toNat := by
      generalize p.m_queued_time_critical.toNat = n at hlen
      generalize p.m_request_queue = l at hlen
      induction l generalizing n with
      | nil =>
        have : n = 0 := by simpa using hlen
        subst this
        rfl
      | cons a l ih =>
        cases n with
        | zero => rfl
        | succ n =>
          simp only [List.insertIdx_succ_cons, List.take_succ_cons, List.drop_succ_cons,
            List.cons_append]
          rw [ih n (by simpa using hlen)]
    have hget : (p.m_request_queue.take p.m_queued_time_critical.toNat
          ++ ({ block := block, busy := flags &&& req_busy != 0 } : pending_block)
            :: p.m_request_queue.drop p.m_queued_time_critical.toNat).get?
          p.m_queued_time_critical.toNat
        = some { block := block, busy := flags &&& req_busy != 0 } := by
      rw [List.get?_eq_getElem?, List.getElem?_append_right (by simp [hlen])]
      simp [hlen]
    have hskip : ((flags &&& req_busy != 0) && !(flags &&& req_time_critical != 0)
        && (p.peer_speed.m_download_queue.any (fun i => i.busy)
          || p.peer_speed.m_request_queue.any (fun i => i.busy))) = false := by
      have hb2 : (flags &&& req_time_critical != 0) = true := bne_iff_ne.2 ht
      rw [hb2]
      simp
    have e0 : ∀ q : peer_connection, q.peer_speed.t = q.t ∧ q.peer_speed.m_request_queue
        = q.m_request_queue ∧ q.peer_speed.m_queued_time_critical = q.m_queued_time_critical
        ∧ q.peer_speed.m_download_queue = q.m_download_queue
        ∧ q.peer_speed.picker_marked = q.picker_marked := by
      intro q
      unfold peer_connection.peer_speed
      dsimp only
      split_ifs <;> exact ⟨rfl, rfl, rfl, rfl, rfl⟩
    obtain ⟨e1, e2, e3, e4, e5⟩ := e0 p
    unfold peer_connection.add_request
    rw [if_neg (by rw [hu]; decide), if_neg (by rw [hdis]; decide)]
    dsimp only
    rw [if_neg (by rw [hskip]; decide), e1, if_neg (by rw [hm]; decide),
      if_pos (by simpa using ht), e2, e3, e4, e5]
    exact ⟨rfl, hins, by rw [hins]; exact hget, rfl, rfl, rfl⟩

/-- Witness of C30: in `busy_example` the download queue holds a busy block; a
busy request is refused, and a busy time-critical request goes to index 1 of
the request queue, behind the time-critical entry already there. -/
theorem add_request_busy_rule_witness :
    ((busy_example.add_request { piece_index := 2, block_index := 0 } req_busy).2 = false
      ∧ (busy_example.add_request { piece_index := 2, block_index := 0 } req_busy).1.m_request_queue
          = busy_example.m_request_queue)
    ∧ ((busy_example.add_request { piece_index := 2, block_index := 0 }
          (req_busy + req_time_critical)).2 = true
      ∧ (busy_example.add_request { piece_index := 2, block_index := 0 }
          (req_busy + req_time_critical)).1.m_request_queue
        = [{ block := { piece_index := 1, block_index := 0 } },
           { block := { piece_index := 2, block_index := 0 }, busy := true },
           { block := { piece_index := 1, block_index := 1 } }]
      ∧ (busy_example.add_request { piece_index := 2, block_index := 0 }
          (req_busy + req_time_critical)).1.m_queued_time_critical = 2) :=
  ⟨(fun h => ⟨h.1, h.2.1⟩)
    ((add_request_busy_rule busy_example { piece_index := 2, block_index := 0 } req_busy
      (by decide) (by decide)).1 (by decide) (by decide)
      (Or.inl ⟨_, List.mem_singleton.2 rfl, rfl⟩)),
   (fun h => ⟨h.1, h.2.1, h.2.2.2.1⟩)
    ((add_request_busy_rule busy_example { piece_index := 2, block_index := 0 }
      (req_busy + req_time_critical) (by decide) (by decide)).2 (by decide) (by decide)
      (by decide))⟩

/-! ## The choke flags and the allowed-fast list under the queue steps -/

theorem choke_frame_refl (p : peer_connection) : choke_frame p p := ⟨rfl, rfl, rfl⟩

theorem choke_frame_trans {p q s : peer_connection} (h1 : choke_frame p q)
    (h2 : choke_frame q s) : choke_frame p s :=
  ⟨h2.choked.trans h1.choked, h2.peer_choked.trans h1.peer_choked,
    h2.allowed_fast.trans h1.allowed_fast⟩

theorem choke_frame_drop_download (p : peer_connection) (qe : pending_block) :
    choke_frame p (p.drop_download qe) := by
  unfold peer_connection.drop_download peer_connection.abort_download
  dsimp only
  split_ifs <;> exact ⟨rfl, rfl, rfl⟩

theorem choke_frame_drop_request (p : peer_connection) (qe : pending_block) :
    choke_frame p (p.drop_request qe) := by
  unfold peer_connection.drop_request peer_connection.abort_download
  dsimp only
  split_ifs <;> exact ⟨rfl, rfl, rfl⟩

theorem choke_frame_foldl (f : peer_connection → pending_block → peer_connection)
    (hf : ∀ p qe, choke_frame p (f p qe)) : ∀ (l : List pending_block) (p : peer_connection),
    choke_frame p (l.foldl f p) := by
  intro l
  induction l with
  | nil => intro p; exact choke_frame_refl p
  | cons a l ih => intro p; exact choke_frame_trans (hf p a) (ih (f p a))

theorem choke_frame_disconnect (p : peer_connection) (ec : errors) (error : Int) :
    choke_frame p (p.disconnect ec error) := by
  unfold peer_connection.disconnect
  by_cases hd : p.m_disconnecting = true
  · rw [if_pos hd]; exact choke_frame_refl p
  · rw [if_neg hd]
    by_cases hp : p.t.has_picker = true
    · rw [if_pos hp]
      have h1 := choke_frame_foldl _ choke_frame_drop_download p.m_download_queue.reverse p
      have h2 := choke_frame_foldl _ choke_frame_drop_request
        (p.m_download_queue.reverse.foldl peer_connection.drop_download p).m_request_queue.reverse
        (p.m_download_queue.reverse.foldl peer_connection.drop_download p)
      have h3 := choke_frame_trans h1 h2
      exact ⟨h3.choked, h3.peer_choked, h3.allowed_fast⟩
    · rw [if_neg hp]
      exact ⟨rfl, rfl, rfl⟩

theorem choke_frame_disconnect_if_redundant (p : peer_connection) :
    choke_frame p p.disconnect_if_redundant.1 := by
  unfold peer_connection.disconnect_if_redundant
  split_ifs <;> first | exact choke_frame_refl p | exact choke_frame_disconnect p _ _

theorem choke_frame_send_not_interested (p : peer_connection) :
    choke_frame p p.send_not_interested := by
  unfold peer_connection.send_not_interested
  by_cases h1 : (!p.m_interesting) = true
  · rw [if_pos h1]; exact choke_frame_disconnect_if_redundant p
  · rw [if_neg h1]
    by_cases h2 : (!p.t.ready_for_connections) = true
    · rw [if_pos h2]; exact choke_frame_refl p
    · rw [if_neg h2]
      have h3 : choke_frame p { p with m_interesting := false } := ⟨rfl, rfl, rfl⟩
      have h4 := choke_frame_trans h3
        (choke_frame_disconnect_if_redundant { p with m_interesting := false })
      dsimp only
      split_ifs
      · exact h4
      · exact choke_frame_trans h4 ⟨rfl, rfl, rfl⟩

theorem choke_frame_incoming_have_none (p : peer_connection) :
    choke_frame p p.incoming_have_none := by
  unfold peer_connection.incoming_have_none
  by_cases h1 : p.m_extensions.on_have_none = true
  · rw [if_pos h1]; exact choke_frame_refl p
  · rw [if_neg h1]
    by_cases h2 : p.is_disconnecting = true
    · rw [if_pos h2]; exact choke_frame_refl p
    · rw [if_neg h2]
      have h3 : choke_frame p { p with
          m_bitfield_received := true
          m_have_piece := p.m_have_piece.map (fun _ => false)
          m_num_pieces := 0
          m_has_metadata := true } :=
        ⟨rfl, rfl, rfl⟩
      exact choke_frame_trans h3 (choke_frame_trans (choke_frame_send_not_interested _)
        (choke_frame_disconnect_if_redundant _))

theorem choke_frame_have_none_if_no_bitfield (p : peer_connection) :
    choke_frame p p.have_none_if_no_bitfield := by
  unfold peer_connection.have_none_if_no_bitfield
  split_ifs
  · exact choke_frame_incoming_have_none p
  · exact choke_frame_refl p

theorem choke_frame_merge_requests (blocks_per_piece : Int) :
    ∀ (l : List pending_block) (block : pending_block) (r : peer_request) (p : peer_connection),
      choke_frame p (merge_requests blocks_per_piece l block r p).2.2 := by
  intro l
  induction l with
  | nil => intro block r p; exact choke_frame_refl p
  | cons front rest ih =>
    intro block r p
    unfold merge_requests
    split_ifs <;> first
      | exact choke_frame_refl p
      | (refine choke_frame_trans ?_ (ih _ _ _); exact ⟨rfl, rfl, rfl⟩)

theorem choke_frame_send_request_loop :
    ∀ (fuel : Nat) (p : peer_connection), choke_frame p (send_request_loop fuel p) := by
  intro fuel
  induction fuel with
  | zero => intro p; exact choke_frame_refl p
  | succ fuel ih =>
    intro p
    unfold send_request_loop
    cases hq : p.m_request_queue with
    | nil => exact choke_frame_refl p
    | cons block rest =>
      dsimp only
      split_ifs <;> first
        | exact choke_frame_refl p
        | (refine choke_frame_trans ?_ (ih _); exact ⟨rfl, rfl, rfl⟩)
        | (refine choke_frame_trans ?_ (ih _)
           exact ⟨(choke_frame_merge_requests _ _ _ _ _).choked,
             (choke_frame_merge_requests _ _ _ _ _).peer_choked,
             (choke_frame_merge_requests _ _ _ _ _).allowed_fast⟩)
        | exact ⟨rfl, rfl, rfl⟩
        | exact ⟨(choke_frame_merge_requests _ _ _ _ _).choked,
             (choke_frame_merge_requests _ _ _ _ _).peer_choked,
             (choke_frame_merge_requests _ _ _ _ _).allowed_fast⟩

theorem choke_frame_send_block_requests (p : peer_connection) :
    choke_frame p p.send_block_requests := by
  unfold peer_connection.send_block_requests
  split_ifs <;> first
    | exact choke_frame_refl p
    | exact choke_frame_disconnect p _ _
    | exact choke_frame_send_request_loop _ p

theorem choke_frame_reject_matching (p : peer_connection) (r : peer_request) :
    choke_frame p (p.reject_matching r) := by
  unfold peer_connection.reject_matching
  cases p.m_download_queue.find? (fun i => match_request r i.block p.t.block_size) with
  | none => exact choke_frame_refl p
  | some b =>
    dsimp only
    unfold peer_connection.abort_download
    split_ifs <;> exact ⟨rfl, rfl, rfl⟩

theorem choke_frame_reject_refill (p : peer_connection) (picks : List pending_block) :
    choke_frame p (p.reject_refill picks) := by
  unfold peer_connection.reject_refill
  split_ifs
  · exact choke_frame_trans (q := p.request_a_block picks) ⟨rfl, rfl, rfl⟩
      (choke_frame_send_block_requests _)
  · exact choke_frame_refl p

/-! ## C24: a reject for a piece of the allowed-fast list -/

/-- What `incoming_reject_request` does to the allowed-fast list of a peer the
remote has choked, when the peer is not disconnecting and no extension
consumes the message: the first entry equal to `r.piece` is erased.  When the
list holds no piece twice, the piece is gone, and in every case the other
pieces keep their place. -/
theorem incoming_reject_request_allowed_fast (p : peer_connection) (r : peer_request)
    (picks : List pending_block) (hext : p.m_extensions.on_reject r = false)
    (hdis : p.m_disconnecting = false) (hch : p.m_peer_choked = true) :
    (p.incoming_reject_request r picks).m_allowed_fast = p.m_allowed_fast.erase r.piece
    ∧ (p.m_allowed_fast.Nodup → r.piece ∉ (p.incoming_reject_request r picks).m_allowed_fast)
    ∧ (p.incoming_reject_request r picks).m_allowed_fast.filter (fun i => i != r.piece)
        = p.m_allowed_fast.filter (fun i => i != r.piece) := by
  have h1 := choke_frame_reject_matching p r
  have e : (p.incoming_reject_request r picks).m_allowed_fast
      = p.m_allowed_fast.erase r.piece := by
    unfold peer_connection.incoming_reject_request peer_connection.is_disconnecting
    rw [if_neg (by rw [hext]; decide), if_neg (by rw [hdis]; decide),
      (choke_frame_reject_refill _ picks).allowed_fast]
    unfold peer_connection.reject_forget peer_connection.has_peer_choked
    rw [if_pos (by rw [h1.peer_choked]; exact hch)]
    show (p.reject_matching r).m_allowed_fast.erase r.piece = _
    rw [h1.allowed_fast]
  refine ⟨e, fun hnd => ?_, ?_⟩
  · rw [e]
    exact hnd.not_mem_erase
  · rw [e]
    generalize p.m_allowed_fast = l
    induction l with
    | nil => rfl
    | cons a l ih =>
      by_cases ha : a = r.piece
      · subst ha
        rw [List.erase_cons_head]
        simp
      · rw [List.erase_cons_tail (by simpa using ha)]
        simp only [List.filter_cons]
        rw [ih]

/-- C24. The claim fails on an allowed-fast list that holds a piece twice:
`incoming_allowed_fast` appends every announced piece, so after two
allowed-fast messages for piece 3 the list is `[3, 3]`; a reject-request for
piece 3, received while the remote has us choked, erases the first entry only,
and piece 3 is still in the list. -/
theorem incoming_reject_request_keeps_duplicate :
    ((allowed_fast_example.incoming_allowed_fast 3).incoming_allowed_fast 3).m_allowed_fast
      = [3, 3]
    ∧ ((allowed_fast_example.incoming_allowed_fast 3).incoming_allowed_fast 3).has_peer_choked
        = true
    ∧ (peer_connection.incoming_reject_request
        ((allowed_fast_example.incoming_allowed_fast 3).incoming_allowed_fast 3)
        { piece := 3, start := 0, length := 16384 } []).m_allowed_fast = [3]
    ∧ (3 : Int) ∈ (peer_connection.incoming_reject_request
        ((allowed_fast_example.incoming_allowed_fast 3).incoming_allowed_fast 3)
        { piece := 3, start := 0, length := 16384 } []).m_allowed_fast := by
  decide

/-! ## C25: too many requests from a choked peer -/

/-- C25 fails as stated.  Each of the following peers is choked by us and has
sent more than 300 invalid requests, and `incoming_request` handles one more
invalid request (for piece 12 of a torrent of 10 pieces) without
disconnecting: the count does not reach a multiple of ten (301 to 302); the
remote has choked us (a choke is written instead); the peer is interested;
an extension vetoes the disconnect; the torrent is super-seeding another
piece. -/
theorem incoming_request_tolerates_abuser :
    ((peer_connection.incoming_request { abuser_example with m_num_invalid_requests := 301 }
        bad_request_example 0).m_num_invalid_requests = 302
      ∧ (peer_connection.incoming_request { abuser_example with m_num_invalid_requests := 301 }
        bad_request_example 0).m_disconnecting = false)
    ∧ ((peer_connection.incoming_request { abuser_example with m_peer_choked := true }
        bad_request_example 0).m_num_invalid_requests = 310
      ∧ (peer_connection.incoming_request { abuser_example with m_peer_choked := true }
        bad_request_example 0).m_disconnecting = false
      ∧ (peer_connection.incoming_request { abuser_example with m_peer_choked := true }
        bad_request_example 0).sent
          = [message.reject_request bad_request_example, message.choke])
    ∧ ((peer_connection.incoming_request { abuser_example with m_peer_interested := true }
        bad_request_example 0).m_num_invalid_requests = 310
      ∧ (peer_connection.incoming_request { abuser_example with m_peer_interested := true }
        bad_request_example 0).m_disconnecting = false)
    ∧ ((peer_connection.incoming_request
        { abuser_example with m_extensions := { can_disconnect := false } }
        bad_request_example 0).m_num_invalid_requests = 310
      ∧ (peer_connection.incoming_request
        { abuser_example with m_extensions := { can_disconnect := false } }
        bad_request_example 0).m_disconnecting = false)
    ∧ ((peer_connection.incoming_request
        { abuser_example with t := { torrent_example with super_seeding := true } }
        bad_request_example 0).m_num_invalid_requests = 310
      ∧ (peer_connection.incoming_request
        { abuser_example with t := { torrent_example with super_seeding := true } }
        bad_request_example 0).m_disconnecting = false) := by
  decide

/-- C25, amended. A peer we have choked, that is not interested and has not
choked us, sends a request that reaches the validity test of
`incoming_request` (the request is not turned down for super-seeding, the peer
is not disconnecting, no extension consumes the request, the torrent has valid
metadata and the upload queue is within `max_allowed_in_request_queue`); the
request is invalid, since the peer is not interested.  When it brings the
count of invalid requests above 300 and to a multiple of 10, and no extension
vetoes the disconnect, `incoming_request` rejects the request, counts it and
disconnects the peer with `too_many_requests_when_choked` at severity 2; the
peer is marked as failed. -/
theorem incoming_request_disconnects_abuser (p : peer_connection) (r : peer_request) (now : Int)
    (hss : (p.t.super_seeding && !p.super_seeded_piece r.piece) = false)
    (hdis : p.have_none_if_no_bitfield.m_disconnecting = false)
    (hext : p.m_extensions.on_request r = false)
    (hmeta : p.t.valid_metadata = true)
    (hq : (p.m_requests.length : Int) ≤ p.m_settings.max_allowed_in_request_queue)
    (hch : p.m_choked = true) (hni : p.m_peer_interested = false)
    (hpc : p.m_peer_choked = false) (hcan : p.m_extensions.can_disconnect = true)
    (hcount : 300 < p.m_num_invalid_requests + 1)
    (hten : (p.m_num_invalid_requests + 1) % 10 = 0) :
    p.invalid_request r = true
    ∧ (p.incoming_request r now).m_disconnecting = true
    ∧ (p.incoming_request r now).disconnected
        = some (errors.too_many_requests_when_choked, 2)
    ∧ (p.incoming_request r now).m_failed = true
    ∧ (p.incoming_request r now).m_num_invalid_requests = p.m_num_invalid_requests + 1
    ∧ (p.incoming_request r now).sent.count (message.reject_request r)
        = p.sent.count (message.reject_request r) + 1 := by
  have hf := upload_frame_have_none_if_no_bitfield p
  have hc := choke_frame_have_none_if_no_bitfield p
  have hinv : p.have_none_if_no_bitfield.invalid_request r = true := by
    unfold peer_connection.invalid_request
    rw [hf.interested, hni]
    simp
  have hinv0 : p.invalid_request r = true := by
    rw [← invalid_request_congr hf r]; exact hinv
  have hstep : p.incoming_request r now = p.have_none_if_no_bitfield.reject_invalid r := by
    unfold peer_connection.incoming_request
    rw [if_neg (by rw [hss]; decide)]
    dsimp only
    unfold peer_connection.is_disconnecting
    rw [if_neg (by rw [hdis]; decide), hf.extensions, if_neg (by rw [hext]; decide),
      if_neg (by rw [hdis]; decide), hf.torrent, if_neg (by rw [hmeta]; decide),
      hf.requests, hf.settings, if_neg (by simpa using hq), if_pos hinv]
  have hsp := reject_invalid_spec p.have_none_if_no_bitfield r
  have htm : Int.tmod (p.m_num_invalid_requests + 1) 10 = 0 := by
    rw [Int.tmod_eq_emod (by omega) (by decide)]; exact hten
  have hdisc : p.have_none_if_no_bitfield.reject_invalid r
      = peer_connection.disconnect
          { (p.have_none_if_no_bitfield.write_reject_request r) with
            m_num_invalid_requests := p.have_none_if_no_bitfield.m_num_invalid_requests + 1 }
          errors.too_many_requests_when_choked 2 := by
    unfold peer_connection.reject_invalid
    dsimp only
    have c1 : (!p.have_none_if_no_bitfield.m_peer_interested
        && Int.tmod (p.have_none_if_no_bitfield.m_num_invalid_requests + 1) 10 == 0
        && p.have_none_if_no_bitfield.m_choked) = true := by
      rw [hf.interested, hni, hc.choked, hch, hf.invalid, htm]; rfl
    have c2 : (decide (p.have_none_if_no_bitfield.m_num_invalid_requests + 1 > 300)
        && !p.have_none_if_no_bitfield.m_peer_choked
        && p.have_none_if_no_bitfield.m_extensions.can_disconnect) = true := by
      rw [hc.peer_choked, hpc, hf.extensions, hcan, hf.invalid]
      simpa using hcount
    refine (if_pos c1).trans ?_
    exact if_pos c2
  have hnd : ({ (p.have_none_if_no_bitfield.write_reject_request r) with
      m_num_invalid_requests := p.have_none_if_no_bitfield.m_num_invalid_requests + 1 }
      : peer_connection).m_disconnecting = false := hdis
  refine ⟨hinv0, ?_, ?_, ?_, ?_, ?_⟩
  · rw [hstep, hdisc]
    unfold peer_connection.disconnect
    rw [if_neg (by rw [hnd]; decide)]
  · rw [hstep, hdisc]
    unfold peer_connection.disconnect
    rw [if_neg (by rw [hnd]; decide)]
  · rw [hstep, hdisc]
    unfold peer_connection.disconnect
    rw [if_neg (by rw [hnd]; decide)]
    rfl
  · rw [hstep, hsp.2.1, hf.invalid]
  · rw [hstep, hsp.2.2, hf.rejects]

/-- Witness of C25: `abuser_example` has 309 invalid requests to its name; the
request for piece 12 of a torrent of 10 pieces is the 310th. -/
theorem incoming_request_disconnects_abuser_witness :
    (abuser_example.incoming_request bad_request_example 0).m_disconnecting = true
    ∧ (abuser_example.incoming_request bad_request_example 0).disconnected
        = some (errors.too_many_requests_when_choked, 2) :=
  (fun h => ⟨h.2.1, h.2.2.1⟩)
    (incoming_request_disconnects_abuser abuser_example bad_request_example 0
      (by decide) (by decide) (by decide) (by decide) (by decide) (by decide) (by decide)
      (by decide) (by decide) (by decide) (by decide))

/-! ## `send_allowed_set` -/

theorem to_uint32_of_pos {n : Int} (h0 : 0 < n) (h : n < 2147483648) :
    to_uint32 n = n.toNat := by
  unfold to_uint32
  rw [Int.emod_eq_of_lt (by omega) (by omega)]

theorem allowed_piece_range {n : Int} (h0 : 0 < n) (h : n < 2147483648) (u : Nat) :
    0 ≤ wrap_int32 ((u % to_uint32 n : Nat) : Int)
    ∧ wrap_int32 ((u % to_uint32 n : Nat) : Int) < n := by
  rw [to_uint32_of_pos h0 h]
  have hlt : u % n.toNat < n.toNat := Nat.mod_lt _ (by omega)
  have hw : wrap_int32 ((u % n.toNat : Nat) : Int) = ((u % n.toNat : Nat) : Int) :=
    wrap_int32_eq (by unfold in_int32; omega)
  rw [hw]
  omega

theorem allowed_set_ok_accept_fast {sent0 : List message} {n : Int} {p : peer_connection}
    {piece : Int} (h : allowed_set_ok sent0 n p) (hnew : piece ∉ p.m_accept_fast)
    (hr : 0 ≤ piece ∧ piece < n) : allowed_set_ok sent0 n (p.accept_fast piece) := by
  obtain ⟨h1, h2, h3, h4⟩ := h
  refine ⟨?_, ?_, ?_, ?_⟩
  · show (p.m_accept_fast ++ [piece]).Nodup
    rw [List.nodup_append]
    exact ⟨h1, List.nodup_singleton _, fun a ha hb => hnew (by
      rw [List.mem_singleton] at hb; rw [← hb]; exact ha)⟩
  · intro i hi
    have hi2 : i ∈ p.m_accept_fast ++ [piece] := hi
    rcases List.mem_append.1 hi2 with hi3 | hi3
    · exact h2 i hi3
    · rw [List.mem_singleton] at hi3; rw [hi3]; exact hr
  · show p.m_accept_fast_piece_cnt ++ [0] = List.replicate (p.m_accept_fast ++ [piece]).length 0
    rw [h3, List.length_append, List.length_singleton, List.replicate_succ']
  · show p.sent ++ [message.allow_fast piece]
      = sent0 ++ (p.m_accept_fast ++ [piece]).map message.allow_fast
    rw [h4, List.map_append, List.append_assoc]
    rfl

theorem allowed_set_scan_cons (na n : Int) (hash : List Nat) (i : Nat) (rest : List Nat)
    (p : peer_connection) :
    allowed_set_scan na n hash (i :: rest) p
      = if to_uint32 n = 0 then none
        else
          if p.m_accept_fast.contains
              (wrap_int32 ((read_uint32 hash (4 * i) % to_uint32 n : Nat) : Int)) then
            allowed_set_scan na n hash rest p
          else
            if decide (((p.accept_fast
                  (wrap_int32 ((read_uint32 hash (4 * i) % to_uint32 n : Nat) : Int))
                  ).m_accept_fast.length : Int) ≥ na)
                || decide (((p.accept_fast
                  (wrap_int32 ((read_uint32 hash (4 * i) % to_uint32 n : Nat) : Int))
                  ).m_accept_fast.length : Int) = n) then
              some (p.accept_fast
                (wrap_int32 ((read_uint32 hash (4 * i) % to_uint32 n : Nat) : Int)), true)
            else
              allowed_set_scan na n hash rest (p.accept_fast
                (wrap_int32 ((read_uint32 hash (4 * i) % to_uint32 n : Nat) : Int))) := rfl

/-- The scan of one digest keeps what `send_allowed_set` keeps; it stops with
exactly `na` pieces in the list, and goes on with fewer. -/
theorem allowed_set_scan_ok {sent0 : List message} {na n : Int} (hash : List Nat)
    (hn0 : 0 < n) (hn : n < 2147483648) (hlt : na < n) :
    ∀ (ws : List Nat) (p q : peer_connection) (b : Bool),
      allowed_set_ok sent0 n p → (p.m_accept_fast.length : Int) < na →
      allowed_set_scan na n hash ws p = some (q, b) →
      allowed_set_ok sent0 n q ∧ (b = true → (q.m_accept_fast.length : Int) = na)
        ∧ (b = false → (q.m_accept_fast.length : Int) < na) := by
  intro ws
  induction ws with
  | nil =>
    intro p q b hok hlen hs
    have e : (p, false) = (q, b) := Option.some.inj hs
    cases e
    exact ⟨hok, fun h => (by cases h), fun _ => hlen⟩
  | cons i rest ih =>
    intro p q b hok hlen hs
    rw [allowed_set_scan_cons] at hs
    have hne : ¬ to_uint32 n = 0 := by rw [to_uint32_of_pos hn0 hn]; omega
    rw [if_neg hne] at hs
    by_cases hc : p.m_accept_fast.contains
        (wrap_int32 ((read_uint32 hash (4 * i) % to_uint32 n : Nat) : Int)) = true
    · rw [if_pos hc] at hs
      exact ih p q b hok hlen hs
    · rw [if_neg hc] at hs
      have hnew : wrap_int32 ((read_uint32 hash (4 * i) % to_uint32 n : Nat) : Int)
          ∉ p.m_accept_fast := by
        intro hm
        exact hc (List.elem_eq_true_of_mem hm)
      have hok1 := allowed_set_ok_accept_fast hok hnew (allowed_piece_range hn0 hn _)
      have hl1 : ((p.accept_fast
          (wrap_int32 ((read_uint32 hash (4 * i) % to_uint32 n : Nat) : Int))
          ).m_accept_fast.length : Int) = p.m_accept_fast.length + 1 := by
        show (((p.m_accept_fast ++ [_]).length : Nat) : Int) = _
        rw [List.length_append, List.length_singleton]
        push_cast
        rfl
      by_cases hd : (decide (((p.accept_fast
                  (wrap_int32 ((read_uint32 hash (4 * i) % to_uint32 n : Nat) : Int))
                  ).m_accept_fast.length : Int) ≥ na)
                || decide (((p.accept_fast
                  (wrap_int32 ((read_uint32 hash (4 * i) % to_uint32 n : Nat) : Int))
                  ).m_accept_fast.length : Int) = n)) = true
      · rw [if_pos hd] at hs
        have e := Option.some.inj hs
        cases e
        refine ⟨hok1, fun _ => ?_, fun h => (by cases h)⟩
        rw [Bool.or_eq_true, decide_eq_true_eq, decide_eq_true_eq] at hd
        omega
      · rw [if_neg hd] at hs
        refine ih _ q b hok1 ?_ hs
        rw [Bool.or_eq_true, decide_eq_true_eq, decide_eq_true_eq] at hd
        omega

theorem allowed_set_loop_succ (hasher : List Nat → List Nat) (na n : Int) (fuel : Nat)
    (hash : List Nat) (p : peer_connection) :
    allowed_set_loop hasher na n (fuel + 1) hash p
      = match allowed_set_scan na n hash [0, 1, 2, 3, 4] p with
        | none => none
        | some (p1, true) => some p1
        | some (p1, false) => allowed_set_loop hasher na n fuel (hasher hash) p1 := rfl

/-- When the loop of `send_allowed_set` returns, the list holds exactly `na`
pieces. -/
theorem allowed_set_loop_ok {sent0 : List message} {na n : Int}
    (hasher : List Nat → List Nat) (hn0 : 0 < n) (hn : n < 2147483648) (hlt : na < n) :
    ∀ (fuel : Nat) (hash : List Nat) (p q : peer_connection),
      allowed_set_ok sent0 n p → (p.m_accept_fast.length : Int) < na →
      allowed_set_loop hasher na n fuel hash p = some q →
      allowed_set_ok sent0 n q ∧ (q.m_accept_fast.length : Int) = na := by
  intro fuel
  induction fuel with
  | zero => intro hash p q _ _ h; cases h
  | succ fuel ih =>
    intro hash p q hok hlen h
    rw [allowed_set_loop_succ] at h
    cases hs : allowed_set_scan na n hash [0, 1, 2, 3, 4] p with
    | none => rw [hs] at h; cases h
    | some r =>
      obtain ⟨p1, b⟩ := r
      rw [hs] at h
      obtain ⟨i1, i2, i3⟩ := allowed_set_scan_ok hash hn0 hn hlt _ p p1 b hok hlen hs
      cases b with
      | true =>
        have e : p1 = q := Option.some.inj h
        subst e
        exact ⟨i1, i2 rfl⟩
      | false => exact ih _ p1 q i1 (i3 rfl) h

/-- The scan of one digest reads nothing of the peer but its accept-fast
list. -/
theorem allowed_set_scan_congr (na n : Int) (hash : List Nat) :
    ∀ (ws : List Nat) (p1 p2 : peer_connection), p1.m_accept_fast = p2.m_accept_fast →
      (allowed_set_scan na n hash ws p1).map (fun r => (r.1.m_accept_fast, r.2))
        = (allowed_set_scan na n hash ws p2).map (fun r => (r.1.m_accept_fast, r.2)) := by
  intro ws
  induction ws with
  | nil =>
    intro p1 p2 h
    show some (p1.m_accept_fast, false) = some (p2.m_accept_fast, false)
    rw [h]
  | cons i rest ih =>
    intro p1 p2 h
    rw [allowed_set_scan_cons, allowed_set_scan_cons]
    by_cases h0 : to_uint32 n = 0
    · rw [if_pos h0, if_pos h0]
    · rw [if_neg h0, if_neg h0]
      have hacc : ∀ piece, (p1.accept_fast piece).m_accept_fast
          = (p2.accept_fast piece).m_accept_fast := by
        intro piece
        show p1.m_accept_fast ++ [piece] = p2.m_accept_fast ++ [piece]
        rw [h]
      rw [h, hacc]
      by_cases hc : p2.m_accept_fast.contains
          (wrap_int32 ((read_uint32 hash (4 * i) % to_uint32 n : Nat) : Int)) = true
      · rw [if_pos hc, if_pos hc]
        exact ih p1 p2 h
      · rw [if_neg hc, if_neg hc]
        split_ifs
        · show some ((p1.accept_fast _).m_accept_fast, true)
            = some ((p2.accept_fast _).m_accept_fast, true)
          rw [hacc]
        · exact ih _ _ (hacc _)

/-- The loop of `send_allowed_set` reads nothing of the peer but its
accept-fast list. -/
theorem allowed_set_loop_congr (hasher : List Nat → List Nat) (na n : Int) :
    ∀ (fuel : Nat) (hash : List Nat) (p1 p2 : peer_connection),
      p1.m_accept_fast = p2.m_accept_fast →
      (allowed_set_loop hasher na n fuel hash p1).map (fun q => q.m_accept_fast)
        = (allowed_set_loop hasher na n fuel hash p2).map (fun q => q.m_accept_fast) := by
  intro fuel
  induction fuel with
  | zero => intro hash p1 p2 _; rfl
  | succ fuel ih =>
    intro hash p1 p2 h
    rw [allowed_set_loop_succ, allowed_set_loop_succ]
    have hs := allowed_set_scan_congr na n hash [0, 1, 2, 3, 4] p1 p2 h
    cases h1 : allowed_set_scan na n hash [0, 1, 2, 3, 4] p1 with
    | none =>
      rw [h1] at hs
      cases h2 : allowed_set_scan na n hash [0, 1, 2, 3, 4] p2 with
      | none => rfl
      | some r2 => rw [h2] at hs; cases hs
    | some r1 =>
      rw [h1] at hs
      cases h2 : allowed_set_scan na n hash [0, 1, 2, 3, 4] p2 with
      | none => rw [h2] at hs; cases hs
      | some r2 =>
        rw [h2] at hs
        obtain ⟨q1, b1⟩ := r1
        obtain ⟨q2, b2⟩ := r2
        have e : (q1.m_accept_fast, b1) = (q2.m_accept_fast, b2) := Option.some.inj hs
        have e1 : q1.m_accept_fast = q2.m_accept_fast := congrArg Prod.fst e
        have e2 : b1 = b2 := congrArg Prod.snd e
        subst e2
        cases b1 with
        | true =>
          show some q1.m_accept_fast = some q2.m_accept_fast
          rw [e1]
        | false => exact ih _ q1 q2 e1

/-- More rounds do not change what the loop of `send_allowed_set` returns. -/
theorem allowed_set_loop_mono (hasher : List Nat → List Nat) (na n : Int) :
    ∀ (fuel : Nat) (hash : List Nat) (p q : peer_connection),
      allowed_set_loop hasher na n fuel hash p = some q →
      ∀ k, allowed_set_loop hasher na n (fuel + k) hash p = some q := by
  intro fuel
  induction fuel with
  | zero => intro hash p q h; cases h
  | succ fuel ih =>
    intro hash p q h k
    rw [Nat.add_right_comm, allowed_set_loop_succ]
    rw [allowed_set_loop_succ] at h
    cases hs : allowed_set_scan na n hash [0, 1, 2, 3, 4] p with
    | none => rw [hs] at h; cases h
    | some r =>
      obtain ⟨p1, b⟩ := r
      rw [hs] at h
      cases b with
      | true => exact h
      | false => exact ih _ p1 q h k
theorem send_allowed_set_hashed (p : peer_connection) (hasher : List Nat → List Nat)
    (fuel : Nat) (hss : p.t.super_seeding = false) (hu : p.m_upload_only = false)
    (h0 : p.m_settings.allowed_fast_set_size ≠ 0)
    (hlt : p.m_settings.allowed_fast_set_size < p.t.num_pieces) :
    p.send_allowed_set hasher fuel
      = allowed_set_loop hasher p.m_settings.allowed_fast_set_size p.t.num_pieces fuel
          (hasher (p.m_remote ++ p.t.info_hash.take 20)) p := by
  unfold peer_connection.send_allowed_set peer_connection.upload_only
  rw [if_neg (by rw [hss]; decide), if_neg (by rw [hu]; decide)]
  dsimp only
  rw [if_neg (by simpa using h0), if_neg (by omega)]

theorem offer_piece_fold (p0 : peer_connection) :
    ∀ (l : List Nat) (p : peer_connection), p.m_have_piece = p0.m_have_piece →
      (l.foldl peer_connection.offer_piece p).m_accept_fast
          = p.m_accept_fast
            ++ (l.filter (fun (i : Nat) => !p0.has_piece (i : Int))).map (fun (i : Nat) => (i : Int))
        ∧ (l.foldl peer_connection.offer_piece p).sent
          = p.sent ++ ((l.filter (fun (i : Nat) => !p0.has_piece (i : Int))).map
              (fun (i : Nat) => (i : Int))).map message.allow_fast := by
  intro l
  induction l with
  | nil => intro p _; exact ⟨(List.append_nil _).symm, (List.append_nil _).symm⟩
  | cons a l ih =>
    intro p hp
    have hhas : p.has_piece a = p0.has_piece a := by
      unfold peer_connection.has_piece; rw [hp]
    rw [List.foldl_cons]
    have hstep : p.offer_piece a = if p.has_piece a then p else p.accept_fast a := rfl
    rw [hstep]
    by_cases hh : p0.has_piece a = true
    · rw [if_pos (by rw [hhas]; exact hh), List.filter_cons_of_neg (by rw [hh]; decide)]
      exact ih p hp
    · rw [if_neg (by rw [hhas]; exact hh), List.filter_cons_of_pos (by simpa using hh)]
      obtain ⟨i1, i2⟩ := ih (p.accept_fast a) hp
      rw [i1, i2]
      constructor
      · show (p.m_accept_fast ++ [(a : Int)]) ++ _ = _
        rw [List.append_assoc]; rfl
      · show (p.sent ++ [message.allow_fast a]) ++ _ = _
        rw [List.append_assoc]; rfl

/-! ## C26: the allowed-fast set is a function of its inputs -/

/-- C26 fails as stated.  `small_torrent_example` may offer as many pieces as
the torrent has; the list then holds the pieces the remote does not have, and
two runs with the same address, info-hash, set size and piece count differ with
the remote's bitfield.  With a set of 3 of the 10 pieces, a run on a
super-seeding torrent or for an upload-only peer generates nothing, unlike the
run with the same four inputs on `fast_set_example`. -/
theorem send_allowed_set_depends :
    ((peer_connection.send_allowed_set small_torrent_example counting_hasher 0).map
        (fun q => q.m_accept_fast) = some [0, 1, 2, 3, 4, 5, 6, 7, 8, 9]
      ∧ (peer_connection.send_allowed_set
          { small_torrent_example with m_have_piece := [true, false, true] }
          counting_hasher 0).map (fun q => q.m_accept_fast) = some [1, 3, 4, 5, 6, 7, 8, 9])
    ∧ ((peer_connection.send_allowed_set fast_set_example counting_hasher 2).map
        (fun q => q.m_accept_fast) = some [0, 1, 2]
      ∧ (peer_connection.send_allowed_set
          { fast_set_example with t := { fast_set_example.t with super_seeding := true } }
          counting_hasher 2).map (fun q => q.m_accept_fast) = some []
      ∧ (peer_connection.send_allowed_set { fast_set_example with m_upload_only := true }
          counting_hasher 2).map (fun q => q.m_accept_fast) = some []) := by
  decide

/-- C26, amended. With `allowed_fast_set_size` below the piece count, any two
runs of `send_allowed_set` that start from an empty accept-fast list, agree on
the remote address, the info-hash, `allowed_fast_set_size` and the piece count,
and agree on whether the torrent is super-seeding and on whether the peer is
upload-only, produce the same ordered accept-fast list when they return,
whatever the remote's bitfield is and however many rounds each run is given. -/
theorem send_allowed_set_deterministic (hasher : List Nat → List Nat)
    (p1 p2 : peer_connection) (fuel1 fuel2 : Nat)
    (hr : p1.m_remote = p2.m_remote) (hi : p1.t.info_hash = p2.t.info_hash)
    (hs : p1.m_settings.allowed_fast_set_size = p2.m_settings.allowed_fast_set_size)
    (hn : p1.t.num_pieces = p2.t.num_pieces)
    (he1 : p1.m_accept_fast = []) (he2 : p2.m_accept_fast = [])
    (hss : p1.t.super_seeding = p2.t.super_seeding)
    (hu : p1.m_upload_only = p2.m_upload_only)
    (hlt : p1.m_settings.allowed_fast_set_size < p1.t.num_pieces)
    (h1 : (p1.send_allowed_set hasher fuel1).isSome = true)
    (h2 : (p2.send_allowed_set hasher fuel2).isSome = true) :
    (p1.send_allowed_set hasher fuel1).map (fun q => q.m_accept_fast)
      = (p2.send_allowed_set hasher fuel2).map (fun q => q.m_accept_fast) := by
  by_cases c1 : p1.t.super_seeding = true
  · have c1b : p2.t.super_seeding = true := by rw [← hss]; exact c1
    unfold peer_connection.send_allowed_set
    rw [if_pos c1, if_pos c1b]
    show some p1.m_accept_fast = some p2.m_accept_fast
    rw [he1, he2]
  have c1b : ¬ p2.t.super_seeding = true := by rw [← hss]; exact c1
  by_cases c2 : p1.m_upload_only = true
  · have c2b : p2.m_upload_only = true := by rw [← hu]; exact c2
    unfold peer_connection.send_allowed_set peer_connection.upload_only
    rw [if_neg c1, if_neg c1b, if_pos c2, if_pos c2b]
    show some p1.m_accept_fast = some p2.m_accept_fast
    rw [he1, he2]
  have c2b : ¬ p2.m_upload_only = true := by rw [← hu]; exact c2
  by_cases c3 : p1.m_settings.allowed_fast_set_size = 0
  · have c3a : (p1.m_settings.allowed_fast_set_size == 0) = true := by simpa using c3
    have c3b : (p2.m_settings.allowed_fast_set_size == 0) = true := by rw [← hs]; exact c3a
    unfold peer_connection.send_allowed_set peer_connection.upload_only
    rw [if_neg c1, if_neg c1b, if_neg c2, if_neg c2b]
    dsimp only
    rw [if_pos c3a, if_pos c3b]
    show some p1.m_accept_fast = some p2.m_accept_fast
    rw [he1, he2]
  have e1 := send_allowed_set_hashed p1 hasher fuel1 (by simpa using c1) (by simpa using c2) c3 hlt
  have e2 := send_allowed_set_hashed p2 hasher fuel2 (by rw [← hss]; simpa using c1)
    (by rw [← hu]; simpa using c2) (by rw [← hs]; exact c3) (by rw [← hs, ← hn]; exact hlt)
  rw [← hs, ← hn, ← hr, ← hi] at e2
  rw [e1] at h1 ⊢
  rw [e2] at h2 ⊢
  obtain ⟨q1, hq1⟩ := Option.isSome_iff_exists.1 h1
  obtain ⟨q2, hq2⟩ := Option.isSome_iff_exists.1 h2
  have m1 := allowed_set_loop_mono hasher _ _ fuel1 _ p1 q1 hq1 fuel2
  have m2 := allowed_set_loop_mono hasher _ _ fuel2 _ p2 q2 hq2 fuel1
  rw [Nat.add_comm] at m2
  have hc := allowed_set_loop_congr hasher p1.m_settings.allowed_fast_set_size p1.t.num_pieces
    (fuel1 + fuel2) (hasher (p1.m_remote ++ p1.t.info_hash.take 20)) p1 p2 (by rw [he1, he2])
  rw [m1, m2] at hc
  rw [hq1, hq2]
  exact hc

/-- Witness of C26: two runs on `fast_set_example`, one for a remote that has
no piece and is given 2 rounds, one for a remote that has every piece and is
given 5 rounds, produce the same list. -/
theorem send_allowed_set_deterministic_witness :
    (peer_connection.send_allowed_set fast_set_example counting_hasher 2).map
        (fun q => q.m_accept_fast)
      = (peer_connection.send_allowed_set
          { fast_set_example with m_have_piece := List.replicate 10 true }
          counting_hasher 5).map (fun q => q.m_accept_fast) :=
  send_allowed_set_deterministic counting_hasher fast_set_example
    { fast_set_example with m_have_piece := List.replicate 10 true } 2 5
    rfl rfl rfl rfl rfl rfl rfl rfl (by decide) (by decide) (by decide)

/-! ## C27: the size of the allowed-fast set -/

/-- C27 fails as stated: on a super-seeding torrent and for an upload-only
peer `send_allowed_set` returns at once; the accept-fast list is empty, not of
size `allowed_fast_set_size = 3`, and no message is written. -/
theorem send_allowed_set_switched_off :
    ((peer_connection.send_allowed_set
          { fast_set_example with t := { fast_set_example.t with super_seeding := true } }
          counting_hasher 2).map (fun q => (q.m_accept_fast, q.sent)) = some ([], [])
      ∧ (peer_connection.send_allowed_set { fast_set_example with m_upload_only := true }
          counting_hasher 2).map (fun q => (q.m_accept_fast, q.sent)) = some ([], [])) := by
  decide

/-- C27, amended. On a torrent that is not super-seeding, for a peer that is
not upload-only, starting from an empty accept-fast list (with as many hit
counters as pieces, as `check_invariant` asserts) and with `0 <
allowed_fast_set_size < num_pieces`: whenever `send_allowed_set` returns, the
accept-fast list holds exactly `allowed_fast_set_size` pairwise distinct piece
indices, each in `[0, num_pieces)`, there is one hit counter per piece and
every counter is 0, and one allowed-fast message was written per index, in
the order of the list. -/
theorem send_allowed_set_size (hasher : List Nat → List Nat) (p q : peer_connection)
    (fuel : Nat) (he : p.m_accept_fast = [])
    (hcnt : p.m_accept_fast_piece_cnt.length = p.m_accept_fast.length)
    (h0 : 0 < p.m_settings.allowed_fast_set_size)
    (hlt : p.m_settings.allowed_fast_set_size < p.t.num_pieces)
    (hint : in_int32 p.t.num_pieces)
    (hss : p.t.super_seeding = false) (hu : p.m_upload_only = false)
    (hret : p.send_allowed_set hasher fuel = some q) :
    (q.m_accept_fast.length : Int) = p.m_settings.allowed_fast_set_size
    ∧ q.m_accept_fast.Nodup
    ∧ (∀ i ∈ q.m_accept_fast, 0 ≤ i ∧ i < p.t.num_pieces)
    ∧ q.m_accept_fast_piece_cnt.length = q.m_accept_fast.length
    ∧ (∀ c ∈ q.m_accept_fast_piece_cnt, c = 0)
    ∧ q.sent = p.sent ++ q.m_accept_fast.map message.allow_fast := by
  rw [send_allowed_set_hashed p hasher fuel hss hu (by omega) hlt] at hret
  have hok : allowed_set_ok p.sent p.t.num_pieces p := by
    unfold allowed_set_ok
    rw [he] at hcnt ⊢
    exact ⟨List.nodup_nil, fun i hi => absurd hi (List.not_mem_nil i),
      List.length_eq_zero.1 hcnt, (List.append_nil _).symm⟩
  obtain ⟨⟨i1, i2, i3, i4⟩, i5⟩ := allowed_set_loop_ok hasher (by omega) hint.2 hlt fuel _ p q
    hok (by rw [he]; exact h0) hret
  refine ⟨i5, i1, i2, ?_, ?_, i4⟩
  · rw [i3, List.length_replicate]
  · intro c hc
    rw [i3] at hc
    exact List.eq_of_mem_replicate hc

/-- Witness of C27: `fast_set_example` with two rounds of the hash chain. -/
theorem send_allowed_set_size_witness :
    ∃ q, peer_connection.send_allowed_set fast_set_example counting_hasher 2 = some q
      ∧ q.m_accept_fast = [0, 1, 2]
      ∧ (q.m_accept_fast.length : Int) = 3
      ∧ q.m_accept_fast_piece_cnt = [0, 0, 0]
      ∧ q.sent = [message.allow_fast 0, message.allow_fast 1, message.allow_fast 2] :=
  ⟨_, rfl, rfl,
    (send_allowed_set_size counting_hasher fast_set_example _ 2 rfl rfl (by decide) (by decide)
      (by decide) rfl rfl rfl).1, rfl, rfl⟩

/-! ## C28: pieces the remote has -/

/-- C28. The claim fails when fewer pieces are offered than the torrent has:
the pieces then come from the hash chain, and that branch of
`send_allowed_set` does not test `has_piece` as the branch for small torrents
does.  With 3 of 10 pieces to offer, a remote that has every piece is offered
pieces 0, 1 and 2 with the digest of the examples; whatever the digest function
is, a run that returns has offered 3 pieces, each of which the remote has; and
a remote that has every piece but the last, which is not a seed, is offered
pieces 0, 1 and 2 with the digest of the examples and, whatever the digest
function is, 3 pieces of which it has at least one. -/
theorem send_allowed_set_offers_owned :
    (peer_connection.send_allowed_set
        { fast_set_example with m_have_piece := List.replicate 10 true }
        counting_hasher 2).map (fun q => (q.m_accept_fast, q.sent))
      = some ([0, 1, 2], [message.allow_fast 0, message.allow_fast 1, message.allow_fast 2])
    ∧ peer_connection.has_piece { fast_set_example with m_have_piece := List.replicate 10 true } 0
        = true
    ∧ peer_connection.has_piece { fast_set_example with m_have_piece := List.replicate 10 true } 1
        = true
    ∧ peer_connection.has_piece { fast_set_example with m_have_piece := List.replicate 10 true } 2
        = true
    ∧ (∀ (hasher : List Nat → List Nat) (fuel : Nat) (q : peer_connection),
        peer_connection.send_allowed_set
          { fast_set_example with m_have_piece := List.replicate 10 true } hasher fuel = some q →
        q.m_accept_fast.length = 3
        ∧ q.sent = q.m_accept_fast.map message.allow_fast
        ∧ ∀ i ∈ q.m_accept_fast, peer_connection.has_piece
            { fast_set_example with m_have_piece := List.replicate 10 true } i = true)
    ∧ nearly_seed_example.m_upload_only = false
    ∧ nearly_seed_example.has_piece 9 = false
    ∧ (nearly_seed_example.send_allowed_set counting_hasher 2).map (fun q => q.m_accept_fast)
        = some [0, 1, 2]
    ∧ ∀ (hasher : List Nat → List Nat) (fuel : Nat) (q : peer_connection),
        nearly_seed_example.send_allowed_set hasher fuel = some q →
        q.m_accept_fast.length = 3
        ∧ q.sent = q.m_accept_fast.map message.allow_fast
        ∧ ∃ i ∈ q.m_accept_fast, nearly_seed_example.has_piece i = true := by
  refine ⟨by decide, by decide, by decide, by decide, ?_, by decide, by decide, by decide, ?_⟩
  rotate_left
  · intro hasher fuel q hret
    rw [send_allowed_set_hashed _ hasher fuel rfl rfl (by decide) (by decide)] at hret
    have hok : allowed_set_ok [] 10 nearly_seed_example := by
      unfold allowed_set_ok
      exact ⟨List.nodup_nil, fun i hi => absurd hi (List.not_mem_nil i), rfl, rfl⟩
    obtain ⟨⟨i1, i2, _, i4⟩, i5⟩ := @allowed_set_loop_ok [] 3 10 hasher
      (by decide) (by decide) (by decide) fuel _ _ q hok (by decide) hret
    have hl : q.m_accept_fast.length = 3 := by exact_mod_cast i5
    refine ⟨hl, i4, ?_⟩
    have hown : ∀ i ∈ q.m_accept_fast, i ≠ 9 → nearly_seed_example.has_piece i = true := by
      intro i hi hne
      obtain ⟨h0, h10⟩ := i2 i hi
      have hc : i = 0 ∨ i = 1 ∨ i = 2 ∨ i = 3 ∨ i = 4 ∨ i = 5 ∨ i = 6 ∨ i = 7 ∨ i = 8 := by
        omega
      rcases hc with rfl | rfl | rfl | rfl | rfl | rfl | rfl | rfl | rfl <;> rfl
    cases hq : q.m_accept_fast with
    | nil => rw [hq] at hl; cases hl
    | cons a l =>
      cases l with
      | nil => rw [hq] at hl; cases hl
      | cons b l2 =>
        rw [hq] at i1 hown
        have hab : a ≠ b := by
          intro e
          rw [List.nodup_cons] at i1
          exact i1.1 (e ▸ List.mem_cons_self _ _)
        by_cases ha : a = 9
        · exact ⟨b, List.mem_cons_of_mem _ (List.mem_cons_self _ _),
            hown b (List.mem_cons_of_mem _ (List.mem_cons_self _ _))
              (fun e => hab (ha.trans e.symm))⟩
        · exact ⟨a, List.mem_cons_self _ _, hown a (List.mem_cons_self _ _) ha⟩
  intro hasher fuel q hret
  rw [send_allowed_set_hashed _ hasher fuel rfl rfl (by decide) (by decide)] at hret
  have hok : allowed_set_ok [] 10
      { fast_set_example with m_have_piece := List.replicate 10 true } := by
    unfold allowed_set_ok
    exact ⟨List.nodup_nil, fun i hi => absurd hi (List.not_mem_nil i), rfl, rfl⟩
  obtain ⟨⟨_, i2, _, i4⟩, i5⟩ := @allowed_set_loop_ok [] 3 10 hasher
    (by decide) (by decide) (by decide) fuel _ _ q hok (by decide) hret
  refine ⟨by exact_mod_cast i5, i4, ?_⟩
  intro i hi
  obtain ⟨h0, h10⟩ := i2 i hi
  have hc : i = 0 ∨ i = 1 ∨ i = 2 ∨ i = 3 ∨ i = 4 ∨ i = 5 ∨ i = 6 ∨ i = 7 ∨ i = 8 ∨ i = 9 := by
    omega
  rcases hc with rfl | rfl | rfl | rfl | rfl | rfl | rfl | rfl | rfl | rfl <;> rfl

/-- The branch of `send_allowed_set` for an `allowed_fast_set_size` that is at
least the piece count of the torrent does what the specification says: the
function returns, and no piece it puts in the accept-fast list and announces
with an allowed-fast message is a piece the remote has; the pieces appended
are, in order, the pieces of the torrent the remote does not have (none when
the torrent is super-seeding, the peer is upload-only or the size is 0). -/
theorem send_allowed_set_skips_owned (hasher : List Nat → List Nat) (p : peer_connection)
    (fuel : Nat) (hge : p.t.num_pieces ≤ p.m_settings.allowed_fast_set_size) :
    ∃ q added, p.send_allowed_set hasher fuel = some q
      ∧ q.m_accept_fast = p.m_accept_fast ++ added
      ∧ q.sent = p.sent ++ added.map message.allow_fast
      ∧ (∀ i ∈ added, p.has_piece i = false ∧ 0 ≤ i ∧ i < p.t.num_pieces)
      ∧ (p.t.super_seeding = false → p.m_upload_only = false →
          p.m_settings.allowed_fast_set_size ≠ 0 →
          ∀ i, 0 ≤ i → i < p.t.num_pieces → p.has_piece i = false → i ∈ added) := by
  unfold peer_connection.send_allowed_set peer_connection.upload_only
  by_cases c1 : p.t.super_seeding = true
  · rw [if_pos c1]
    exact ⟨p, [], rfl, (List.append_nil _).symm, (List.append_nil _).symm,
      fun i hi => (by cases hi), fun h => absurd c1 (by rw [h]; decide)⟩
  rw [if_neg c1]
  by_cases c2 : p.m_upload_only = true
  · rw [if_pos c2]
    exact ⟨p, [], rfl, (List.append_nil _).symm, (List.append_nil _).symm,
      fun i hi => (by cases hi), fun _ h => absurd c2 (by rw [h]; decide)⟩
  rw [if_neg c2]
  dsimp only
  by_cases c3 : p.m_settings.allowed_fast_set_size = 0
  · rw [if_pos (by simpa using c3)]
    exact ⟨p, [], rfl, (List.append_nil _).symm, (List.append_nil _).symm,
      fun i hi => (by cases hi), fun _ _ h => absurd c3 h⟩
  rw [if_neg (by simpa using c3), if_pos (by omega)]
  obtain ⟨f1, f2⟩ := offer_piece_fold p (List.range p.t.num_pieces.toNat) p rfl
  refine ⟨_, _, rfl, f1, f2, ?_, ?_⟩
  · intro i hi
    obtain ⟨a, ha, rfl⟩ := List.mem_map.1 hi
    rw [List.mem_filter, List.mem_range] at ha
    refine ⟨by simpa using ha.2, by omega, by omega⟩
  · intro _ _ _ i hi0 hin hhas
    refine List.mem_map.2 ⟨i.toNat, ?_, by omega⟩
    rw [List.mem_filter, List.mem_range]
    refine ⟨by omega, ?_⟩
    have : ((i.toNat : Nat) : Int) = i := by omega
    rw [this, hhas]
    rfl

/-- The branch for small torrents on `small_torrent_example`, which may offer
every piece of the torrent, and a remote that has pieces 0 and 2. -/
theorem send_allowed_set_skips_owned_witness :
    ∃ q added, peer_connection.send_allowed_set
        { small_torrent_example with m_have_piece := [true, false, true] } counting_hasher 0
        = some q
      ∧ q.m_accept_fast = [] ++ added
      ∧ (∀ i ∈ added, peer_connection.has_piece
          { small_torrent_example with m_have_piece := [true, false, true] } i = false) :=
  (fun h => ⟨h.choose, h.choose_spec.choose, h.choose_spec.choose_spec.1,
      h.choose_spec.choose_spec.2.1, fun i hi => (h.choose_spec.choose_spec.2.2.2.1 i hi).1⟩)
    (send_allowed_set_skips_owned counting_hasher
      { small_torrent_example with m_have_piece := [true, false, true] } 0 (by decide))

/-! ## Pins -/

theorem get_block_buf_lt : ∀ {bs : List cached_block_entry} {i : Nat},
    (get_block bs i).buf ≠ 0 → i < bs.length := by
  intro bs i h
  by_contra hlt
  apply h
  unfold get_block
  rw [List.getD_eq_default _ _ (by omega)]

theorem set_block_get_block : ∀ (bs : List cached_block_entry) (i : Nat),
    set_block bs i (get_block bs i) = bs := by
  intro bs
  induction bs with
  | nil => intro i; rfl
  | cons b bs ih =>
    intro i
    cases i with
    | zero => rfl
    | succ i =>
      rw [get_block_cons_succ, set_block_cons_succ, ih]

theorem store_self {c : block_cache} {pk : piece_key} {pe : cached_piece_entry}
    (hf : c.find_piece pk = some pe) : replace_piece pe c.m_pieces = c.m_pieces := by
  have hkey : pe.key = pk := (find_piece_some_mem hf).2
  refine replace_piece_self _ _ ?_
  rw [hkey]
  exact hf

/-- `dec_block_refcount` undoes `inc_block_refcount` on a slot that holds a
buffer: the cache is what it was. -/
theorem inc_dec_block_refcount {c : block_cache} {pk : piece_key} {pe : cached_piece_entry}
    {block : Nat} (hf : c.find_piece pk = some pe)
    (hbuf : (get_block pe.blocks block).buf ≠ 0) :
    (c.inc_block_refcount pk block).1.dec_block_refcount pk block = c := by
  have hkey : pe.key = pk := (find_piece_some_mem hf).2
  have hi : block < pe.blocks.length := get_block_buf_lt hbuf
  have hfind := inc_block_refcount_find hf hbuf
  have hslot : get_block (referenced_piece pe block).blocks block
      = referenced_slot (get_block pe.blocks block) := get_block_set_same _ hi
  have hinc : (c.inc_block_refcount pk block).1
      = { (c.store (referenced_piece pe block)) with
          m_pinned_blocks := if (get_block pe.blocks block).refcount == 0
            then c.m_pinned_blocks + 1 else c.m_pinned_blocks } := by
    unfold block_cache.inc_block_refcount
    rw [hf]
    dsimp only
    rw [if_neg (by simpa using hbuf)]
  unfold block_cache.dec_block_refcount
  rw [hfind]
  dsimp only
  rw [hslot]
  have hrc : (referenced_slot (get_block pe.blocks block)).refcount - 1
      = (get_block pe.blocks block).refcount := by
    show (get_block pe.blocks block).refcount + 1 - 1 = _
    omega
  have hb : ({ referenced_slot (get_block pe.blocks block) with
      refcount := (referenced_slot (get_block pe.blocks block)).refcount - 1 }
      : cached_block_entry) = get_block pe.blocks block := by
    rw [hrc]
    rfl
  have hblocks : set_block (referenced_piece pe block).blocks block
      ({ referenced_slot (get_block pe.blocks block) with
        refcount := (referenced_slot (get_block pe.blocks block)).refcount - 1 }
        : cached_block_entry) = pe.blocks := by
    rw [hb]
    show set_block (set_block pe.blocks block _) block _ = _
    rw [set_block_set_block, set_block_get_block]
  rw [hblocks, hrc]
  have hpe : ({ referenced_piece pe block with
      blocks := pe.blocks
      refcount := (referenced_piece pe block).refcount - 1
      pinned := if ((get_block pe.blocks block).refcount == 0) = true
        then (referenced_piece pe block).pinned - 1 else (referenced_piece pe block).pinned }
      : cached_piece_entry) = pe := by
    have e1 : (referenced_piece pe block).refcount - 1 = pe.refcount := by
      show pe.refcount + 1 - 1 = _
      omega
    have e2 : (if ((get_block pe.blocks block).refcount == 0) = true
        then (referenced_piece pe block).pinned - 1 else (referenced_piece pe block).pinned)
        = pe.pinned := by
      unfold referenced_piece
      dsimp only
      split_ifs <;> omega
    rw [e1, e2]
    rfl
  rw [hpe, hinc]
  have hpieces : replace_piece pe (replace_piece (referenced_piece pe block) c.m_pieces)
      = c.m_pieces := by
    rw [replace_piece_replace_piece (show (referenced_piece pe block).key = pe.key from rfl)]
    exact store_self hf
  have hpin : (if ((get_block pe.blocks block).refcount == 0) = true
      then (if ((get_block pe.blocks block).refcount == 0) = true
        then c.m_pinned_blocks + 1 else c.m_pinned_blocks) - 1
      else (if ((get_block pe.blocks block).refcount == 0) = true
        then c.m_pinned_blocks + 1 else c.m_pinned_blocks)) = c.m_pinned_blocks := by
    split_ifs <;> omega
  unfold block_cache.store
  dsimp only
  rw [hpieces, hpin]
theorem pinned_ok_iff (c : block_cache) : pinned_ok c ↔ ∀ p ∈ c.m_pieces, pin_gap p = 0 := by
  unfold pinned_ok pin_gap
  constructor
  · intro h p hp; rw [h p hp]; ring
  · intro h p hp; have := h p hp; omega

theorem pins_kept_refl (c : block_cache) : pins_kept c c :=
  fun q hq => Or.inr ⟨q, hq, rfl⟩

theorem pins_kept_trans {c d e : block_cache} (h1 : pins_kept c d) (h2 : pins_kept d e) :
    pins_kept c e := by
  intro q hq
  rcases h2 q hq with h | ⟨p, hp, h⟩
  · exact Or.inl h
  · rcases h1 p hp with h3 | ⟨p0, hp0, h3⟩
    · exact Or.inl (h.trans h3)
    · exact Or.inr ⟨p0, hp0, h.trans h3⟩

theorem pinned_ok_of_kept {c d : block_cache} (h : pins_kept c d) (hc : pinned_ok c) :
    pinned_ok d := by
  rw [pinned_ok_iff] at hc ⊢
  intro q hq
  rcases h q hq with h1 | ⟨p, hp, h1⟩
  · exact h1
  · rw [h1]; exact hc p hp

theorem pins_kept_sub {c d : block_cache} (h : ∀ q ∈ d.m_pieces, q ∈ c.m_pieces) :
    pins_kept c d :=
  fun q hq => Or.inr ⟨q, h q hq, rfl⟩

theorem pins_kept_replace {c c1 d : block_cache} {q : cached_piece_entry}
    (h1 : pins_kept c c1) (hp : d.m_pieces = replace_piece q c1.m_pieces)
    (hq : pin_gap q = 0 ∨ ∃ p ∈ c.m_pieces, pin_gap q = pin_gap p) : pins_kept c d := by
  intro x hx
  rw [hp] at hx
  rcases mem_replace_piece hx with rfl | hx
  · exact hq
  · exact h1 x hx

theorem pins_kept_store {c d : block_cache} {pk : piece_key} {pe q : cached_piece_entry}
    (hf : c.find_piece pk = some pe) (hp : d.m_pieces = replace_piece q c.m_pieces)
    (hq : pin_gap q = pin_gap pe) : pins_kept c d :=
  pins_kept_replace (pins_kept_refl c) hp (Or.inr ⟨pe, (find_piece_some_mem hf).1, hq⟩)

theorem pin_gap_congr {p q : cached_piece_entry} (h1 : q.pinned = p.pinned)
    (h2 : count_pinned q.blocks = count_pinned p.blocks) : pin_gap q = pin_gap p := by
  unfold pin_gap; rw [h1, h2]

theorem count_pinned_set : ∀ (bs : List cached_block_entry) (i : Nat) (b2 : cached_block_entry),
    i < bs.length →
    count_pinned (set_block bs i b2)
      = count_pinned bs - pinned_ind (get_block bs i) + pinned_ind b2 := by
  intro bs
  induction bs with
  | nil => intro i b2 hi; simp at hi
  | cons b bs ih =>
    intro i b2 hi
    cases i with
    | zero =>
      show count_pinned (b2 :: bs) = count_pinned (b :: bs) - pinned_ind b + pinned_ind b2
      rw [count_pinned_cons, count_pinned_cons]
      unfold pinned_ind
      ring
    | succ i =>
      rw [set_block_cons_succ, get_block_cons_succ, count_pinned_cons, count_pinned_cons,
        ih i b2 (by simpa using hi)]
      ring

/-- Writing a slot without touching its reference count keeps the number of
pinned slots. -/
theorem count_pinned_touch (bs : List cached_block_entry) (i : Nat) (b2 : cached_block_entry)
    (h : b2.refcount = (get_block bs i).refcount) :
    count_pinned (set_block bs i b2) = count_pinned bs := by
  by_cases hi : i < bs.length
  · rw [count_pinned_set bs i b2 hi]
    unfold pinned_ind
    rw [h]
    ring
  · unfold set_block
    rw [List.set_eq_of_length_le (by omega)]

theorem count_pinned_replicate (n : Nat) : count_pinned (List.replicate n {}) = 0 := by
  induction n with
  | zero => rfl
  | succ n ih =>
    rw [List.replicate_succ, count_pinned_cons, ih]
    rfl

theorem evict_scan_pinned : ∀ (n : Nat) (bs : List cached_block_entry) (a : evict_acc),
    count_pinned (evict_scan n bs a).1 = count_pinned bs := by
  intro n
  induction n with
  | zero => intro bs a; rw [evict_scan_zero]
  | succ n ih =>
    intro bs a
    cases bs with
    | nil => rw [evict_scan_nil]
    | cons b bs =>
      rw [evict_scan_cons]
      split_ifs
      · rfl
      · show count_pinned (b :: _) = _
        rw [count_pinned_cons, count_pinned_cons, ih]
      · show count_pinned (_ :: _) = _
        rw [count_pinned_cons, count_pinned_cons, ih]

theorem evict_piece_scan_pinned : ∀ (bs : List cached_block_entry) (a : drop_acc),
    count_pinned (evict_piece_scan bs a).1 = count_pinned bs := by
  intro bs
  induction bs with
  | nil => intro a; rfl
  | cons b bs ih =>
    intro a
    rw [evict_piece_scan_cons]
    split_ifs <;> first
      | (show count_pinned (_ :: _) = _
         rw [count_pinned_cons, count_pinned_cons, ih])
      | (show count_pinned (_ :: _) = _
         rw [count_pinned_cons, count_pinned_cons])

theorem abort_dirty_scan_pinned : ∀ (bs : List cached_block_entry) (a : drop_acc),
    count_pinned (abort_dirty_scan bs a).1 = count_pinned bs := by
  intro bs
  induction bs with
  | nil => intro a; rfl
  | cons b bs ih =>
    intro a
    unfold abort_dirty_scan
    split_ifs
    · show count_pinned (b :: _) = _
      rw [count_pinned_cons, count_pinned_cons, ih]
    · show count_pinned (_ :: _) = _
      rw [count_pinned_cons, count_pinned_cons, ih]
theorem pins_kept_same {c d : block_cache} (h : d.m_pieces = c.m_pieces) : pins_kept c d :=
  pins_kept_sub (fun q hq => by rw [h] at hq; exact hq)

theorem pins_kept_bump_lru (c : block_cache) (pk : piece_key) : pins_kept c (c.bump_lru pk) := by
  unfold block_cache.bump_lru
  cases c.find_piece pk with
  | none => exact pins_kept_refl c
  | some p => exact pins_kept_same rfl

theorem pins_kept_cache_hit (c : block_cache) (pk : piece_key) (requester : Nat)
    (volatile_read : Bool) : pins_kept c (c.cache_hit pk requester volatile_read) := by
  unfold block_cache.cache_hit
  cases hf : c.find_piece pk with
  | none => exact pins_kept_refl c
  | some p =>
    dsimp only
    split_ifs <;> first
      | exact pins_kept_refl c
      | exact pins_kept_store hf rfl rfl

theorem pins_kept_update_cache_state (c : block_cache) (pk : piece_key) :
    pins_kept c (c.update_cache_state pk) := by
  unfold block_cache.update_cache_state
  cases hf : c.find_piece pk with
  | none => exact pins_kept_refl c
  | some p =>
    dsimp only
    split_ifs <;> first
      | exact pins_kept_refl c
      | exact pins_kept_store hf rfl rfl

theorem pin_gap_new_piece (block_size : Int) (j : disk_io_job) (cs : Nat) :
    pin_gap (new_piece block_size j cs) = 0 := by
  unfold pin_gap new_piece
  dsimp only
  rw [count_pinned_replicate]
  rfl

theorem pins_kept_allocate_piece (c : block_cache) (j : disk_io_job) (cs : Nat) :
    pins_kept c (c.allocate_piece j cs) := by
  cases hf : c.find_piece (j.storage, j.piece) with
  | none =>
    rw [allocate_piece_new cs hf]
    intro q hq
    have hq2 : q ∈ c.m_pieces ++ [new_piece c.m_block_size j cs] := hq
    rcases List.mem_append.1 hq2 with h | h
    · exact Or.inr ⟨q, h, rfl⟩
    · rw [List.mem_singleton] at h
      rw [h]
      exact Or.inl (pin_gap_new_piece _ _ _)
  | some p =>
    rw [allocate_piece_existing cs hf]
    split_ifs
    · exact pins_kept_store hf rfl rfl
    · exact pins_kept_store hf rfl rfl

theorem pins_kept_erase_piece (c : block_cache) (pk : piece_key) :
    pins_kept c (c.erase_piece pk) := by
  cases hf : c.find_piece pk with
  | none =>
    unfold block_cache.erase_piece
    rw [hf]
    exact pins_kept_refl c
  | some p =>
    refine pins_kept_sub (fun q hq => ?_)
    rw [erase_piece_pieces hf] at hq
    exact List.mem_of_mem_eraseP hq

theorem pins_kept_trim_ghost (g : Nat) : ∀ (fuel : Nat) (c : block_cache),
    pins_kept c (block_cache.trim_ghost g fuel c) := by
  intro fuel
  induction fuel with
  | zero => intro c; exact pins_kept_refl c
  | succ fuel ih =>
    intro c
    rw [trim_ghost_succ]
    split_ifs
    · cases (c.m_lru g).head? with
      | none => exact pins_kept_refl c
      | some k => exact pins_kept_trans (pins_kept_erase_piece c k) (ih _)
    · exact pins_kept_refl c

theorem pins_kept_move_to_ghost (c : block_cache) (pk : piece_key) :
    pins_kept c (c.move_to_ghost pk) := by
  unfold block_cache.move_to_ghost
  cases hf : c.find_piece pk with
  | none => exact pins_kept_refl c
  | some pe =>
    dsimp only
    split_ifs
    · exact pins_kept_erase_piece c pk
    · exact pins_kept_refl c
    · exact pins_kept_replace (pins_kept_trim_ghost _ _ c) rfl
        (Or.inr ⟨pe, (find_piece_some_mem hf).1, rfl⟩)

theorem pins_kept_evict_from_piece {st : evict_state} {pk : piece_key} {pe : cached_piece_entry}
    (hf : st.c.find_piece pk = some pe) (limit : Nat) :
    pins_kept st.c (evict_from_piece st pe limit).c := by
  unfold evict_from_piece
  refine pins_kept_store (q := { pe with
      blocks := (evict_scan limit pe.blocks _).1
      num_blocks := (evict_scan limit pe.blocks _).2.num_blocks }) hf rfl ?_
  exact pin_gap_congr rfl (evict_scan_pinned _ _ _)

theorem pins_kept_evict_read_step (ign : Option piece_key) (st : evict_state) (pk : piece_key) :
    pins_kept st.c (evict_read_step ign st pk).c := by
  unfold evict_read_step
  by_cases h0 : st.num ≤ 0
  · rw [if_pos h0]; exact pins_kept_refl _
  rw [if_neg h0]
  cases hf : st.c.find_piece pk with
  | none => exact pins_kept_refl _
  | some pe =>
    dsimp only
    by_cases h1 : ign = some pk
    · rw [if_pos h1]; exact pins_kept_refl _
    rw [if_neg h1]
    by_cases h2 : pe.ok_to_evict false = true
    · rw [if_pos h2]; exact pins_kept_move_to_ghost _ _
    rw [if_neg h2]
    by_cases h3 : pe.num_blocks ≤ pe.pinned
    · rw [if_pos h3]; exact pins_kept_refl _
    rw [if_neg h3]
    have h4 := pins_kept_evict_from_piece hf pe.blocks_in_piece.toNat
    cases (evict_from_piece st pe pe.blocks_in_piece.toNat).c.find_piece pk with
    | none => exact h4
    | some pe1 =>
      dsimp only
      split_ifs
      · exact pins_kept_trans h4 (pins_kept_move_to_ghost _ _)
      · exact h4

theorem pins_kept_evict_write_step (ign : Option piece_key) (pass : Nat) (st : evict_state)
    (pk : piece_key) : pins_kept st.c (evict_write_step ign pass st pk).c := by
  unfold evict_write_step
  by_cases h0 : st.num ≤ 0
  · rw [if_pos h0]; exact pins_kept_refl _
  rw [if_neg h0]
  cases hf : st.c.find_piece pk with
  | none => exact pins_kept_refl _
  | some pe =>
    dsimp only
    by_cases h1 : ign = some pk
    · rw [if_pos h1]; exact pins_kept_refl _
    rw [if_neg h1]
    by_cases h2 : pe.ok_to_evict false = true
    · rw [if_pos h2]; exact pins_kept_erase_piece _ _
    rw [if_neg h2]
    by_cases h3 : (pe.num_dirty == pe.num_blocks) = true
    · rw [if_pos h3]; exact pins_kept_refl _
    rw [if_neg h3]
    have h4 := pins_kept_evict_from_piece hf (write_pass_limit pe pass st.c.m_block_size).toNat
    cases (evict_from_piece st pe
        (write_pass_limit pe pass st.c.m_block_size).toNat).c.find_piece pk with
    | none => exact h4
    | some pe1 =>
      dsimp only
      split_ifs
      · exact pins_kept_trans h4 (pins_kept_erase_piece _ _)
      · exact h4

theorem pins_kept_evict_fold (f : evict_state → piece_key → evict_state)
    (hf : ∀ st pk, pins_kept st.c (f st pk).c) :
    ∀ (l : List piece_key) (st : evict_state), pins_kept st.c (l.foldl f st).c := by
  intro l
  induction l with
  | nil => intro st; exact pins_kept_refl _
  | cons a l ih => intro st; exact pins_kept_trans (hf st a) (ih _)

theorem pins_kept_try_evict_blocks (c : block_cache) (num : Int) (ign : Option piece_key) :
    pins_kept c (c.try_evict_blocks num ign).1 := by
  by_cases hnum : num ≤ 0
  · unfold block_cache.try_evict_blocks
    rw [if_pos hnum]
    exact pins_kept_refl c
  have h1 : pins_kept c
      (evict_read_lists ign c.evict_order { c := c, num := num, to_delete := [] }).c := by
    unfold evict_read_lists
    exact pins_kept_trans (pins_kept_trans
      (pins_kept_evict_fold _ (pins_kept_evict_read_step ign) _ _)
      (pins_kept_evict_fold _ (pins_kept_evict_read_step ign) _ _))
      (pins_kept_evict_fold _ (pins_kept_evict_read_step ign) _ _)
  have h2 : ∀ st : evict_state, pins_kept st.c (evict_write_list ign st).c := by
    intro st
    unfold evict_write_list
    split_ifs
    · exact pins_kept_trans (pins_kept_evict_fold _ (pins_kept_evict_write_step ign 0) _ _)
        (pins_kept_evict_fold _ (pins_kept_evict_write_step ign 1) _ _)
    · exact pins_kept_refl _
  exact pins_kept_trans (pins_kept_trans h1 (h2 _))
    (pins_kept_same (try_evict_blocks_unfold c num ign hnum).1)
theorem pins_kept_free_block (c : block_cache) (pk : piece_key) (block : Nat) :
    pins_kept c (c.free_block pk block) := by
  cases hf : c.find_piece pk with
  | none =>
    unfold block_cache.free_block
    rw [hf]
    exact pins_kept_refl c
  | some pe =>
    rw [free_block_eq block hf]
    exact pins_kept_store hf rfl (pin_gap_congr rfl (count_pinned_touch _ _ _ rfl))

theorem pins_kept_clear_slot (c : block_cache) (pk : piece_key) (block buffer : Nat) :
    pins_kept c (c.clear_slot pk block buffer) := by
  unfold block_cache.clear_slot
  cases c.find_piece pk with
  | none => exact pins_kept_refl c
  | some pe =>
    dsimp only
    split_ifs
    · exact pins_kept_free_block c pk block
    · exact pins_kept_refl c

theorem pins_kept_install_dirty (c : block_cache) (pk : piece_key) (block : Nat)
    (j : disk_io_job) : pins_kept c (c.install_dirty pk block j) := by
  unfold block_cache.install_dirty
  cases hf : c.find_piece pk with
  | none => exact pins_kept_refl c
  | some pe =>
    dsimp only
    have h1 : pins_kept c { (c.store (dirtied_piece pe block j)) with
        m_write_cache_size := c.m_write_cache_size + 1 } :=
      pins_kept_store hf rfl (pin_gap_congr rfl (count_pinned_touch _ _ _ rfl))
    exact pins_kept_trans h1 (pins_kept_trans (pins_kept_update_cache_state _ _)
      (pins_kept_bump_lru _ _))

theorem pins_kept_add_dirty_block (c : block_cache) (j : disk_io_job) (evict : Int) :
    pins_kept c (c.add_dirty_block j evict).1 := by
  unfold block_cache.add_dirty_block
  dsimp only
  refine pins_kept_trans (pins_kept_trans (pins_kept_trans (pins_kept_allocate_piece c j write_lru)
    (?_ : pins_kept _ (if evict > 0 then _ else _))) (pins_kept_clear_slot _ _ _ _))
    (pins_kept_install_dirty _ _ _ _)
  split_ifs
  · exact pins_kept_try_evict_blocks _ _ _
  · exact pins_kept_refl _

theorem pins_kept_inc_block_refcount (c : block_cache) (pk : piece_key) (block : Nat) :
    pins_kept c (c.inc_block_refcount pk block).1 := by
  unfold block_cache.inc_block_refcount
  cases hf : c.find_piece pk with
  | none => exact pins_kept_refl c
  | some pe =>
    dsimp only
    by_cases hbuf : ((get_block pe.blocks block).buf == 0) = true
    · rw [if_pos hbuf]; exact pins_kept_refl c
    rw [if_neg hbuf]
    refine pins_kept_store hf rfl ?_
    have hi : block < pe.blocks.length := get_block_buf_lt (by simpa using hbuf)
    unfold pin_gap referenced_piece
    dsimp only
    rw [count_pinned_set _ _ _ hi]
    unfold pinned_ind referenced_slot
    dsimp only
    by_cases h0 : (get_block pe.blocks block).refcount = 0
    · rw [h0]; simp
    · rw [if_neg (by simpa using h0)]
      by_cases h1 : (get_block pe.blocks block).refcount > 0
      · rw [if_pos h1, if_pos (by omega)]; ring
      · rw [if_neg h1, if_neg (by omega)]; ring

theorem pins_kept_dec_block_refcount (c : block_cache) (pk : piece_key) (block : Nat) :
    pins_kept c (c.dec_block_refcount pk block) := by
  unfold block_cache.dec_block_refcount
  cases hf : c.find_piece pk with
  | none => exact pins_kept_refl c
  | some pe =>
    dsimp only
    refine pins_kept_store hf rfl ?_
    unfold pin_gap
    dsimp only
    by_cases hi : block < pe.blocks.length
    · rw [count_pinned_set _ _ _ hi]
      unfold pinned_ind
      dsimp only
      by_cases h0 : (get_block pe.blocks block).refcount - 1 = 0
      · rw [if_pos (by simpa using h0), if_pos (by omega), if_neg (by omega)]; ring
      · rw [if_neg (by simpa using h0)]
        by_cases h1 : (get_block pe.blocks block).refcount > 0
        · rw [if_pos h1, if_pos (by omega)]; ring
        · rw [if_neg h1, if_neg (by omega)]; ring
    · have hd : get_block pe.blocks block = {} := by
        unfold get_block
        rw [List.getD_eq_default _ _ (by omega)]
      have hs : ∀ b2, set_block pe.blocks block b2 = pe.blocks := by
        intro b2
        unfold set_block
        rw [List.set_eq_of_length_le (by omega)]
      rw [hs, hd]
      rfl

theorem pins_kept_flush_one (pk : piece_key) (c : block_cache) (block : Nat) :
    pins_kept c (block_cache.flush_one pk c block) := by
  unfold block_cache.flush_one
  cases hf : c.find_piece pk with
  | none => exact pins_kept_refl c
  | some pe =>
    dsimp only
    have h1 : pins_kept c (c.store (unflagged_piece pe block)) :=
      pins_kept_store hf rfl (pin_gap_congr rfl (count_pinned_touch _ _ _ rfl))
    exact pins_kept_trans h1 (pins_kept_dec_block_refcount _ _ _)

theorem pins_kept_foldl (f : block_cache → Nat → block_cache)
    (hf : ∀ c b, pins_kept c (f c b)) :
    ∀ (l : List Nat) (c : block_cache), pins_kept c (l.foldl f c) := by
  intro l
  induction l with
  | nil => intro c; exact pins_kept_refl c
  | cons a l ih => intro c; exact pins_kept_trans (hf c a) (ih _)

theorem pins_kept_blocks_flushed (c : block_cache) (pk : piece_key) (flushed : List Nat) :
    pins_kept c (c.blocks_flushed pk flushed) := by
  unfold block_cache.blocks_flushed
  dsimp only
  have h1 := pins_kept_foldl _ (pins_kept_flush_one pk) flushed c
  have h2 : pins_kept c { (flushed.foldl (block_cache.flush_one pk) c) with
      m_write_cache_size := (flushed.foldl (block_cache.flush_one pk) c).m_write_cache_size
        - (flushed.length : Int)
      m_read_cache_size := (flushed.foldl (block_cache.flush_one pk) c).m_read_cache_size
        + (flushed.length : Int) } :=
    pins_kept_trans h1 (pins_kept_same rfl)
  cases hf : block_cache.find_piece { (flushed.foldl (block_cache.flush_one pk) c) with
      m_write_cache_size := (flushed.foldl (block_cache.flush_one pk) c).m_write_cache_size
        - (flushed.length : Int)
      m_read_cache_size := (flushed.foldl (block_cache.flush_one pk) c).m_read_cache_size
        + (flushed.length : Int) } pk with
  | none => exact h2
  | some pe =>
    dsimp only
    have h3 : pins_kept _ (block_cache.store { (flushed.foldl (block_cache.flush_one pk) c) with
        m_write_cache_size := (flushed.foldl (block_cache.flush_one pk) c).m_write_cache_size
          - (flushed.length : Int)
        m_read_cache_size := (flushed.foldl (block_cache.flush_one pk) c).m_read_cache_size
          + (flushed.length : Int) }
        { pe with num_dirty := pe.num_dirty - (flushed.length : Int) }) :=
      pins_kept_store hf rfl rfl
    exact pins_kept_trans h2 (pins_kept_trans h3 (pins_kept_update_cache_state _ _))

theorem pins_kept_insert_one (pk : piece_key) (inc_refcount : Bool) (c : block_cache)
    (block base : Nat) : pins_kept c (block_cache.insert_one pk inc_refcount c block base) := by
  unfold block_cache.insert_one
  cases hf : c.find_piece pk with
  | none => exact pins_kept_refl c
  | some pe =>
    dsimp only
    have h1 : pins_kept c (if ((get_block pe.blocks block).buf != 0 && inc_refcount) = true
        then (c.inc_block_refcount pk block).1 else c) := by
      split_ifs
      · exact pins_kept_inc_block_refcount _ _ _
      · exact pins_kept_refl c
    cases hf1 : block_cache.find_piece
        (if ((get_block pe.blocks block).buf != 0 && inc_refcount) = true
          then (c.inc_block_refcount pk block).1 else c) pk with
    | none => exact h1
    | some pe1 =>
      dsimp only
      by_cases hb : ((get_block pe1.blocks block).buf != 0) = true
      · rw [if_pos hb]
        exact pins_kept_trans h1 (pins_kept_same rfl)
      · rw [if_neg hb]
        generalize (if ((get_block pe.blocks block).buf != 0 && inc_refcount) = true
          then (c.inc_block_refcount pk block).1 else c) = c1 at h1 hf1 ⊢
        have h2 : pins_kept c1 { (c1.store (inserted_piece pe1 block base)) with
            m_read_cache_size := c1.m_read_cache_size + 1 } :=
          pins_kept_store hf1 rfl (pin_gap_congr rfl (count_pinned_touch _ _ _ rfl))
        split_ifs
        · exact pins_kept_trans h1 (pins_kept_trans h2 (pins_kept_inc_block_refcount _ _ _))
        · exact pins_kept_trans h1 h2

theorem pins_kept_insert_loop (pk : piece_key) (inc_refcount : Bool) :
    ∀ (iov : List Nat) (block : Nat) (c : block_cache),
      pins_kept c (block_cache.insert_loop pk inc_refcount iov block c) := by
  intro iov
  induction iov with
  | nil => intro block c; exact pins_kept_refl c
  | cons base iov ih =>
    intro block c
    exact pins_kept_trans (pins_kept_insert_one pk inc_refcount c block base) (ih _ _)

theorem pins_kept_insert_blocks (c : block_cache) (pk : piece_key) (block : Nat)
    (iov : List Nat) (j : disk_io_job) (inc_refcount : Bool) :
    pins_kept c (c.insert_blocks pk block iov j inc_refcount) :=
  pins_kept_trans (pins_kept_cache_hit _ _ _ _) (pins_kept_insert_loop _ _ _ _ _)

theorem pins_kept_free_deleted (c : block_cache) (n : Nat) : pins_kept c (c.free_deleted n) := by
  unfold block_cache.free_deleted
  split_ifs
  · exact pins_kept_same rfl
  · exact pins_kept_refl c

theorem pins_kept_evict_emptied {c0 c : block_cache} {pk : piece_key}
    {pe1 : cached_piece_entry} (jobs : List Nat) (h0 : pins_kept c0 c)
    (h1 : pin_gap pe1 = 0 ∨ ∃ p ∈ c0.m_pieces, pin_gap pe1 = pin_gap p) :
    pins_kept c0 (c.evict_emptied pk pe1 jobs).1 := by
  unfold block_cache.evict_emptied
  have hs : pins_kept c0 (c.store { pe1 with hash := none, jobs := [] }) :=
    pins_kept_replace h0 rfl h1
  split_ifs
  · exact hs
  · exact pins_kept_trans hs (pins_kept_erase_piece _ _)
  · exact pins_kept_trans hs (pins_kept_move_to_ghost _ _)
  · exact h0

theorem pins_kept_evict_piece (c : block_cache) (pk : piece_key) (jobs : List Nat) :
    pins_kept c (c.evict_piece pk jobs).1 := by
  unfold block_cache.evict_piece
  cases hf : c.find_piece pk with
  | none => exact pins_kept_refl c
  | some pe =>
    dsimp only
    have hg : pin_gap (dropped_piece pe (evict_piece_scan pe.blocks (c.drop_start pe)))
        = pin_gap pe := pin_gap_congr rfl (evict_piece_scan_pinned _ _)
    have h1 : pins_kept c { (c.store (dropped_piece pe
        (evict_piece_scan pe.blocks (c.drop_start pe)))) with
        m_read_cache_size := (evict_piece_scan pe.blocks (c.drop_start pe)).2.read_cache_size
        m_write_cache_size := (evict_piece_scan pe.blocks (c.drop_start pe)).2.write_cache_size } :=
      pins_kept_store hf rfl hg
    exact pins_kept_evict_emptied jobs (pins_kept_trans h1 (pins_kept_free_deleted _ _))
      (Or.inr ⟨pe, (find_piece_some_mem hf).1, hg⟩)

theorem pins_kept_abort_dirty (c : block_cache) (pk : piece_key) :
    pins_kept c (c.abort_dirty pk) := by
  unfold block_cache.abort_dirty
  cases hf : c.find_piece pk with
  | none => exact pins_kept_refl c
  | some pe =>
    dsimp only
    have h1 : pins_kept c { (c.store (dropped_piece pe
        (abort_dirty_scan pe.blocks (c.drop_start pe)))) with
        m_write_cache_size := (abort_dirty_scan pe.blocks (c.drop_start pe)).2.write_cache_size } :=
      pins_kept_store hf rfl (pin_gap_congr rfl (abort_dirty_scan_pinned _ _))
    exact pins_kept_trans h1 (pins_kept_trans (pins_kept_free_deleted _ _)
      (pins_kept_update_cache_state _ _))

theorem pins_kept_count_hit (c : block_cache) (pk : piece_key) (block : Nat) :
    pins_kept c (c.count_hit pk block) := by
  unfold block_cache.count_hit
  cases hf : c.find_piece pk with
  | none => exact pins_kept_refl c
  | some pe => exact pins_kept_store hf rfl (pin_gap_congr rfl (count_pinned_touch _ _ _ rfl))

theorem pins_kept_copy_loop (pk : piece_key) (block_size : Int) :
    ∀ (fuel block : Nat) (block_offset size : Int) (c : block_cache),
      pins_kept c (copy_loop pk block_size fuel block block_offset size c) := by
  intro fuel
  induction fuel with
  | zero => intro block block_offset size c; exact pins_kept_refl c
  | succ fuel ih =>
    intro block block_offset size c
    unfold copy_loop
    split_ifs
    · exact pins_kept_trans (pins_kept_count_hit c pk block) (ih _ _ _ _)
    · exact pins_kept_refl c

theorem pins_kept_copy_from_piece (c : block_cache) (pk : piece_key) (j : disk_io_job)
    (alloc : Nat) : pins_kept c (c.copy_from_piece pk j alloc).1 := by
  have hi := pins_kept_inc_block_refcount c pk (c.block_of j)
  unfold block_cache.copy_from_piece
  dsimp only
  generalize (if (decide (c.block_offset j > 0)
    && decide (j.buffer_size > c.m_block_size - c.block_offset j)) = true then 2 else 1 : Nat) = n
  by_cases h1 : ((c.inc_block_refcount pk (c.block_of j)).2 == false) = true
  · rw [if_pos h1]; exact hi
  rw [if_neg h1]
  by_cases h2 : (n == 1 && !j.force_copy) = true
  · rw [if_pos h2]; exact pins_kept_trans hi (pins_kept_same rfl)
  rw [if_neg h2]
  have hi2 : pins_kept c (if (n == 2) = true
      then (c.inc_block_refcount pk (c.block_of j)).1.inc_block_refcount pk (c.block_of j + 1)
      else ((c.inc_block_refcount pk (c.block_of j)).1, true)).1 := by
    split_ifs
    · exact pins_kept_trans hi (pins_kept_inc_block_refcount _ _ _)
    · exact hi
  generalize (if (n == 2) = true
      then (c.inc_block_refcount pk (c.block_of j)).1.inc_block_refcount pk (c.block_of j + 1)
      else ((c.inc_block_refcount pk (c.block_of j)).1, true)) = r2 at hi2 ⊢
  by_cases h3 : (n == 2 && r2.2 == false) = true
  · rw [if_pos h3]; exact pins_kept_trans hi (pins_kept_dec_block_refcount _ _ _)
  rw [if_neg h3]
  by_cases h4 : (alloc == 0) = true
  · rw [if_pos h4]; exact hi2
  rw [if_neg h4]
  have h5 : pins_kept c (copy_loop pk c.m_block_size j.buffer_size.toNat (c.block_of j)
      (c.block_offset j) j.buffer_size { r2.1 with m_in_use := r2.1.m_in_use + 1 }) :=
    pins_kept_trans (pins_kept_trans hi2
      (pins_kept_same (d := { r2.1 with m_in_use := r2.1.m_in_use + 1 }) rfl))
      (pins_kept_copy_loop _ _ _ _ _ _ _)
  have h6 := pins_kept_trans h5 (pins_kept_dec_block_refcount _ pk (c.block_of j))
  split_ifs
  · exact pins_kept_trans h6 (pins_kept_dec_block_refcount _ _ _)
  · exact h6

theorem pins_kept_try_read (c : block_cache) (j : disk_io_job) (alloc : Nat) :
    pins_kept c (c.try_read j alloc).1 := by
  unfold block_cache.try_read
  cases c.find_piece (j.storage, j.piece) with
  | none => exact pins_kept_refl c
  | some p =>
    dsimp only
    split_ifs <;>
      exact pins_kept_trans (pins_kept_cache_hit _ _ _ _) (pins_kept_copy_from_piece _ _ _ _)

theorem pins_kept_maybe_free_piece (c : block_cache) (pk : piece_key) :
    pins_kept c (c.maybe_free_piece pk).1 := by
  unfold block_cache.maybe_free_piece
  cases c.find_piece pk with
  | none => exact pins_kept_refl c
  | some pe =>
    dsimp only
    split_ifs
    · exact pins_kept_refl c
    · exact pins_kept_evict_piece _ _ _

theorem pins_kept_reclaim_block (c : block_cache) (ref : block_cache_reference) :
    pins_kept c (c.reclaim_block ref) := by
  unfold block_cache.reclaim_block
  cases c.find_piece (ref.storage, ref.piece) with
  | none => exact pins_kept_refl c
  | some pe =>
    dsimp only
    exact pins_kept_trans (pins_kept_trans (pins_kept_dec_block_refcount _ _ _)
      (pins_kept_same (d := { (c.dec_block_refcount (ref.storage, ref.piece) ref.block) with
        m_send_buffer_blocks := _ }) rfl)) (pins_kept_maybe_free_piece _ _)
/-! ## C21: pins balance -/

/-- C21. For every cached piece and every block index: on a slot that holds a
buffer `inc_block_refcount` returns true and raises the slot's reference count
by one, and `dec_block_refcount` on the same block afterwards gives back the
cache as it was, so the slot's `refcount`, the piece's `refcount` and `pinned`
and `m_pinned_blocks` have their prior values (the counters per reason only
exist under `TORRENT_USE_ASSERTS` and are not embedded); on an empty slot
`inc_block_refcount` returns false and changes nothing; and `pinned` equals the
number of slots with `refcount > 0` for every piece of the empty cache and, once
it does, after every operation of the cache. -/
theorem pins_balance (c : block_cache) (pk : piece_key) (pe : cached_piece_entry) (block : Nat)
    (hf : c.find_piece pk = some pe) :
    ((get_block pe.blocks block).buf ≠ 0 →
        (c.inc_block_refcount pk block).2 = true
        ∧ ((c.inc_block_refcount pk block).1.slot_of pk block).refcount
            = (get_block pe.blocks block).refcount + 1
        ∧ (c.inc_block_refcount pk block).1.dec_block_refcount pk block = c)
    ∧ ((get_block pe.blocks block).buf = 0 → c.inc_block_refcount pk block = (c, false))
    ∧ pinned_ok ({} : block_cache)
    ∧ (pinned_ok c →
        pinned_ok (c.inc_block_refcount pk block).1
        ∧ pinned_ok (c.dec_block_refcount pk block)
        ∧ (∀ j alloc, pinned_ok (c.try_read j alloc).1)
        ∧ (∀ ref, pinned_ok (c.reclaim_block ref))
        ∧ (∀ k requester volatile_read, pinned_ok (c.cache_hit k requester volatile_read))
        ∧ (∀ j cache_state, pinned_ok (c.allocate_piece j cache_state))
        ∧ (∀ j evict, pinned_ok (c.add_dirty_block j evict).1)
        ∧ (∀ k b iov j inc_refcount, pinned_ok (c.insert_blocks k b iov j inc_refcount))
        ∧ (∀ k flushed, pinned_ok (c.blocks_flushed k flushed))
        ∧ (∀ k b, pinned_ok (c.free_block k b))
        ∧ (∀ k jobs, pinned_ok (c.evict_piece k jobs).1)
        ∧ (∀ k, pinned_ok (c.abort_dirty k))
        ∧ (∀ k, pinned_ok (c.erase_piece k))
        ∧ (∀ k, pinned_ok (c.move_to_ghost k))
        ∧ (∀ num ignore, pinned_ok (c.try_evict_blocks num ignore).1)) := by
  refine ⟨fun hbuf => ⟨?_, ?_, inc_dec_block_refcount hf hbuf⟩, fun hbuf => ?_,
    fun p hp => (by cases hp), fun h => ⟨?_, ?_, ?_, ?_, ?_, ?_, ?_, ?_, ?_, ?_, ?_, ?_, ?_, ?_, ?_⟩⟩
  · unfold block_cache.inc_block_refcount
    rw [hf]
    dsimp only
    rw [if_neg (by simpa using hbuf)]
  · rw [slot_of_find (inc_block_refcount_find hf hbuf)]
    show (get_block (set_block pe.blocks block (referenced_slot (get_block pe.blocks block)))
      block).refcount = _
    rw [get_block_set_same _ (get_block_buf_lt hbuf)]
    rfl
  · unfold block_cache.inc_block_refcount
    rw [hf]
    dsimp only
    rw [if_pos (by simpa using hbuf)]
  · exact pinned_ok_of_kept (pins_kept_inc_block_refcount _ _ _) h
  · exact pinned_ok_of_kept (pins_kept_dec_block_refcount _ _ _) h
  · exact fun j alloc => pinned_ok_of_kept (pins_kept_try_read _ _ _) h
  · exact fun ref => pinned_ok_of_kept (pins_kept_reclaim_block _ _) h
  · exact fun k r v => pinned_ok_of_kept (pins_kept_cache_hit _ _ _ _) h
  · exact fun j cs => pinned_ok_of_kept (pins_kept_allocate_piece _ _ _) h
  · exact fun j e => pinned_ok_of_kept (pins_kept_add_dirty_block _ _ _) h
  · exact fun k b iov j i => pinned_ok_of_kept (pins_kept_insert_blocks _ _ _ _ _ _) h
  · exact fun k f => pinned_ok_of_kept (pins_kept_blocks_flushed _ _ _) h
  · exact fun k b => pinned_ok_of_kept (pins_kept_free_block _ _ _) h
  · exact fun k jobs => pinned_ok_of_kept (pins_kept_evict_piece _ _ _) h
  · exact fun k => pinned_ok_of_kept (pins_kept_abort_dirty _ _) h
  · exact fun k => pinned_ok_of_kept (pins_kept_erase_piece _ _) h
  · exact fun k => pinned_ok_of_kept (pins_kept_move_to_ghost _ _) h
  · exact fun n i => pinned_ok_of_kept (pins_kept_try_evict_blocks _ _ _) h

/-- Witness of C21: in `pinned_example` block 1 of the piece holds a buffer
with no reference and block 0 one with a reference; pinning and unpinning
either gives back the cache, and `pinned = 1` is the number of pinned slots. -/
theorem pins_balance_witness :
    (pinned_example.inc_block_refcount (1, 0) 1).2 = true
    ∧ ((pinned_example.inc_block_refcount (1, 0) 1).1.slot_of (1, 0) 1).refcount = 1
    ∧ (pinned_example.inc_block_refcount (1, 0) 1).1.m_pinned_blocks = 2
    ∧ (pinned_example.inc_block_refcount (1, 0) 1).1.dec_block_refcount (1, 0) 1
        = pinned_example
    ∧ (pinned_example.inc_block_refcount (1, 0) 0).1.dec_block_refcount (1, 0) 0
        = pinned_example
    ∧ pinned_ok pinned_example
    ∧ pinned_ok (pinned_example.inc_block_refcount (1, 0) 1).1 :=
  ⟨((pins_balance pinned_example (1, 0) _ 1 rfl).1 (by decide)).1,
    ((pins_balance pinned_example (1, 0) _ 1 rfl).1 (by decide)).2.1,
    by decide,
    ((pins_balance pinned_example (1, 0) _ 1 rfl).1 (by decide)).2.2,
    ((pins_balance pinned_example (1, 0) _ 0 rfl).1 (by decide)).2.2,
    by decide,
    ((pins_balance pinned_example (1, 0) _ 1 rfl).2.2.2 (by decide)).1⟩

/-! ## C22: reading a block in place -/

theorem cache_hit_fields (c : block_cache) (pk : piece_key) (requester : Nat)
    (volatile_read : Bool) :
    (c.cache_hit pk requester volatile_read).m_block_size = c.m_block_size
    ∧ (c.cache_hit pk requester volatile_read).m_send_buffer_blocks = c.m_send_buffer_blocks
    ∧ (c.cache_hit pk requester volatile_read).m_in_use = c.m_in_use
    ∧ (c.cache_hit pk requester volatile_read).m_pinned_blocks = c.m_pinned_blocks := by
  unfold block_cache.cache_hit
  cases c.find_piece pk with
  | none => exact ⟨rfl, rfl, rfl, rfl⟩
  | some p =>
    dsimp only
    split_ifs <;> exact ⟨rfl, rfl, rfl, rfl⟩

theorem dec_block_refcount_send (c : block_cache) (pk : piece_key) (block : Nat) (x : Int) :
    block_cache.dec_block_refcount { c with m_send_buffer_blocks := x } pk block
      = { (c.dec_block_refcount pk block) with m_send_buffer_blocks := x } := by
  unfold block_cache.dec_block_refcount
  have e : block_cache.find_piece { c with m_send_buffer_blocks := x } pk = c.find_piece pk := rfl
  rw [e]
  cases c.find_piece pk with
  | none => rfl
  | some pe => rfl

/-- The result of `try_read` for a request within one cached block, without
`force_copy`: the piece is touched by `cache_hit`, the slot is pinned, the
count of blocks lent to send buffers grows, and the job gets the reference and
a pointer into the block. -/
theorem try_read_in_place {c : block_cache} {j : disk_io_job} (alloc : Nat)
    {pe : cached_piece_entry} (h : cache_invariant c)
    (hf : c.find_piece (j.storage, j.piece) = some pe)
    (hbuf : (get_block pe.blocks (c.block_of j)).buf ≠ 0)
    (hfc : j.force_copy = false)
    (hone : c.block_offset j + j.buffer_size ≤ c.m_block_size) :
    ∃ q, (c.cache_hit (j.storage, j.piece) j.requester j.volatile_read).find_piece
          (j.storage, j.piece) = some q
      ∧ q.blocks = pe.blocks
      ∧ cache_invariant (c.cache_hit (j.storage, j.piece) j.requester j.volatile_read)
      ∧ c.try_read j alloc
        = ({ ((c.cache_hit (j.storage, j.piece) j.requester j.volatile_read).inc_block_refcount
                (j.storage, j.piece) (c.block_of j)).1 with
              m_send_buffer_blocks := c.m_send_buffer_blocks + 1 },
            { j with
              ref := { storage := j.storage, piece := j.piece, block := c.block_of j }
              buffer := (get_block pe.blocks (c.block_of j)).buf + (c.block_offset j).toNat },
            j.buffer_size) := by
  obtain ⟨hinv, q, hq, hqb, _, _⟩ := cache_hit_spec j.requester j.volatile_read h hf
  obtain ⟨f1, f2, f3, f4⟩ := cache_hit_fields c (j.storage, j.piece) j.requester j.volatile_read
  refine ⟨q, hq, hqb, hinv, ?_⟩
  have hbufq : (get_block q.blocks (c.block_of j)).buf ≠ 0 := by rw [hqb]; exact hbuf
  generalize hc1 : c.cache_hit (j.storage, j.piece) j.requester j.volatile_read = c1
    at hq f1 f2 f3 f4
  have hblock : c1.block_of j = c.block_of j := by
    unfold block_cache.block_of; rw [f1]
  have hoff : c1.block_offset j = c.block_offset j := by
    unfold block_cache.block_offset; rw [f1]
  have hinc2 : (c1.inc_block_refcount (j.storage, j.piece) (c.block_of j)).2 = true := by
    unfold block_cache.inc_block_refcount
    rw [hq]
    dsimp only
    rw [if_neg (by simpa using hbufq)]
  have hslot : ((c1.inc_block_refcount (j.storage, j.piece) (c.block_of j)).1.slot_of
      (j.storage, j.piece) (c.block_of j)).buf = (get_block pe.blocks (c.block_of j)).buf := by
    rw [slot_of_find (inc_block_refcount_find hq hbufq)]
    show (get_block (set_block q.blocks (c.block_of j)
      (referenced_slot (get_block q.blocks (c.block_of j)))) (c.block_of j)).buf = _
    rw [get_block_set_same _ (get_block_buf_lt hbufq), ← hqb]
    rfl
  have hcopy : c1.copy_from_piece (j.storage, j.piece) j alloc
      = ({ (c1.inc_block_refcount (j.storage, j.piece) (c.block_of j)).1 with
            m_send_buffer_blocks := c.m_send_buffer_blocks + 1 },
          { j with
            ref := { storage := j.storage, piece := j.piece, block := c.block_of j }
            buffer := (get_block pe.blocks (c.block_of j)).buf + (c.block_offset j).toNat },
          j.buffer_size) := by
    unfold block_cache.copy_from_piece
    dsimp only
    rw [hblock, hoff, f1, hinc2]
    have hb1 : (if (decide (c.block_offset j > 0)
        && decide (j.buffer_size > c.m_block_size - c.block_offset j)) = true then 2 else 1 : Nat)
        = 1 := by
      rw [if_neg]
      simp only [Bool.and_eq_true, decide_eq_true_eq, not_and, not_lt]
      intro _
      omega
    rw [hb1, if_neg (by decide), if_pos (by rw [hfc]; decide), hslot]
    have hsend : (c1.inc_block_refcount (j.storage, j.piece) (c.block_of j)).1.m_send_buffer_blocks
        = c.m_send_buffer_blocks := by
      unfold block_cache.inc_block_refcount
      rw [hq]
      dsimp only
      rw [if_neg (by simpa using hbufq)]
      exact f2
    rw [hsend]
  unfold block_cache.try_read
  rw [hf]
  dsimp only
  rw [hc1, hcopy]
  dsimp only
  split_ifs <;> rfl

/-- C22. A read request that lies within a single cached block, without the
`force_copy` flag: `try_read` returns the length of the request; the job gets
a pointer into the cached block, at the offset of the request within the
block, and the reference names the piece and the block; no buffer is
allocated, so nothing is copied; the slot's `refcount` and
`m_send_buffer_blocks` each grow by one; and `reclaim_block` with the
reference brings both back to their prior values. -/
theorem try_read_single_block (c : block_cache) (j : disk_io_job) (alloc : Nat)
    (pe : cached_piece_entry) (h : cache_invariant c)
    (hf : c.find_piece (j.storage, j.piece) = some pe)
    (hbuf : (get_block pe.blocks (c.block_of j)).buf ≠ 0)
    (hfc : j.force_copy = false)
    (hone : c.block_offset j + j.buffer_size ≤ c.m_block_size) :
    (c.try_read j alloc).2.2 = j.buffer_size
    ∧ (c.try_read j alloc).2.1.buffer
        = (get_block pe.blocks (c.block_of j)).buf + (c.block_offset j).toNat
    ∧ (c.try_read j alloc).2.1.ref
        = { storage := j.storage, piece := j.piece, block := c.block_of j }
    ∧ (c.try_read j alloc).1.m_in_use = c.m_in_use
    ∧ ((c.try_read j alloc).1.slot_of (j.storage, j.piece) (c.block_of j)).buf
        = (get_block pe.blocks (c.block_of j)).buf
    ∧ ((c.try_read j alloc).1.slot_of (j.storage, j.piece) (c.block_of j)).refcount
        = (get_block pe.blocks (c.block_of j)).refcount + 1
    ∧ (c.try_read j alloc).1.m_send_buffer_blocks = c.m_send_buffer_blocks + 1
    ∧ (((c.try_read j alloc).1.reclaim_block (c.try_read j alloc).2.1.ref).slot_of
          (j.storage, j.piece) (c.block_of j)).refcount
        = (get_block pe.blocks (c.block_of j)).refcount
    ∧ ((c.try_read j alloc).1.reclaim_block (c.try_read j alloc).2.1.ref).m_send_buffer_blocks
        = c.m_send_buffer_blocks := by
  obtain ⟨q, hq, hqb, hinv, hr⟩ := try_read_in_place alloc h hf hbuf hfc hone
  obtain ⟨f1, f2, f3, f4⟩ := cache_hit_fields c (j.storage, j.piece) j.requester j.volatile_read
  have hbufq : (get_block q.blocks (c.block_of j)).buf ≠ 0 := by rw [hqb]; exact hbuf
  have hi : c.block_of j < q.blocks.length := get_block_buf_lt hbufq
  rw [hr]
  generalize c.cache_hit (j.storage, j.piece) j.requester j.volatile_read = c1
    at hq hinv f1 f2 f3 f4
  have hfind := inc_block_refcount_find hq hbufq
  have hslot : get_block (referenced_piece q (c.block_of j)).blocks (c.block_of j)
      = referenced_slot (get_block q.blocks (c.block_of j)) := get_block_set_same _ hi
  have hfind2 : block_cache.find_piece
      { (c1.inc_block_refcount (j.storage, j.piece) (c.block_of j)).1 with
        m_send_buffer_blocks := c.m_send_buffer_blocks + 1 } (j.storage, j.piece)
      = some (referenced_piece q (c.block_of j)) := hfind
  have huse : (c1.inc_block_refcount (j.storage, j.piece) (c.block_of j)).1.m_in_use
      = c.m_in_use := by
    unfold block_cache.inc_block_refcount
    rw [hq]
    dsimp only
    rw [if_neg (by simpa using hbufq)]
    exact f3
  have hrec : block_cache.reclaim_block
      { (c1.inc_block_refcount (j.storage, j.piece) (c.block_of j)).1 with
        m_send_buffer_blocks := c.m_send_buffer_blocks + 1 }
      { storage := j.storage, piece := j.piece, block := c.block_of j }
      = { c1 with m_send_buffer_blocks := c.m_send_buffer_blocks + 1 - 1 } := by
    unfold block_cache.reclaim_block
    dsimp only
    rw [hfind2]
    dsimp only
    rw [dec_block_refcount_send, inc_dec_block_refcount hq hbufq]
    dsimp only
    unfold block_cache.maybe_free_piece
    have hq2 : block_cache.find_piece
        { c1 with m_send_buffer_blocks := c.m_send_buffer_blocks + 1 - 1 } (j.storage, j.piece)
        = some q := hq
    rw [hq2]
    dsimp only
    have hnb : q.num_blocks ≠ 0 := by
      have hp := (hinv.pieces q (find_piece_some_mem hq).1).1
      have := count_filled_pos (get_block_mem hi) hbufq
      omega
    have hok : q.ok_to_evict false = false := by
      unfold cached_piece_entry.ok_to_evict
      simp [hnb]
    rw [hok]
    rfl
  refine ⟨rfl, rfl, rfl, huse, ?_, ?_, rfl, ?_, ?_⟩
  · rw [slot_of_find hfind2, hslot, ← hqb]
    rfl
  · rw [slot_of_find hfind2, hslot, ← hqb]
    rfl
  · show (block_cache.slot_of (block_cache.reclaim_block _ _) _ _).refcount = _
    rw [hrec]
    have hq2 : block_cache.find_piece
        { c1 with m_send_buffer_blocks := c.m_send_buffer_blocks + 1 - 1 } (j.storage, j.piece)
        = some q := hq
    rw [slot_of_find hq2, hqb]
  · show (block_cache.reclaim_block _ _).m_send_buffer_blocks = _
    rw [hrec]
    show c.m_send_buffer_blocks + 1 - 1 = c.m_send_buffer_blocks
    omega

/-- Witness of C22: in `pinned_example` block 1 of piece 0 holds buffer 12;
the request for bytes 100 to 1099 of that block gets the pointer `12 + 100`. -/
theorem try_read_single_block_witness :
    (pinned_example.try_read read_job_example 0).2.2 = 1000
    ∧ (pinned_example.try_read read_job_example 0).2.1.buffer = 12 + 100
    ∧ (pinned_example.try_read read_job_example 0).2.1.ref
        = { storage := 1, piece := 0, block := 1 }
    ∧ (pinned_example.try_read read_job_example 0).1.m_send_buffer_blocks = 1
    ∧ ((pinned_example.try_read read_job_example 0).1.reclaim_block
        (pinned_example.try_read read_job_example 0).2.1.ref).m_send_buffer_blocks = 0 :=
  (fun h => ⟨h.1, h.2.1, h.2.2.1, h.2.2.2.2.2.2.1, h.2.2.2.2.2.2.2.2⟩)
    (try_read_single_block pinned_example read_job_example 0 _ (by decide) rfl (by decide) rfl
      (by decide))

/-! ## C23: the ghost lists -/

theorem erase_piece_ghost_size (c : block_cache) (pk : piece_key) :
    (c.erase_piece pk).m_ghost_size = c.m_ghost_size := by
  unfold block_cache.erase_piece
  cases c.find_piece pk with
  | none => rfl
  | some pe => rfl

/-- The loop that trims the ghost list `g` erases the first entries of the
list, as many as `ghost_excess` says, and no other piece. -/
theorem trim_ghost_drop {g : Nat} (hg : g = read_lru1_ghost ∨ g = read_lru2_ghost) :
    ∀ (fuel : Nat) (c : block_cache), cache_invariant c → 0 < c.m_ghost_size →
      c.ghost_excess g ≤ fuel →
      (block_cache.trim_ghost g fuel c).m_lru g = (c.m_lru g).drop (c.ghost_excess g)
      ∧ (block_cache.trim_ghost g fuel c).m_ghost_size = c.m_ghost_size
      ∧ (∀ k ∈ (c.m_lru g).take (c.ghost_excess g),
          (block_cache.trim_ghost g fuel c).find_piece k = none)
      ∧ (∀ k, k ∉ (c.m_lru g).take (c.ghost_excess g) →
          (block_cache.trim_ghost g fuel c).find_piece k = c.find_piece k) := by
  intro fuel
  induction fuel with
  | zero =>
    intro c _ _ hn
    have h0 : c.ghost_excess g = 0 := Nat.le_zero.1 hn
    rw [h0]
    exact ⟨rfl, rfl, fun k hk => by simp at hk, fun _ _ => rfl⟩
  | succ fuel ih =>
    intro c h hgs hn
    rw [trim_ghost_succ]
    by_cases hsz : ((c.m_lru g).length : Int) ≥ c.m_ghost_size
    · rw [if_pos hsz]
      cases hl : c.m_lru g with
      | nil =>
        rw [hl] at hsz
        simp only [List.length_nil, Nat.cast_zero] at hsz
        omega
      | cons k tl =>
        have hh : (k :: tl).head? = some k := rfl
        rw [hh]
        dsimp only
        have hkm : k ∈ c.m_lru g := by rw [hl]; exact List.mem_cons_self _ _
        have hnd : (k :: tl).Nodup := by rw [← hl]; exact (ghost_list_of h hg).1
        obtain ⟨p0, hf0, hs0, hn1⟩ := (ghost_list_of h hg).2 k hkm
        have hn0 := hn1 hg
        have hinv := cache_invariant_erase_piece h hf0 hn0
        have hlg : (c.erase_piece k).m_lru g = tl := by
          rw [erase_piece_lru hf0, hs0, lru_set_same, hl, List.erase_cons_head]
        have hgs2 := erase_piece_ghost_size c k
        have hex : c.ghost_excess g = (c.erase_piece k).ghost_excess g + 1 := by
          unfold block_cache.ghost_excess
          rw [hlg, hgs2, hl]
          rw [hl] at hsz
          simp only [List.length_cons, Nat.cast_add, Nat.cast_one] at hsz ⊢
          omega
        obtain ⟨i1, i2, i3, i4⟩ := ih (c.erase_piece k) hinv (by rw [hgs2]; exact hgs)
          (by omega)
        obtain ⟨_, _, j3, _, _⟩ := trim_ghost_spec none hg fuel (c.erase_piece k) hinv
        have hknot : k ∉ (c.erase_piece k).m_lru g := by
          rw [hlg]; exact (List.nodup_cons.1 hnd).1
        have hknone : (block_cache.trim_ghost g fuel (c.erase_piece k)).find_piece k = none :=
          (j3 k hknot).trans (erase_piece_find_same h k)
        rw [hex, hlg] at *
        refine ⟨by rw [i1]; rfl, i2.trans hgs2, ?_, ?_⟩
        · intro k2 hk2
          rw [List.take_succ_cons, List.mem_cons] at hk2
          rcases hk2 with rfl | hk2
          · exact hknone
          · exact i3 k2 hk2
        · intro k2 hk2
          rw [List.take_succ_cons, List.mem_cons, not_or] at hk2
          rw [i4 k2 hk2.2, erase_piece_find_other k2 hk2.1]
    · rw [if_neg hsz]
      have h0 : c.ghost_excess g = 0 := by
        unfold block_cache.ghost_excess
        omega
      rw [h0]
      exact ⟨rfl, rfl, fun k hk => by simp at hk, fun _ _ => rfl⟩
/-- The size of the ghost lists is 8 in a new cache, and `set_settings` never
sets it below 8. -/
theorem set_settings_ghost_size (c : block_cache) (cache_size read_cache_line_size : Int) :
    ({} : block_cache).m_ghost_size = 8
    ∧ 8 ≤ (c.set_settings cache_size read_cache_line_size).m_ghost_size
    ∧ (c.set_settings cache_size read_cache_line_size).m_ghost_size
        = max 8 (Int.tdiv (Int.tdiv cache_size (max read_cache_line_size 4)) 2) :=
  ⟨rfl, le_max_left _ _, rfl⟩
/-- The ghost branch of `move_to_ghost`: the lists and the pieces after the
piece went from `read_lru1` or `read_lru2` to the ghost list after it. -/
theorem move_to_ghost_lists {c : block_cache} {pk : piece_key} {pe : cached_piece_entry}
    (h : cache_invariant c) (hgs : 0 < c.m_ghost_size) (hf : c.find_piece pk = some pe)
    (hs : pe.cache_state = read_lru1 ∨ pe.cache_state = read_lru2) :
    (c.move_to_ghost pk).m_lru (pe.cache_state + 1)
        = (c.m_lru (pe.cache_state + 1)).drop (c.ghost_excess (pe.cache_state + 1)) ++ [pk]
    ∧ (c.move_to_ghost pk).m_ghost_size = c.m_ghost_size
    ∧ (c.move_to_ghost pk).m_lru pe.cache_state = (c.m_lru pe.cache_state).erase pk
    ∧ (∀ j, j ≠ pe.cache_state + 1 → j ≠ pe.cache_state →
        (c.move_to_ghost pk).m_lru j = c.m_lru j)
    ∧ (c.move_to_ghost pk).find_piece pk
        = some { pe with in_storage := false, cache_state := pe.cache_state + 1 }
    ∧ (∀ k ∈ (c.m_lru (pe.cache_state + 1)).take (c.ghost_excess (pe.cache_state + 1)),
        (c.move_to_ghost pk).find_piece k = none)
    ∧ (∀ k, k ≠ pk →
        k ∉ (c.m_lru (pe.cache_state + 1)).take (c.ghost_excess (pe.cache_state + 1)) →
        (c.move_to_ghost pk).find_piece k = c.find_piece k) := by
  have hg : pe.cache_state + 1 = read_lru1_ghost ∨ pe.cache_state + 1 = read_lru2_ghost := by
    rcases hs with e | e <;> rw [e]
    · exact Or.inl rfl
    · exact Or.inr rfl
  have hv : (pe.cache_state == volatile_read_lru) = false := by
    rcases hs with e | e <;> rw [e] <;> rfl
  have hb : (pe.cache_state != read_lru1 && pe.cache_state != read_lru2) = false := by
    rcases hs with e | e <;> rw [e] <;> rfl
  have hne : pe.cache_state + 1 ≠ pe.cache_state := by omega
  have hex : c.ghost_excess (pe.cache_state + 1) ≤ (c.m_lru (pe.cache_state + 1)).length := by
    unfold block_cache.ghost_excess
    omega
  obtain ⟨d1, d2, d3, d4⟩ := trim_ghost_drop hg _ c h hgs hex
  obtain ⟨_, _, i3, i4, _⟩ := trim_ghost_spec none hg (c.m_lru (pe.cache_state + 1)).length c h
  have hnot : pk ∉ c.m_lru (pe.cache_state + 1) := not_in_ghost_of_state h hf hg (by omega)
  have hf1 := (i3 pk hnot).trans hf
  have hkey : pe.key = pk := (find_piece_some_mem hf).2
  have hst := find_after_store (q := { pe with in_storage := false
                                               cache_state := pe.cache_state + 1 })
    (d := (block_cache.trim_ghost (pe.cache_state + 1)
      (c.m_lru (pe.cache_state + 1)).length c).store
        { pe with in_storage := false, cache_state := pe.cache_state + 1 }) hf1 hkey rfl
  have hm : c.move_to_ghost pk
      = { ((block_cache.trim_ghost (pe.cache_state + 1)
            (c.m_lru (pe.cache_state + 1)).length c).store
              { pe with in_storage := false, cache_state := pe.cache_state + 1 }) with
          m_lru := lru_set
            (lru_set (block_cache.trim_ghost (pe.cache_state + 1)
                (c.m_lru (pe.cache_state + 1)).length c).m_lru pe.cache_state
              (((block_cache.trim_ghost (pe.cache_state + 1)
                (c.m_lru (pe.cache_state + 1)).length c).m_lru pe.cache_state).erase pk))
            (pe.cache_state + 1)
            (lru_set (block_cache.trim_ghost (pe.cache_state + 1)
                (c.m_lru (pe.cache_state + 1)).length c).m_lru pe.cache_state
              (((block_cache.trim_ghost (pe.cache_state + 1)
                (c.m_lru (pe.cache_state + 1)).length c).m_lru pe.cache_state).erase pk)
              (pe.cache_state + 1) ++ [pk]) } := by
    unfold block_cache.move_to_ghost
    rw [hf]
    dsimp only
    rw [hv, hb]
    rfl
  rw [hm]
  refine ⟨?_, d2, ?_, ?_, hst.1, ?_, ?_⟩
  · show lru_set _ _ _ _ = _
    rw [lru_set_same, lru_set_other _ _ hne, d1]
  · show lru_set _ _ _ _ = _
    rw [lru_set_other _ _ (Ne.symm hne), lru_set_same, i4 _ (Ne.symm hne)]
  · intro j hj1 hj2
    show lru_set _ _ _ _ = _
    rw [lru_set_other _ _ hj1, lru_set_other _ _ hj2, i4 j hj1]
  · intro k hk
    have hkpk : k ≠ pk := fun e => hnot (e ▸ List.mem_of_mem_take hk)
    exact (hst.2 k hkpk).trans (d3 k hk)
  · intro k hkpk hk
    exact (hst.2 k hkpk).trans (d4 k hk)

/-- C23. `move_to_ghost` on a piece without blocks, in a cache that satisfies
the invariant and whose `m_ghost_size` is positive (the constructor sets it to
8 and `set_settings` to at least 8).  When the piece is in `read_lru1`
(`read_lru2`), the list `read_lru1_ghost` (`read_lru2_ghost`) becomes its
former content without its first `ghost_excess` entries, followed by the
piece, which is thus the newest entry; the list holds at most `m_ghost_size`
entries; the pieces erased are exactly the dropped entries, the oldest ones:
they are cached before and not after, and every other piece but the moved one
is as before; the moved piece is in the ghost state and has left its former
list.  Every entry of a ghost list is a cached piece with `num_blocks = 0`.
A piece in `volatile_read_lru` is erased instead: it is cached no more and is
in none of the lists. -/
theorem move_to_ghost_newest (c : block_cache) (pk : piece_key) (pe : cached_piece_entry)
    (h : cache_invariant c) (hgs : 0 < c.m_ghost_size) (hf : c.find_piece pk = some pe)
    (hnb : pe.num_blocks = 0) :
    (pe.cache_state = read_lru1 ∨ pe.cache_state = read_lru2 →
      (c.move_to_ghost pk).m_lru (pe.cache_state + 1)
          = (c.m_lru (pe.cache_state + 1)).drop (c.ghost_excess (pe.cache_state + 1)) ++ [pk]
      ∧ ((c.move_to_ghost pk).m_lru (pe.cache_state + 1)).getLast? = some pk
      ∧ (((c.move_to_ghost pk).m_lru (pe.cache_state + 1)).length : Int)
          ≤ (c.move_to_ghost pk).m_ghost_size
      ∧ (c.move_to_ghost pk).m_ghost_size = c.m_ghost_size
      ∧ (∀ k ∈ (c.m_lru (pe.cache_state + 1)).take (c.ghost_excess (pe.cache_state + 1)),
          c.find_piece k ≠ none ∧ (c.move_to_ghost pk).find_piece k = none)
      ∧ (∀ k, k ≠ pk →
          k ∉ (c.m_lru (pe.cache_state + 1)).take (c.ghost_excess (pe.cache_state + 1)) →
          (c.move_to_ghost pk).find_piece k = c.find_piece k)
      ∧ (c.move_to_ghost pk).find_piece pk
          = some { pe with in_storage := false, cache_state := pe.cache_state + 1 }
      ∧ pk ∉ (c.move_to_ghost pk).m_lru pe.cache_state)
    ∧ (∀ g, g = read_lru1_ghost ∨ g = read_lru2_ghost → ∀ k ∈ (c.move_to_ghost pk).m_lru g,
        ∃ p, (c.move_to_ghost pk).find_piece k = some p ∧ p.num_blocks = 0)
    ∧ (pe.cache_state = volatile_read_lru →
        (c.move_to_ghost pk).find_piece pk = none
        ∧ ∀ i, i < num_lrus → pk ∉ (c.move_to_ghost pk).m_lru i) := by
  have hinv := (move_to_ghost_spec none h hf hnb (by simp)).1
  refine ⟨?_, ?_, ?_⟩
  · intro hs
    have hg : pe.cache_state + 1 = read_lru1_ghost ∨ pe.cache_state + 1 = read_lru2_ghost := by
      rcases hs with e | e <;> rw [e]
      · exact Or.inl rfl
      · exact Or.inr rfl
    have hsl : pe.cache_state < num_lrus := by
      rcases hs with e | e <;> rw [e] <;> decide
    obtain ⟨m1, m2, m3, _, m5, m6, m7⟩ := move_to_ghost_lists h hgs hf hs
    refine ⟨m1, ?_, ?_, m2, ?_, m7, m5, ?_⟩
    · rw [m1, List.getLast?_append, List.getLast?_singleton]
      rfl
    · rw [m1, m2, List.length_append, List.length_drop, List.length_singleton]
      unfold block_cache.ghost_excess
      omega
    · intro k hk
      obtain ⟨p0, hp0, _, _⟩ := (ghost_list_of h hg).2 k (List.mem_of_mem_take hk)
      exact ⟨by rw [hp0]; simp, m6 k hk⟩
    · rw [m3]
      exact fun hm => ((h.lists _ hsl).1.mem_erase_iff.1 hm).1 rfl
  · intro g hg k hk
    obtain ⟨p, hp, _, hn⟩ := (ghost_list_of hinv hg).2 k hk
    exact ⟨p, hp, hn hg⟩
  · intro hv
    have hm : c.move_to_ghost pk = c.erase_piece pk := by
      unfold block_cache.move_to_ghost
      rw [hf]
      dsimp only
      rw [if_pos (by rw [hv]; rfl)]
    have hnone : (c.move_to_ghost pk).find_piece pk = none := by
      rw [hm]; exact erase_piece_find_same h pk
    refine ⟨hnone, ?_⟩
    intro i hi hmem
    obtain ⟨p, hp, _⟩ := (hinv.lists i hi).2 pk hmem
    rw [hnone] at hp
    cases hp

/-- Witness of C23 on `ghost_example`, whose ghost list is full: moving piece
8 to the ghost list erases piece 0, the oldest entry, and puts piece 8 last. -/
theorem move_to_ghost_newest_witness :
    (ghost_example.move_to_ghost (1, 8)).m_lru read_lru1_ghost
        = [(1, 1), (1, 2), (1, 3), (1, 4), (1, 5), (1, 6), (1, 7), (1, 8)]
    ∧ ((ghost_example.move_to_ghost (1, 8)).m_lru read_lru1_ghost).getLast? = some (1, 8)
    ∧ (ghost_example.move_to_ghost (1, 8)).find_piece (1, 0) = none
    ∧ (ghost_example.move_to_ghost (1, 8)).m_lru read_lru1 = [] :=
  (fun h => ⟨(h.1 (Or.inl rfl)).1, (h.1 (Or.inl rfl)).2.1,
      ((h.1 (Or.inl rfl)).2.2.2.2.1 (1, 0) (by decide)).2, by decide⟩)
    (move_to_ghost_newest ghost_example (1, 8)
      { storage := 1, piece := 8, blocks := [{}], cache_state := read_lru1, in_storage := true }
      (by decide) (by decide) rfl rfl)

/-! ## C40: a failed `copy_from_piece` -/

/-- When `copy_from_piece` returns `-1` (the first block, or the second block
of a request that spans two, is not in the cache), the cache is as it was
before the call. -/
theorem copy_from_piece_miss {c : block_cache} {pk : piece_key} {pe : cached_piece_entry}
    (j : disk_io_job) (alloc : Nat) (hf : c.find_piece pk = some pe)
    (hsize : 0 ≤ j.buffer_size)
    (hret : (c.copy_from_piece pk j alloc).2.2 = -1) :
    (c.copy_from_piece pk j alloc).1 = c := by
  unfold block_cache.copy_from_piece at hret ⊢
  dsimp only at hret ⊢
  generalize (if (decide (c.block_offset j > 0)
      && decide (j.buffer_size > c.m_block_size - c.block_offset j)) = true then 2 else 1 : Nat)
    = btr at hret ⊢
  by_cases hb : (get_block pe.blocks (c.block_of j)).buf = 0
  · have hinc : c.inc_block_refcount pk (c.block_of j) = (c, false) := by
      unfold block_cache.inc_block_refcount
      rw [hf]
      dsimp only
      rw [if_pos (by simpa using hb)]
    rw [hinc]
    rfl
  · have hinc2 : (c.inc_block_refcount pk (c.block_of j)).2 = true := by
      unfold block_cache.inc_block_refcount
      rw [hf]
      dsimp only
      rw [if_neg (by simpa using hb)]
    rw [hinc2] at hret ⊢
    rw [if_neg (by decide)] at hret ⊢
    by_cases h1 : (btr == 1 && !j.force_copy) = true
    · rw [if_pos h1] at hret
      dsimp only at hret
      omega
    · rw [if_neg h1] at hret ⊢
      by_cases h2 : (btr == 2 && (if (btr == 2) = true
          then (c.inc_block_refcount pk (c.block_of j)).1.inc_block_refcount pk (c.block_of j + 1)
          else ((c.inc_block_refcount pk (c.block_of j)).1, true)).2 == false) = true
      · rw [if_pos h2]
        exact inc_dec_block_refcount hf hb
      · rw [if_neg h2] at hret
        by_cases h3 : (alloc == 0) = true
        · rw [if_pos h3] at hret
          cases hret
        · rw [if_neg h3] at hret
          dsimp only at hret
          omega

/-- C40. The claim fails for the result `-2`: in `pinned_example` block 1 of
piece 0 is cached and not pinned; a read of 1000 bytes of it with the flag
`force_copy` pins the block and then fails to allocate the buffer to copy
into (`alloc = 0`); `copy_from_piece` returns `-2` without releasing the pin:
the refcount of the block is 1 instead of 0, the piece's refcount 2 instead
of 1, its pinned count 2 instead of 1, and `m_pinned_blocks` 2 instead of
1. -/
theorem copy_from_piece_leaks_pin :
    (pinned_example.copy_from_piece (1, 0) copy_job_example 0).2.2 = -2
    ∧ (pinned_example.slot_of (1, 0) 1).refcount = 0
    ∧ ((pinned_example.copy_from_piece (1, 0) copy_job_example 0).1.slot_of (1, 0) 1).refcount = 1
    ∧ (pinned_example.find_piece (1, 0)).map (fun p => (p.refcount, p.pinned)) = some (1, 1)
    ∧ ((pinned_example.copy_from_piece (1, 0) copy_job_example 0).1.find_piece (1, 0)).map
        (fun p => (p.refcount, p.pinned)) = some (2, 2)
    ∧ pinned_example.m_pinned_blocks = 1
    ∧ (pinned_example.copy_from_piece (1, 0) copy_job_example 0).1.m_pinned_blocks = 2
    ∧ (pinned_example.try_read copy_job_example 0).2.2 = -2
    ∧ (pinned_example.try_read copy_job_example 0).1.m_pinned_blocks = 2 := by
  decide

/-! ## C39: `free_piece` -/

theorem free_piece_scan_cons (b : cached_block_entry) (bs : List cached_block_entry)
    (a : drop_acc) :
    free_piece_scan (b :: bs) a
      = if b.buf == 0 then (b :: (free_piece_scan bs a).1, (free_piece_scan bs a).2)
        else
          ({ b with buf := 0 } :: (free_piece_scan bs
              (if b.dirty then
                { a with num_blocks := a.num_blocks - 1, num_dirty := a.num_dirty - 1
                         write_cache_size := a.write_cache_size - 1
                         num_to_delete := a.num_to_delete + 1 }
              else
                { a with num_blocks := a.num_blocks - 1
                         read_cache_size := a.read_cache_size - 1
                         num_to_delete := a.num_to_delete + 1 })).1,
            (free_piece_scan bs
              (if b.dirty then
                { a with num_blocks := a.num_blocks - 1, num_dirty := a.num_dirty - 1
                         write_cache_size := a.write_cache_size - 1
                         num_to_delete := a.num_to_delete + 1 }
              else
                { a with num_blocks := a.num_blocks - 1
                         read_cache_size := a.read_cache_size - 1
                         num_to_delete := a.num_to_delete + 1 })).2) := rfl

/-- The block loop of `free_piece` empties every slot, leaves the other
members of the slots as they are, and lowers each counter by the number of
slots it counts. -/
theorem free_piece_scan_spec : ∀ (bs : List cached_block_entry) (a : drop_acc),
    (free_piece_scan bs a).1 = bs.map (fun b => { b with buf := 0 })
    ∧ (free_piece_scan bs a).2.num_blocks = a.num_blocks - count_filled bs
    ∧ (free_piece_scan bs a).2.num_dirty = a.num_dirty - count_dirty bs
    ∧ (free_piece_scan bs a).2.read_cache_size = a.read_cache_size - count_clean bs
    ∧ (free_piece_scan bs a).2.write_cache_size = a.write_cache_size - count_dirty bs := by
  intro bs
  induction bs with
  | nil =>
    intro a
    exact ⟨rfl, by simp [free_piece_scan, count_filled], by simp [free_piece_scan, count_dirty],
      by simp [free_piece_scan, count_clean], by simp [free_piece_scan, count_dirty]⟩
  | cons b bs ih =>
    intro a
    rw [free_piece_scan_cons, count_filled_cons, count_dirty_cons, count_clean_cons]
    by_cases hb : b.buf = 0
    · rw [if_pos (by simpa using hb)]
      obtain ⟨i1, i2, i3, i4, i5⟩ := ih a
      have e : ({ b with buf := 0 } : cached_block_entry) = b := by
        cases b; simp only at hb; subst hb; rfl
      refine ⟨?_, ?_, ?_, ?_, ?_⟩
      · show b :: _ = _
        rw [i1, List.map_cons, e]
      · show (free_piece_scan bs a).2.num_blocks = _
        rw [i2]; simp [hb]
      · show (free_piece_scan bs a).2.num_dirty = _
        rw [i3]; simp [hb]
      · show (free_piece_scan bs a).2.read_cache_size = _
        rw [i4]; simp [hb]
      · show (free_piece_scan bs a).2.write_cache_size = _
        rw [i5]; simp [hb]
    · rw [if_neg (by simpa using hb)]
      by_cases hd : b.dirty = true
      · rw [if_pos hd]
        obtain ⟨i1, i2, i3, i4, i5⟩ := ih
          { a with num_blocks := a.num_blocks - 1, num_dirty := a.num_dirty - 1
                   write_cache_size := a.write_cache_size - 1
                   num_to_delete := a.num_to_delete + 1 }
        refine ⟨?_, ?_, ?_, ?_, ?_⟩
        · show _ :: _ = _
          rw [i1, List.map_cons]
        · show (free_piece_scan bs _).2.num_blocks = _
          rw [i2]; simp [hb]; ring
        · show (free_piece_scan bs _).2.num_dirty = _
          rw [i3]; simp [hb, hd]; ring
        · show (free_piece_scan bs _).2.read_cache_size = _
          rw [i4]; simp [hb, hd]
        · show (free_piece_scan bs _).2.write_cache_size = _
          rw [i5]; simp [hb, hd]; ring
      · rw [if_neg hd]
        have hd2 : b.dirty = false := by simpa using hd
        obtain ⟨i1, i2, i3, i4, i5⟩ := ih
          { a with num_blocks := a.num_blocks - 1, read_cache_size := a.read_cache_size - 1
                   num_to_delete := a.num_to_delete + 1 }
        refine ⟨?_, ?_, ?_, ?_, ?_⟩
        · show _ :: _ = _
          rw [i1, List.map_cons]
        · show (free_piece_scan bs _).2.num_blocks = _
          rw [i2]; simp [hb]; ring
        · show (free_piece_scan bs _).2.num_dirty = _
          rw [i3]; simp [hb, hd2]
        · show (free_piece_scan bs _).2.read_cache_size = _
          rw [i4]; simp [hb, hd2]; ring
        · show (free_piece_scan bs _).2.write_cache_size = _
          rw [i5]; simp [hb, hd2]
theorem count_emptied : ∀ (bs : List cached_block_entry),
    count_filled (bs.map (fun b => { b with buf := 0 })) = 0
    ∧ count_dirty (bs.map (fun b => { b with buf := 0 })) = 0
    ∧ count_clean (bs.map (fun b => { b with buf := 0 })) = 0 := by
  intro bs
  induction bs with
  | nil => exact ⟨by simp [count_filled], by simp [count_dirty], by simp [count_clean]⟩
  | cons b bs ih =>
    rw [List.map_cons, count_filled_cons, count_dirty_cons, count_clean_cons, ih.1, ih.2.1,
      ih.2.2]
    simp

/-- What `free_piece` does to a cached piece: every slot is emptied, its other
members staying as they are, `num_blocks` and `num_dirty` fall to 0 when they
counted the slots before, the piece takes the state `update_cache_state`
wants, and the global sizes drop by the number of clean and of dirty blocks
freed. -/
theorem free_piece_spec {c : block_cache} {pk : piece_key} {pe : cached_piece_entry}
    (hf : c.find_piece pk = some pe) :
    ∃ q, (c.free_piece pk).find_piece pk = some q
      ∧ q.blocks = pe.blocks.map (fun b => { b with buf := 0 })
      ∧ (∀ b ∈ q.blocks, b.buf = 0)
      ∧ q.num_blocks = pe.num_blocks - count_filled pe.blocks
      ∧ q.num_dirty = pe.num_dirty - count_dirty pe.blocks
      ∧ (c.free_piece pk).m_read_cache_size = c.m_read_cache_size - count_clean pe.blocks
      ∧ (c.free_piece pk).m_write_cache_size = c.m_write_cache_size - count_dirty pe.blocks := by
  have hkey : pe.key = pk := (find_piece_some_mem hf).2
  obtain ⟨s1, s2, s3, s4, s5⟩ := free_piece_scan_spec pe.blocks (c.drop_start pe)
  have hkq : (dropped_piece pe (free_piece_scan pe.blocks (c.drop_start pe))).key = pk := hkey
  have hfd := (free_deleted_spec
    { (c.store (dropped_piece pe (free_piece_scan pe.blocks (c.drop_start pe)))) with
      m_read_cache_size := (free_piece_scan pe.blocks (c.drop_start pe)).2.read_cache_size
      m_write_cache_size := (free_piece_scan pe.blocks (c.drop_start pe)).2.write_cache_size }
    (free_piece_scan pe.blocks (c.drop_start pe)).2.num_to_delete)
  have hst := find_after_store
    (q := dropped_piece pe (free_piece_scan pe.blocks (c.drop_start pe)))
    (d := block_cache.free_deleted
      { (c.store (dropped_piece pe (free_piece_scan pe.blocks (c.drop_start pe)))) with
        m_read_cache_size := (free_piece_scan pe.blocks (c.drop_start pe)).2.read_cache_size
        m_write_cache_size := (free_piece_scan pe.blocks (c.drop_start pe)).2.write_cache_size }
      (free_piece_scan pe.blocks (c.drop_start pe)).2.num_to_delete) hf hkq hfd.1
  unfold block_cache.free_piece
  rw [hf]
  dsimp only
  generalize block_cache.free_deleted
      { (c.store (dropped_piece pe (free_piece_scan pe.blocks (c.drop_start pe)))) with
        m_read_cache_size := (free_piece_scan pe.blocks (c.drop_start pe)).2.read_cache_size
        m_write_cache_size := (free_piece_scan pe.blocks (c.drop_start pe)).2.write_cache_size }
      (free_piece_scan pe.blocks (c.drop_start pe)).2.num_to_delete = c2 at hfd hst
  generalize hq : dropped_piece pe (free_piece_scan pe.blocks (c.drop_start pe)) = q0 at hst hkq
  have hb : q0.blocks = pe.blocks.map (fun b => { b with buf := 0 }) := by rw [← hq]; exact s1
  have hnb : q0.num_blocks = pe.num_blocks - count_filled pe.blocks := by rw [← hq]; exact s2
  have hnd : q0.num_dirty = pe.num_dirty - count_dirty pe.blocks := by rw [← hq]; exact s3
  have hemp : ∀ b ∈ q0.blocks, b.buf = 0 := by
    intro b hb2
    rw [hb] at hb2
    obtain ⟨b0, _, rfl⟩ := List.mem_map.1 hb2
    rfl
  have hr : c2.m_read_cache_size = c.m_read_cache_size - count_clean pe.blocks := by
    rw [hfd.2.2.1]; exact s4
  have hw : c2.m_write_cache_size = c.m_write_cache_size - count_dirty pe.blocks := by
    rw [hfd.2.2.2]; exact s5
  unfold block_cache.update_cache_state
  rw [hst.1]
  dsimp only
  by_cases hd : (desired_state q0 == q0.cache_state) = true
  · rw [if_pos hd]
    exact ⟨q0, hst.1, hb, hemp, hnb, hnd, hr, hw⟩
  · rw [if_neg hd]
    refine ⟨{ q0 with cache_state := desired_state q0 }, ?_, hb, hemp, hnb, hnd, hr, hw⟩
    exact (find_after_store (q := { q0 with cache_state := desired_state q0 })
      (d := { (c2.store { q0 with cache_state := desired_state q0 }) with
        m_lru := lru_set (lru_set c2.m_lru q0.cache_state ((c2.m_lru q0.cache_state).erase pk))
          (desired_state q0)
          (lru_set c2.m_lru q0.cache_state ((c2.m_lru q0.cache_state).erase pk)
            (desired_state q0) ++ [pk]) }) hst.1 hkq rfl).1

/-- On a piece without dirty blocks, called within its asserted preconditions,
`free_piece` keeps the cache invariant. -/
theorem free_piece_clean {c : block_cache} {pk : piece_key} {pe : cached_piece_entry}
    (h : cache_invariant c) (hf : c.find_piece pk = some pe)
    (hpre : ∀ b ∈ pe.blocks, b.buf ≠ 0 → b.pending = false ∧ b.refcount = 0)
    (hclean : ∀ b ∈ pe.blocks, b.buf ≠ 0 → b.dirty = false) :
    cache_invariant (c.free_piece pk) := by
  have hpe := h.pieces pe (find_piece_some_mem hf).1
  obtain ⟨s1, s2, s3, s4, s5⟩ := free_piece_scan_spec pe.blocks (c.drop_start pe)
  obtain ⟨z1, z2, z3⟩ := count_emptied pe.blocks
  have hk : scan_keeps pe.blocks (c.drop_start pe)
      (free_piece_scan pe.blocks (c.drop_start pe)) := by
    unfold scan_keeps
    rw [s1, s2, s3, s4, s5, z1, z2, z3]
    refine ⟨by ring, by ring, by ring, by ring, count_filled_nonneg _, ?_⟩
    intro b hb _
    obtain ⟨b0, hb0, rfl⟩ := List.mem_map.1 hb
    by_cases e : b0.buf = 0
    · exact hpe.2.2 b0 hb0 e
    · obtain ⟨p1, p2⟩ := hpre b0 hb0 e
      have p3 := hclean b0 hb0 e
      rintro (x | x | x)
      · change b0.refcount > 0 at x
        omega
      · change b0.dirty = true at x
        rw [p3] at x; cases x
      · change b0.pending = true at x
        rw [p1] at x; cases x
  obtain ⟨i1, i2, _⟩ := dropped_store_spec
    (d := { (c.store (dropped_piece pe (free_piece_scan pe.blocks (c.drop_start pe)))) with
      m_read_cache_size := (free_piece_scan pe.blocks (c.drop_start pe)).2.read_cache_size
      m_write_cache_size := (free_piece_scan pe.blocks (c.drop_start pe)).2.write_cache_size })
    h hf hk rfl rfl rfl rfl
  have i3 := cache_invariant_free_deleted i1
    (free_piece_scan pe.blocks (c.drop_start pe)).2.num_to_delete
  have i4 : (block_cache.free_deleted
      { (c.store (dropped_piece pe (free_piece_scan pe.blocks (c.drop_start pe)))) with
        m_read_cache_size := (free_piece_scan pe.blocks (c.drop_start pe)).2.read_cache_size
        m_write_cache_size := (free_piece_scan pe.blocks (c.drop_start pe)).2.write_cache_size }
      (free_piece_scan pe.blocks (c.drop_start pe)).2.num_to_delete).find_piece pk
      = some (dropped_piece pe (free_piece_scan pe.blocks (c.drop_start pe))) := by
    unfold block_cache.find_piece
    rw [(free_deleted_spec _ _).1]
    exact i2
  unfold block_cache.free_piece
  rw [hf]
  exact (update_cache_state_spec i3 i4).1

/-- C39. The claim fails on a piece that holds a dirty block.  In
`dirty_example` the cache invariant holds and piece 0, in the write list, has
one block, which is dirty, not pinned and not pending; nothing refers to the
piece.  `free_piece` frees the buffer, brings `num_blocks` and `num_dirty` to 0
and the write size from 1 to 0, and moves the piece to `read_lru1`; but the
slot keeps its flag `dirty`, so that an empty slot is marked dirty and the
cache invariant does not hold afterwards. -/
theorem free_piece_leaves_dirty_flag :
    cache_invariant dirty_example
    ∧ free_piece_pre dirty_example (1, 0)
    ∧ dirty_example.slot_of (1, 0) 1 = { buf := 11, dirty := true }
    ∧ (dirty_example.free_piece (1, 0)).slot_of (1, 0) 1 = { buf := 0, dirty := true }
    ∧ ((dirty_example.free_piece (1, 0)).find_piece (1, 0)).map
        (fun p => (p.num_blocks, p.num_dirty, p.cache_state)) = some (0, 0, read_lru1)
    ∧ dirty_example.m_write_cache_size = 1
    ∧ (dirty_example.free_piece (1, 0)).m_write_cache_size = 0
    ∧ ¬ piece_satisfies (dirty_example.free_piece (1, 0)) (1, 0) piece_invariant
    ∧ ¬ cache_invariant (dirty_example.free_piece (1, 0)) := by
  decide

/-! ## Frames of the peer steps -/

theorem queue_frame_refl (p : peer_connection) : queue_frame p p := rfl

theorem queue_frame_trans {p q r : peer_connection} (h1 : queue_frame p q)
    (h2 : queue_frame q r) : queue_frame p r := by
  unfold queue_frame at h1 h2 ⊢
  calc r = { q with
        m_download_queue := r.m_download_queue
        m_request_queue := r.m_request_queue
        m_outstanding_bytes := r.m_outstanding_bytes
        m_queued_time_critical := r.m_queued_time_critical
        m_interesting := r.m_interesting
        m_disconnecting := r.m_disconnecting
        m_failed := r.m_failed
        disconnected := r.disconnected
        sent := r.sent
        picker_aborted := r.picker_aborted } := h2
    _ = { ({ p with
          m_download_queue := q.m_download_queue
          m_request_queue := q.m_request_queue
          m_outstanding_bytes := q.m_outstanding_bytes
          m_queued_time_critical := q.m_queued_time_critical
          m_interesting := q.m_interesting
          m_disconnecting := q.m_disconnecting
          m_failed := q.m_failed
          disconnected := q.disconnected
          sent := q.sent
          picker_aborted := q.picker_aborted } : peer_connection) with
        m_download_queue := r.m_download_queue
        m_request_queue := r.m_request_queue
        m_outstanding_bytes := r.m_outstanding_bytes
        m_queued_time_critical := r.m_queued_time_critical
        m_interesting := r.m_interesting
        m_disconnecting := r.m_disconnecting
        m_failed := r.m_failed
        disconnected := r.disconnected
        sent := r.sent
        picker_aborted := r.picker_aborted } := by rw [← h1]
    _ = _ := rfl

/-- The members a frame step leaves as they are. -/
theorem queue_frame_fields {p q : peer_connection} (h : queue_frame p q) :
    q.t = p.t ∧ q.m_settings = p.m_settings ∧ q.m_extensions = p.m_extensions
    ∧ q.m_peer_info = p.m_peer_info ∧ q.m_timeout_extend = p.m_timeout_extend
    ∧ q.m_have_piece = p.m_have_piece ∧ q.m_num_pieces = p.m_num_pieces
    ∧ q.m_disk_read_failures = p.m_disk_read_failures
    ∧ q.m_superseed_piece = p.m_superseed_piece ∧ q.m_snubbed = p.m_snubbed
    ∧ q.m_desired_queue_size = p.m_desired_queue_size
    ∧ q.m_bitfield_received = p.m_bitfield_received
    ∧ q.m_upload_only = p.m_upload_only ∧ q.m_has_metadata = p.m_has_metadata
    ∧ q.m_torrent_expired = p.m_torrent_expired := by
  unfold queue_frame at h
  rw [h]
  exact ⟨rfl, rfl, rfl, rfl, rfl, rfl, rfl, rfl, rfl, rfl, rfl, rfl, rfl, rfl, rfl⟩

theorem queue_frame_abort_download (p : peer_connection) (b : piece_block) :
    queue_frame p (p.abort_download b) := rfl

theorem queue_frame_drop_download (p : peer_connection) (qe : pending_block) :
    queue_frame p (p.drop_download qe) := by
  unfold peer_connection.drop_download
  dsimp only
  split_ifs <;> rfl

theorem queue_frame_drop_request (p : peer_connection) (qe : pending_block) :
    queue_frame p (p.drop_request qe) := by
  unfold peer_connection.drop_request
  dsimp only
  split_ifs <;> rfl

theorem queue_frame_foldl {α : Type} (f : peer_connection → α → peer_connection)
    (hf : ∀ q a, queue_frame q (f q a)) :
    ∀ (l : List α) (p : peer_connection), queue_frame p (l.foldl f p) := by
  intro l
  induction l with
  | nil => intro p; exact queue_frame_refl p
  | cons a l ih => intro p; exact queue_frame_trans (hf p a) (ih (f p a))

theorem queue_frame_abort_all (p : peer_connection) (l : List pending_block) :
    queue_frame p (p.abort_all l) :=
  queue_frame_foldl (fun q (i : pending_block) => q.abort_download i.block)
    (fun q i => queue_frame_abort_download q i.block) l p

theorem queue_frame_set_request_queue (p : peer_connection) (l : List pending_block) :
    queue_frame p { p with m_request_queue := l } := rfl

theorem queue_frame_write_request (p : peer_connection) (r : peer_request) :
    queue_frame p (p.write_request r) := rfl

theorem queue_frame_disconnect (p : peer_connection) (ec : errors) (error : Int) :
    queue_frame p (p.disconnect ec error) := by
  unfold peer_connection.disconnect
  by_cases h : p.m_disconnecting = true
  · rw [if_pos h]; exact queue_frame_refl p
  · rw [if_neg h]
    dsimp only
    by_cases hp : p.t.has_picker = true
    · rw [if_pos hp]
      have h1 := queue_frame_foldl _ queue_frame_drop_download p.m_download_queue.reverse p
      have h2 := queue_frame_foldl _ queue_frame_drop_request
        (p.m_download_queue.reverse.foldl peer_connection.drop_download p).m_request_queue.reverse
        (p.m_download_queue.reverse.foldl peer_connection.drop_download p)
      exact queue_frame_trans (queue_frame_trans h1 h2) rfl
    · rw [if_neg hp]
      rfl

theorem queue_frame_disconnect_if_redundant (p : peer_connection) :
    queue_frame p p.disconnect_if_redundant.1 := by
  unfold peer_connection.disconnect_if_redundant
  split_ifs <;> first
    | exact queue_frame_refl p
    | exact queue_frame_disconnect p _ _

theorem queue_frame_send_not_interested (p : peer_connection) :
    queue_frame p p.send_not_interested := by
  unfold peer_connection.send_not_interested
  by_cases h1 : (!p.m_interesting) = true
  · rw [if_pos h1]; exact queue_frame_disconnect_if_redundant p
  · rw [if_neg h1]
    by_cases h2 : (!p.t.ready_for_connections) = true
    · rw [if_pos h2]; exact queue_frame_refl p
    · rw [if_neg h2]
      dsimp only
      have h3 : queue_frame p { p with m_interesting := false } := rfl
      have h4 := queue_frame_trans h3
        (queue_frame_disconnect_if_redundant { p with m_interesting := false })
      split_ifs
      · exact h4
      · exact queue_frame_trans h4 rfl

theorem queue_frame_merge_requests (blocks_per_piece : Int) :
    ∀ (l : List pending_block) (block : pending_block) (r : peer_request) (p : peer_connection),
      queue_frame p (merge_requests blocks_per_piece l block r p).2.2 := by
  intro l
  induction l with
  | nil => intro block r p; exact queue_frame_refl p
  | cons front rest ih =>
    intro block r p
    unfold merge_requests
    split_ifs <;> first
      | exact queue_frame_refl p
      | (refine queue_frame_trans ?_ (ih _ _ _); rfl)

theorem queue_frame_send_request_loop :
    ∀ (fuel : Nat) (p : peer_connection), queue_frame p (send_request_loop fuel p) := by
  intro fuel
  induction fuel with
  | zero => intro p; exact queue_frame_refl p
  | succ fuel ih =>
    intro p
    unfold send_request_loop
    cases hq : p.m_request_queue with
    | nil => exact queue_frame_refl p
    | cons block rest =>
      dsimp only
      split_ifs <;> first
        | exact queue_frame_refl p
        | (refine queue_frame_trans ?_ (ih _); rfl)
        | (refine queue_frame_trans ?_ (ih _)
           refine queue_frame_trans (queue_frame_trans ?_
             (queue_frame_merge_requests _ _ _ _ _)) (queue_frame_set_request_queue _ _)
           rfl)
        | (refine queue_frame_trans ?_ (ih _)
           refine queue_frame_trans (queue_frame_trans (queue_frame_trans ?_
             (queue_frame_merge_requests _ _ _ _ _)) (queue_frame_set_request_queue _ _))
             (queue_frame_write_request _ _)
           rfl)
        | (refine queue_frame_trans (queue_frame_trans ?_
             (queue_frame_merge_requests _ _ _ _ _)) (queue_frame_set_request_queue _ _)
           rfl)
        | rfl

theorem queue_frame_send_block_requests (p : peer_connection) :
    queue_frame p p.send_block_requests := by
  unfold peer_connection.send_block_requests
  split_ifs <;> first
    | exact queue_frame_refl p
    | exact queue_frame_disconnect p _ _
    | exact queue_frame_send_request_loop _ p

theorem queue_frame_request_a_block (p : peer_connection) (picks : List pending_block) :
    queue_frame p (p.request_a_block picks) := rfl
/-! ## C31: the timeout extension -/

/-- What the parts of `snub_peer` keep: the settings, the parole state and the
mark of a snubbed peer. -/
theorem snub_requeue_fields (p : peer_connection) (picks : List pending_block) :
    (p.snub_requeue picks).m_settings = p.m_settings
    ∧ (p.snub_requeue picks).m_peer_info = p.m_peer_info
    ∧ (p.snub_requeue picks).m_timeout_extend = p.m_timeout_extend
    ∧ (p.snub_requeue picks).m_snubbed = p.m_snubbed
    ∧ (p.snub_requeue picks).t = p.t := by
  obtain ⟨f1, f2, _, f4, f5, _, _, _, _, f10, _⟩ := queue_frame_fields
    (queue_frame_abort_all p p.m_request_queue.reverse)
  exact ⟨f2, f4, f5, f10, f1⟩

theorem snub_timeout_fields (p : peer_connection) :
    p.snub_timeout.m_settings = p.m_settings
    ∧ p.snub_timeout.m_peer_info = p.m_peer_info
    ∧ (p.snub_timeout.m_timeout_extend = p.m_timeout_extend
      ∨ p.snub_timeout.m_timeout_extend = p.m_timeout_extend + p.m_settings.request_timeout)
    ∧ p.snub_timeout.m_snubbed = p.m_snubbed := by
  have hs : ∀ q : peer_connection,
      q.send_block_requests.m_settings = q.m_settings
      ∧ q.send_block_requests.m_peer_info = q.m_peer_info
      ∧ q.send_block_requests.m_timeout_extend = q.m_timeout_extend
      ∧ q.send_block_requests.m_snubbed = q.m_snubbed := by
    intro q
    obtain ⟨_, e2, _, e4, e5, _, _, _, _, e10, _⟩ :=
      queue_frame_fields (queue_frame_send_block_requests q)
    exact ⟨e2, e4, e5, e10⟩
  unfold peer_connection.snub_timeout
  cases last_eligible p.m_download_queue with
  | none => exact ⟨(hs p).1, (hs p).2.1, Or.inl (hs p).2.2.1, (hs p).2.2.2⟩
  | some i =>
    dsimp only
    cases p.m_download_queue.get? i with
    | none => exact ⟨(hs p).1, (hs p).2.1, Or.inl (hs p).2.2.1, (hs p).2.2.2⟩
    | some qe =>
      dsimp only
      split_ifs
      · exact ⟨(hs _).1, (hs _).2.1, Or.inr (hs _).2.2.1, (hs _).2.2.2⟩
      · exact ⟨(hs _).1, (hs _).2.1, Or.inl (hs _).2.2.1, (hs _).2.2.2⟩

/-- One call of `snub_peer` leaves the settings and the parole state as they
are, and adds `request_timeout` to `m_timeout_extend` or leaves it as it is; on
a peer on parole it adds `request_timeout`. -/
theorem snub_peer_step (p : peer_connection) (picks : List pending_block) :
    (p.snub_peer picks).m_settings = p.m_settings
    ∧ (p.snub_peer picks).m_peer_info = p.m_peer_info
    ∧ ((p.snub_peer picks).m_timeout_extend = p.m_timeout_extend
      ∨ (p.snub_peer picks).m_timeout_extend
          = p.m_timeout_extend + p.m_settings.request_timeout)
    ∧ (p.on_parole = true →
        (p.snub_peer picks).m_timeout_extend
          = p.m_timeout_extend + p.m_settings.request_timeout)
    ∧ (p.snub_peer picks).m_snubbed = true := by
  unfold peer_connection.snub_peer
  by_cases hp : p.on_parole = true
  · have hp1 : p.snub_mark.on_parole = true := hp
    rw [if_pos hp1]
    exact ⟨rfl, rfl, Or.inr rfl, fun _ => rfl, rfl⟩
  · have hp1 : ¬ p.snub_mark.on_parole = true := hp
    rw [if_neg hp1]
    by_cases hk : (!p.snub_mark.t.has_picker) = true
    · rw [if_pos hk]
      exact ⟨rfl, rfl, Or.inl rfl, fun h => absurd h hp, rfl⟩
    · rw [if_neg hk]
      obtain ⟨a1, a2, a3, a4, _⟩ := snub_requeue_fields p.snub_mark picks
      obtain ⟨b1, b2, b3, b4⟩ := snub_timeout_fields (p.snub_mark.snub_requeue picks)
      refine ⟨b1.trans a1, b2.trans a2, ?_, fun h => absurd h hp, b4.trans a4⟩
      rw [a3, a1] at b3
      exact b3

/-- A run of calls of `snub_peer` raises `m_timeout_extend` by at most
`request_timeout` per call, and by exactly that for a peer on parole. -/
theorem snub_peers_bound : ∀ (picks : List (List pending_block)) (p : peer_connection),
    0 ≤ p.m_settings.request_timeout →
    (p.snub_peers picks).m_settings = p.m_settings
    ∧ (p.snub_peers picks).m_peer_info = p.m_peer_info
    ∧ p.m_timeout_extend ≤ (p.snub_peers picks).m_timeout_extend
    ∧ (p.snub_peers picks).m_timeout_extend
        ≤ p.m_timeout_extend + picks.length * p.m_settings.request_timeout
    ∧ (p.on_parole = true →
        (p.snub_peers picks).m_timeout_extend
          = p.m_timeout_extend + picks.length * p.m_settings.request_timeout) := by
  intro picks
  induction picks with
  | nil =>
    intro p _
    exact ⟨rfl, rfl, le_refl _, by simp [peer_connection.snub_peers],
      fun _ => by simp [peer_connection.snub_peers]⟩
  | cons a l ih =>
    intro p h0
    obtain ⟨s1, s2, s3, s4, _⟩ := snub_peer_step p a
    have hstep : p.snub_peers (a :: l) = (p.snub_peer a).snub_peers l := rfl
    rw [hstep]
    obtain ⟨i1, i2, i3, i4, i5⟩ := ih (p.snub_peer a) (by rw [s1]; exact h0)
    rw [s1] at i4 i5
    have hlen : (((a :: l).length : Nat) : Int) = (l.length : Int) + 1 := by
      simp
    rw [hlen]
    have hmul : ((l.length : Int) + 1) * p.m_settings.request_timeout
        = l.length * p.m_settings.request_timeout + p.m_settings.request_timeout := by ring
    rw [hmul]
    refine ⟨i1.trans s1, i2.trans s2, ?_, ?_, ?_⟩
    · rcases s3 with e | e <;> omega
    · rcases s3 with e | e <;> omega
    · intro hp
      have hp2 : (p.snub_peer a).on_parole = true := by
        unfold peer_connection.on_parole at hp ⊢
        rw [s2]; exact hp
      rw [i5 hp2, s4 hp]
      ring

/-- C31 fails as stated: nothing caps the extension.  For `parole_example`,
with a `request_timeout` of 60, three calls of `snub_peer` in a row bring
`m_timeout_extend` to 60, 120 and 180, a run of `n` calls brings it to `60 n`,
and every bound is exceeded by a run that is long enough. -/
theorem snub_peer_not_capped :
    (parole_example.snub_peers [[]]).m_timeout_extend = 60
    ∧ (parole_example.snub_peers [[], []]).m_timeout_extend = 120
    ∧ (parole_example.snub_peers [[], [], []]).m_timeout_extend = 180
    ∧ (∀ n : Nat, (parole_example.snub_peers (List.replicate n [])).m_timeout_extend = 60 * n)
    ∧ (∀ cap : Int, ∃ n : Nat,
        cap < (parole_example.snub_peers (List.replicate n [])).m_timeout_extend) := by
  have hn : ∀ n : Nat,
      (parole_example.snub_peers (List.replicate n [])).m_timeout_extend = 60 * n := by
    intro n
    have h := (snub_peers_bound (List.replicate n []) parole_example (by decide)).2.2.2.2 rfl
    rw [h, List.length_replicate]
    show (0 : Int) + n * 60 = 60 * n
    ring
  refine ⟨by decide, by decide, by decide, hn, ?_⟩
  intro cap
  refine ⟨cap.toNat + 1, ?_⟩
  rw [hn]
  push_cast
  omega

/-- C31, amended. The timeout extension is linear and not capped: each call of
`snub_peer` adds `request_timeout` to `m_timeout_extend` or leaves it as it is,
so that it raises it by at most `request_timeout` and never by a multiple of
its current value; a run of `n` consecutive calls raises it by at most
`n × request_timeout`, and by exactly that much for a peer on parole. -/
theorem snub_peer_linear (p : peer_connection) (picks : List (List pending_block))
    (h0 : 0 ≤ p.m_settings.request_timeout) :
    (∀ a, ((p.snub_peer a).m_timeout_extend = p.m_timeout_extend
        ∨ (p.snub_peer a).m_timeout_extend = p.m_timeout_extend + p.m_settings.request_timeout)
      ∧ (p.snub_peer a).m_timeout_extend - p.m_timeout_extend ≤ p.m_settings.request_timeout
      ∧ 0 ≤ (p.snub_peer a).m_timeout_extend - p.m_timeout_extend)
    ∧ p.m_timeout_extend ≤ (p.snub_peers picks).m_timeout_extend
    ∧ (p.snub_peers picks).m_timeout_extend
        ≤ p.m_timeout_extend + picks.length * p.m_settings.request_timeout
    ∧ (p.on_parole = true →
        (p.snub_peers picks).m_timeout_extend
          = p.m_timeout_extend + picks.length * p.m_settings.request_timeout) := by
  obtain ⟨_, _, b3, b4, b5⟩ := snub_peers_bound picks p h0
  refine ⟨fun a => ?_, b3, b4, b5⟩
  obtain ⟨_, _, s3, _, _⟩ := snub_peer_step p a
  refine ⟨s3, ?_, ?_⟩
  · rcases s3 with e | e <;> omega
  · rcases s3 with e | e <;> omega

/-- Witness of C31: two calls of `snub_peer` on `parole_example`. -/
theorem snub_peer_linear_witness :
    (0 : Int) ≤ (parole_example.snub_peers [[], []]).m_timeout_extend
    ∧ (parole_example.snub_peers [[], []]).m_timeout_extend ≤ 0 + 2 * 60
    ∧ (parole_example.snub_peers [[], []]).m_timeout_extend = 0 + 2 * 60 :=
  (fun h => ⟨h.2.1, h.2.2.1, h.2.2.2 rfl⟩)
    (snub_peer_linear parole_example [[], []] (by decide))
/-! ## C32: the super-seeded pieces -/

/-- C32 fails as stated, in three ways.  From the initial state `(-1, -1)`,
`superseed_piece(-1, 5)` leads to `(5, -1)`; then `superseed_piece(5, 5)`, whose
new piece is the one to replace, leaves `(5, -1)`: piece 5 is still tracked.
From `(5, 3)`, `superseed_piece(3, 5)` leads to `(5, 5)`, and then
`superseed_piece(5, 7)` to `(7, 5)`: piece 5 is still tracked.  In the state
`(-1, 3)`, `superseed_piece(_, -1)` returns at once and slot 1 stays 3. -/
theorem superseed_piece_keeps_tracking :
    ((peer_connection.superseed_piece {} (-1) 5).m_superseed_piece = (5, -1)
      ∧ ((peer_connection.superseed_piece {} (-1) 5).superseed_piece 5 5).m_superseed_piece
          = (5, -1)
      ∧ ((peer_connection.superseed_piece {} (-1) 5).superseed_piece 5 5).super_seeded_piece 5
          = true)
    ∧ ((superseed_example.superseed_piece 3 5).m_superseed_piece = (5, 5)
      ∧ ((superseed_example.superseed_piece 3 5).superseed_piece 5 7).m_superseed_piece = (7, 5)
      ∧ ((superseed_example.superseed_piece 3 5).superseed_piece 5 7).super_seeded_piece 5
          = true)
    ∧ (peer_connection.superseed_piece { superseed_example with m_superseed_piece := (-1, 3) }
        3 (-1)).m_superseed_piece = (-1, 3) := by
  decide

/-- C32, amended. In a state `(s0, s1)` whose slots hold piece indices or `-1`,
slot 1 being `-1` when slot 0 is and different from slot 0 otherwise, and for
`new ≠ -1`: `superseed_piece(replace, new)` writes a have for `new` and leaves
slot 0 = `new`; when `replace` is `s0` or `s1`, slot 1 is the other tracked
piece, and `replace`, if it is a piece other than `new`, is no longer tracked;
when `replace` is `-1`, slot 1 is `s0`.  `superseed_piece(_, -1)` sets both
slots to `-1`.  The states described are the ones reached as long as the new
piece is not tracked already. -/
theorem superseed_piece_rotates (p : peer_connection) (replace new : Int)
    (hok : superseed_ok p.m_superseed_piece) :
    (new ≠ -1 →
      (p.superseed_piece replace new).m_superseed_piece.1 = new
      ∧ (p.superseed_piece replace new).sent = p.sent ++ [message.have_piece new]
      ∧ (replace = p.m_superseed_piece.1 →
          (p.superseed_piece replace new).m_superseed_piece.2 = p.m_superseed_piece.2)
      ∧ (replace = p.m_superseed_piece.2 → replace ≠ p.m_superseed_piece.1 →
          (p.superseed_piece replace new).m_superseed_piece.2 = p.m_superseed_piece.1)
      ∧ (replace = p.m_superseed_piece.1 ∨ replace = p.m_superseed_piece.2 →
          replace ≠ -1 → new ≠ replace →
          (p.superseed_piece replace new).super_seeded_piece replace = false)
      ∧ (replace = -1 →
          (p.superseed_piece replace new).m_superseed_piece.2 = p.m_superseed_piece.1)
      ∧ (0 ≤ new → new ≠ p.m_superseed_piece.1 → new ≠ p.m_superseed_piece.2 →
          superseed_ok (p.superseed_piece replace new).m_superseed_piece))
    ∧ (p.superseed_piece replace (-1)).m_superseed_piece = (-1, -1)
    ∧ superseed_ok (p.superseed_piece replace (-1)).m_superseed_piece := by
  obtain ⟨o1, o2, o3, o4⟩ := hok
  have hend : (p.superseed_piece replace (-1)).m_superseed_piece = (-1, -1) := by
    unfold peer_connection.superseed_piece
    rw [if_pos (by decide)]
    by_cases h1 : p.m_superseed_piece.1 = -1
    · rw [if_pos (by simpa using h1)]
      exact Prod.ext h1 (o3 h1)
    · rw [if_neg (by simpa using h1)]
      rfl
  refine ⟨fun hnew => ?_, hend, by rw [hend]; decide⟩
  have hstep : (p.superseed_piece replace new).m_superseed_piece
      = (new, (if (decide (replace ≥ 0) && p.m_superseed_piece.1 == replace) = true then
          (p.m_superseed_piece.2, p.m_superseed_piece.1) else p.m_superseed_piece).1) := by
    unfold peer_connection.superseed_piece
    rw [if_neg (by simpa using hnew)]
    rfl
  have hsent : (p.superseed_piece replace new).sent = p.sent ++ [message.have_piece new] := by
    unfold peer_connection.superseed_piece
    rw [if_neg (by simpa using hnew)]
    rfl
  have hss : ∀ x, (p.superseed_piece replace new).super_seeded_piece x
      = ((p.superseed_piece replace new).m_superseed_piece.1 == x
        || (p.superseed_piece replace new).m_superseed_piece.2 == x) := fun _ => rfl
  by_cases hsw : (decide (replace ≥ 0) && p.m_superseed_piece.1 == replace) = true
  · rw [if_pos hsw] at hstep
    have hsw2 : 0 ≤ replace ∧ p.m_superseed_piece.1 = replace := by simpa using hsw
    refine ⟨by rw [hstep], hsent, fun _ => by rw [hstep], fun _ h => absurd hsw2.2.symm h,
      ?_, fun h => by omega, ?_⟩
    · intro _ _ hnr
      rw [hss, hstep]
      have : p.m_superseed_piece.2 ≠ replace := by
        rw [← hsw2.2]; exact o4 (by omega)
      simp [hnr, this]
    · intro h0 h1 h2
      rw [hstep]
      exact ⟨by show (-1 : Int) ≤ new; omega, o2, fun h => absurd h (by omega),
        fun _ => Ne.symm h2⟩
  · rw [if_neg hsw] at hstep
    have hsw2 : ¬ (0 ≤ replace ∧ p.m_superseed_piece.1 = replace) := by simpa using hsw
    refine ⟨by rw [hstep], hsent, ?_, fun _ _ => by rw [hstep], ?_, fun _ => by rw [hstep], ?_⟩
    · intro h
      rw [hstep]
      have hneg : ¬ 0 ≤ replace := fun h0 => hsw2 ⟨h0, h.symm⟩
      have h1 : p.m_superseed_piece.1 = -1 := by omega
      show p.m_superseed_piece.1 = p.m_superseed_piece.2
      rw [o3 h1, h1]
    · intro hor hr1 hnr
      rw [hss, hstep]
      have h0 : 0 ≤ replace := by
        rcases hor with e | e <;> omega
      have h1 : p.m_superseed_piece.1 ≠ replace := fun e => hsw2 ⟨h0, e⟩
      simp [hnr, h1]
    · intro h0 h1 h2
      rw [hstep]
      exact ⟨by show (-1 : Int) ≤ new; omega, o1, fun h => absurd h (by omega),
        fun _ => Ne.symm h1⟩

/-- Witness of C32 on `superseed_example`, which tracks pieces 5 and 3: piece 7
replaces piece 5, or piece 3, or no piece. -/
theorem superseed_piece_rotates_witness :
    (superseed_example.superseed_piece 5 7).m_superseed_piece = (7, 3)
    ∧ (superseed_example.superseed_piece 5 7).super_seeded_piece 5 = false
    ∧ (superseed_example.superseed_piece 3 7).m_superseed_piece = (7, 5)
    ∧ (superseed_example.superseed_piece (-1) 7).m_superseed_piece = (7, 5)
    ∧ (superseed_example.superseed_piece 5 (-1)).m_superseed_piece = (-1, -1) :=
  (fun h5 h3 h1 =>
    ⟨Prod.ext (h5.1 (by decide)).1 ((h5.1 (by decide)).2.2.1 rfl),
      (h5.1 (by decide)).2.2.2.2.1 (Or.inl rfl) (by decide) (by decide),
      Prod.ext (h3.1 (by decide)).1 ((h3.1 (by decide)).2.2.2.1 rfl (by decide)),
      Prod.ext (h1.1 (by decide)).1 ((h1.1 (by decide)).2.2.2.2.2.1 rfl),
      h5.2.1⟩)
    (superseed_piece_rotates superseed_example 5 7 (by decide))
    (superseed_piece_rotates superseed_example 3 7 (by decide))
    (superseed_piece_rotates superseed_example (-1) 7 (by decide))
/-! ## C34: failed disk reads -/

/-- One failed read of a peer whose torrent is there: the failure is counted,
and the peer is disconnected when the count exceeds 100. -/
theorem on_disk_read_complete_failure (p : peer_connection) (ret ec : Int) (r : peer_request)
    (hret : ret < 0) (ht : p.m_torrent_expired = false) :
    (p.on_disk_read_complete ret ec r).m_disk_read_failures = p.m_disk_read_failures + 1
    ∧ (p.on_disk_read_complete ret ec r).m_torrent_expired = false
    ∧ (p.m_disk_read_failures + 1 ≤ 100 →
        (p.on_disk_read_complete ret ec r).m_disconnecting = p.m_disconnecting
        ∧ (p.on_disk_read_complete ret ec r).disconnected = p.disconnected)
    ∧ (100 < p.m_disk_read_failures + 1 → p.m_disconnecting = false →
        (p.on_disk_read_complete ret ec r).m_disconnecting = true
        ∧ (p.on_disk_read_complete ret ec r).disconnected = some (errors.job_error ec, 0)) := by
  unfold peer_connection.on_disk_read_complete
  dsimp only
  rw [if_pos hret]
  have ht1 : ¬ (peer_connection.m_torrent_expired
      { p with m_reading_bytes := p.m_reading_bytes - r.length }) = true := by
    show ¬ p.m_torrent_expired = true
    rw [ht]; decide
  rw [if_neg ht1]
  by_cases hc : p.m_disk_read_failures + 1 > 100
  · have hc1 : (peer_connection.m_disk_read_failures
        { (peer_connection.write_reject_request (peer_connection.write_dont_have
            { p with m_reading_bytes := p.m_reading_bytes - r.length } r.piece) r) with
          m_disk_read_failures := (peer_connection.write_reject_request
            (peer_connection.write_dont_have
              { p with m_reading_bytes := p.m_reading_bytes - r.length } r.piece)
            r).m_disk_read_failures + 1 }) > 100 := hc
    rw [if_pos hc1]
    obtain ⟨_, _, _, _, _, _, _, f8, _, _, _, _, _, _, f15⟩ := queue_frame_fields
      (queue_frame_disconnect
        { (peer_connection.write_reject_request (peer_connection.write_dont_have
            { p with m_reading_bytes := p.m_reading_bytes - r.length } r.piece) r) with
          m_disk_read_failures := (peer_connection.write_reject_request
            (peer_connection.write_dont_have
              { p with m_reading_bytes := p.m_reading_bytes - r.length } r.piece)
            r).m_disk_read_failures + 1 } (errors.job_error ec) 0)
    refine ⟨f8, f15.trans ht, fun h => absurd h (by omega), fun _ hd => ?_⟩
    unfold peer_connection.disconnect
    have hd1 : ¬ (peer_connection.m_disconnecting
        { (peer_connection.write_reject_request (peer_connection.write_dont_have
            { p with m_reading_bytes := p.m_reading_bytes - r.length } r.piece) r) with
          m_disk_read_failures := (peer_connection.write_reject_request
            (peer_connection.write_dont_have
              { p with m_reading_bytes := p.m_reading_bytes - r.length } r.piece)
            r).m_disk_read_failures + 1 }) = true := by
      show ¬ p.m_disconnecting = true
      rw [hd]; decide
    rw [if_neg hd1]
    exact ⟨rfl, rfl⟩
  · have hc1 : ¬ (peer_connection.m_disk_read_failures
        { (peer_connection.write_reject_request (peer_connection.write_dont_have
            { p with m_reading_bytes := p.m_reading_bytes - r.length } r.piece) r) with
          m_disk_read_failures := (peer_connection.write_reject_request
            (peer_connection.write_dont_have
              { p with m_reading_bytes := p.m_reading_bytes - r.length } r.piece)
            r).m_disk_read_failures + 1 }) > 100 := hc
    rw [if_neg hc1]
    exact ⟨rfl, ht, fun _ => ⟨rfl, rfl⟩, fun h => absurd h (by omega)⟩

/-- A successful read resets the count of failures. -/
theorem on_disk_read_complete_success (p : peer_connection) (ret ec : Int) (r : peer_request)
    (hret : 0 ≤ ret) : (p.on_disk_read_complete ret ec r).m_disk_read_failures = 0 := by
  unfold peer_connection.on_disk_read_complete peer_connection.disconnect_detached
  dsimp only
  rw [if_neg (by omega)]
  split_ifs <;> rfl

/-- C34 fails as stated.  `failing_disk_example` has seen 99 failed reads in a
row; the 100th brings the count to 100 and does not disconnect the peer, the
101st does.  And a peer whose torrent is gone is disconnected by its first
failed read. -/
theorem on_disk_read_complete_tolerates_100 :
    ((failing_disk_example.failed_reads 5 { piece := 3, start := 0, length := 16384 }
        1).m_disk_read_failures = 100
      ∧ (failing_disk_example.failed_reads 5 { piece := 3, start := 0, length := 16384 }
        1).m_disconnecting = false
      ∧ (failing_disk_example.failed_reads 5 { piece := 3, start := 0, length := 16384 }
        2).m_disconnecting = true)
    ∧ (peer_connection.on_disk_read_complete { t := torrent_example, m_torrent_expired := true }
        (-1) 5 { piece := 3, start := 0, length := 16384 }).m_disconnecting = true := by
  decide

/-- C34, amended. A peer whose torrent is there, that is not disconnecting and
has no failed read to its name: `on_disk_read_complete` drops it when it has
seen more than 100 failed reads in a row.  After `n ≤ 100` failures in a row
the count is `n` and the peer is not disconnected; the 101st failure in a row
disconnects it, with the error code of the job; and every successful read sets
the count to 0. -/
theorem on_disk_read_complete_threshold (p : peer_connection) (ec : Int) (r : peer_request)
    (hd : p.m_disconnecting = false) (ht : p.m_torrent_expired = false)
    (h0 : p.m_disk_read_failures = 0) :
    (∀ n : Nat, n ≤ 100 →
      (p.failed_reads ec r n).m_disk_read_failures = n
      ∧ (p.failed_reads ec r n).m_disconnecting = false)
    ∧ (p.failed_reads ec r 101).m_disconnecting = true
    ∧ (p.failed_reads ec r 101).disconnected = some (errors.job_error ec, 0)
    ∧ (∀ (q : peer_connection) (ret : Int), 0 ≤ ret →
        (q.on_disk_read_complete ret ec r).m_disk_read_failures = 0) := by
  have hn : ∀ n : Nat, n ≤ 100 →
      (p.failed_reads ec r n).m_disk_read_failures = n
      ∧ (p.failed_reads ec r n).m_disconnecting = false
      ∧ (p.failed_reads ec r n).m_torrent_expired = false := by
    intro n
    induction n with
    | zero => intro _; exact ⟨h0, hd, ht⟩
    | succ n ih =>
      intro hle
      obtain ⟨i1, i2, i3⟩ := ih (by omega)
      obtain ⟨s1, s2, s3, _⟩ :=
        on_disk_read_complete_failure (p.failed_reads ec r n) (-1) ec r (by decide) i3
      have hstep : p.failed_reads ec r (n + 1)
          = (p.failed_reads ec r n).on_disk_read_complete (-1) ec r := rfl
      rw [hstep]
      refine ⟨by rw [s1, i1]; push_cast; rfl, ?_, s2⟩
      rw [(s3 (by rw [i1]; omega)).1]
      exact i2
  obtain ⟨i1, i2, i3⟩ := hn 100 (le_refl _)
  obtain ⟨_, _, _, s4⟩ :=
    on_disk_read_complete_failure (p.failed_reads ec r 100) (-1) ec r (by decide) i3
  have hstep : p.failed_reads ec r 101
      = (p.failed_reads ec r 100).on_disk_read_complete (-1) ec r := rfl
  refine ⟨fun n hle => ⟨(hn n hle).1, (hn n hle).2.1⟩, ?_, ?_,
    fun q ret hret => on_disk_read_complete_success q ret ec r hret⟩
  · rw [hstep]
    exact (s4 (by rw [i1]; norm_num) i2).1
  · rw [hstep]
    exact (s4 (by rw [i1]; norm_num) i2).2

/-- Witness of C34: a peer of `torrent_example` without failures; three failed
reads in a row leave it connected with a count of 3. -/
theorem on_disk_read_complete_threshold_witness :
    (peer_connection.failed_reads { t := torrent_example } 5
        { piece := 3, start := 0, length := 16384 } 3).m_disk_read_failures = 3
    ∧ (peer_connection.failed_reads { t := torrent_example } 5
        { piece := 3, start := 0, length := 16384 } 3).m_disconnecting = false
    ∧ (peer_connection.failed_reads { t := torrent_example } 5
        { piece := 3, start := 0, length := 16384 } 101).m_disconnecting = true :=
  (fun h => ⟨(h.1 3 (by decide)).1, (h.1 3 (by decide)).2, h.2.1⟩)
    (on_disk_read_complete_threshold { t := torrent_example } 5
      { piece := 3, start := 0, length := 16384 } rfl rfl rfl)
/-! ## C36: `reject_piece` -/

/-- With no request for the piece in the upload queue, `reject_piece` runs
through the queue and changes nothing. -/
theorem reject_piece_no_match (p : peer_connection) (index : Int)
    (h : ∀ r ∈ p.m_requests, r.piece ≠ index) : p.reject_piece index = some p := by
  have hl : ∀ (left i : Nat), i + left = p.m_requests.length →
      reject_piece_loop index left i p = some p := by
    intro left
    induction left with
    | zero => intro i _; rfl
    | succ left ih =>
      intro i hi
      have hlt : i < p.m_requests.length := by omega
      unfold reject_piece_loop
      rw [List.get?_eq_getElem?, List.getElem?_eq_getElem hlt]
      dsimp only
      rw [if_pos (by simpa using h _ (List.getElem_mem hlt))]
      exact ih (i + 1) (by omega)
  exact hl _ 0 (by omega)

/-- When the only request for the piece is the last entry of the upload queue,
`reject_piece` rejects it and takes it out of the queue. -/
theorem reject_piece_last (p : peer_connection) (index : Int) (l : List peer_request)
    (r : peer_request) (hq : p.m_requests = l ++ [r]) (hr : r.piece = index)
    (h : ∀ x ∈ l, x.piece ≠ index) :
    p.reject_piece index = some { (p.write_reject_request r) with m_requests := l } := by
  have hl : ∀ (left i : Nat), i + left = l.length →
      reject_piece_loop index (left + 1) i p
        = some { (p.write_reject_request r) with m_requests := l } := by
    intro left
    induction left with
    | zero =>
      intro i hi
      have hi2 : i = l.length := by omega
      unfold reject_piece_loop
      rw [hq, List.get?_eq_getElem?, hi2, List.getElem?_concat_length]
      dsimp only
      rw [if_neg (by simp [hr])]
      have he : (l ++ [r]).eraseIdx l.length = l := by
        rw [List.eraseIdx_append_of_length_le (le_refl _)]
        simp
      rw [he]
      rfl
    | succ left ih =>
      intro i hi
      have hlt : i < l.length := by omega
      unfold reject_piece_loop
      rw [hq, List.get?_eq_getElem?, List.getElem?_append_left hlt,
        List.getElem?_eq_getElem hlt]
      dsimp only
      rw [if_pos (by simpa using h _ (List.getElem_mem hlt))]
      exact ih (i + 1) (by omega)
  have hlen : p.m_requests.length = l.length + 1 := by
    rw [hq, List.length_append, List.length_singleton]
  unfold peer_connection.reject_piece
  rw [hlen]
  exact hl l.length 0 (by omega)

/-- C36. The claim fails on its own witness.  The upload queue of
`adjacent_example` holds two requests for piece 3, one after the other.
`reject_piece(3)` rejects and erases the first; the second moves to index 0,
the iterator goes on to index 1, and the loop, which compares with the end of
the queue as it was before the erasure, reads the entry at index 1 of a queue
of length 1: the second request is neither rejected nor removed, and the loop
reads past the end of the queue.  The specification expects both requests
rejected and the queue empty. -/
theorem reject_piece_reads_past_end :
    adjacent_example.m_requests.length = 2
    ∧ adjacent_example.reject_piece 3 = none
    ∧ adjacent_example.reject_piece 3
        = reject_piece_loop 3 1 1
            { adjacent_example with
              m_requests := [{ piece := 3, start := 16384, length := 16384 }]
              sent := [message.reject_request { piece := 3, start := 0, length := 16384 }] }
    ∧ ([{ piece := 3, start := 16384, length := 16384 }] : List peer_request).get? 1 = none
    ∧ (adjacent_example.spec_reject_piece 3).m_requests = []
    ∧ (adjacent_example.spec_reject_piece 3).sent
        = [message.reject_request { piece := 3, start := 0, length := 16384 },
           message.reject_request { piece := 3, start := 16384, length := 16384 }] := by
  refine ⟨rfl, rfl, rfl, rfl, rfl, rfl⟩

/-! ## C37: the time-critical count -/

theorem uncount_bounds {qtc : Int} {len i : Nat} (h0 : 0 ≤ qtc) (h1 : qtc ≤ (len : Int))
    (hi : i < len) :
    0 ≤ (if (i : Int) < qtc then qtc - 1 else qtc)
    ∧ (if (i : Int) < qtc then qtc - 1 else qtc) ≤ ((len - 1 : Nat) : Int) := by
  split_ifs <;> omega

theorem front_bounds {qtc : Int} {len : Nat} (h0 : 0 ≤ qtc) (h1 : qtc ≤ ((len + 1 : Nat) : Int)) :
    0 ≤ (if (qtc != 0) = true then qtc - 1 else qtc)
    ∧ (if (qtc != 0) = true then qtc - 1 else qtc) ≤ (len : Int) := by
  by_cases h : qtc = 0
  · rw [if_neg (by simp [h])]
    omega
  · rw [if_pos (by simpa using h)]
    push_cast at h1
    omega

theorem time_critical_ok_peer_speed (p : peer_connection) :
    p.peer_speed.m_request_queue = p.m_request_queue
    ∧ p.peer_speed.m_queued_time_critical = p.m_queued_time_critical
    ∧ p.peer_speed.t = p.t := by
  unfold peer_connection.peer_speed
  dsimp only
  split_ifs <;> exact ⟨rfl, rfl, rfl⟩

theorem time_critical_ok_add_request (p : peer_connection) (block : piece_block) (flags : Nat)
    (h : p.time_critical_ok) : (p.add_request block flags).1.time_critical_ok := by
  obtain ⟨e1, e2, _⟩ := time_critical_ok_peer_speed p
  obtain ⟨h0, h1⟩ := h
  have hk : p.peer_speed.time_critical_ok := by
    unfold peer_connection.time_critical_ok
    rw [e1, e2]; exact ⟨h0, h1⟩
  unfold peer_connection.add_request
  dsimp only
  split_ifs
  · exact ⟨h0, h1⟩
  · exact ⟨h0, h1⟩
  · exact hk
  · exact hk
  · unfold peer_connection.time_critical_ok
    show 0 ≤ p.peer_speed.m_queued_time_critical + 1
      ∧ p.peer_speed.m_queued_time_critical + 1
        ≤ ((p.peer_speed.m_request_queue.insertIdx p.peer_speed.m_queued_time_critical.toNat
            _).length : Int)
    rw [List.length_insertIdx _ _ (by rw [e1, e2]; omega), e1, e2]
    push_cast
    omega
  · unfold peer_connection.time_critical_ok
    show 0 ≤ p.peer_speed.m_queued_time_critical
      ∧ p.peer_speed.m_queued_time_critical
        ≤ ((p.peer_speed.m_request_queue ++ [_]).length : Int)
    rw [List.length_append, e1, e2]
    push_cast
    omega

theorem time_critical_ok_make_time_critical (p : peer_connection) (block : piece_block)
    (h : p.time_critical_ok) : (p.make_time_critical block).1.time_critical_ok := by
  obtain ⟨h0, h1⟩ := h
  unfold peer_connection.make_time_critical
  cases hf : p.m_request_queue.findIdx? (fun i => i.block == block) with
  | none => exact ⟨h0, h1⟩
  | some i =>
    have hi : i < p.m_request_queue.length := (List.findIdx?_eq_some_iff_findIdx_eq.1 hf).1
    dsimp only
    by_cases hc : (i : Int) < p.m_queued_time_critical
    · rw [if_pos hc]; exact ⟨h0, h1⟩
    · rw [if_neg hc]
      cases p.m_request_queue.get? i with
      | none => exact ⟨h0, h1⟩
      | some b =>
        unfold peer_connection.time_critical_ok
        show 0 ≤ p.m_queued_time_critical + 1
          ∧ p.m_queued_time_critical + 1
            ≤ (((p.m_request_queue.eraseIdx i).insertIdx p.m_queued_time_critical.toNat
                b).length : Int)
        have he : (p.m_request_queue.eraseIdx i).length = p.m_request_queue.length - 1 := by
          rw [List.length_eraseIdx, if_pos hi]
        rw [List.length_insertIdx _ _ (by rw [he]; omega), he]
        omega

theorem time_critical_ok_cancel_request (p : peer_connection) (block : piece_block)
    (force : Bool) (h : p.time_critical_ok) : (p.cancel_request block force).time_critical_ok := by
  obtain ⟨h0, h1⟩ := h
  unfold peer_connection.cancel_request
  by_cases c1 : p.m_torrent_expired = true
  · rw [if_pos c1]; exact ⟨h0, h1⟩
  rw [if_neg c1]
  by_cases c2 : (!p.t.picker_is_requested block) = true
  · rw [if_pos c2]; exact ⟨h0, h1⟩
  rw [if_neg c2]
  cases p.m_download_queue.findIdx? (fun i => i.block == block) with
  | none =>
    dsimp only
    cases hf : p.m_request_queue.findIdx? (fun i => i.block == block) with
    | none => exact ⟨h0, h1⟩
    | some i =>
      have hi : i < p.m_request_queue.length := (List.findIdx?_eq_some_iff_findIdx_eq.1 hf).1
      have hb := uncount_bounds h0 h1 hi
      unfold peer_connection.time_critical_ok peer_connection.uncount_request
      dsimp only
      rw [List.length_eraseIdx, if_pos hi]
      by_cases hc : (i : Int) < p.m_queued_time_critical
      · rw [if_pos hc] at hb ⊢
        exact hb
      · rw [if_neg hc] at hb ⊢
        exact hb
  | some i =>
    dsimp only
    split_ifs <;> exact ⟨h0, h1⟩

theorem time_critical_ok_disconnect (p : peer_connection) (ec : errors) (error : Int)
    (h : p.time_critical_ok) : (p.disconnect ec error).time_critical_ok := by
  unfold peer_connection.disconnect
  by_cases hd : p.m_disconnecting = true
  · rw [if_pos hd]; exact h
  · rw [if_neg hd]
    exact ⟨le_refl _, Int.natCast_nonneg _⟩

theorem time_critical_ok_start_receive_piece (p : peer_connection) (r : peer_request)
    (h : p.time_critical_ok) : (p.start_receive_piece r).time_critical_ok := by
  unfold peer_connection.start_receive_piece
  by_cases c1 : (!p.verify_piece r) = true
  · rw [if_pos c1]; exact time_critical_ok_disconnect p _ _ h
  rw [if_neg c1]
  obtain ⟨h0, h1⟩ := h
  dsimp only
  cases p.m_download_queue.findIdx? (fun i => i.block
      == ({ piece_index := r.piece, block_index := Int.tdiv r.start p.t.block_size }
        : piece_block)) with
  | some i => exact ⟨h0, h1⟩
  | none =>
    dsimp only
    by_cases c2 : p.m_disconnecting = true
    · rw [if_pos c2]; exact ⟨h0, h1⟩
    rw [if_neg c2]
    cases hf : p.m_request_queue.findIdx? (fun i => i.block
        == ({ piece_index := r.piece, block_index := Int.tdiv r.start p.t.block_size }
          : piece_block)) with
    | none => exact ⟨h0, h1⟩
    | some i =>
      have hi : i < p.m_request_queue.length := (List.findIdx?_eq_some_iff_findIdx_eq.1 hf).1
      have hb := uncount_bounds h0 h1 hi
      unfold peer_connection.time_critical_ok peer_connection.uncount_request
      dsimp only
      rw [List.length_eraseIdx, if_pos hi]
      by_cases hc : (i : Int) < p.m_queued_time_critical
      · rw [if_pos hc] at hb ⊢
        exact hb
      · rw [if_neg hc] at hb ⊢
        exact hb

theorem time_critical_ok_merge_requests (blocks_per_piece : Int) :
    ∀ (l : List pending_block) (block : pending_block) (r : peer_request) (p : peer_connection),
      0 ≤ p.m_queued_time_critical ∧ p.m_queued_time_critical ≤ (l.length : Int) →
      0 ≤ (merge_requests blocks_per_piece l block r p).2.2.m_queued_time_critical
      ∧ (merge_requests blocks_per_piece l block r p).2.2.m_queued_time_critical
          ≤ ((merge_requests blocks_per_piece l block r p).1.length : Int) := by
  intro l
  induction l with
  | nil => intro block r p h; exact h
  | cons front rest ih =>
    intro block r p h
    unfold merge_requests
    by_cases c : (front.block.piece_index * blocks_per_piece + front.block.block_index
        != block.block.piece_index * blocks_per_piece + block.block.block_index + 1) = true
    · rw [if_pos c]; exact h
    · rw [if_neg c]
      exact ih _ _ _ (front_bounds h.1 h.2)

theorem time_critical_ok_send_request_loop :
    ∀ (fuel : Nat) (p : peer_connection), p.time_critical_ok →
      (send_request_loop fuel p).time_critical_ok := by
  intro fuel
  induction fuel with
  | zero => intro p h; exact h
  | succ fuel ih =>
    intro p h
    unfold send_request_loop
    cases hq : p.m_request_queue with
    | nil => exact h
    | cons block rest =>
      have hb : 0 ≤ (if (p.m_queued_time_critical != 0) = true then p.m_queued_time_critical - 1
            else p.m_queued_time_critical)
          ∧ (if (p.m_queued_time_critical != 0) = true then p.m_queued_time_critical - 1
            else p.m_queued_time_critical) ≤ (rest.length : Int) := by
        refine front_bounds h.1 ?_
        have := h.2
        rw [hq] at this
        exact this
      dsimp only
      generalize (if (p.m_queued_time_critical != 0) = true then p.m_queued_time_critical - 1
          else p.m_queued_time_critical) = q at hb ⊢
      split_ifs <;> first
        | exact h
        | exact ih _ hb
        | exact hb
        | exact ih _ (time_critical_ok_merge_requests _ _ _ _ _ hb)
        | exact time_critical_ok_merge_requests _ _ _ _ _ hb

theorem time_critical_ok_send_block_requests (p : peer_connection) (h : p.time_critical_ok) :
    p.send_block_requests.time_critical_ok := by
  unfold peer_connection.send_block_requests
  split_ifs <;> first
    | exact h
    | exact time_critical_ok_disconnect p _ _ h
    | exact time_critical_ok_send_request_loop _ p h

theorem time_critical_ok_clear_request_queue (p : peer_connection) (h : p.time_critical_ok)
    (hp : p.t.has_picker = true) : p.clear_request_queue.time_critical_ok := by
  unfold peer_connection.clear_request_queue
  rw [if_neg (by rw [hp]; decide)]
  split_ifs
  · exact ⟨le_refl _, le_refl _⟩
  · exact h

theorem time_critical_ok_snub_peer (p : peer_connection) (picks : List pending_block)
    (h : p.time_critical_ok) : (p.snub_peer picks).time_critical_ok := by
  unfold peer_connection.snub_peer
  split_ifs
  · exact h
  · exact h
  · have h3 : (p.snub_mark.snub_requeue picks).time_critical_ok :=
      ⟨le_refl _, Int.natCast_nonneg _⟩
    unfold peer_connection.snub_timeout
    cases last_eligible (p.snub_mark.snub_requeue picks).m_download_queue with
    | none => exact time_critical_ok_send_block_requests _ h3
    | some i =>
      dsimp only
      cases (p.snub_mark.snub_requeue picks).m_download_queue.get? i with
      | none => exact time_critical_ok_send_block_requests _ h3
      | some qe =>
        dsimp only
        split_ifs
        · exact time_critical_ok_send_block_requests _ h3
        · exact time_critical_ok_send_block_requests _ h3

theorem time_critical_ok_incoming_reject_request (p : peer_connection) (r : peer_request)
    (picks : List pending_block) (h : p.time_critical_ok) :
    (p.incoming_reject_request r picks).time_critical_ok := by
  obtain ⟨h0, h1⟩ := h
  have h2 : (p.reject_matching r).time_critical_ok := by
    unfold peer_connection.reject_matching
    cases p.m_download_queue.find? (fun i => match_request r i.block p.t.block_size) with
    | none => exact ⟨h0, h1⟩
    | some b =>
      have hc : p.m_queued_time_critical ≤ (((b :: p.m_request_queue).length : Nat) : Int) := by
        rw [List.length_cons]
        push_cast
        omega
      dsimp only
      split_ifs <;> first
        | exact ⟨h0, h1⟩
        | exact ⟨h0, hc⟩
  have h3 : ((p.reject_matching r).reject_forget r).time_critical_ok := by
    unfold peer_connection.reject_forget
    split_ifs <;> exact h2
  unfold peer_connection.incoming_reject_request
  split_ifs
  · exact ⟨h0, h1⟩
  · exact ⟨h0, h1⟩
  · unfold peer_connection.reject_refill
    split_ifs
    · refine time_critical_ok_send_block_requests _ ?_
      refine ⟨h3.1, ?_⟩
      show ((p.reject_matching r).reject_forget r).m_queued_time_critical
        ≤ (((((p.reject_matching r).reject_forget r).m_request_queue ++ picks).length : Nat) : Int)
      have := h3.2
      rw [List.length_append]
      push_cast
      omega
    · exact h3

/-- C37. The claim fails for `clear_request_queue` on a torrent without piece
picker.  `no_picker_example` has one request queued, which is time critical,
and satisfies the invariant.  `clear_request_queue` empties the request queue
and returns without resetting `m_queued_time_critical`, which stays 1 for an
empty queue.  With a picker the count is reset, and `disconnect` resets it
with and without a picker. -/
theorem clear_request_queue_keeps_count :
    no_picker_example.time_critical_ok
    ∧ no_picker_example.clear_request_queue.m_request_queue = []
    ∧ no_picker_example.clear_request_queue.m_queued_time_critical = 1
    ∧ ¬ no_picker_example.clear_request_queue.time_critical_ok
    ∧ (peer_connection.clear_request_queue
        { no_picker_example with t := torrent_example }).time_critical_ok
    ∧ (no_picker_example.disconnect errors.torrent_paused 0).m_queued_time_critical = 0 := by
  decide

/-- The other functions of C37 keep the invariant `0 ≤ m_queued_time_critical ≤
m_request_queue.size()`, and so does `clear_request_queue` when the torrent has
a piece picker. -/
theorem time_critical_ok_preserved (p : peer_connection) (h : p.time_critical_ok) :
    (∀ block flags, (p.add_request block flags).1.time_critical_ok)
    ∧ (∀ block, (p.make_time_critical block).1.time_critical_ok)
    ∧ (∀ block force, (p.cancel_request block force).time_critical_ok)
    ∧ p.send_block_requests.time_critical_ok
    ∧ (∀ r, (p.start_receive_piece r).time_critical_ok)
    ∧ (p.t.has_picker = true → p.clear_request_queue.time_critical_ok)
    ∧ (∀ picks, (p.snub_peer picks).time_critical_ok)
    ∧ (∀ r picks, (p.incoming_reject_request r picks).time_critical_ok)
    ∧ (∀ ec error, (p.disconnect ec error).time_critical_ok) :=
  ⟨fun block flags => time_critical_ok_add_request p block flags h,
   fun block => time_critical_ok_make_time_critical p block h,
   fun block force => time_critical_ok_cancel_request p block force h,
   time_critical_ok_send_block_requests p h,
   fun r => time_critical_ok_start_receive_piece p r h,
   fun hp => time_critical_ok_clear_request_queue p h hp,
   fun picks => time_critical_ok_snub_peer p picks h,
   fun r picks => time_critical_ok_incoming_reject_request p r picks h,
   fun ec error => time_critical_ok_disconnect p ec error h⟩

/-! ## C38: the number of pieces of the peer -/

theorem count_bits_map_false (l : List Bool) : count_bits (l.map (fun _ => false)) = 0 := by
  unfold count_bits
  induction l with
  | nil => rfl
  | cons a l ih => simpa using ih

theorem count_bits_map_true (l : List Bool) :
    count_bits (l.map (fun _ => true)) = (l.length : Int) := by
  unfold count_bits
  induction l with
  | nil => rfl
  | cons a l ih =>
    simp only [List.map_cons, List.count_cons_self, List.length_cons]
    push_cast
    omega

theorem count_bits_append_false (l : List Bool) (n : Nat) :
    count_bits (l ++ List.replicate n false) = count_bits l := by
  unfold count_bits
  simp [List.count_append, List.count_replicate]

theorem count_bits_set_true :
    ∀ (l : List Bool) (i : Nat), i < l.length → l.getD i false = false →
      count_bits (l.set i true) = count_bits l + 1 := by
  intro l
  induction l with
  | nil => intro i hi; simp at hi
  | cons a l ih =>
    intro i hi hg
    cases i with
    | zero =>
      simp only [List.getD_cons_zero] at hg
      subst hg
      unfold count_bits
      simp
    | succ i =>
      simp only [List.getD_cons_succ] at hg
      have := ih i (by simpa using hi) hg
      unfold count_bits at this ⊢
      cases a <;> simp [List.count_cons] <;> omega

theorem count_bits_set_false :
    ∀ (l : List Bool) (i : Nat), l.getD i false = true →
      count_bits (l.set i false) = count_bits l - 1 := by
  intro l
  induction l with
  | nil => intro i hg; simp at hg
  | cons a l ih =>
    intro i hg
    cases i with
    | zero =>
      simp only [List.getD_cons_zero] at hg
      subst hg
      unfold count_bits
      simp
    | succ i =>
      simp only [List.getD_cons_succ] at hg
      have := ih i hg
      unfold count_bits at this ⊢
      cases a <;> simp [List.count_cons] <;> omega

theorem have_frame_of_queue_frame {p q : peer_connection} (h : queue_frame p q) :
    have_frame p q := by
  obtain ⟨h1, h2, -, -, -, h6, h7, -⟩ := queue_frame_fields h
  exact ⟨h6, h7, h1, h2⟩

theorem have_frame_trans {p q r : peer_connection} (h1 : have_frame p q) (h2 : have_frame q r) :
    have_frame p r :=
  ⟨h2.1.trans h1.1, h2.2.1.trans h1.2.1, h2.2.2.1.trans h1.2.2.1, h2.2.2.2.trans h1.2.2.2⟩

theorem have_frame_ok {p q : peer_connection} (h : have_frame p q) (hp : p.have_count_ok) :
    q.have_count_ok := by
  unfold peer_connection.have_count_ok at hp ⊢
  rw [h.1, h.2.1]
  exact hp

theorem have_frame_disconnect (p : peer_connection) (ec : errors) (error : Int) :
    have_frame p (p.disconnect ec error) :=
  have_frame_of_queue_frame (queue_frame_disconnect p ec error)

theorem have_frame_disconnect_if_redundant (p : peer_connection) :
    have_frame p p.disconnect_if_redundant.1 :=
  have_frame_of_queue_frame (queue_frame_disconnect_if_redundant p)

theorem have_frame_send_not_interested (p : peer_connection) :
    have_frame p p.send_not_interested :=
  have_frame_of_queue_frame (queue_frame_send_not_interested p)

theorem have_frame_peer_is_interesting (p : peer_connection) :
    have_frame p p.peer_is_interesting := by
  unfold peer_connection.peer_is_interesting peer_connection.send_interested
  split_ifs <;> exact ⟨rfl, rfl, rfl, rfl⟩

theorem have_frame_superseed_piece (p : peer_connection) (a b : Int) :
    have_frame p (p.superseed_piece a b) := by
  unfold peer_connection.superseed_piece
  split_ifs <;> exact ⟨rfl, rfl, rfl, rfl⟩

theorem have_frame_have_superseed (p : peer_connection) (index : Int) :
    have_frame p (p.have_superseed index) := by
  unfold peer_connection.have_superseed
  split_ifs
  · exact have_frame_superseed_piece _ _ _
  · exact ⟨rfl, rfl, rfl, rfl⟩
  · exact ⟨rfl, rfl, rfl, rfl⟩

theorem have_frame_have_finish (p : peer_connection) (index : Int) :
    have_frame p (p.have_finish index) := by
  have h1 : have_frame p (if (!p.t.has_piece_passed index && !p.t.is_seed && !p.m_interesting
        && (!p.t.has_picker || p.t.picker_piece_priority index != 0)) = true then
      p.peer_is_interesting else p) := by
    split_ifs
    · exact have_frame_peer_is_interesting p
    · exact ⟨rfl, rfl, rfl, rfl⟩
  unfold peer_connection.have_finish
  dsimp only
  split_ifs <;> first
    | exact h1
    | exact have_frame_trans h1 (have_frame_superseed_piece _ _ _)
    | exact have_frame_peer_is_interesting p
    | exact ⟨rfl, rfl, rfl, rfl⟩
    | exact have_frame_trans (have_frame_peer_is_interesting p) (have_frame_superseed_piece _ _ _)
    | exact have_frame_superseed_piece _ _ _

theorem have_count_ok_incoming_have_none (p : peer_connection) (h : p.have_count_ok) :
    p.incoming_have_none.have_count_ok := by
  unfold peer_connection.incoming_have_none
  split_ifs
  · exact h
  · exact h
  · refine have_frame_ok (have_frame_trans (have_frame_send_not_interested _)
      (have_frame_disconnect_if_redundant _)) ?_
    exact (count_bits_map_false p.m_have_piece).symm

theorem have_count_ok_have_set (p : peer_connection) (index : Int) (h : p.have_count_ok)
    (h0 : 0 ≤ index) (h1 : index < (p.m_have_piece.length : Int))
    (hb : p.has_piece index = false) : (p.have_set index).have_count_ok := by
  unfold peer_connection.have_count_ok peer_connection.have_set
  dsimp only
  rw [count_bits_set_true _ _ (by omega) hb, h]

theorem have_count_ok_have_accept (p : peer_connection) (index : Int) (h : p.have_count_ok)
    (h0 : 0 ≤ index) (h1 : index < (p.m_have_piece.length : Int)) :
    (p.have_accept index).have_count_ok := by
  have hs := have_frame_have_superseed p index
  have hk : (p.have_superseed index).have_count_ok := have_frame_ok hs h
  unfold peer_connection.have_accept
  by_cases c1 : (p.have_superseed index).has_piece index = true
  · rw [if_pos c1]; exact hk
  rw [if_neg c1]
  have h2 : ((p.have_superseed index).have_set index).have_count_ok :=
    have_count_ok_have_set _ index hk h0 (by rw [hs.1]; exact h1) (by simpa using c1)
  have h3 : (peer_connection.disconnect_if_redundant
      { ((p.have_superseed index).have_set index) with m_upload_only := true }).1.have_count_ok :=
    have_frame_ok (have_frame_disconnect_if_redundant _) h2
  split_ifs <;> first
    | exact h2
    | exact h3
    | exact have_frame_ok (have_frame_have_finish _ _) h3
    | exact have_frame_ok (have_frame_have_finish _ _) h2

theorem have_count_ok_have_prepare (p : peer_connection) (h : p.have_count_ok) :
    p.have_prepare.have_count_ok := by
  unfold peer_connection.have_prepare
  split_ifs
  · exact have_count_ok_incoming_have_none p h
  · exact h

theorem have_count_ok_have_resize (p : peer_connection) (index : Int) (h : p.have_count_ok) :
    (p.have_resize index).have_count_ok := by
  unfold peer_connection.have_resize
  split_ifs
  · unfold peer_connection.have_count_ok
    dsimp only
    rw [count_bits_append_false]
    exact h
  · exact h

theorem have_count_ok_incoming_have (p : peer_connection) (index : Int) (h : p.have_count_ok) :
    (p.incoming_have index).have_count_ok := by
  have h1 := have_count_ok_have_prepare p h
  have h2 := have_count_ok_have_resize _ index h1
  unfold peer_connection.incoming_have
  by_cases c1 : p.m_extensions.on_have index = true
  · rw [if_pos c1]; exact h
  rw [if_neg c1]
  by_cases c2 : p.is_disconnecting = true
  · rw [if_pos c2]; exact h
  rw [if_neg c2]
  by_cases c3 : p.have_prepare.is_disconnecting = true
  · rw [if_pos c3]; exact h1
  rw [if_neg c3]
  split_ifs with c4 c5
  · exact h1
  · exact have_frame_ok (have_frame_disconnect _ _ _) h2
  · simp only [Bool.or_eq_true, decide_eq_true_eq, not_or, not_le, not_lt, ge_iff_le] at c5
    exact have_count_ok_have_accept _ index h2 c5.2 c5.1

theorem have_count_ok_incoming_dont_have (p : peer_connection) (index : Int)
    (h : p.have_count_ok) : (p.incoming_dont_have index).have_count_ok := by
  unfold peer_connection.incoming_dont_have
  split_ifs with c1 c2 c3 c4
  · exact h
  · exact h
  · exact have_frame_ok (have_frame_disconnect _ _ _) h
  · exact h
  · unfold peer_connection.have_count_ok
    dsimp only
    rw [count_bits_set_false _ _ (by simpa [peer_connection.has_piece] using c4), h]

theorem have_count_ok_incoming_bitfield (p : peer_connection) (bits : List Bool)
    (h : p.have_count_ok) : (p.incoming_bitfield bits).have_count_ok := by
  unfold peer_connection.incoming_bitfield
  split_ifs with c1 c2 c3 c4 c5
  · exact h
  · exact h
  · exact have_frame_ok (have_frame_disconnect _ _ _) h
  · rfl
  · unfold peer_connection.bitfield_seed
    dsimp only
    refine have_frame_ok (have_frame_disconnect_if_redundant _) ?_
    have hk : peer_connection.have_count_ok
        { p with
          m_bitfield_received := true
          m_upload_only := true
          m_have_piece := p.m_have_piece.map (fun _ => true)
          m_num_pieces := count_bits bits } := by
      unfold peer_connection.have_count_ok
      dsimp only
      rw [count_bits_map_true]
      simpa using c5
    split_ifs
    · exact have_frame_ok (have_frame_peer_is_interesting _) hk
    · exact hk
  · unfold peer_connection.bitfield_assign
    dsimp only
    have hk : peer_connection.have_count_ok
        { p with
          m_bitfield_received := true
          m_have_piece := bits
          m_num_pieces := count_bits bits } := rfl
    split_ifs
    · exact have_frame_ok (have_frame_peer_is_interesting _) hk
    · exact have_frame_ok (have_frame_disconnect _ _ _) hk
    · exact hk

theorem have_count_ok_incoming_have_all (p : peer_connection) (h : p.have_count_ok) :
    p.incoming_have_all.have_count_ok := by
  unfold peer_connection.incoming_have_all
  dsimp only
  have hk : peer_connection.have_count_ok
      { p with
        m_have_all := true
        m_upload_only := true
        m_bitfield_received := true
        m_have_piece := p.m_have_piece.map (fun _ => true)
        m_num_pieces := (p.m_have_piece.length : Int) } := by
    unfold peer_connection.have_count_ok
    dsimp only
    rw [count_bits_map_true]
  have hk0 : peer_connection.have_count_ok
      { p with m_have_all := true, m_upload_only := true, m_bitfield_received := true } := h
  split_ifs
  · exact h
  · exact h
  · exact have_frame_ok (have_frame_trans (have_frame_peer_is_interesting _)
      (have_frame_disconnect_if_redundant _)) hk0
  · exact have_frame_ok (have_frame_trans (have_frame_send_not_interested _)
      (have_frame_disconnect_if_redundant _)) hk
  · exact have_frame_ok (have_frame_trans (have_frame_peer_is_interesting _)
      (have_frame_disconnect_if_redundant _)) hk

/-- C38, the part of the claim that fails.  An out-of-range have or dont-have
that an extension consumes does not disconnect the peer: `consuming_example`
has a bitfield of four pieces and known metadata, and stays connected after
`incoming_have 7` and `incoming_dont_have 7`.  A have that arrives before any
bitfield is first treated as have-none: on `early_example` the out-of-range
have clears the bitfield and the count before it disconnects. -/
theorem incoming_have_consumed :
    consuming_example.t.valid_metadata = true
    ∧ consuming_example.have_count_ok
    ∧ (7 : Int) ≥ consuming_example.m_have_piece.length
    ∧ (consuming_example.incoming_have 7).m_disconnecting = false
    ∧ (consuming_example.incoming_dont_have 7).m_disconnecting = false
    ∧ early_example.t.valid_metadata = true
    ∧ early_example.have_count_ok
    ∧ early_example.m_have_piece = [true, false, true, false]
    ∧ early_example.m_num_pieces = 2
    ∧ (early_example.incoming_have 7).m_have_piece = [false, false, false, false]
    ∧ (early_example.incoming_have 7).m_num_pieces = 0
    ∧ (early_example.incoming_have 7).disconnected = some (errors.invalid_have, 2) := by
  decide

/-- C38, amended.  On a peer whose count of pieces equals the number of bits
set in its bitfield, `incoming_have` (a redundant one and one that extends the
bitfield included), `incoming_dont_have`, `incoming_bitfield`,
`incoming_have_all` and `incoming_have_none` keep it so.  With known metadata,
an out-of-range have that no extension consumes leaves the peer disconnecting;
after a bitfield has been received it changes neither the bitfield nor the
count, and a peer that was not disconnecting is disconnected with
`invalid_have` at severity 2.  An out-of-range dont-have that no extension
consumes leaves the peer disconnecting and changes neither, and a peer that
was not disconnecting is disconnected with `invalid_dont_have` at severity 2. -/
theorem incoming_have_keeps_count (p : peer_connection) (h : p.have_count_ok) :
    (∀ index, (p.incoming_have index).have_count_ok)
    ∧ (∀ index, (p.incoming_dont_have index).have_count_ok)
    ∧ (∀ bits, (p.incoming_bitfield bits).have_count_ok)
    ∧ p.incoming_have_all.have_count_ok
    ∧ p.incoming_have_none.have_count_ok
    ∧ (∀ index, p.t.valid_metadata = true →
        (index < 0 ∨ index ≥ (p.m_have_piece.length : Int)) →
        p.m_extensions.on_have index = false →
        (p.incoming_have index).m_disconnecting = true
        ∧ (p.m_bitfield_received = true →
            (p.incoming_have index).m_have_piece = p.m_have_piece
            ∧ (p.incoming_have index).m_num_pieces = p.m_num_pieces
            ∧ (p.m_disconnecting = false →
                (p.incoming_have index).disconnected = some (errors.invalid_have, 2))))
    ∧ (∀ index, (index < 0 ∨ index ≥ (p.m_have_piece.length : Int)) →
        p.m_extensions.on_dont_have index = false →
        (p.incoming_dont_have index).m_disconnecting = true
        ∧ (p.incoming_dont_have index).m_have_piece = p.m_have_piece
        ∧ (p.incoming_dont_have index).m_num_pieces = p.m_num_pieces
        ∧ (p.m_disconnecting = false →
            (p.incoming_dont_have index).disconnected
              = some (errors.invalid_dont_have, 2))) := by
  refine ⟨fun index => have_count_ok_incoming_have p index h,
    fun index => have_count_ok_incoming_dont_have p index h,
    fun bits => have_count_ok_incoming_bitfield p bits h,
    have_count_ok_incoming_have_all p h,
    have_count_ok_incoming_have_none p h, ?_, ?_⟩
  · intro index hm hr he
    have hlen : p.have_prepare.m_have_piece.length = p.m_have_piece.length := by
      unfold peer_connection.have_prepare peer_connection.incoming_have_none
      split_ifs <;> first
        | rfl
        | (rw [(have_frame_trans (have_frame_send_not_interested _)
            (have_frame_disconnect_if_redundant _)).1]
           exact List.length_map _ _)
    have ht : p.have_prepare.t = p.t := by
      unfold peer_connection.have_prepare peer_connection.incoming_have_none
      split_ifs <;> first
        | rfl
        | exact (have_frame_trans (have_frame_send_not_interested _)
            (have_frame_disconnect_if_redundant _)).2.2.1
    have hres : p.have_prepare.have_resize index = p.have_prepare := by
      unfold peer_connection.have_resize
      rw [ht, hm]
      rfl
    have hrange : (decide (index ≥ ((p.have_prepare.have_resize index).m_have_piece.length : Int))
        || decide (index < 0)) = true := by
      rw [hres, hlen]
      rcases hr with hr | hr
      · simp [hr]
      · simp [hr]
    have hmd : (!p.have_prepare.t.valid_metadata
        && decide (index ≥ (p.have_prepare.m_have_piece.length : Int))
        && !decide (index < 131072)) = false := by
      rw [ht, hm]
      rfl
    have hstep : p.incoming_have index
        = if p.is_disconnecting = true then p
          else if p.have_prepare.is_disconnecting = true then p.have_prepare
          else p.have_prepare.disconnect errors.invalid_have 2 := by
      unfold peer_connection.incoming_have
      rw [he, hmd, hrange, hres]
      simp
    rw [hstep]
    refine ⟨?_, ?_⟩
    · split_ifs with c1 c2
      · exact c1
      · exact c2
      · unfold peer_connection.disconnect
        rw [if_neg (by simpa [peer_connection.is_disconnecting] using c2)]
    · intro hb
      have hp : p.have_prepare = p := by
        unfold peer_connection.have_prepare
        rw [hb]
        rfl
      rw [hp]
      by_cases c1 : p.is_disconnecting = true
      · simp only [if_pos c1, true_and]
        intro hd
        rw [show p.is_disconnecting = p.m_disconnecting from rfl, hd] at c1
        exact absurd c1 (by decide)
      · simp only [if_neg c1, if_true, ite_self]
        have hf := have_frame_disconnect p errors.invalid_have 2
        refine ⟨hf.1, hf.2.1, fun hd => ?_⟩
        unfold peer_connection.disconnect
        rw [hd]
        rfl
  · intro index hr he
    have hrange : (decide (index ≥ (p.m_have_piece.length : Int)) || decide (index < 0))
        = true := by
      rcases hr with hr | hr
      · simp [hr]
      · simp [hr]
    have hstep : p.incoming_dont_have index
        = if p.is_disconnecting = true then p
          else p.disconnect errors.invalid_dont_have 2 := by
      unfold peer_connection.incoming_dont_have
      rw [he, hrange]
      simp
    rw [hstep]
    by_cases c1 : p.is_disconnecting = true
    · simp only [if_pos c1, true_and]
      refine ⟨c1, fun hd => ?_⟩
      rw [show p.is_disconnecting = p.m_disconnecting from rfl, hd] at c1
      exact absurd c1 (by decide)
    · simp only [if_neg c1]
      have hf := have_frame_disconnect p errors.invalid_dont_have 2
      refine ⟨?_, hf.1, hf.2.1, fun hd => ?_⟩
      · unfold peer_connection.disconnect
        rw [if_neg (by simpa [peer_connection.is_disconnecting] using c1)]
      · unfold peer_connection.disconnect
        rw [hd]
        rfl

/-- The amended C38 at `bitfield_example`, whose count 2 is the number of bits
set in its bitfield. -/
theorem incoming_have_keeps_count_witness :
    bitfield_example.have_count_ok
    ∧ (bitfield_example.incoming_have 1).have_count_ok
    ∧ (bitfield_example.incoming_have 7).m_disconnecting = true :=
  (fun h => ⟨by decide, h.1 1,
    (h.2.2.2.2.2.1 7 rfl (Or.inr (by decide)) rfl).1⟩)
    (incoming_have_keeps_count bitfield_example (by decide))

/-! ## C35: the receive buffer -/

theorem memmove_some {buf : List Nat} {dst src n : Int} (hn : 0 ≤ n) (hd : 0 ≤ dst)
    (hs : 0 ≤ src) (h1 : src + n ≤ (buf.length : Int)) (h2 : dst + n ≤ (buf.length : Int)) :
    memmove buf dst src n
      = some (buf.take dst.toNat ++ (buf.drop src.toNat).take n.toNat
        ++ buf.drop (dst.toNat + n.toNat)) := by
  unfold memmove
  rw [if_neg (by omega)]

theorem memmove_length {buf b : List Nat} {dst src n : Int} (h : memmove buf dst src n = some b) :
    b.length = buf.length := by
  unfold memmove at h
  split_ifs at h with c
  simp only [Option.some.injEq] at h
  subst h
  simp only [List.length_append, List.length_take, List.length_drop]
  omega

theorem cut_receive_buffer_spec (p : peer_connection) (size packet_size offset : Int)
    (h : p.recv_invariant) (hpre : p.cut_receive_buffer_pre size packet_size offset)
    (hk : offset = 0 ∨ p.recv_pos_ok) :
    ∃ q, p.cut_receive_buffer size packet_size offset = some q ∧ q.recv_invariant
      ∧ (p.recv_pos_ok → q.recv_pos_ok) := by
  obtain ⟨h0, h1, h2, h3, h4⟩ := h
  obtain ⟨a1, a2, a3, a4, a5, a6, a7, a8, a9⟩ := hpre
  unfold peer_connection.cut_receive_buffer
  by_cases c : offset > 0
  · rw [if_pos c] at a9 ⊢
    have hk1 : p.m_recv_start + p.m_recv_pos ≤ p.m_recv_end := by
      rcases hk with hk | hk
      · omega
      · exact hk
    have hm : ∃ b, (if size > 0 then
          memmove p.m_recv_buffer (p.m_recv_start + offset) (p.m_recv_start + offset + size)
            (p.m_recv_end - p.m_recv_start - size - offset)
        else some p.m_recv_buffer) = some b ∧ b.length = p.m_recv_buffer.length := by
      by_cases cs : size > 0
      · rw [if_pos cs]
        have := @memmove_some p.m_recv_buffer (p.m_recv_start + offset)
          (p.m_recv_start + offset + size) (p.m_recv_end - p.m_recv_start - size - offset)
          (by omega) (by omega) (by omega) (by omega) (by omega)
        exact ⟨_, this, memmove_length this⟩
      · rw [if_neg cs]
        exact ⟨_, rfl, rfl⟩
    obtain ⟨b, hb, hlen⟩ := hm
    rw [hb]
    refine ⟨_, rfl, ?_, ?_⟩
    · unfold peer_connection.recv_invariant
      dsimp only
      rw [hlen]
      exact ⟨h0, by omega, by omega, by omega, h4⟩
    · intro _
      unfold peer_connection.recv_pos_ok
      dsimp only
      omega
  · rw [if_neg c] at a9 ⊢
    refine ⟨_, rfl, ?_, ?_⟩
    · unfold peer_connection.recv_invariant
      dsimp only
      exact ⟨by omega, by omega, h2, by omega, h4⟩
    · intro hp
      unfold peer_connection.recv_pos_ok at hp ⊢
      dsimp only
      omega

theorem normalize_receive_buffer_spec (p : peer_connection) (h : p.recv_invariant) :
    ∃ q, p.normalize_receive_buffer = some q ∧ q.recv_invariant
      ∧ (p.recv_pos_ok → q.recv_pos_ok)
      ∧ q.m_recv_start = 0 ∧ q.m_recv_end = p.m_recv_end - p.m_recv_start
      ∧ q.m_recv_buffer.take (p.m_recv_end - p.m_recv_start).toNat
          = (p.m_recv_buffer.drop p.m_recv_start.toNat).take
              (p.m_recv_end - p.m_recv_start).toNat := by
  obtain ⟨h0, h1, h2, h3, h4⟩ := h
  unfold peer_connection.normalize_receive_buffer
  by_cases c : p.m_recv_start = 0
  · rw [if_pos (by simpa using c)]
    refine ⟨p, rfl, ⟨h0, h1, h2, h3, h4⟩, fun hp => hp, c, by omega, ?_⟩
    rw [c]
    rfl
  · rw [if_neg (by simpa using c)]
    by_cases ce : p.m_recv_end > p.m_recv_start
    · rw [if_pos ce]
      have hm := @memmove_some p.m_recv_buffer 0 p.m_recv_start (p.m_recv_end - p.m_recv_start)
        (by omega) (by omega) (by omega) (by omega) (by omega)
      have hlen := memmove_length hm
      rw [hm]
      refine ⟨_, rfl, ?_, ?_, rfl, rfl, ?_⟩
      · unfold peer_connection.recv_invariant
        dsimp only
        rw [hlen]
        exact ⟨le_refl _, by omega, by omega, h3, h4⟩
      · intro hp
        unfold peer_connection.recv_pos_ok at hp ⊢
        dsimp only
        omega
      · show ((p.m_recv_buffer.take (0 : Int).toNat
            ++ (p.m_recv_buffer.drop p.m_recv_start.toNat).take
                (p.m_recv_end - p.m_recv_start).toNat
            ++ p.m_recv_buffer.drop ((0 : Int).toNat + (p.m_recv_end - p.m_recv_start).toNat)).take
              (p.m_recv_end - p.m_recv_start).toNat) = _
        have hl : ((p.m_recv_buffer.drop p.m_recv_start.toNat).take
            (p.m_recv_end - p.m_recv_start).toNat).length
              = (p.m_recv_end - p.m_recv_start).toNat := by
          rw [List.length_take, List.length_drop]
          omega
        simp only [Int.toNat_zero, List.take_zero, List.nil_append]
        rw [List.take_append_of_le_length (by rw [hl]), List.take_of_length_le (by rw [hl])]
    · rw [if_neg ce]
      have he : p.m_recv_end - p.m_recv_start = 0 := by omega
      refine ⟨_, rfl, ?_, ?_, rfl, rfl, ?_⟩
      · unfold peer_connection.recv_invariant
        dsimp only
        exact ⟨le_refl _, by omega, by omega, h3, h4⟩
      · intro hp
        unfold peer_connection.recv_pos_ok at hp ⊢
        dsimp only
        omega
      · rw [he]
        rfl

theorem reset_recv_buffer_spec (p : peer_connection) (packet_size : Int)
    (h : p.recv_invariant) (hpre : p.reset_recv_buffer_pre packet_size) :
    ∃ q, p.reset_recv_buffer packet_size = some q ∧ q.recv_invariant
      ∧ (p.recv_pos_ok → q.recv_pos_ok) := by
  unfold peer_connection.reset_recv_buffer
  by_cases c : p.m_recv_end > p.m_packet_size
  · rw [if_pos c]
    exact cut_receive_buffer_spec p _ _ 0 h (hpre.2.2 c) (Or.inl rfl)
  · rw [if_neg c]
    refine ⟨_, rfl, ?_, ?_⟩
    · unfold peer_connection.recv_invariant
      dsimp only
      exact ⟨le_refl _, le_refl _, Int.natCast_nonneg _, le_refl _, h.2.2.2.2⟩
    · intro _
      unfold peer_connection.recv_pos_ok
      dsimp only
      omega

theorem release_disk_receive_buffer_spec (p : peer_connection) (h : p.recv_invariant)
    (hpre : p.release_disk_receive_buffer_pre) :
    p.release_disk_receive_buffer.1.recv_invariant := by
  obtain ⟨h0, h1, h2, h3, h4⟩ := h
  unfold peer_connection.release_disk_receive_buffer
  by_cases c : p.m_disk_recv_buffer = 0
  · rw [if_pos (by simpa using c)]
    exact ⟨h0, h1, h2, h3, h4⟩
  · rw [if_neg (by simpa using c)]
    have hs := h4.1 c
    obtain ⟨b1, b2⟩ := hpre c
    unfold peer_connection.recv_invariant
    dsimp only
    refine ⟨h0, b2, by omega, h3, ?_⟩
    constructor
    · intro hne; exact absurd rfl hne
    · intro hgt; exact absurd hgt (by decide)

/-- C35, the chain of the claim fails.  `recv_example` (start 0, position 10,
end 20, capacity 20) has `0 ≤ start ≤ pos ≤ end ≤ capacity` and meets the
assertions of `cut_receive_buffer(10, 5, 0)` and `reset_recv_buffer(5)`, which
leave start 10 above position 0.  `disk_recv_example` (position 20, end 20,
disk buffer of 16 bytes) meets the assertions of
`release_disk_receive_buffer`, which leaves end 4 below position 20.  On
`recv_offsets_example` (start 10, position 15, end 20)
`normalize_receive_buffer` leaves end 10 below position 15. -/
theorem cut_receive_buffer_moves_start :
    recv_example.spec_recv_invariant
    ∧ recv_example.cut_receive_buffer_pre 10 5 0
    ∧ (recv_example.cut_receive_buffer 10 5 0).map (fun q => (q.m_recv_start, q.m_recv_pos,
        q.m_recv_end)) = some (10, 0, 20)
    ∧ recv_example.reset_recv_buffer_pre 5
    ∧ (recv_example.reset_recv_buffer 5).map (fun q => (q.m_recv_start, q.m_recv_pos,
        q.m_recv_end)) = some (10, 0, 20)
    ∧ (∀ q, recv_example.cut_receive_buffer 10 5 0 = some q → ¬ q.spec_recv_invariant)
    ∧ (∀ q, recv_example.reset_recv_buffer 5 = some q → ¬ q.spec_recv_invariant)
    ∧ disk_recv_example.spec_recv_invariant
    ∧ disk_recv_example.release_disk_receive_buffer_pre
    ∧ disk_recv_example.release_disk_receive_buffer.1.m_recv_pos = 20
    ∧ disk_recv_example.release_disk_receive_buffer.1.m_recv_end = 4
    ∧ ¬ disk_recv_example.release_disk_receive_buffer.1.spec_recv_invariant
    ∧ recv_offsets_example.spec_recv_invariant
    ∧ recv_offsets_example.normalize_receive_buffer.map (fun q => (q.m_recv_start, q.m_recv_pos,
        q.m_recv_end)) = some (0, 15, 10)
    ∧ (∀ q, recv_offsets_example.normalize_receive_buffer = some q
        → ¬ q.spec_recv_invariant) := by
  refine ⟨by decide, by decide, by decide, by decide, by decide, ?_, ?_, by decide, by decide,
    by decide, by decide, by decide, by decide, by decide, ?_⟩
  · intro q hq
    have : q = { recv_example with m_recv_start := 10, m_recv_pos := 0, m_packet_size := 5 } :=
      (Option.some.inj hq).symm
    rw [this]
    decide
  · intro q hq
    have : q = { recv_example with m_recv_start := 10, m_recv_pos := 0, m_packet_size := 5 } :=
      (Option.some.inj hq).symm
    rw [this]
    decide
  · intro q hq
    have hn := normalize_receive_buffer_spec recv_offsets_example (by decide)
    obtain ⟨q1, e1, -, -, -, e5, -⟩ := hn
    rw [hq] at e1
    have e : q = q1 := Option.some.inj e1
    subst e
    intro hs
    have hpos : q.m_recv_pos = 15 := by
      have h2 : recv_offsets_example.normalize_receive_buffer.map (fun q => q.m_recv_pos)
          = some 15 := by decide
      rw [hq] at h2
      exact Option.some.inj h2
    have hend : q.m_recv_end = 10 := by
      rw [e5]
      decide
    have := hs.2.2.1
    rw [hpos, hend] at this
    exact absurd this (by decide)

/-- C35, amended.  On a peer with `0 ≤ m_recv_start ≤ m_recv_end ≤
m_recv_buffer.size()`, a position that is not negative and a disk receive
buffer exactly when its size is positive, `cut_receive_buffer`,
`normalize_receive_buffer` and `reset_recv_buffer`, called within their
assertions, return and keep this, and they keep `m_recv_start + m_recv_pos ≤
m_recv_end` when it holds (a cut at an offset other than 0 needs it);
`release_disk_receive_buffer` within its assertions keeps the former.
`normalize_receive_buffer` keeps the buffered bytes: those at `[m_recv_start,
m_recv_end)` before are those at `[0, m_recv_end − m_recv_start)` after. -/
theorem recv_buffer_invariant (p : peer_connection) (h : p.recv_invariant) :
    (∀ size packet_size offset, p.cut_receive_buffer_pre size packet_size offset →
        offset = 0 ∨ p.recv_pos_ok →
        ∃ q, p.cut_receive_buffer size packet_size offset = some q ∧ q.recv_invariant
          ∧ (p.recv_pos_ok → q.recv_pos_ok))
    ∧ (∃ q, p.normalize_receive_buffer = some q ∧ q.recv_invariant
        ∧ (p.recv_pos_ok → q.recv_pos_ok)
        ∧ q.m_recv_start = 0 ∧ q.m_recv_end = p.m_recv_end - p.m_recv_start
        ∧ q.m_recv_buffer.take (p.m_recv_end - p.m_recv_start).toNat
            = (p.m_recv_buffer.drop p.m_recv_start.toNat).take
                (p.m_recv_end - p.m_recv_start).toNat)
    ∧ (∀ packet_size, p.reset_recv_buffer_pre packet_size →
        ∃ q, p.reset_recv_buffer packet_size = some q ∧ q.recv_invariant
          ∧ (p.recv_pos_ok → q.recv_pos_ok))
    ∧ (p.release_disk_receive_buffer_pre → p.release_disk_receive_buffer.1.recv_invariant) :=
  ⟨fun size packet_size offset hpre hk => cut_receive_buffer_spec p size packet_size offset h hpre hk,
   normalize_receive_buffer_spec p h,
   fun packet_size hpre => reset_recv_buffer_spec p packet_size h hpre,
   fun hpre => release_disk_receive_buffer_spec p h hpre⟩

/-- The amended C35 at `recv_cut_example` (start 10, position 5, end 20):
`normalize_receive_buffer` moves the ten buffered bytes to the front. -/
theorem recv_buffer_invariant_witness :
    recv_cut_example.recv_invariant
    ∧ ∃ q, recv_cut_example.normalize_receive_buffer = some q ∧ q.recv_invariant
        ∧ (recv_cut_example.recv_pos_ok → q.recv_pos_ok)
        ∧ q.m_recv_start = 0
        ∧ q.m_recv_end = recv_cut_example.m_recv_end - recv_cut_example.m_recv_start
        ∧ q.m_recv_buffer.take
            (recv_cut_example.m_recv_end - recv_cut_example.m_recv_start).toNat
            = (recv_cut_example.m_recv_buffer.drop recv_cut_example.m_recv_start.toNat).take
                (recv_cut_example.m_recv_end - recv_cut_example.m_recv_start).toNat :=
  ⟨by decide, (recv_buffer_invariant recv_cut_example (by decide)).2.1⟩

/-! ## C33: the extension handshake -/

theorem bencode_dictionary_head (d : entry_dict) :
    (bencode (entry.dictionary_t d)).head? = some 100 := by
  unfold bencode
  rfl

/-- C33. `write_extensions` emits one extended message with the length prefix
payload + 2, the id 20 and the extension id 0, but its payload is not the
dictionary: the call of `bencode` is given the enumerator `extended_handshake`
in place of the dictionary `handshake`, so that the payload is the integer 0,
`i0e`, for every connection.  On `extensions_example` the dictionary the
function builds holds the keys `m`, `p` and `v` and would encode to
`d1:md7:LT_chati1e11:LT_metadatai2e16:LT_peer_exchangei3ee1:pi6881e1:v10:libtorrente`;
no dictionary encodes to `i0e`. -/
theorem write_extensions_encodes_enumerator :
    (∀ c : bt_peer_connection,
      c.write_extensions.m_send_buffer
        = c.m_send_buffer ++ [0, 0, 0, 5, 20, 0] ++ [105, 48, 101])
    ∧ extensions_example.write_extensions.m_send_buffer = [0, 0, 0, 5, 20, 0, 105, 48, 101]
    ∧ extensions_example.handshake.keys = [[109], [112], [118]]
    ∧ bencode (entry.dictionary_t extensions_example.handshake)
        = [100, 49, 58, 109, 100,
           55, 58, 76, 84, 95, 99, 104, 97, 116, 105, 49, 101,
           49, 49, 58, 76, 84, 95, 109, 101, 116, 97, 100, 97, 116, 97, 105, 50, 101,
           49, 54, 58, 76, 84, 95, 112, 101, 101, 114, 95, 101, 120, 99, 104, 97, 110, 103, 101,
           105, 51, 101, 101,
           49, 58, 112, 105, 54, 56, 56, 49, 101,
           49, 58, 118, 49, 48, 58, 108, 105, 98, 116, 111, 114, 114, 101, 110, 116, 101]
    ∧ (∀ d : entry_dict, bencode (entry.dictionary_t d) ≠ [105, 48, 101]) := by
  refine ⟨fun c => ?_, by decide, by decide, by decide, fun d hd => ?_⟩
  · show c.m_send_buffer ++ write_int32 (((bencode (entry.int_t extended_handshake)).length
        : Int) + 2) ++ [msg_extended] ++ [extended_handshake]
        ++ bencode (entry.int_t extended_handshake) = _
    have h1 : bencode (entry.int_t extended_handshake) = [105, 48, 101] := by decide
    rw [h1]
    have h2 : write_int32 ((([105, 48, 101] : List Nat).length : Int) + 2) = [0, 0, 0, 5] := by
      decide
    rw [h2]
    simp
  · have := bencode_dictionary_head d
    rw [hd] at this
    exact absurd this (by decide)

/-! ## C4: the buffer a slot held -/

theorem bump_lru_in_use (c : block_cache) (pk : piece_key) :
    (c.bump_lru pk).m_in_use = c.m_in_use := by
  unfold block_cache.bump_lru
  cases c.find_piece pk <;> rfl

theorem update_cache_state_in_use (c : block_cache) (pk : piece_key) :
    (c.update_cache_state pk).m_in_use = c.m_in_use := by
  unfold block_cache.update_cache_state
  cases c.find_piece pk with
  | none => rfl
  | some p =>
    dsimp only
    split_ifs <;> rfl

theorem install_dirty_in_use (c : block_cache) (pk : piece_key) (block : Nat)
    (j : disk_io_job) : (c.install_dirty pk block j).m_in_use = c.m_in_use := by
  unfold block_cache.install_dirty
  cases c.find_piece pk with
  | none => rfl
  | some p =>
    dsimp only
    rw [bump_lru_in_use, update_cache_state_in_use]
    rfl

theorem allocate_piece_in_use (c : block_cache) (j : disk_io_job) (cs : Nat) :
    (c.allocate_piece j cs).m_in_use = c.m_in_use := by
  unfold block_cache.allocate_piece
  cases c.find_piece (j.storage, j.piece) with
  | none => rfl
  | some p =>
    dsimp only
    split_ifs <;> rfl

theorem clear_slot_in_use {c : block_cache} {pk : piece_key} {pe : cached_piece_entry}
    (block buffer : Nat) (hf : c.find_piece pk = some pe)
    (hb : (get_block pe.blocks block).buf ≠ 0) (hne : (get_block pe.blocks block).buf ≠ buffer) :
    (c.clear_slot pk block buffer).m_in_use = c.m_in_use - 1 := by
  unfold block_cache.clear_slot
  rw [hf]
  dsimp only
  rw [if_pos (by simp [hb, hne])]
  unfold block_cache.free_block
  rw [hf]

/-- C4, amended. `add_dirty_block` for a slot that is empty or holds another
buffer (no reference, not pending: the asserted preconditions) puts the buffer
of the job into the slot and marks it dirty, and the job no longer owns the
buffer.  The eviction that may come first leaves the slot as it was.  A buffer
the slot held is freed: it is no longer in the slot, the buffers in use are one
fewer than when the function got to the slot, and `num_blocks` of the piece is
as before.  For an empty slot no buffer is freed and `num_blocks` is one
higher.  Without eviction the buffers in use when the function gets to the
slot are those of the cache before the call. -/
theorem add_dirty_block_installs_buffer (c : block_cache) (j : disk_io_job) (evict : Int)
    (h : cache_invariant c) (hpre : add_dirty_block_pre c j) :
    ∃ pe, (c.add_dirty_block j evict).1.find_piece (j.storage, j.piece) = some pe
      ∧ (get_block pe.blocks (c.block_of j)).buf = j.buffer
      ∧ (get_block pe.blocks (c.block_of j)).dirty = true
      ∧ (c.add_dirty_block j evict).2.buffer = 0
      ∧ (c.before_install j evict).slot_of (j.storage, j.piece) (c.block_of j)
          = c.slot_of (j.storage, j.piece) (c.block_of j)
      ∧ ((c.slot_of (j.storage, j.piece) (c.block_of j)).buf ≠ 0 →
          (get_block pe.blocks (c.block_of j)).buf
              ≠ (c.slot_of (j.storage, j.piece) (c.block_of j)).buf
          ∧ (c.add_dirty_block j evict).1.m_in_use = (c.before_install j evict).m_in_use - 1
          ∧ pe.num_blocks = c.num_blocks_of (j.storage, j.piece))
      ∧ ((c.slot_of (j.storage, j.piece) (c.block_of j)).buf = 0 →
          (c.add_dirty_block j evict).1.m_in_use = (c.before_install j evict).m_in_use
          ∧ pe.num_blocks = c.num_blocks_of (j.storage, j.piece) + 1)
      ∧ (evict ≤ 0 → (c.before_install j evict).m_in_use = c.m_in_use) := by
  obtain ⟨_, pe0, hf0, hs0, hi, hfind⟩ := add_dirty_block_spec c j evict h hpre
  obtain ⟨pe1, hf1, _, hsl⟩ := allocate_piece_slots c j write_lru
  rw [hf0] at hf1
  cases hf1
  have hnb := allocate_piece_num_blocks c j write_lru hf0
  have hne0 : (get_block pe0.blocks (c.block_of j)).buf ≠ j.buffer := by
    obtain ⟨_, pe2, hf2, _, _, hne, _⟩ := hpre
    rw [hf0] at hf2
    cases hf2
    exact hne
  have h1 := allocate_piece_spec c j write_lru h (by decide) (by decide)
  have h2 : (c.before_install j evict).find_piece (j.storage, j.piece) = some pe0 := by
    unfold block_cache.before_install
    by_cases he : evict > 0
    · rw [if_pos he]
      have hev := try_evict_blocks_spec (c.allocate_piece j write_lru) evict
        (some (j.storage, j.piece)) h1
      refine hev.2.keep_ign _ pe0 rfl hf0 ?_ ?_
      · exact not_in_ghost_of_state h1 hf0 (Or.inl rfl) (by rw [hs0]; decide)
      · exact not_in_ghost_of_state h1 hf0 (Or.inr rfl) (by rw [hs0]; decide)
    · rw [if_neg he]
      exact hf0
  have hres : (c.add_dirty_block j evict).1
      = ((c.before_install j evict).clear_slot (j.storage, j.piece) (c.block_of j)
          j.buffer).install_dirty (j.storage, j.piece) (c.block_of j) j := rfl
  have hcl := @cleared_piece_slot pe0 (c.block_of j) hi
  have hi2 : c.block_of j < (cleared_piece pe0 (c.block_of j)).blocks.length := by
    rw [hcl.2.2.2.2.1]; exact hi
  have hbuf : (get_block (dirtied_piece (cleared_piece pe0 (c.block_of j)) (c.block_of j)
      j).blocks (c.block_of j)).buf = j.buffer := by
    show (get_block (set_block _ _ _) _).buf = _
    rw [get_block_set_same _ hi2]
  refine ⟨_, hfind, hbuf, ?_, rfl, ?_, ?_, ?_, ?_⟩
  · show (get_block (set_block _ _ _) _).dirty = _
    rw [get_block_set_same _ hi2]
  · rw [slot_of_find h2, hsl]
  · intro hb
    have hb0 : (get_block pe0.blocks (c.block_of j)).buf ≠ 0 := by rw [hsl]; exact hb
    refine ⟨?_, ?_, ?_⟩
    · rw [hbuf, ← hsl]
      exact fun e => hne0 e.symm
    · rw [hres, install_dirty_in_use, clear_slot_in_use _ _ h2 hb0 hne0]
    · show (cleared_piece pe0 (c.block_of j)).num_blocks + 1 = _
      unfold cleared_piece
      rw [if_neg hb0, ← hnb]
      show pe0.num_blocks - 1 + 1 = _
      omega
  · intro hb
    have hb0 : (get_block pe0.blocks (c.block_of j)).buf = 0 := by rw [hsl]; exact hb
    refine ⟨?_, ?_⟩
    · rw [hres, install_dirty_in_use, clear_slot_empty _ _ h2 hb0]
    · show (cleared_piece pe0 (c.block_of j)).num_blocks + 1 = _
      unfold cleared_piece
      rw [if_pos hb0, hnb]
  · intro he
    unfold block_cache.before_install
    rw [if_neg (by omega)]
    exact allocate_piece_in_use c j write_lru

/-- Witness of the amended C4 on `write_example`, without eviction: the job
for slot 1, which holds buffer 12, and the job for the empty slot 2. -/
theorem add_dirty_block_installs_buffer_witness :
    (∃ pe, (write_example.add_dirty_block overwrite_job_example 0).1.find_piece (1, 0) = some pe
      ∧ (get_block pe.blocks 1).buf = 34
      ∧ (get_block pe.blocks 1).dirty = true
      ∧ (write_example.slot_of (1, 0) 1).buf = 12
      ∧ (write_example.add_dirty_block overwrite_job_example 0).1.m_in_use
          = write_example.m_in_use - 1
      ∧ pe.num_blocks = write_example.num_blocks_of (1, 0))
    ∧ (∃ pe, (write_example.add_dirty_block write_job_example 0).1.find_piece (1, 0) = some pe
      ∧ (get_block pe.blocks 2).buf = 33
      ∧ (write_example.slot_of (1, 0) 2).buf = 0
      ∧ (write_example.add_dirty_block write_job_example 0).1.m_in_use = write_example.m_in_use
      ∧ pe.num_blocks = write_example.num_blocks_of (1, 0) + 1) :=
  ⟨(fun ⟨pe, a1, a2, a3, _, _, a6, _, a8⟩ =>
      ⟨pe, a1, a2, a3, by decide,
        (a6 (by decide)).2.1.trans (congrArg (fun x => x - 1) (a8 (by decide))),
        (a6 (by decide)).2.2⟩)
    (add_dirty_block_installs_buffer write_example overwrite_job_example 0 (by decide)
      (by decide)),
   (fun ⟨pe, a1, a2, _, _, _, _, a7, a8⟩ =>
      ⟨pe, a1, a2, by decide, (a7 (by decide)).1.trans (a8 (by decide)), (a7 (by decide)).2⟩)
    (add_dirty_block_installs_buffer write_example write_job_example 0 (by decide)
      (by decide))⟩

end libtorrent
